import Mathlib

/-!
Verification of the hashmaps repository (github.com/EinfachAndy/hashmaps).

This file gives a shallow embedding of the four hash-table engines
(chained Unordered, open-addressing Flat, RobinHood, Hopscotch) and proves
or refutes the frozen claims about them.

Modelling conventions:
- uintptr / int counters become Nat with the wrap at 2 ^ 64 written out
  where it can fire; the int8 psl of the RobinHood table and its probe
  counters wrap at 128 in Go, which is reachable (a 128-key probe cluster
  under any constant collision pattern) and changes observable behaviour,
  so the RobinHood table is modelled twice: an unbounded-Int idealisation,
  used only where the wrap cannot fire, and an exact wrapping model
  (wrap8 on every int8 increment, % 2 ^ 64 on every length update) in
  which the divergences of the Go code are proved;
- float32 values (load factors) become exact rationals, with the Go value
  conversion uintptr(f) modelled as truncation toward zero;
- Go slices become Lists, index accesses use getD (every access is proved
  in bounds through the reachable-state invariants, matching the fact that
  the Go code never panics on an index);
- bounded Go loops become structural recursion; probe loops that Go bounds
  only through the table invariants take explicit fuel, and we prove the
  natural fuel (the capacity) suffices on reachable tables;
- functions that can panic return Option, with none for the panic;
- the bitwise AND with capMinus1 is kept literally (&&& capMinus1) and is
  rewritten to a modulus through the power-of-two capacity invariant.
-/

namespace Hashmaps

/-! Shared constants (src/shared/defaults.go) and math helpers (src/math.go). -/

/-- Frac is the exact-fraction model of a Go float32 value (num over den,
with den positive for every value a float can hold). Kernel-computable Nat
and Int arithmetic replaces float arithmetic; Frac.toRat interprets the
value. -/
structure Frac where
  num : Int
  den : Nat

/-- Frac.toRat: the rational value of a fraction. -/
def Frac.toRat (f : Frac) : ℚ := (f.num : ℚ) / (f.den : ℚ)

/-- Frac.mulNatFloor models the Go conversion uintptr(float32(n) * f) for a
nonnegative f: truncation toward zero of n times f. -/
def Frac.mulNatFloor (n : Nat) (f : Frac) : Nat := n * f.num.toNat / f.den

/-- Frac.divNatFloor models the Go conversion uintptr(float32(n) / f): for
positive f, truncation toward zero of n over f. Division by a nonpositive
f yields 0 here; in Go it is a float infinity whose uintptr conversion is
unspecified. -/
def Frac.divNatFloor (n : Nat) (f : Frac) : Nat := n * f.den / f.num.toNat

/-- DefaultMaxLoad from src/shared/defaults.go: the constant 0.7. -/
def DefaultMaxLoad : Frac := ⟨7, 10⟩

/-- DefaultSize from src/shared/defaults.go. -/
def DefaultSize : Nat := 4

/-- NextPowerOf2 from src/math.go: the uint64 bit-smearing round-up to the
next power of two, with uint64 wraparound made explicit. -/
def NextPowerOf2 (i : Nat) : Nat :=
  let j := (i + (2 ^ 64 - 1)) % 2 ^ 64
  let j := j ||| (j >>> 1)
  let j := j ||| (j >>> 2)
  let j := j ||| (j >>> 4)
  let j := j ||| (j >>> 8)
  let j := j ||| (j >>> 16)
  let j := j ||| (j >>> 32)
  (j + 1) % 2 ^ 64

/-! Chained hash map: package unordered, src/unnamed/part_008. -/

/-- UNode is the chain node of the unordered map (key, value; the next
pointer is the list structure). -/
structure UNode (K V : Type) where
  key : K
  value : V

variable {K V : Type}

/-- Unordered is the chained hash map from src/unnamed/part_008. Each bucket
holds its chain as a list, head first. -/
structure Unordered (K V : Type) where
  buckets : List (List (UNode K V))
  hasher : K → Nat
  length : Nat
  capMinus1 : Nat
  nextResize : Nat
  maxLoad : Frac

/-- chainSearch models Unordered.search restricted to one chain: the value of
the first node whose key matches. -/
def chainSearch [DecidableEq K] (k : K) : List (UNode K V) → Option V
  | [] => none
  | nd :: rest => if nd.key = k then some nd.value else chainSearch k rest

/-- chainReplace models the assignment through the pointer returned by
Unordered.Insert for an existing key: the first matching node gets the new
value. -/
def chainReplace [DecidableEq K] (k : K) (v : V) : List (UNode K V) → List (UNode K V)
  | [] => []
  | nd :: rest => if nd.key = k then { nd with value := v } :: rest
                  else nd :: chainReplace k v rest

/-- chainRemoveFirst models Unordered.Remove on one chain: drop the first
matching node, or report absence. -/
def chainRemoveFirst [DecidableEq K] (k : K) : List (UNode K V) → Option (List (UNode K V))
  | [] => none
  | nd :: rest =>
    if nd.key = k then some rest
    else (chainRemoveFirst k rest).map (nd :: ·)

/-- Unordered.Get from src/unnamed/part_008 (Get wrapping search). -/
def Unordered.Get [DecidableEq K] (m : Unordered K V) (k : K) : Option V :=
  chainSearch k (m.buckets.getD (m.hasher k &&& m.capMinus1) [])

/-- Unordered.pushFront relinks one node to the head of its current home
bucket (the loop body of Unordered.resize). -/
def Unordered.pushFront (m : Unordered K V) (nd : UNode K V) : Unordered K V :=
  let idx := m.hasher nd.key &&& m.capMinus1
  { m with buckets := m.buckets.set idx (nd :: m.buckets.getD idx []) }

/-- Unordered.resize from src/unnamed/part_008: fresh bucket array of size n,
then relink every node, old bucket order, chain head to tail. -/
def Unordered.resize (m : Unordered K V) (n : Nat) : Unordered K V :=
  let start : Unordered K V :=
    { m with
      capMinus1 := n - 1
      buckets := List.replicate n []
      nextResize := Frac.mulNatFloor n m.maxLoad }
  m.buckets.foldl (fun acc chain => chain.foldl Unordered.pushFront acc) start

/-- Unordered.grow from src/unnamed/part_008: double the bucket array. -/
def Unordered.grow (m : Unordered K V) : Unordered K V :=
  m.resize (2 * m.buckets.length)

/-- Unordered.Put from src/unnamed/part_008 (Insert followed by assigning the
value through the returned pointer). The pre-insert growth check runs before
the key search, as in the source. -/
def Unordered.Put [DecidableEq K] (m : Unordered K V) (k : K) (v : V) :
    Unordered K V × Bool :=
  let m := if m.nextResize ≤ m.length then m.grow else m
  let idx := m.hasher k &&& m.capMinus1
  let chain := m.buckets.getD idx []
  if (chainSearch k chain).isSome then
    ({ m with buckets := m.buckets.set idx (chainReplace k v chain) }, false)
  else
    ({ m with
        buckets := m.buckets.set idx (⟨k, v⟩ :: chain)
        length := m.length + 1 }, true)

/-- Unordered.Remove from src/unnamed/part_008: unlink the first matching
node of the home chain; report whether one was found. -/
def Unordered.Remove [DecidableEq K] (m : Unordered K V) (k : K) :
    Unordered K V × Bool :=
  let idx := m.hasher k &&& m.capMinus1
  match chainRemoveFirst k (m.buckets.getD idx []) with
  | none => (m, false)
  | some chain =>
    ({ m with buckets := m.buckets.set idx chain, length := m.length - 1 }, true)

/-- Unordered.Clear from src/unnamed/part_008: every chain head becomes nil,
the bucket array is kept. -/
def Unordered.Clear (m : Unordered K V) : Unordered K V :=
  { m with buckets := m.buckets.map (fun _ => []), length := 0 }

/-- Unordered.Size from src/unnamed/part_008. -/
def Unordered.Size (m : Unordered K V) : Nat := m.length

/-- Unordered.Load from src/unnamed/part_008: length over cap(buckets). -/
def Unordered.Load (m : Unordered K V) : ℚ :=
  (m.length : ℚ) / (m.buckets.length : ℚ)

/-- Unordered.MaxLoad from src/unnamed/part_008. The returned Bool is true
when the call returns the ErrOutOfRange error. Note the source guard only
rejects lf less or equal 0, although its documentation promises the open
interval (0,1). The comparison lf less or equal 0.0 on fractions with a
positive denominator is the numerator test. -/
def Unordered.MaxLoad (m : Unordered K V) (lf : Frac) : Unordered K V × Bool :=
  if lf.num ≤ 0 then (m, true)
  else
    ({ m with
        maxLoad := lf
        nextResize := Frac.mulNatFloor m.buckets.length lf }, false)

/-- Unordered.Reserve from src/unnamed/part_008. A division by a zero
maxLoad (possible only on the degenerate state produced by Unordered.Copy)
is the rational 0 here; in Go it is a float infinity whose uintptr
conversion is unspecified. -/
def Unordered.Reserve (m : Unordered K V) (n : Nat) : Unordered K V :=
  let needed := Frac.divNatFloor n m.maxLoad
  let newCap := NextPowerOf2 needed
  if m.buckets.length < newCap then m.resize newCap else m

/-- Unordered.NewWithHasher from src/unnamed/part_008: zero state plus
defaults, then Reserve DefaultSize. -/
def Unordered.NewWithHasher (hasher : K → Nat) : Unordered K V :=
  (({ buckets := []
      hasher := hasher
      length := 0
      capMinus1 := 0
      nextResize := 0
      maxLoad := DefaultMaxLoad } : Unordered K V)).Reserve DefaultSize

/-- Unordered.Copy from src/unnamed/part_008: a fresh table whose length
field is preset to the source length and whose maxLoad and nextResize are
the Go zero values, then every entry is re-Put in Each order. -/
def Unordered.Copy [DecidableEq K] (m : Unordered K V) : Unordered K V :=
  let start : Unordered K V :=
    { buckets := List.replicate m.buckets.length []
      capMinus1 := m.capMinus1
      length := m.length
      hasher := m.hasher
      maxLoad := ⟨0, 1⟩
      nextResize := 0 }
  m.buckets.foldl
    (fun acc chain => chain.foldl (fun acc nd => (acc.Put nd.key nd.value).1) acc)
    start

/-- Unordered.Reachable: the tables constructible through the public
operations, starting from NewWithHasher with an arbitrary injected hasher. -/
inductive Unordered.Reachable [DecidableEq K] : Unordered K V → Prop where
  | new (hasher : K → Nat) : Unordered.Reachable (Unordered.NewWithHasher hasher)
  | put {m : Unordered K V} (k : K) (v : V) :
      Unordered.Reachable m → Unordered.Reachable (m.Put k v).1
  | remove {m : Unordered K V} (k : K) :
      Unordered.Reachable m → Unordered.Reachable (m.Remove k).1
  | clear {m : Unordered K V} :
      Unordered.Reachable m → Unordered.Reachable m.Clear
  | reserve {m : Unordered K V} (n : Nat) :
      Unordered.Reachable m → Unordered.Reachable (m.Reserve n)
  | maxload {m : Unordered K V} (lf : Frac) :
      Unordered.Reachable m → Unordered.Reachable (m.MaxLoad lf).1
  | copy {m : Unordered K V} :
      Unordered.Reachable m → Unordered.Reachable m.Copy

/-- Unordered.WF is the structural invariant of reachable chained tables:
the stored mask matches the bucket count, the bucket count is a power of
two, every node sits in its home bucket, chain keys are duplicate free, and
the stored length bounds the node count from above (only from above: the
Copy bug double counts). -/
structure Unordered.WF (m : Unordered K V) : Prop where
  cap_eq : m.capMinus1 + 1 = m.buckets.length
  pow2 : ∃ t, m.buckets.length = 2 ^ t
  idx_eq : ∀ i, ∀ nd ∈ m.buckets.getD i [], m.hasher nd.key &&& m.capMinus1 = i
  chains_nodup : ∀ i, ((m.buckets.getD i []).map UNode.key).Nodup
  count_le : m.buckets.flatten.length ≤ m.length

/-- Unordered.LoadWF is the load invariant that holds as long as every
configured max load factor stayed inside the documented open interval
(0,1): the element counter stays strictly below the bucket count. -/
structure Unordered.LoadWF (m : Unordered K V) : Prop where
  maxLoad_nonneg : 0 ≤ m.maxLoad.num
  maxLoad_lt : m.maxLoad.num < m.maxLoad.den
  next_eq : m.nextResize = Frac.mulNatFloor m.buckets.length m.maxLoad
  len_lt : m.length < m.buckets.length

/-- Unordered.ReachableChecked restricts Unordered.Reachable to runs whose
MaxLoad calls all used a factor inside the open interval (0,1), the domain
the MaxLoad documentation promises. -/
inductive Unordered.ReachableChecked [DecidableEq K] : Unordered K V → Prop where
  | new (hasher : K → Nat) :
      Unordered.ReachableChecked (Unordered.NewWithHasher hasher)
  | put {m : Unordered K V} (k : K) (v : V) :
      Unordered.ReachableChecked m → Unordered.ReachableChecked (m.Put k v).1
  | remove {m : Unordered K V} (k : K) :
      Unordered.ReachableChecked m → Unordered.ReachableChecked (m.Remove k).1
  | clear {m : Unordered K V} :
      Unordered.ReachableChecked m → Unordered.ReachableChecked m.Clear
  | reserve {m : Unordered K V} (n : Nat) :
      Unordered.ReachableChecked m → Unordered.ReachableChecked (m.Reserve n)
  | maxload {m : Unordered K V} (lf : Frac) (h0 : 0 < lf.num) (h1 : lf.num < lf.den) :
      Unordered.ReachableChecked m → Unordered.ReachableChecked (m.MaxLoad lf).1
  | copy {m : Unordered K V} :
      Unordered.ReachableChecked m → Unordered.ReachableChecked m.Copy

/-- Unordered.WFcore packs the structural parts of Unordered.WF used by the
relink fold of resize. -/
def Unordered.WFcore (m : Unordered K V) : Prop :=
  (m.capMinus1 + 1 = m.buckets.length) ∧ (∃ t, m.buckets.length = 2 ^ t) ∧
  (∀ i, ∀ nd ∈ m.buckets.getD i [], m.hasher nd.key &&& m.capMinus1 = i) ∧
  (∀ i, ((m.buckets.getD i []).map UNode.key).Nodup)

/-! Flat hash map: src/flat/map.go. Open addressing with linear probing, an
empty-sentinel key and backward-shift deletion. Probe loops take fuel (the
capacity suffices on reachable tables, proved below); operations that can
panic on the sentinel key return none, as does fuel exhaustion inside a
probe (which never happens on reachable tables). Values carry an Inhabited
instance for the Go zero value. -/

/-- FBucket is the flat map bucket: key and value, no metadata. -/
structure FBucket (K V : Type) where
  key : K
  value : V

/-- Flat is the flat hash map from src/flat/map.go. -/
structure Flat (K V : Type) where
  buckets : List (FBucket K V)
  empty : K
  hasher : K → Nat
  capMinus1 : Nat
  length : Nat

/-- newBucketArray from src/flat/map.go: capacity buckets whose keys all
hold the empty sentinel and whose values are the Go zero value. -/
def flatNewBucketArray [Inhabited V] (capacity : Nat) (empty : K) : List (FBucket K V) :=
  List.replicate capacity ⟨empty, default⟩

/-- nthBucket reads one bucket (m.buckets[idx] in Go; every access is in
bounds on reachable tables). -/
def Flat.nthBucket [Inhabited V] (m : Flat K V) (idx : Nat) : FBucket K V :=
  m.buckets.getD idx ⟨m.empty, default⟩

/-- probe is the linear probing loop shared by the flat map loops: walk
from idx with the masked increment until the stop predicate holds on the
slot key, returning the slot index. -/
def Flat.probe [Inhabited V] (m : Flat K V) (p : K → Bool) : Nat → Nat → Option Nat
  | 0, _ => none
  | fuel + 1, idx =>
    if p (m.nthBucket idx).key then some idx
    else m.probe p fuel ((idx + 1) &&& m.capMinus1)

/-- Flat.NewWithHasher from src/flat/map.go. -/
def Flat.NewWithHasher [Inhabited V] (empty : K) (hasher : K → Nat) : Flat K V :=
  { buckets := flatNewBucketArray DefaultSize empty
    capMinus1 := DefaultSize - 1
    hasher := hasher
    empty := empty
    length := 0 }

/-- Flat.Get from src/flat/map.go: panic (none) on the sentinel key, else
probe from the home slot until the key or an empty slot appears. The outer
none also stands for fuel exhaustion, which reachable tables never hit. -/
def Flat.Get [DecidableEq K] [Inhabited V] (m : Flat K V) (k : K) : Option (Option V) :=
  if k = m.empty then none
  else
    let idx := m.hasher k &&& m.capMinus1
    match m.probe (fun kk => kk == m.empty || kk == k) m.buckets.length idx with
    | none => none
    | some j =>
      if (m.nthBucket j).key == k then some (some (m.nthBucket j).value) else some none

/-- Flat.emplace from src/flat/map.go: place a pair into the first empty
slot of its probe run (no key check). -/
def Flat.emplace [DecidableEq K] [Inhabited V] (m : Flat K V) (k : K) (v : V) :
    Option (Flat K V) :=
  let idx := m.hasher k &&& m.capMinus1
  (m.probe (fun kk => kk == m.empty) m.buckets.length idx).map
    (fun j => { m with buckets := m.buckets.set j ⟨k, v⟩ })

/-- Flat.resize from src/flat/map.go: fresh sentinel-filled store of size n,
then emplace every live pair in slot order. -/
def Flat.resize [DecidableEq K] [Inhabited V] (m : Flat K V) (n : Nat) : Option (Flat K V) :=
  let start : Flat K V :=
    { m with capMinus1 := n - 1, buckets := flatNewBucketArray n m.empty }
  m.buckets.foldl
    (fun acc b =>
      if b.key == m.empty then acc
      else acc.bind (fun mm => mm.emplace b.key b.value))
    (some start)

/-- Flat.Put from src/flat/map.go: panic on the sentinel, grow at half
load, then probe for the key or the first empty slot. -/
def Flat.Put [DecidableEq K] [Inhabited V] (m : Flat K V) (k : K) (v : V) :
    Option (Flat K V × Bool) :=
  if k = m.empty then none
  else
    (if m.buckets.length / 2 ≤ m.length then m.resize (2 * m.buckets.length)
     else some m).bind fun m1 =>
      let idx := m1.hasher k &&& m1.capMinus1
      (m1.probe (fun kk => kk == m1.empty || kk == k) m1.buckets.length idx).map fun j =>
        if (m1.nthBucket j).key == k then
          ({ m1 with buckets := m1.buckets.set j ⟨k, v⟩ }, false)
        else
          ({ m1 with
              buckets := m1.buckets.set j ⟨k, v⟩
              length := m1.length + 1 }, true)

/-- shiftLoop is the backward-shift loop of Flat.Remove: advance, stop on
an empty slot, otherwise clear the slot and re-emplace its pair. -/
def Flat.shiftLoop [DecidableEq K] [Inhabited V] :
    Flat K V → Nat → Nat → Option (Flat K V)
  | _, _, 0 => none
  | m, idx, fuel + 1 =>
    let idx1 := (idx + 1) &&& m.capMinus1
    if (m.nthBucket idx1).key == m.empty then some m
    else
      let k := (m.nthBucket idx1).key
      let v := (m.nthBucket idx1).value
      let m1 : Flat K V := { m with buckets := m.buckets.set idx1 ⟨m.empty, v⟩ }
      (m1.emplace k v).bind (fun m2 => Flat.shiftLoop m2 idx1 fuel)

/-- Flat.Remove from src/flat/map.go: panic on the sentinel, search, then
clear the slot (key only, the value stays behind as in the source) and run
the backward shift. -/
def Flat.Remove [DecidableEq K] [Inhabited V] (m : Flat K V) (k : K) :
    Option (Flat K V × Bool) :=
  if k = m.empty then none
  else
    let idx := m.hasher k &&& m.capMinus1
    (m.probe (fun kk => kk == m.empty || kk == k) m.buckets.length idx).bind fun j =>
      if (m.nthBucket j).key == m.empty then some (m, false)
      else
        let m1 : Flat K V :=
          { m with
              buckets := m.buckets.set j ⟨m.empty, (m.nthBucket j).value⟩
              length := m.length - 1 }
        (Flat.shiftLoop m1 j m1.buckets.length).map (fun m2 => (m2, true))

/-- Flat.Reserve from src/flat/map.go. -/
def Flat.Reserve [DecidableEq K] [Inhabited V] (m : Flat K V) (n : Nat) :
    Option (Flat K V) :=
  let newCap := NextPowerOf2 (2 * n)
  if m.buckets.length < newCap then m.resize newCap else some m

/-- Flat.Clear from src/flat/map.go: write the sentinel into every key,
keep the store and the values. -/
def Flat.Clear (m : Flat K V) : Flat K V :=
  { m with buckets := m.buckets.map (fun b => ⟨m.empty, b.value⟩), length := 0 }

/-- Flat.Size from src/flat/map.go. -/
def Flat.Size (m : Flat K V) : Nat := m.length

/-- Flat.Load from src/flat/map.go. -/
def Flat.Load (m : Flat K V) : ℚ := (m.length : ℚ) / (m.buckets.length : ℚ)

/-- Flat.Copy from src/flat/map.go: fresh store, copy every bucket. -/
def Flat.Copy (m : Flat K V) : Flat K V :=
  { m with buckets := m.buckets }

/-- Flat.Reachable: flat tables constructible through the public
operations from NewWithHasher with arbitrary sentinel and hasher. -/
inductive Flat.Reachable [DecidableEq K] [Inhabited V] : Flat K V → Prop where
  | new (empty : K) (hasher : K → Nat) :
      Flat.Reachable (Flat.NewWithHasher empty hasher)
  | put {m m' : Flat K V} {b : Bool} (k : K) (v : V) :
      Flat.Reachable m → m.Put k v = some (m', b) → Flat.Reachable m'
  | remove {m m' : Flat K V} {b : Bool} (k : K) :
      Flat.Reachable m → m.Remove k = some (m', b) → Flat.Reachable m'
  | clear {m : Flat K V} : Flat.Reachable m → Flat.Reachable m.Clear
  | reserve {m m' : Flat K V} (n : Nat) :
      Flat.Reachable m → m.Reserve n = some m' → Flat.Reachable m'
  | copy {m : Flat K V} : Flat.Reachable m → Flat.Reachable m.Copy

/-- cycDist c a b is the number of forward probe steps from slot a to slot
b on a cyclic table of c slots (meaningful for a and b below c). -/
def cycDist (c a b : Nat) : Nat := (b + c - a) % c

/-- home is the preferred slot of a key, the masked hash written in modulo
form (the two agree on power-of-two capacities, see mask_eq_mod). -/
def Flat.home (m : Flat K V) (k : K) : Nat :=
  m.hasher k % m.buckets.length

/-- liveEntries lists the key-value pairs held in non-sentinel slots in
slot order. -/
def Flat.liveEntries [DecidableEq K] (m : Flat K V) : List (K × V) :=
  m.buckets.filterMap (fun b => if b.key == m.empty then none else some (b.key, b.value))

/-- Flat.WF is the flat map invariant: the mask matches the store size,
the size is a power of two, at most half the slots are used and the count
matches length, stored keys are distinct, and every stored entry can be
reached from its home slot without crossing an empty slot (probe
continuity). -/
structure Flat.WF [DecidableEq K] [Inhabited V] (m : Flat K V) : Prop where
  cap_eq : m.capMinus1 + 1 = m.buckets.length
  pow2 : ∃ t, m.buckets.length = 2 ^ t
  len_le : m.length ≤ m.buckets.length / 2
  count : m.liveEntries.length = m.length
  keys_nodup : (m.liveEntries.map Prod.fst).Nodup
  continuity : ∀ i, i < m.buckets.length → ¬ (m.nthBucket i).key = m.empty →
    ∀ u, u < m.buckets.length →
      cycDist m.buckets.length (m.home (m.nthBucket i).key) u ≤
        cycDist m.buckets.length (m.home (m.nthBucket i).key) i →
      ¬ (m.nthBucket u).key = m.empty

/-- Flat.Core is the structural part of the flat invariant that is
maintained while a store is being repopulated (resize, backward shift):
mask and power-of-two shape, distinct stored keys, probe continuity. -/
structure Flat.Core [DecidableEq K] [Inhabited V] (m : Flat K V) : Prop where
  cap_eq : m.capMinus1 + 1 = m.buckets.length
  pow2 : ∃ t, m.buckets.length = 2 ^ t
  keys_nodup : (m.liveEntries.map Prod.fst).Nodup
  continuity : ∀ i, i < m.buckets.length → ¬ (m.nthBucket i).key = m.empty →
    ∀ u, u < m.buckets.length →
      cycDist m.buckets.length (m.home (m.nthBucket i).key) u ≤
        cycDist m.buckets.length (m.home (m.nthBucket i).key) i →
      ¬ (m.nthBucket u).key = m.empty

/-- MarchInv is the invariant of the backward-shift loop of Flat.Remove.
m0 is the table before the removal, j0 the slot of the removed key, (k0, v0)
the removed pair, de the probe distance from j0 to the first originally
empty slot, mm the current table and a the distance from j0 to the cursor.
Slots further than a from j0 are untouched; entries at distance at most a
keep full probe continuity and their probe paths avoid the region the
cursor has still to visit; the live entries are the original ones minus the
removed pair. -/
structure Flat.MarchInv [DecidableEq K] [Inhabited V] (m0 : Flat K V)
    (j0 : Nat) (k0 : K) (v0 : V) (de : Nat) (mm : Flat K V) (a : Nat) : Prop where
  empty_eq : mm.empty = m0.empty
  hasher_eq : mm.hasher = m0.hasher
  capm_eq : mm.capMinus1 = m0.capMinus1
  blen : mm.buckets.length = m0.buckets.length
  len_eq : mm.length = m0.length - 1
  a_lt : a < de
  ahead : ∀ u, u < m0.buckets.length →
    a < cycDist m0.buckets.length j0 u → mm.nthBucket u = m0.nthBucket u
  behind : ∀ s, s < m0.buckets.length →
    cycDist m0.buckets.length j0 s ≤ a →
    ¬ (mm.nthBucket s).key = m0.empty →
    ∀ u, u < m0.buckets.length →
      cycDist m0.buckets.length (m0.home (mm.nthBucket s).key) u ≤
        cycDist m0.buckets.length (m0.home (mm.nthBucket s).key) s →
      ¬ (mm.nthBucket u).key = m0.empty ∧
        (cycDist m0.buckets.length j0 u ≤ cycDist m0.buckets.length j0 s ∨
          de ≤ cycDist m0.buckets.length j0 u)
  entries : (mm.liveEntries ++ [(k0, v0)]).Perm m0.liveEntries

/-! RobinHood hash map: src/robin/map.go. Open addressing with linear
probing and robin-hood balancing. Each bucket stores its probe sequence
length (psl); -1 marks an empty bucket. The Go psl field and the probe
counters are int8 values that wrap at 128. The definitions in this first
section idealize them as unbounded Int: they agree with Go step for step
as long as every probe sequence stays shorter than 128 slots, and are
used below only where the wrap cannot fire (Clear resets every psl to -1
outright). The wrapping definitions further down (getLoopW, PutW, ...)
model the int8 and uintptr arithmetic exactly and expose where the two
behaviours part. Probe loops take fuel as in the flat model. -/

/-- RBucket is the robin-hood bucket: key, probe sequence length, value. -/
structure RBucket (K V : Type) where
  key : K
  psl : Int
  value : V

/-- RobinHood is the robin-hood hash map from src/robin/map.go. -/
structure RobinHood (K V : Type) where
  buckets : List (RBucket K V)
  hasher : K → Nat
  length : Nat
  capMinus1 : Nat
  nextResize : Nat
  maxLoad : Frac

/-- robinNewBucketArray from src/robin/map.go: zeroed buckets with every
psl set to the empty marker. -/
def robinNewBucketArray [Inhabited K] [Inhabited V] (capacity : Nat) :
    List (RBucket K V) :=
  List.replicate capacity ⟨default, -1, default⟩

/-- nthRBucket reads one bucket (m.buckets[idx] in Go). -/
def RobinHood.nthRBucket [Inhabited K] [Inhabited V] (m : RobinHood K V)
    (idx : Nat) : RBucket K V :=
  m.buckets.getD idx ⟨default, -1, default⟩

/-- home is the preferred slot of a key (masked hash, in modulo form). -/
def RobinHood.home (m : RobinHood K V) (k : K) : Nat :=
  m.hasher k % m.buckets.length

/-- getLoop is the probe loop of RobinHood.Get: walk while the counter does
not exceed the slot psl, reporting the value on a key match. -/
def RobinHood.getLoop [DecidableEq K] [Inhabited K] [Inhabited V]
    (m : RobinHood K V) (key : K) : Nat → Nat → Int → Option (Option V)
  | 0, _, _ => none
  | fuel + 1, idx, psl =>
    if psl ≤ (m.nthRBucket idx).psl then
      if (m.nthRBucket idx).key == key then some (some (m.nthRBucket idx).value)
      else m.getLoop key fuel ((idx + 1) &&& m.capMinus1) (psl + 1)
    else some none

/-- RobinHood.Get from src/robin/map.go. -/
def RobinHood.Get [DecidableEq K] [Inhabited K] [Inhabited V]
    (m : RobinHood K V) (k : K) : Option (Option V) :=
  m.getLoop k (m.buckets.length + 1) (m.hasher k &&& m.capMinus1) 0

/-- RobinHood.emplace from src/robin/map.go: walk forward carrying the
displaced bucket, swapping whenever the carried bucket is poorer than the
slot, until an empty slot takes the carried bucket; the carried psl grows
by one per step. -/
def RobinHood.emplace [DecidableEq K] [Inhabited K] [Inhabited V] :
    RobinHood K V → RBucket K V → Nat → Nat → Option (RobinHood K V)
  | _, _, _, 0 => none
  | m, cur, idx, fuel + 1 =>
    if (m.nthRBucket idx).psl == (-1 : Int) then
      some { m with buckets := m.buckets.set idx cur }
    else if (m.nthRBucket idx).psl < cur.psl then
      RobinHood.emplace { m with buckets := m.buckets.set idx cur }
        ⟨(m.nthRBucket idx).key, (m.nthRBucket idx).psl + 1,
          (m.nthRBucket idx).value⟩
        ((idx + 1) &&& m.capMinus1) fuel
    else
      RobinHood.emplace m ⟨cur.key, cur.psl + 1, cur.value⟩
        ((idx + 1) &&& m.capMinus1) fuel

/-- RobinHood.resize from src/robin/map.go: fresh empty store, then
re-emplace every live bucket with psl restarted at zero. -/
def RobinHood.resize [DecidableEq K] [Inhabited K] [Inhabited V]
    (m : RobinHood K V) (n : Nat) : Option (RobinHood K V) :=
  let start : RobinHood K V :=
    { capMinus1 := n - 1
      length := m.length
      buckets := robinNewBucketArray n
      hasher := m.hasher
      maxLoad := m.maxLoad
      nextResize := Frac.mulNatFloor n m.maxLoad }
  m.buckets.foldl
    (fun acc b =>
      if b.psl == (-1 : Int) then acc
      else acc.bind (fun mm =>
        mm.emplace ⟨b.key, 0, b.value⟩ (mm.hasher b.key &&& mm.capMinus1)
          mm.buckets.length))
    (some start)

/-- putLoop is the search loop of RobinHood.Put: update in place on a key
match, otherwise hand the new bucket with the reached counter to emplace. -/
def RobinHood.putLoop [DecidableEq K] [Inhabited K] [Inhabited V]
    (m : RobinHood K V) (key : K) (val : V) :
    Nat → Nat → Int → Option (RobinHood K V × Bool)
  | 0, _, _ => none
  | fuel + 1, idx, psl =>
    if psl ≤ (m.nthRBucket idx).psl then
      if (m.nthRBucket idx).key == key then
        let nb : RBucket K V :=
          ⟨(m.nthRBucket idx).key, (m.nthRBucket idx).psl, val⟩
        some ({ m with buckets := m.buckets.set idx nb }, false)
      else m.putLoop key val fuel ((idx + 1) &&& m.capMinus1) (psl + 1)
    else
      (({ m with length := m.length + 1 }).emplace ⟨key, psl, val⟩ idx
        m.buckets.length).map (fun m2 => (m2, true))

/-- RobinHood.Put from src/robin/map.go. -/
def RobinHood.Put [DecidableEq K] [Inhabited K] [Inhabited V]
    (m : RobinHood K V) (k : K) (v : V) : Option (RobinHood K V × Bool) :=
  (if m.nextResize ≤ m.length then m.resize (2 * m.buckets.length)
   else some m).bind
    (fun m1 => m1.putLoop k v (m1.buckets.length + 1)
      (m1.hasher k &&& m1.capMinus1) 0)

/-- removeLoop is the search loop of RobinHood.Remove, reporting the slot
of the key if present. -/
def RobinHood.removeLoop [DecidableEq K] [Inhabited K] [Inhabited V]
    (m : RobinHood K V) (key : K) : Nat → Nat → Int → Option (Option Nat)
  | 0, _, _ => none
  | fuel + 1, idx, psl =>
    if psl ≤ (m.nthRBucket idx).psl then
      if (m.nthRBucket idx).key == key then some (some idx)
      else m.removeLoop key fuel ((idx + 1) &&& m.capMinus1) (psl + 1)
    else some none

/-- backShift is the compaction loop of RobinHood.Remove: while the next
slot has a positive psl, move it one slot back with its psl decremented,
carrying the emptied marker forward. -/
def RobinHood.backShift [DecidableEq K] [Inhabited K] [Inhabited V] :
    RobinHood K V → Nat → Nat → Nat → Option (RobinHood K V)
  | _, _, _, 0 => none
  | m, cur, idx, fuel + 1 =>
    if 0 < (m.nthRBucket idx).psl then
      let moved : RBucket K V :=
        ⟨(m.nthRBucket idx).key, (m.nthRBucket idx).psl - 1,
          (m.nthRBucket idx).value⟩
      let marker := m.nthRBucket cur
      RobinHood.backShift
        { m with buckets := (m.buckets.set cur moved).set idx marker }
        idx ((idx + 1) &&& m.capMinus1) fuel
    else some m

/-- RobinHood.Remove from src/robin/map.go. -/
def RobinHood.Remove [DecidableEq K] [Inhabited K] [Inhabited V]
    (m : RobinHood K V) (k : K) : Option (RobinHood K V × Bool) :=
  (m.removeLoop k (m.buckets.length + 1) (m.hasher k &&& m.capMinus1) 0).bind
    (fun r =>
      match r with
      | none => some (m, false)
      | some j =>
        let mk : RBucket K V := ⟨(m.nthRBucket j).key, -1, (m.nthRBucket j).value⟩
        let m1 : RobinHood K V :=
          { m with
              length := m.length - 1
              buckets := m.buckets.set j mk }
        (m1.backShift j ((j + 1) &&& m1.capMinus1) m1.buckets.length).map
          (fun m2 => (m2, true)))

/-- RobinHood.Clear from src/robin/map.go: mark every bucket empty, keep
the store. -/
def RobinHood.Clear (m : RobinHood K V) : RobinHood K V :=
  { m with
      buckets := m.buckets.map (fun b => ⟨b.key, -1, b.value⟩)
      length := 0 }

/-- RobinHood.Size from src/robin/map.go. -/
def RobinHood.Size (m : RobinHood K V) : Nat := m.length

/-- RobinHood.Load from src/robin/map.go. -/
def RobinHood.Load (m : RobinHood K V) : ℚ :=
  (m.length : ℚ) / (m.buckets.length : ℚ)

/-- RobinHood.MaxLoad from src/robin/map.go: reject ratios at or below
zero and at or above one; otherwise store the ratio and recompute the
resize threshold. The Bool is true when the out-of-range error is
returned. -/
def RobinHood.MaxLoad (m : RobinHood K V) (lf : Frac) : RobinHood K V × Bool :=
  if lf.num ≤ 0 ∨ (lf.den : Int) ≤ lf.num then (m, true)
  else
    ({ m with
        maxLoad := lf
        nextResize := Frac.mulNatFloor m.buckets.length lf }, false)

/-- RobinHood.Reserve from src/robin/map.go. -/
def RobinHood.Reserve [DecidableEq K] [Inhabited K] [Inhabited V]
    (m : RobinHood K V) (n : Nat) : Option (RobinHood K V) :=
  let newCap := NextPowerOf2 (Frac.divNatFloor n m.maxLoad)
  if m.buckets.length < newCap then m.resize newCap else some m

/-- RobinHood.Copy from src/robin/map.go: fresh array, copy all buckets
and bookkeeping fields. -/
def RobinHood.Copy (m : RobinHood K V) : RobinHood K V :=
  { m with buckets := m.buckets }

/-- RobinHood.NewWithHasher from src/robin/map.go: zero-value struct with
the default max load, then Reserve the default size. -/
def RobinHood.NewWithHasher [DecidableEq K] [Inhabited K] [Inhabited V]
    (hasher : K → Nat) : Option (RobinHood K V) :=
  ({ buckets := []
     hasher := hasher
     length := 0
     capMinus1 := 0
     nextResize := 0
     maxLoad := DefaultMaxLoad } : RobinHood K V).Reserve DefaultSize

/-- liveEntries lists the key-value pairs of non-empty buckets in slot
order. -/
def RobinHood.liveEntries [DecidableEq K] (m : RobinHood K V) : List (K × V) :=
  m.buckets.filterMap
    (fun b => if b.psl == (-1 : Int) then none else some (b.key, b.value))

/-- RobinHood.Reachable: tables constructible through the public
operations. -/
inductive RobinHood.Reachable [DecidableEq K] [Inhabited K] [Inhabited V] :
    RobinHood K V → Prop where
  | new (hasher : K → Nat) (m : RobinHood K V) :
      RobinHood.NewWithHasher hasher = some m → RobinHood.Reachable m
  | put {m m' : RobinHood K V} {b : Bool} (k : K) (v : V) :
      RobinHood.Reachable m → m.Put k v = some (m', b) → RobinHood.Reachable m'
  | remove {m m' : RobinHood K V} {b : Bool} (k : K) :
      RobinHood.Reachable m → m.Remove k = some (m', b) →
      RobinHood.Reachable m'
  | clear {m : RobinHood K V} :
      RobinHood.Reachable m → RobinHood.Reachable m.Clear
  | reserve {m m' : RobinHood K V} (n : Nat) :
      RobinHood.Reachable m → m.Reserve n = some m' → RobinHood.Reachable m'
  | maxload {m : RobinHood K V} (lf : Frac) :
      RobinHood.Reachable m → RobinHood.Reachable (m.MaxLoad lf).1
  | copy {m : RobinHood K V} :
      RobinHood.Reachable m → RobinHood.Reachable m.Copy

/-- RobinHood.WF is the robin-hood invariant: mask and power-of-two shape,
validated max load with matching resize threshold, occupancy strictly
below capacity, matching live count, distinct stored keys, psl values at
least -1, every live psl equal to the probe distance from the key's home
slot, and the psl of each slot at most one more than that of its
predecessor. -/
structure RobinHood.WF [DecidableEq K] [Inhabited K] [Inhabited V]
    (m : RobinHood K V) : Prop where
  cap_eq : m.capMinus1 + 1 = m.buckets.length
  pow2 : ∃ t, m.buckets.length = 2 ^ t
  ml_pos : 0 < m.maxLoad.num
  ml_lt : m.maxLoad.num < (m.maxLoad.den : Int)
  next_eq : m.nextResize = Frac.mulNatFloor m.buckets.length m.maxLoad
  len_lt : m.length < m.buckets.length
  count : m.liveEntries.length = m.length
  keys_nodup : (m.liveEntries.map Prod.fst).Nodup
  psl_ge : ∀ i, i < m.buckets.length → -1 ≤ (m.nthRBucket i).psl
  psl_home : ∀ i, i < m.buckets.length → 0 ≤ (m.nthRBucket i).psl →
    (m.nthRBucket i).psl =
      (cycDist m.buckets.length (m.home (m.nthRBucket i).key) i : Int)
  local_dec : ∀ j, j < m.buckets.length →
    (m.nthRBucket ((j + 1) % m.buckets.length)).psl ≤ (m.nthRBucket j).psl + 1

/-- RobinHood.Core is the structural part of the robin-hood invariant
threaded through table rebuilds: mask shape and the psl laws, without the
occupancy bookkeeping. -/
structure RobinHood.Core [DecidableEq K] [Inhabited K] [Inhabited V]
    (m : RobinHood K V) : Prop where
  cap_eq : m.capMinus1 + 1 = m.buckets.length
  pow2 : ∃ t, m.buckets.length = 2 ^ t
  psl_ge : ∀ i, i < m.buckets.length → -1 ≤ (m.nthRBucket i).psl
  psl_home : ∀ i, i < m.buckets.length → 0 ≤ (m.nthRBucket i).psl →
    (m.nthRBucket i).psl =
      (cycDist m.buckets.length (m.home (m.nthRBucket i).key) i : Int)
  local_dec : ∀ j, j < m.buckets.length →
    (m.nthRBucket ((j + 1) % m.buckets.length)).psl ≤ (m.nthRBucket j).psl + 1

/-- EmplaceInv is the invariant of the robin-hood emplace walk. m0 is the
table at the start of the walk, idx0 the start slot, (k0, v0) the pair
being inserted, mm the current table, cur the carried bucket and a the
walk offset. Swaps keep the set of empty slots, the psl laws, and the
multiset of live pairs plus the carried pair. -/
structure RobinHood.EmplaceInv [DecidableEq K] [Inhabited K] [Inhabited V]
    (m0 : RobinHood K V) (idx0 : Nat) (k0 : K) (v0 : V)
    (mm : RobinHood K V) (cur : RBucket K V) (a : Nat) : Prop where
  hasher_eq : mm.hasher = m0.hasher
  capm_eq : mm.capMinus1 = m0.capMinus1
  len_eq : mm.length = m0.length
  next_eq2 : mm.nextResize = m0.nextResize
  ml_eq : mm.maxLoad = m0.maxLoad
  blen : mm.buckets.length = m0.buckets.length
  psl_ge : ∀ i, i < m0.buckets.length → -1 ≤ (mm.nthRBucket i).psl
  psl_home : ∀ i, i < m0.buckets.length → 0 ≤ (mm.nthRBucket i).psl →
    (mm.nthRBucket i).psl =
      (cycDist m0.buckets.length (m0.home (mm.nthRBucket i).key) i : Int)
  local_dec : ∀ j, j < m0.buckets.length →
    (mm.nthRBucket ((j + 1) % m0.buckets.length)).psl ≤
      (mm.nthRBucket j).psl + 1
  empties_eq : ∀ i, i < m0.buckets.length →
    ((mm.nthRBucket i).psl = -1 ↔ (m0.nthRBucket i).psl = -1)
  cur_nonneg : 0 ≤ cur.psl
  cur_dist : cur.psl =
    (cycDist m0.buckets.length (m0.home cur.key)
      ((idx0 + a) % m0.buckets.length) : Int)
  entry : ∀ j, j < m0.buckets.length →
    (j + 1) % m0.buckets.length = (idx0 + a) % m0.buckets.length →
    cur.psl ≤ (mm.nthRBucket j).psl + 1
  entries : ((cur.key, cur.value) :: mm.liveEntries).Perm
    ((k0, v0) :: m0.liveEntries)
  keys_nodup2 : (((cur.key, cur.value) :: mm.liveEntries).map Prod.fst).Nodup

/-- BackInv is the invariant of the robin-hood backward-shift loop of
Remove. m1 is the table right after the removed slot j0 was marked empty,
mm the current table and a the offset of the travelling hole from j0.
Slots strictly ahead of the hole are untouched, the psl laws hold with the
ordering law allowed to fail only at the hole, the jump across the hole is
at most two, and the live pairs are preserved. -/
structure RobinHood.BackInv [DecidableEq K] [Inhabited K] [Inhabited V]
    (m1 : RobinHood K V) (j0 : Nat) (mm : RobinHood K V) (a : Nat) : Prop where
  hasher_eq : mm.hasher = m1.hasher
  capm_eq : mm.capMinus1 = m1.capMinus1
  len_eq : mm.length = m1.length
  next_eq2 : mm.nextResize = m1.nextResize
  ml_eq : mm.maxLoad = m1.maxLoad
  blen : mm.buckets.length = m1.buckets.length
  hole : (mm.nthRBucket ((j0 + a) % m1.buckets.length)).psl = -1
  ahead : ∀ u, a < u → u < m1.buckets.length →
    mm.nthRBucket ((j0 + u) % m1.buckets.length) =
      m1.nthRBucket ((j0 + u) % m1.buckets.length)
  psl_ge : ∀ i, i < m1.buckets.length → -1 ≤ (mm.nthRBucket i).psl
  psl_home : ∀ i, i < m1.buckets.length → 0 ≤ (mm.nthRBucket i).psl →
    (mm.nthRBucket i).psl =
      (cycDist m1.buckets.length (m1.home (mm.nthRBucket i).key) i : Int)
  local_dec : ∀ j, j < m1.buckets.length →
    ¬ j = (j0 + a) % m1.buckets.length →
    (mm.nthRBucket ((j + 1) % m1.buckets.length)).psl ≤
      (mm.nthRBucket j).psl + 1
  jump : ∀ p, p < m1.buckets.length →
    (p + 1) % m1.buckets.length = (j0 + a) % m1.buckets.length →
    (mm.nthRBucket ((j0 + a + 1) % m1.buckets.length)).psl ≤
      (mm.nthRBucket p).psl + 2
  entries : mm.liveEntries.Perm m1.liveEntries
  nodup2 : (mm.liveEntries.map Prod.fst).Nodup

/-! Wrapping robin-hood model. In src/robin/map.go the psl field of a
bucket and every probe counter are int8 values, so incrementing 127
yields -128, and the length field is a uintptr, so decrementing 0 yields
2 ^ 64 - 1. The definitions below repeat the loops of the Go source with
this wrap made explicit: wrap8 on every int8 increment and a reduction
modulo 2 ^ 64 on every length update. Fuel is an explicit argument of
each operation; a result of some r says the Go loop returns r within
fuel iterations, and a proof that every fuel yields none says the Go
loop never exits. -/

/-- wrap8 reduces an integer to the int8 range, the wrap Go applies to
every int8 arithmetic result: wrap8 128 = -128. -/
def wrap8 (x : Int) : Int := (x + 128) % 256 - 128

/-- getLoopW is the probe loop of RobinHood.Get with the int8 wrap of
the probe counter made explicit (psl++ on an int8 in Go). -/
def RobinHood.getLoopW [DecidableEq K] [Inhabited K] [Inhabited V]
    (m : RobinHood K V) (key : K) : Nat → Nat → Int → Option (Option V)
  | 0, _, _ => none
  | fuel + 1, idx, psl =>
    if psl ≤ (m.nthRBucket idx).psl then
      if (m.nthRBucket idx).key == key then some (some (m.nthRBucket idx).value)
      else m.getLoopW key fuel ((idx + 1) &&& m.capMinus1) (wrap8 (psl + 1))
    else some none

/-- GetW is RobinHood.Get over the wrapping probe loop, with the fuel
bound explicit. -/
def RobinHood.GetW [DecidableEq K] [Inhabited K] [Inhabited V]
    (fuel : Nat) (m : RobinHood K V) (k : K) : Option (Option V) :=
  m.getLoopW k fuel (m.hasher k &&& m.capMinus1) 0

/-- emplaceW is RobinHood.emplace with the int8 wrap of the carried psl
made explicit (current.psl++ on an int8 in Go). -/
def RobinHood.emplaceW [DecidableEq K] [Inhabited K] [Inhabited V] :
    RobinHood K V → RBucket K V → Nat → Nat → Option (RobinHood K V)
  | _, _, _, 0 => none
  | m, cur, idx, fuel + 1 =>
    if (m.nthRBucket idx).psl == (-1 : Int) then
      some { m with buckets := m.buckets.set idx cur }
    else if (m.nthRBucket idx).psl < cur.psl then
      RobinHood.emplaceW { m with buckets := m.buckets.set idx cur }
        ⟨(m.nthRBucket idx).key, wrap8 ((m.nthRBucket idx).psl + 1),
          (m.nthRBucket idx).value⟩
        ((idx + 1) &&& m.capMinus1) fuel
    else
      RobinHood.emplaceW m ⟨cur.key, wrap8 (cur.psl + 1), cur.value⟩
        ((idx + 1) &&& m.capMinus1) fuel

/-- resizeW is RobinHood.resize over the wrapping emplace loop. -/
def RobinHood.resizeW [DecidableEq K] [Inhabited K] [Inhabited V]
    (m : RobinHood K V) (fuel : Nat) (n : Nat) : Option (RobinHood K V) :=
  let start : RobinHood K V :=
    { capMinus1 := n - 1
      length := m.length
      buckets := robinNewBucketArray n
      hasher := m.hasher
      maxLoad := m.maxLoad
      nextResize := Frac.mulNatFloor n m.maxLoad }
  m.buckets.foldl
    (fun acc b =>
      if b.psl == (-1 : Int) then acc
      else acc.bind (fun mm =>
        mm.emplaceW ⟨b.key, 0, b.value⟩ (mm.hasher b.key &&& mm.capMinus1)
          fuel))
    (some start)

/-- putLoopW is the search loop of RobinHood.Put with the int8 wrap of
the probe counter and the uintptr wrap of the length increment made
explicit. -/
def RobinHood.putLoopW [DecidableEq K] [Inhabited K] [Inhabited V]
    (m : RobinHood K V) (key : K) (val : V) :
    Nat → Nat → Int → Option (RobinHood K V × Bool)
  | 0, _, _ => none
  | fuel + 1, idx, psl =>
    if psl ≤ (m.nthRBucket idx).psl then
      if (m.nthRBucket idx).key == key then
        let nb : RBucket K V :=
          ⟨(m.nthRBucket idx).key, (m.nthRBucket idx).psl, val⟩
        some ({ m with buckets := m.buckets.set idx nb }, false)
      else m.putLoopW key val fuel ((idx + 1) &&& m.capMinus1) (wrap8 (psl + 1))
    else
      (({ m with length := (m.length + 1) % 2 ^ 64 }).emplaceW ⟨key, psl, val⟩
        idx fuel).map (fun m2 => (m2, true))

/-- PutW is RobinHood.Put over the wrapping loops, with the fuel bound
explicit. -/
def RobinHood.PutW [DecidableEq K] [Inhabited K] [Inhabited V]
    (fuel : Nat) (m : RobinHood K V) (k : K) (v : V) :
    Option (RobinHood K V × Bool) :=
  (if m.nextResize ≤ m.length then m.resizeW fuel (2 * m.buckets.length)
   else some m).bind
    (fun m1 => m1.putLoopW k v fuel (m1.hasher k &&& m1.capMinus1) 0)

/-- removeLoopW is the search loop of RobinHood.Remove with the int8
wrap of the probe counter made explicit. -/
def RobinHood.removeLoopW [DecidableEq K] [Inhabited K] [Inhabited V]
    (m : RobinHood K V) (key : K) : Nat → Nat → Int → Option (Option Nat)
  | 0, _, _ => none
  | fuel + 1, idx, psl =>
    if psl ≤ (m.nthRBucket idx).psl then
      if (m.nthRBucket idx).key == key then some (some idx)
      else m.removeLoopW key fuel ((idx + 1) &&& m.capMinus1) (wrap8 (psl + 1))
    else some none

/-- RemoveW is RobinHood.Remove over the wrapping search loop, with the
uintptr wrap of the length decrement made explicit; the backward-shift
loop only decrements psl values that are positive, so it is shared with
the first model. -/
def RobinHood.RemoveW [DecidableEq K] [Inhabited K] [Inhabited V]
    (fuel : Nat) (m : RobinHood K V) (k : K) :
    Option (RobinHood K V × Bool) :=
  (m.removeLoopW k fuel (m.hasher k &&& m.capMinus1) 0).bind
    (fun r =>
      match r with
      | none => some (m, false)
      | some j =>
        let mk : RBucket K V := ⟨(m.nthRBucket j).key, -1, (m.nthRBucket j).value⟩
        let m1 : RobinHood K V :=
          { m with
              length := (m.length + (2 ^ 64 - 1)) % 2 ^ 64
              buckets := m.buckets.set j mk }
        (m1.backShift j ((j + 1) &&& m1.capMinus1) fuel).map
          (fun m2 => (m2, true)))

/-- ReserveW is RobinHood.Reserve over the wrapping resize. -/
def RobinHood.ReserveW [DecidableEq K] [Inhabited K] [Inhabited V]
    (fuel : Nat) (m : RobinHood K V) (n : Nat) : Option (RobinHood K V) :=
  let newCap := NextPowerOf2 (Frac.divNatFloor n m.maxLoad)
  if m.buckets.length < newCap then m.resizeW fuel newCap else some m

/-- NewWithHasherW is RobinHood.NewWithHasher over the wrapping
resize. -/
def RobinHood.NewWithHasherW [DecidableEq K] [Inhabited K] [Inhabited V]
    (fuel : Nat) (hasher : K → Nat) : Option (RobinHood K V) :=
  RobinHood.ReserveW fuel
    ({ buckets := []
       hasher := hasher
       length := 0
       capMinus1 := 0
       nextResize := 0
       maxLoad := DefaultMaxLoad } : RobinHood K V) DefaultSize

/-- ReachableW: tables constructible through the public operations of
the wrapping model. Mutation-free observers (Clear, MaxLoad, Copy) are
loop-free and shared with the first model. -/
inductive RobinHood.ReachableW [DecidableEq K] [Inhabited K] [Inhabited V] :
    RobinHood K V → Prop where
  | new (fuel : Nat) (hasher : K → Nat) (m : RobinHood K V) :
      RobinHood.NewWithHasherW fuel hasher = some m → RobinHood.ReachableW m
  | put {m m' : RobinHood K V} {b : Bool} (fuel : Nat) (k : K) (v : V) :
      RobinHood.ReachableW m → RobinHood.PutW fuel m k v = some (m', b) →
      RobinHood.ReachableW m'
  | remove {m m' : RobinHood K V} {b : Bool} (fuel : Nat) (k : K) :
      RobinHood.ReachableW m → RobinHood.RemoveW fuel m k = some (m', b) →
      RobinHood.ReachableW m'
  | clear {m : RobinHood K V} :
      RobinHood.ReachableW m → RobinHood.ReachableW m.Clear
  | reserve {m m' : RobinHood K V} (fuel : Nat) (n : Nat) :
      RobinHood.ReachableW m → RobinHood.ReserveW fuel m n = some m' →
      RobinHood.ReachableW m'
  | maxload {m : RobinHood K V} (lf : Frac) :
      RobinHood.ReachableW m → RobinHood.ReachableW (m.MaxLoad lf).1
  | copy {m : RobinHood K V} :
      RobinHood.ReachableW m → RobinHood.ReachableW m.Copy

/-- clusterBuckets c is the bucket array of a 256-slot robin-hood table
whose first c slots hold keys 1..c with psl 0..c-1 (a single probe
cluster under a constant hash) and whose remaining slots are empty. -/
def clusterBuckets (c : Nat) : List (RBucket Nat Nat) :=
  (List.range 256).map
    (fun i =>
      if i < c then (⟨i + 1, (i : Int), i + 1⟩ : RBucket Nat Nat)
      else ⟨0, -1, 0⟩)

/-- clusterState c len is the robin-hood table over clusterBuckets c
with the constant hasher and the bookkeeping the public operations
produce for it (capacity 256, resize threshold 179). -/
def clusterState (c : Nat) (len : Nat) : RobinHood Nat Nat :=
  { buckets := clusterBuckets c
    hasher := fun _ => 0
    length := len
    capMinus1 := 255
    nextResize := 179
    maxLoad := DefaultMaxLoad }

/-! Hopscotch hash map: package hopscotch, src/hopscotch/map.go, with the
bucket bit helpers shared with src/hopscotch.go. Machine integers become
Nat: uint64 masks are reduced modulo 2 ^ 64 where Go wraps, and the
uintptr subtractions that would wrap in Go are guarded by the hypotheses
of the theorems (the wrapped Go value fails the enclosing comparison, the
truncated Nat value is never reached under those hypotheses). The probe
and swap loops carry explicit fuel; every specification about them is
conditional on the fuelled run returning a value. -/

/-- maxNeighborhoodSize from src/hopscotch.go: 64 hop-info bits minus the
reserved occupancy bit. -/
def maxNeighborhoodSize : Nat := 64 - 1

/-- flip from src/hopscotch.go: xor with the all-ones uint64 mask. -/
def flip (a : Nat) : Nat := a ^^^ (2 ^ 64 - 1)

/-- hBucket from src/hopscotch.go: the hop-info word (occupancy bit plus
neighborhood bitmap) with the stored key and value. -/
structure HBucket (K V : Type) where
  hopInfo : Nat
  key : K
  val : V

/-- hBucket.set from src/hopscotch.go: write one neighborhood bit. The
uint64 shift wraps, made explicit by the modulus. -/
def HBucket.set (b : HBucket K V) (i : Nat) (v : Bool) : HBucket K V :=
  let mask := (1 <<< (i + 1)) % 2 ^ 64
  if v then { b with hopInfo := b.hopInfo ||| mask }
  else { b with hopInfo := b.hopInfo &&& flip mask }

/-- hBucket.getNeighborhood from src/hopscotch.go. -/
def HBucket.getNeighborhood (b : HBucket K V) : Nat := b.hopInfo >>> 1

/-- hBucket.isEmpty from src/hopscotch.go. -/
def HBucket.isEmpty (b : HBucket K V) : Bool := b.hopInfo &&& 1 == 0

/-- hBucket.release from src/hopscotch.go. -/
def HBucket.release (b : HBucket K V) : HBucket K V :=
  { b with hopInfo := b.hopInfo &&& flip 1 }

/-- hBucket.occupy from src/hopscotch.go. -/
def HBucket.occupy (b : HBucket K V) : HBucket K V :=
  { b with hopInfo := b.hopInfo ||| 1 }

/-- Hopscotch from src/hopscotch/map.go. -/
structure Hopscotch (K V : Type) where
  buckets : List (HBucket K V)
  hasher : K → Nat
  length : Nat
  capMinus1 : Nat
  neighborhoodSize : Nat
  nextResize : Nat
  maxLoad : Frac

/-- nthHBucket reads one bucket (m.buckets[idx] in Go). -/
def Hopscotch.nthHBucket [Inhabited K] [Inhabited V] (m : Hopscotch K V)
    (idx : Nat) : HBucket K V :=
  m.buckets.getD idx ⟨0, default, default⟩

/-- home is the preferred slot of a key (masked hash in modulo form; the
mask uses capMinus1, not the longer backing array). -/
def Hopscotch.home (m : Hopscotch K V) (k : K) : Nat :=
  m.hasher k % (m.capMinus1 + 1)

/-- hopFuel is the fuel handed to the fuelled hopscotch loops by the
public operations; all their specifications are conditional on a run
returning a value, so any fixed fuel gives a faithful conditional model. -/
def hopFuel : Nat := 64

/-- searchLoop is the loop of Hopscotch.search: walk the neighborhood
bitmap upward from the home slot, comparing keys at set bits, until the
remaining bitmap is zero. The bitmap loses one bit per step, so 64 steps
of fuel cover every uint64 bitmap. -/
def Hopscotch.searchLoop [DecidableEq K] [Inhabited K] [Inhabited V]
    (m : Hopscotch K V) (key : K) : Nat → Nat → Nat → Option Nat
  | 0, _, _ => none
  | fuel + 1, idx, nb =>
    if nb = 0 then none
    else if nb &&& 1 = 1 ∧ (m.nthHBucket idx).key = key then some idx
    else m.searchLoop key fuel (idx + 1) (nb >>> 1)

/-- Hopscotch.search from src/hopscotch/map.go: scan the home bucket's
neighborhood bitmap. -/
def Hopscotch.search [DecidableEq K] [Inhabited K] [Inhabited V]
    (m : Hopscotch K V) (homeIdx : Nat) (key : K) : Option Nat :=
  m.searchLoop key hopFuel homeIdx (m.nthHBucket homeIdx).getNeighborhood

/-- Hopscotch.Get from src/hopscotch/map.go. -/
def Hopscotch.Get [DecidableEq K] [Inhabited K] [Inhabited V]
    (m : Hopscotch K V) (k : K) : Option V :=
  match m.search (m.hasher k &&& m.capMinus1) k with
  | some idx => some (m.nthHBucket idx).val
  | none => none

/-- hopExamined lists the bucket indices one bitmap walk of searchLoop
looks at: one index per remaining-bitmap step. -/
def hopExamined : Nat → Nat → Nat → List Nat
  | 0, _, _ => []
  | fuel + 1, idx, nb =>
    if nb = 0 then [] else idx :: hopExamined fuel (idx + 1) (nb >>> 1)

/-- mcScan is the inner candidate loop of Hopscotch.moveCloser: walk the
bitmap of one candidate home while the index stays below the empty slot,
returning the first set-bit index. -/
def mcScan (emptyIdx : Nat) : Nat → Nat → Nat → Option Nat
  | 0, _, _ => none
  | fuel + 1, cIdx, nb =>
    if nb = 0 ∨ ¬ cIdx < emptyIdx then none
    else if nb &&& 1 = 1 then some cIdx
    else mcScan emptyIdx fuel (cIdx + 1) (nb >>> 1)

/-- mcMove performs the bucket swap of Hopscotch.moveCloser once a
candidate is found: release the candidate, occupy the empty slot with the
candidate's pair, clear the candidate's bit and set the bit of the slot it
moved to. -/
def Hopscotch.mcMove [DecidableEq K] [Inhabited K] [Inhabited V]
    (m : Hopscotch K V) (emptyIdx homeIdx cIdx : Nat) : Hopscotch K V :=
  let m1 : Hopscotch K V := { m with buckets := m.buckets.set cIdx (m.nthHBucket cIdx).release }
  let m2 : Hopscotch K V := { m1 with buckets := m1.buckets.set emptyIdx ⟨(m1.nthHBucket emptyIdx).hopInfo ||| 1, (m1.nthHBucket cIdx).key, (m1.nthHBucket cIdx).val⟩ }
  let m3 : Hopscotch K V := { m2 with buckets := m2.buckets.set homeIdx ((m2.nthHBucket homeIdx).set (cIdx - homeIdx) false) }
  { m3 with buckets := m3.buckets.set homeIdx ((m3.nthHBucket homeIdx).set (emptyIdx - homeIdx) true) }

/-- mcOuter is the outer loop of Hopscotch.moveCloser over the candidate
home slots below the empty slot. -/
def Hopscotch.mcOuter [DecidableEq K] [Inhabited K] [Inhabited V]
    (m : Hopscotch K V) (emptyIdx : Nat) :
    Nat → Nat → Option (Hopscotch K V × Nat)
  | 0, _ => none
  | fuel + 1, homeIdx =>
    if ¬ homeIdx < emptyIdx then none
    else
      match mcScan emptyIdx hopFuel homeIdx
          (m.nthHBucket homeIdx).getNeighborhood with
      | some cIdx => some (m.mcMove emptyIdx homeIdx cIdx, cIdx)
      | none => m.mcOuter emptyIdx fuel (homeIdx + 1)

/-- Hopscotch.moveCloser from src/hopscotch/map.go. When the empty slot
sits closer to the front than the neighborhood reaches, Go's uintptr start
wraps around and the loop body never runs; that is the first branch. -/
def Hopscotch.moveCloser [DecidableEq K] [Inhabited K] [Inhabited V]
    (m : Hopscotch K V) (emptyIdx : Nat) : Option (Hopscotch K V × Nat) :=
  if emptyIdx + 1 < m.neighborhoodSize then none
  else m.mcOuter emptyIdx m.neighborhoodSize (emptyIdx - (m.neighborhoodSize - 1))

/-- probeEmpty is the first loop of Hopscotch.emplace: linear probing
upward for an empty bucket, reporting none when the end of the backing
array is reached (the grow case). -/
def Hopscotch.probeEmpty [DecidableEq K] [Inhabited K] [Inhabited V]
    (m : Hopscotch K V) : Nat → Nat → Option Nat
  | 0, _ => none
  | fuel + 1, emptyIdx =>
    if m.buckets.length ≤ emptyIdx then none
    else if (m.nthHBucket emptyIdx).isEmpty then some emptyIdx
    else m.probeEmpty fuel (emptyIdx + 1)

/-- emplaceLoop is the placement loop of Hopscotch.emplace: place the pair
when the empty slot lies within the neighborhood of the home slot,
otherwise pull the empty slot closer with moveCloser until that fails.
some (m, true) placed the pair; some (m, false) is the break with the
swaps kept. -/
def Hopscotch.emplaceLoop [DecidableEq K] [Inhabited K] [Inhabited V] :
    Nat → Hopscotch K V → K → V → Nat → Nat →
    Option (Hopscotch K V × Bool)
  | 0, _, _, _, _, _ => none
  | fuel + 1, m, key, val, homeIdx, emptyIdx =>
    if emptyIdx - homeIdx < m.neighborhoodSize then
      let m1 : Hopscotch K V := { m with buckets := m.buckets.set emptyIdx ⟨(m.nthHBucket emptyIdx).hopInfo ||| 1, key, val⟩ }
      some ({ m1 with buckets := m1.buckets.set homeIdx ((m1.nthHBucket homeIdx).set (emptyIdx - homeIdx) true) }, true)
    else
      match m.moveCloser emptyIdx with
      | some (m2, e2) => Hopscotch.emplaceLoop fuel m2 key val homeIdx e2
      | none => some (m, false)

/-- hopFreshBuckets is the zeroed bucket array of a rehash. -/
def hopFreshBuckets [Inhabited K] [Inhabited V] (n : Nat) :
    List (HBucket K V) :=
  List.replicate n ⟨0, default, default⟩

/-- rehashStart is the fresh table a resize fills (nmap in Go's
Hopscotch.resize). -/
def Hopscotch.rehashStart [Inhabited K] [Inhabited V] (m : Hopscotch K V)
    (n : Nat) : Hopscotch K V :=
  { buckets := hopFreshBuckets (n + m.neighborhoodSize)
    hasher := m.hasher
    length := m.length
    capMinus1 := n - 1
    neighborhoodSize := m.neighborhoodSize
    nextResize := Frac.mulNatFloor n m.maxLoad
    maxLoad := m.maxLoad }

/-- Hopscotch.emplace from src/hopscotch/map.go: probe for an empty slot
(growing when the array end is hit), run the placement loop, and on
failure double the neighborhood (or jump to the 63-bit maximum, or grow)
and restart from the recomputed home slot. The rehash fold re-emplaces
every live bucket into a fresh table with the same fuel class. -/
def Hopscotch.emplace [DecidableEq K] [Inhabited K] [Inhabited V] :
    Nat → Hopscotch K V → K → V → Nat → Option (Hopscotch K V)
  | 0, _, _, _, _ => none
  | fuel + 1, m, key, val, homeIdx =>
    match m.probeEmpty (m.buckets.length + 1) homeIdx with
    | none =>
      ((m.buckets.foldl
          (fun acc b =>
            if b.isEmpty then acc
            else acc.bind (fun mm =>
              Hopscotch.emplace fuel mm b.key b.val
                (mm.hasher b.key &&& mm.capMinus1)))
          (some (m.rehashStart (2 * (m.capMinus1 + 1))))).map
        (fun nm => { m with buckets := nm.buckets, capMinus1 := nm.capMinus1, nextResize := nm.nextResize, neighborhoodSize := nm.neighborhoodSize })).bind
        (fun m2 => Hopscotch.emplace fuel m2 key val
          (m2.hasher key &&& m2.capMinus1))
    | some emptyIdx =>
      match Hopscotch.emplaceLoop (emptyIdx + 1) m key val homeIdx emptyIdx with
      | none => none
      | some (m2, true) => some m2
      | some (m2, false) =>
        if m2.neighborhoodSize < 32 then
          Hopscotch.emplace fuel { m2 with neighborhoodSize := 2 * m2.neighborhoodSize } key val (m2.hasher key &&& m2.capMinus1)
        else if m2.neighborhoodSize = 32 then
          Hopscotch.emplace fuel { m2 with neighborhoodSize := maxNeighborhoodSize } key val (m2.hasher key &&& m2.capMinus1)
        else
          ((m2.buckets.foldl
              (fun acc b =>
                if b.isEmpty then acc
                else acc.bind (fun mm =>
                  Hopscotch.emplace fuel mm b.key b.val
                    (mm.hasher b.key &&& mm.capMinus1)))
              (some (m2.rehashStart (2 * (m2.capMinus1 + 1))))).map
            (fun nm => { m2 with buckets := nm.buckets, capMinus1 := nm.capMinus1, nextResize := nm.nextResize, neighborhoodSize := nm.neighborhoodSize })).bind
            (fun m3 => Hopscotch.emplace fuel m3 key val
              (m3.hasher key &&& m3.capMinus1))

/-- Hopscotch.resize from src/hopscotch/map.go: re-emplace every live
bucket into a fresh table of the new capacity, then take over its store
and counters. -/
def Hopscotch.resize [DecidableEq K] [Inhabited K] [Inhabited V]
    (fuel : Nat) (m : Hopscotch K V) (n : Nat) : Option (Hopscotch K V) :=
  (m.buckets.foldl
      (fun acc b =>
        if b.isEmpty then acc
        else acc.bind (fun mm =>
          Hopscotch.emplace fuel mm b.key b.val
            (mm.hasher b.key &&& mm.capMinus1)))
      (some (m.rehashStart n))).map
    (fun nm => { m with buckets := nm.buckets, capMinus1 := nm.capMinus1, nextResize := nm.nextResize, neighborhoodSize := nm.neighborhoodSize })

/-- Hopscotch.Put from src/hopscotch/map.go. -/
def Hopscotch.Put [DecidableEq K] [Inhabited K] [Inhabited V]
    (m : Hopscotch K V) (k : K) (v : V) : Option (Hopscotch K V × Bool) :=
  (if m.nextResize ≤ m.length then
    Hopscotch.resize hopFuel m (2 * (m.capMinus1 + 1))
   else some m).bind
    (fun m1 =>
      match m1.search (m1.hasher k &&& m1.capMinus1) k with
      | some idx => some ({ m1 with buckets := m1.buckets.set idx ⟨(m1.nthHBucket idx).hopInfo, (m1.nthHBucket idx).key, v⟩ }, false)
      | none =>
        (Hopscotch.emplace hopFuel { m1 with length := m1.length + 1 } k v
            (m1.hasher k &&& m1.capMinus1)).map (fun m2 => (m2, true)))

/-- Hopscotch.Remove from src/hopscotch/map.go: clear the home bit of the
found slot, release it and decrement the count. -/
def Hopscotch.Remove [DecidableEq K] [Inhabited K] [Inhabited V]
    (m : Hopscotch K V) (k : K) : Hopscotch K V × Bool :=
  match m.search (m.hasher k &&& m.capMinus1) k with
  | none => (m, false)
  | some idx =>
    let hIdx := m.hasher k &&& m.capMinus1
    let m1 : Hopscotch K V := { m with buckets := m.buckets.set hIdx ((m.nthHBucket hIdx).set (idx - hIdx) false) }
    let m2 : Hopscotch K V := { m1 with buckets := m1.buckets.set idx (m1.nthHBucket idx).release }
    ({ m2 with length := m2.length - 1 }, true)

/-- Hopscotch.Clear from src/hopscotch/map.go: zero every hop-info word,
keep the store. -/
def Hopscotch.Clear (m : Hopscotch K V) : Hopscotch K V :=
  { m with
      buckets := m.buckets.map (fun b => ⟨0, b.key, b.val⟩)
      length := 0 }

/-- Hopscotch.Size from src/hopscotch/map.go. -/
def Hopscotch.Size (m : Hopscotch K V) : Nat := m.length

/-- Hopscotch.Load from src/hopscotch/map.go: the divisor is the length
of the backing array (capacity plus neighborhood slack), not the masked
capacity. -/
def Hopscotch.Load (m : Hopscotch K V) : ℚ :=
  (m.length : ℚ) / (m.buckets.length : ℚ)

/-- Hopscotch.MaxLoad from src/hopscotch/map.go: reject ratios at or
below zero and at or above one; the recomputed threshold also uses the
backing array length. The Bool is true when the out-of-range error is
returned. -/
def Hopscotch.MaxLoad (m : Hopscotch K V) (lf : Frac) :
    Hopscotch K V × Bool :=
  if lf.num ≤ 0 ∨ (lf.den : Int) ≤ lf.num then (m, true)
  else
    ({ m with
        maxLoad := lf
        nextResize := Frac.mulNatFloor m.buckets.length lf }, false)

/-- Hopscotch.Reserve from src/hopscotch/map.go. -/
def Hopscotch.Reserve [DecidableEq K] [Inhabited K] [Inhabited V]
    (m : Hopscotch K V) (n : Nat) : Option (Hopscotch K V) :=
  let newCap := NextPowerOf2 (Frac.divNatFloor n m.maxLoad)
  if m.buckets.length < newCap then Hopscotch.resize hopFuel m newCap
  else some m

/-- Hopscotch.Copy from src/hopscotch/map.go: fresh array, copy all
buckets and bookkeeping fields. -/
def Hopscotch.Copy (m : Hopscotch K V) : Hopscotch K V :=
  { m with buckets := m.buckets }

/-- Hopscotch.NewWithHasher from src/hopscotch/map.go: zero-value struct
with the default neighborhood size and max load, then Reserve the default
size. -/
def Hopscotch.NewWithHasher [DecidableEq K] [Inhabited K] [Inhabited V]
    (hasher : K → Nat) : Option (Hopscotch K V) :=
  ({ buckets := []
     hasher := hasher
     length := 0
     capMinus1 := 0
     neighborhoodSize := 4
     nextResize := 0
     maxLoad := DefaultMaxLoad } : Hopscotch K V).Reserve DefaultSize

/-- liveEntries lists the key-value pairs of occupied buckets in slot
order. -/
def Hopscotch.liveEntries [DecidableEq K] (m : Hopscotch K V) :
    List (K × V) :=
  m.buckets.filterMap
    (fun b => if b.isEmpty then none else some (b.key, b.val))

/-- Hopscotch.Reachable: tables constructible through the public
operations. -/
inductive Hopscotch.Reachable [DecidableEq K] [Inhabited K] [Inhabited V] :
    Hopscotch K V → Prop where
  | new (hasher : K → Nat) (m : Hopscotch K V) :
      Hopscotch.NewWithHasher hasher = some m → Hopscotch.Reachable m
  | put {m m' : Hopscotch K V} {b : Bool} (k : K) (v : V) :
      Hopscotch.Reachable m → m.Put k v = some (m', b) →
      Hopscotch.Reachable m'
  | remove {m : Hopscotch K V} (k : K) :
      Hopscotch.Reachable m → Hopscotch.Reachable (m.Remove k).1
  | clear {m : Hopscotch K V} :
      Hopscotch.Reachable m → Hopscotch.Reachable m.Clear
  | reserve {m m' : Hopscotch K V} (n : Nat) :
      Hopscotch.Reachable m → m.Reserve n = some m' →
      Hopscotch.Reachable m'
  | maxload {m : Hopscotch K V} (lf : Frac) :
      Hopscotch.Reachable m → Hopscotch.Reachable (m.MaxLoad lf).1
  | copy {m : Hopscotch K V} :
      Hopscotch.Reachable m → Hopscotch.Reachable m.Copy

/-- Hopscotch.Core is the structural hopscotch invariant: power-of-two
masked capacity within the backing array, a neighborhood size reachable
from 4 by the growth schedule, all neighborhood bits below the
neighborhood size, every set bit pointing at an occupied in-range slot
whose key calls that home, and every occupied slot registered at its home
bucket within the neighborhood. -/
structure Hopscotch.Core [DecidableEq K] [Inhabited K] [Inhabited V]
    (m : Hopscotch K V) : Prop where
  pow2 : ∃ t, m.capMinus1 + 1 = 2 ^ t
  cap_le : m.capMinus1 + 1 ≤ m.buckets.length
  hsize : m.neighborhoodSize = 4 ∨ m.neighborhoodSize = 8 ∨
    m.neighborhoodSize = 16 ∨ m.neighborhoodSize = 32 ∨
    m.neighborhoodSize = 63
  bits_lt : ∀ i, i < m.buckets.length →
    (m.nthHBucket i).getNeighborhood < 2 ^ m.neighborhoodSize
  bit_sound : ∀ h d, h < m.buckets.length →
    ((m.nthHBucket h).getNeighborhood).testBit d = true →
    h + d < m.buckets.length ∧
    ¬ (m.nthHBucket (h + d)).isEmpty = true ∧
    m.home (m.nthHBucket (h + d)).key = h
  occ_sound : ∀ s, s < m.buckets.length →
    ¬ (m.nthHBucket s).isEmpty = true →
    m.home (m.nthHBucket s).key ≤ s ∧
    s - m.home (m.nthHBucket s).key < m.neighborhoodSize ∧
    ((m.nthHBucket (m.home (m.nthHBucket s).key)).getNeighborhood).testBit
      (s - m.home (m.nthHBucket s).key) = true

/-- Hopscotch.WF is the full hopscotch invariant: the structural core
plus the occupancy bookkeeping. -/
structure Hopscotch.WF [DecidableEq K] [Inhabited K] [Inhabited V]
    (m : Hopscotch K V) : Prop where
  hcore : m.Core
  count : m.liveEntries.length = m.length
  keys_nodup : (m.liveEntries.map Prod.fst).Nodup

/-! Theorems. -/

/-! General lemmas. -/

/-- mask_eq_mod: masking with a power-of-two capacity minus one is the
modulus by the capacity. -/
theorem mask_eq_mod (cm x t : Nat) (h : cm + 1 = 2 ^ t) : x &&& cm = x % (cm + 1) := by
  have hcm : cm = 2 ^ t - 1 := by
    have := @Nat.one_le_two_pow t
    omega
  rw [hcm]
  have h2 : (2 : Nat) ^ t - 1 + 1 = 2 ^ t := by
    have := @Nat.one_le_two_pow t
    omega
  rw [h2]
  exact Nat.and_pow_two_sub_one_eq_mod x t

/-- smearStep captures one or-shift step of NextPowerOf2. -/
theorem testBit_smearStep (x y : Nat) (w : Nat)
    (h : ∀ k, y.testBit k = true ↔ ∃ d < w, x.testBit (k + d) = true) (k : Nat) :
    (y ||| y >>> w).testBit k = true ↔ ∃ d < 2 * w, x.testBit (k + d) = true := by
  rw [Nat.testBit_lor, Bool.or_eq_true, Nat.testBit_shiftRight, h, h]
  constructor
  · rintro (⟨d, hd, hbit⟩ | ⟨d, hd, hbit⟩)
    · exact ⟨d, by omega, hbit⟩
    · refine ⟨w + d, by omega, ?_⟩
      have e : k + (w + d) = w + k + d := by omega
      rw [e]; exact hbit
  · rintro ⟨d, hd, hbit⟩
    by_cases hc : d < w
    · exact Or.inl ⟨d, hc, hbit⟩
    · refine Or.inr ⟨d - w, by omega, ?_⟩
      have e : w + k + (d - w) = k + d := by omega
      rw [e]; exact hbit

/-- pow2_sub_one_of_closed: a natural number with downward closed set bits
is 2 to the m minus 1. -/
theorem pow2_sub_one_of_closed (y : Nat)
    (h : ∀ k, y.testBit (k + 1) = true → y.testBit k = true) :
    ∃ m, y = 2 ^ m - 1 := by
  induction y using Nat.strong_induction_on with
  | _ y ih =>
    rcases Nat.eq_zero_or_pos y with hy | hy
    · exact ⟨0, by simp [hy]⟩
    · have hbit0 : y.testBit 0 = true := by
        by_contra hb0
        have hex : ∃ i, y.testBit i = true := by
          by_contra hall
          push_neg at hall
          have : y = 0 := Nat.eq_of_testBit_eq (fun i => by
            simp [Bool.eq_false_iff.2 (fun hh => (hall i) hh)])
          omega
        obtain ⟨i, hi⟩ := hex
        have hdown : ∀ j, y.testBit j = true → y.testBit 0 = true := by
          intro j
          induction j with
          | zero => exact fun hh => hh
          | succ n ihn => exact fun hh => ihn (h n hh)
        exact hb0 (hdown i hi)
      have hodd : y % 2 = 1 := by
        have := Nat.testBit_zero y
        rw [this] at hbit0
        simpa using hbit0
      have hlt : y / 2 < y := Nat.div_lt_self hy (by omega)
      have hclosed : ∀ k, (y / 2).testBit (k + 1) = true → (y / 2).testBit k = true := by
        intro k hk
        rw [Nat.testBit_div_two] at hk ⊢
        exact h _ hk
      obtain ⟨m, hm⟩ := ih (y / 2) hlt hclosed
      refine ⟨m + 1, ?_⟩
      have h2 : y = 2 * (y / 2) + 1 := by omega
      have hp : 1 ≤ 2 ^ m := Nat.one_le_two_pow
      rw [h2, hm, pow_succ]
      omega

/-- np2_aux: the final add-one and wrap step of NextPowerOf2 on a smeared
value. -/
theorem np2_aux (x y : Nat) (hx : x < 2 ^ 64)
    (hchar : ∀ k, y.testBit k = true ↔ ∃ d < 64, x.testBit (k + d) = true)
    (hylt : y < 2 ^ 64) :
    (y + 1) % 2 ^ 64 = 0 ∨ ∃ m, (y + 1) % 2 ^ 64 = 2 ^ m := by
  have hclosed : ∀ k, y.testBit (k + 1) = true → y.testBit k = true := by
    intro k hk
    rw [hchar] at hk ⊢
    obtain ⟨d, hd, hbit⟩ := hk
    have hpos : k + 1 + d < 64 := by
      by_contra hge
      have h64 : (2 : Nat) ^ 64 ≤ 2 ^ (k + 1 + d) :=
        Nat.pow_le_pow_right (by omega) (by omega)
      have : x.testBit (k + 1 + d) = false :=
        Nat.testBit_eq_false_of_lt (lt_of_lt_of_le hx h64)
      rw [this] at hbit
      exact Bool.noConfusion hbit
    refine ⟨d + 1, by omega, ?_⟩
    have e : k + (d + 1) = k + 1 + d := by omega
    rw [e]; exact hbit
  obtain ⟨m, hm⟩ := pow2_sub_one_of_closed y hclosed
  have h1 : (1 : Nat) ≤ 2 ^ m := Nat.one_le_two_pow
  have hmle : m ≤ 64 := by
    by_contra hgt
    have : (2 : Nat) ^ 64 < 2 ^ m := Nat.pow_lt_pow_right (by omega) (by omega)
    omega
  have hy1 : y + 1 = 2 ^ m := by omega
  rcases Nat.lt_or_ge m 64 with hlt | hge
  · right
    exact ⟨m, by rw [hy1]; exact Nat.mod_eq_of_lt (Nat.pow_lt_pow_right (by omega) hlt)⟩
  · left
    have hm64 : m = 64 := by omega
    rw [hy1, hm64]
    exact Nat.mod_self _

/-- NextPowerOf2 yields 0 or a power of two. -/
theorem NextPowerOf2_pow2 (i : Nat) :
    NextPowerOf2 i = 0 ∨ ∃ m, NextPowerOf2 i = 2 ^ m := by
  have hxlt : (i + (2 ^ 64 - 1)) % 2 ^ 64 < 2 ^ 64 := Nat.mod_lt _ (by norm_num)
  simp only [NextPowerOf2]
  set x := (i + (2 ^ 64 - 1)) % 2 ^ 64 with hxdef
  have hbase : ∀ k, x.testBit k = true ↔ ∃ d < 1, x.testBit (k + d) = true := by
    intro k
    constructor
    · exact fun hh => ⟨0, by omega, by simpa using hh⟩
    · rintro ⟨d, hd, hbit⟩
      have hd0 : d = 0 := by omega
      rw [hd0] at hbit
      simpa using hbit
  set j1 := x ||| x >>> 1 with hj1
  set j2 := j1 ||| j1 >>> 2 with hj2
  set j3 := j2 ||| j2 >>> 4 with hj3
  set j4 := j3 ||| j3 >>> 8 with hj4
  set j5 := j4 ||| j4 >>> 16 with hj5
  set j6 := j5 ||| j5 >>> 32 with hj6
  have c1 := testBit_smearStep x x 1 hbase
  have c2 := testBit_smearStep x j1 2 c1
  have c4 := testBit_smearStep x j2 4 c2
  have c8 := testBit_smearStep x j3 8 c4
  have c16 := testBit_smearStep x j4 16 c8
  have c32 := testBit_smearStep x j5 32 c16
  have hshift : ∀ z w : Nat, z < 2 ^ 64 → z >>> w < 2 ^ 64 := by
    intro z w hz
    calc z >>> w ≤ z := by
          rw [Nat.shiftRight_eq_div_pow]
          exact Nat.div_le_self _ _
      _ < 2 ^ 64 := hz
  have l1 : j1 < 2 ^ 64 := Nat.or_lt_two_pow hxlt (hshift _ _ hxlt)
  have l2 : j2 < 2 ^ 64 := Nat.or_lt_two_pow l1 (hshift _ _ l1)
  have l3 : j3 < 2 ^ 64 := Nat.or_lt_two_pow l2 (hshift _ _ l2)
  have l4 : j4 < 2 ^ 64 := Nat.or_lt_two_pow l3 (hshift _ _ l3)
  have l5 : j5 < 2 ^ 64 := Nat.or_lt_two_pow l4 (hshift _ _ l4)
  have l6 : j6 < 2 ^ 64 := Nat.or_lt_two_pow l5 (hshift _ _ l5)
  have c64 : ∀ k, j6.testBit k = true ↔ ∃ d < 64, x.testBit (k + d) = true := by
    intro k
    rw [hj6]
    exact c32 k
  exact np2_aux x j6 hxlt c64 l6

/-- getD_set_self: reading back the updated slot. -/
theorem getD_set_self {α : Type} (l : List α) (i : Nat) (x d : α) (h : i < l.length) :
    (l.set i x).getD i d = x := by
  rw [List.getD_eq_getElem?_getD, List.getElem?_set_self h]
  rfl

/-- getD_set_ne: reading an untouched slot. -/
theorem getD_set_ne {α : Type} (l : List α) (i j : Nat) (x d : α) (h : i ≠ j) :
    (l.set i x).getD j d = l.getD j d := by
  rw [List.getD_eq_getElem?_getD, List.getElem?_set_ne h, ← List.getD_eq_getElem?_getD]

/-- getD_replicate_nil: every slot of the fresh bucket list is empty. -/
theorem getD_replicate_nil {α : Type} (n i : Nat) :
    (List.replicate n ([] : List α)).getD i [] = [] := by
  rw [List.getD_eq_getElem?_getD, List.getElem?_replicate]
  by_cases h : i < n <;> simp [h]

/-! Chain lemmas for the unordered map. -/

theorem chainSearch_isSome_iff [DecidableEq K] (k : K) (ch : List (UNode K V)) :
    (chainSearch k ch).isSome = true ↔ ∃ nd ∈ ch, nd.key = k := by
  induction ch with
  | nil => simp [chainSearch]
  | cons nd rest ih =>
    by_cases h : nd.key = k
    · simp [chainSearch, h]
    · simp only [chainSearch, if_neg h, ih, List.mem_cons]
      constructor
      · rintro ⟨x, hx, hk⟩
        exact ⟨x, Or.inr hx, hk⟩
      · rintro ⟨x, hor, hk⟩
        rcases hor with heq | hmem
        · exact absurd (heq ▸ hk) h
        · exact ⟨x, hmem, hk⟩

theorem chainSearch_eq_none_iff [DecidableEq K] (k : K) (ch : List (UNode K V)) :
    chainSearch k ch = none ↔ ∀ nd ∈ ch, nd.key ≠ k := by
  rw [← Option.not_isSome_iff_eq_none]
  rw [Bool.not_eq_true, ← Bool.not_eq_true, chainSearch_isSome_iff]
  push_neg
  rfl

theorem chainSearch_mem [DecidableEq K] (k : K) (ch : List (UNode K V)) (v : V)
    (h : chainSearch k ch = some v) : ∃ nd ∈ ch, nd.key = k ∧ nd.value = v := by
  induction ch with
  | nil => exact absurd h (by simp [chainSearch])
  | cons nd rest ih =>
    by_cases hk : nd.key = k
    · rw [chainSearch, if_pos hk] at h
      exact ⟨nd, List.mem_cons_self _ _, hk, Option.some.inj h⟩
    · rw [chainSearch, if_neg hk] at h
      obtain ⟨x, hx, hkey, hval⟩ := ih h
      exact ⟨x, List.mem_cons_of_mem _ hx, hkey, hval⟩

theorem chainSearch_of_mem_nodup [DecidableEq K] (k : K) (ch : List (UNode K V))
    (nd : UNode K V) (hnodup : (ch.map UNode.key).Nodup) (hmem : nd ∈ ch)
    (hkey : nd.key = k) : chainSearch k ch = some nd.value := by
  induction ch with
  | nil => exact absurd hmem (List.not_mem_nil nd)
  | cons hd rest ih =>
    rcases List.mem_cons.1 hmem with rfl | hmem
    · rw [chainSearch, if_pos hkey]
    · have hne : hd.key ≠ k := by
        intro hh
        have hknotin : hd.key ∉ rest.map UNode.key := (List.nodup_cons.1 hnodup).1
        exact hknotin (hh ▸ hkey ▸ List.mem_map_of_mem UNode.key hmem)
      rw [chainSearch, if_neg hne]
      exact ih (List.nodup_cons.1 hnodup).2 hmem

theorem chainReplace_keys [DecidableEq K] (k : K) (v : V) (ch : List (UNode K V)) :
    (chainReplace k v ch).map UNode.key = ch.map UNode.key := by
  induction ch with
  | nil => rfl
  | cons nd rest ih =>
    by_cases h : nd.key = k
    · simp [chainReplace, h]
    · simp [chainReplace, h, ih]

theorem chainReplace_search_self [DecidableEq K] (k : K) (v : V) (ch : List (UNode K V))
    (h : (chainSearch k ch).isSome = true) :
    chainSearch k (chainReplace k v ch) = some v := by
  induction ch with
  | nil => simp [chainSearch] at h
  | cons nd rest ih =>
    by_cases hk : nd.key = k
    · simp [chainReplace, chainSearch, hk]
    · rw [chainSearch, if_neg hk] at h
      rw [chainReplace, if_neg hk, chainSearch, if_neg hk]
      exact ih h

theorem chainReplace_search_ne [DecidableEq K] (k k' : K) (v : V) (ch : List (UNode K V))
    (h : k' ≠ k) : chainSearch k' (chainReplace k v ch) = chainSearch k' ch := by
  induction ch with
  | nil => rfl
  | cons nd rest ih =>
    by_cases hk : nd.key = k
    · have hne : nd.key ≠ k' := fun hh => h (hh ▸ hk)
      simp only [chainReplace, if_pos hk, chainSearch]
      rw [if_neg (by simpa using hne), if_neg hne]
    · simp only [chainReplace, if_neg hk, chainSearch]
      by_cases hk' : nd.key = k'
      · rw [if_pos hk', if_pos hk']
      · rw [if_neg hk', if_neg hk']
        exact ih

theorem chainReplace_length [DecidableEq K] (k : K) (v : V) (ch : List (UNode K V)) :
    (chainReplace k v ch).length = ch.length := by
  induction ch with
  | nil => rfl
  | cons nd rest ih =>
    by_cases h : nd.key = k <;> simp [chainReplace, h, ih]

theorem chainReplace_key_mem [DecidableEq K] (k : K) (v : V) (ch : List (UNode K V))
    (nd : UNode K V) (h : nd ∈ chainReplace k v ch) :
    ∃ nd0 ∈ ch, nd.key = nd0.key := by
  have hmap : nd.key ∈ (chainReplace k v ch).map UNode.key := List.mem_map_of_mem _ h
  rw [chainReplace_keys] at hmap
  obtain ⟨nd0, hnd0, hkey⟩ := List.mem_map.1 hmap
  exact ⟨nd0, hnd0, hkey.symm⟩

theorem chainRemoveFirst_isSome_iff [DecidableEq K] (k : K) (ch : List (UNode K V)) :
    (chainRemoveFirst k ch).isSome = true ↔ ∃ nd ∈ ch, nd.key = k := by
  induction ch with
  | nil => simp [chainRemoveFirst]
  | cons nd rest ih =>
    by_cases h : nd.key = k
    · simp [chainRemoveFirst, h]
    · have hmap : (chainRemoveFirst k (nd :: rest)).isSome
          = (chainRemoveFirst k rest).isSome := by
        rw [chainRemoveFirst, if_neg h]
        cases chainRemoveFirst k rest <;> rfl
      rw [hmap, ih]
      constructor
      · rintro ⟨x, hx, hk⟩
        exact ⟨x, List.mem_cons_of_mem _ hx, hk⟩
      · rintro ⟨x, hor, hk⟩
        rcases List.mem_cons.1 hor with heq | hmem
        · exact absurd (heq ▸ hk) h
        · exact ⟨x, hmem, hk⟩

theorem chainRemoveFirst_subset [DecidableEq K] (k : K) (ch ch' : List (UNode K V))
    (h : chainRemoveFirst k ch = some ch') : ∀ nd ∈ ch', nd ∈ ch := by
  induction ch generalizing ch' with
  | nil => exact absurd h (by simp [chainRemoveFirst])
  | cons nd rest ih =>
    by_cases hk : nd.key = k
    · rw [chainRemoveFirst, if_pos hk] at h
      injection h with h
      subst h
      exact fun x hx => List.mem_cons_of_mem _ hx
    · rw [chainRemoveFirst, if_neg hk] at h
      cases hrec : chainRemoveFirst k rest with
      | none => rw [hrec] at h; exact absurd h (by simp)
      | some rest' =>
        rw [hrec] at h
        injection h with h
        subst h
        intro x hx
        rcases List.mem_cons.1 hx with rfl | hx
        · exact List.mem_cons_self _ _
        · exact List.mem_cons_of_mem _ (ih rest' hrec x hx)

theorem chainRemoveFirst_length [DecidableEq K] (k : K) (ch ch' : List (UNode K V))
    (h : chainRemoveFirst k ch = some ch') : ch'.length + 1 = ch.length := by
  induction ch generalizing ch' with
  | nil => exact absurd h (by simp [chainRemoveFirst])
  | cons nd rest ih =>
    by_cases hk : nd.key = k
    · rw [chainRemoveFirst, if_pos hk] at h
      injection h with h
      subst h
      rfl
    · rw [chainRemoveFirst, if_neg hk] at h
      cases hrec : chainRemoveFirst k rest with
      | none => rw [hrec] at h; exact absurd h (by simp)
      | some rest' =>
        rw [hrec] at h
        injection h with h
        subst h
        simpa using ih rest' hrec

theorem chainRemoveFirst_keys_sublist [DecidableEq K] (k : K) (ch ch' : List (UNode K V))
    (h : chainRemoveFirst k ch = some ch') :
    (ch'.map UNode.key).Sublist (ch.map UNode.key) := by
  induction ch generalizing ch' with
  | nil => exact absurd h (by simp [chainRemoveFirst])
  | cons nd rest ih =>
    by_cases hk : nd.key = k
    · rw [chainRemoveFirst, if_pos hk] at h
      injection h with h
      subst h
      exact (List.sublist_cons_self _ _)
    · rw [chainRemoveFirst, if_neg hk] at h
      cases hrec : chainRemoveFirst k rest with
      | none => rw [hrec] at h; exact absurd h (by simp)
      | some rest' =>
        rw [hrec] at h
        injection h with h
        subst h
        exact List.Sublist.cons₂ _ (ih rest' hrec)

theorem chainRemoveFirst_no_key [DecidableEq K] (k : K) (ch ch' : List (UNode K V))
    (hnodup : (ch.map UNode.key).Nodup)
    (h : chainRemoveFirst k ch = some ch') : ∀ nd ∈ ch', nd.key ≠ k := by
  induction ch generalizing ch' with
  | nil => exact absurd h (by simp [chainRemoveFirst])
  | cons nd rest ih =>
    by_cases hk : nd.key = k
    · rw [chainRemoveFirst, if_pos hk] at h
      injection h with h
      subst h
      intro x hx hxk
      have : nd.key ∉ rest.map UNode.key := (List.nodup_cons.1 hnodup).1
      exact this (hk ▸ hxk ▸ List.mem_map_of_mem UNode.key hx)
    · rw [chainRemoveFirst, if_neg hk] at h
      cases hrec : chainRemoveFirst k rest with
      | none => rw [hrec] at h; exact absurd h (by simp)
      | some rest' =>
        rw [hrec] at h
        injection h with h
        subst h
        intro x hx
        rcases List.mem_cons.1 hx with rfl | hx
        · exact hk
        · exact ih rest' (List.nodup_cons.1 hnodup).2 hrec x hx

theorem chainRemoveFirst_search_ne [DecidableEq K] (k k' : K) (ch ch' : List (UNode K V))
    (hne : k' ≠ k) (h : chainRemoveFirst k ch = some ch') :
    chainSearch k' ch' = chainSearch k' ch := by
  induction ch generalizing ch' with
  | nil => exact absurd h (by simp [chainRemoveFirst])
  | cons nd rest ih =>
    by_cases hk : nd.key = k
    · rw [chainRemoveFirst, if_pos hk] at h
      injection h with h
      subst h
      have hndne : nd.key ≠ k' := fun hh => hne (hh ▸ hk)
      rw [chainSearch, if_neg hndne]
    · rw [chainRemoveFirst, if_neg hk] at h
      cases hrec : chainRemoveFirst k rest with
      | none => rw [hrec] at h; exact absurd h (by simp)
      | some rest' =>
        rw [hrec] at h
        injection h with h
        subst h
        by_cases hk' : nd.key = k'
        · rw [chainSearch, chainSearch, if_pos hk', if_pos hk']
        · rw [chainSearch, chainSearch, if_neg hk', if_neg hk']
          exact ih rest' hrec

/-! Structural lemmas for the unordered map. -/

theorem getD_eq_getElem_of_lt {α : Type} (l : List α) (i : Nat) (d : α)
    (h : i < l.length) : l.getD i d = l[i] := by
  rw [List.getD_eq_getElem?_getD, List.getElem?_eq_getElem h]
  rfl

theorem mem_flatten_getD {α : Type} (L : List (List α)) (x : α) :
    x ∈ L.flatten ↔ ∃ i < L.length, x ∈ L.getD i [] := by
  rw [List.mem_flatten]
  constructor
  · rintro ⟨l, hl, hx⟩
    obtain ⟨i, hi, hgot⟩ := List.mem_iff_getElem.1 hl
    exact ⟨i, hi, by rw [getD_eq_getElem_of_lt _ _ _ hi, hgot]; exact hx⟩
  · rintro ⟨i, hi, hx⟩
    rw [getD_eq_getElem_of_lt _ _ _ hi] at hx
    exact ⟨L[i], List.getElem_mem hi, hx⟩

theorem flatten_set_cons {α : Type} (l : List (List α)) (i : Nat) (x : α)
    (h : i < l.length) :
    ((l.set i (x :: l.getD i [])).flatten).Perm (x :: l.flatten) := by
  induction l generalizing i with
  | nil => simp at h
  | cons hd tl ih =>
    cases i with
    | zero =>
      simp only [List.set, List.getD, List.flatten]
      exact List.Perm.refl _
    | succ i =>
      have hi : i < tl.length := by simpa using h
      have hstep : ((hd :: tl).set (i + 1) (x :: (hd :: tl).getD (i + 1) [])).flatten
          = hd ++ (tl.set i (x :: tl.getD i [])).flatten := by
        rfl
      rw [hstep]
      exact List.Perm.trans (List.Perm.append_left hd (ih i hi)) List.perm_middle

theorem Unordered.WF.core {m : Unordered K V} (h : m.WF) : m.WFcore :=
  ⟨h.cap_eq, h.pow2, h.idx_eq, h.chains_nodup⟩

theorem Unordered.WFcore.c_pos {m : Unordered K V} (h : m.WFcore) :
    0 < m.buckets.length := by
  obtain ⟨t, ht⟩ := h.2.1
  rw [ht]
  exact Nat.pos_pow_of_pos t (by omega)

theorem Unordered.WFcore.mask_mod {m : Unordered K V} (h : m.WFcore) (x : Nat) :
    x &&& m.capMinus1 = x % m.buckets.length := by
  obtain ⟨t, ht⟩ := h.2.1
  have := mask_eq_mod m.capMinus1 x t (by rw [h.1, ht])
  rw [this, h.1]

theorem Unordered.WFcore.home_lt {m : Unordered K V} (h : m.WFcore) (x : Nat) :
    x &&& m.capMinus1 < m.buckets.length := by
  rw [h.mask_mod]
  exact Nat.mod_lt _ h.c_pos

theorem Unordered.WFcore.flatten_keys_nodup [DecidableEq K] {m : Unordered K V}
    (h : m.WFcore) : (m.buckets.flatten.map UNode.key).Nodup := by
  rw [List.map_flatten, List.nodup_flatten]
  constructor
  · intro l hl
    obtain ⟨ch, hch, rfl⟩ := List.mem_map.1 hl
    obtain ⟨i, hi, hgot⟩ := List.mem_iff_getElem.1 hch
    have : ch = m.buckets.getD i [] := by
      rw [getD_eq_getElem_of_lt _ _ _ hi, hgot]
    rw [this]
    exact h.2.2.2 i
  · rw [List.pairwise_iff_getElem]
    intro i j hi hj hij
    simp only [List.length_map] at hi hj
    intro a hai haj
    simp only [List.getElem_map] at hai haj
    obtain ⟨nd1, h1, hk1⟩ := List.mem_map.1 hai
    obtain ⟨nd2, h2, hk2⟩ := List.mem_map.1 haj
    have e1 : m.hasher nd1.key &&& m.capMinus1 = i := by
      refine h.2.2.1 i nd1 ?_
      rw [getD_eq_getElem_of_lt _ _ _ hi]
      exact h1
    have e2 : m.hasher nd2.key &&& m.capMinus1 = j := by
      refine h.2.2.1 j nd2 ?_
      rw [getD_eq_getElem_of_lt _ _ _ hj]
      exact h2
    rw [hk1] at e1
    rw [hk2] at e2
    rw [e1] at e2
    omega

theorem Unordered.get_some_iff [DecidableEq K] {m : Unordered K V} (h : m.WFcore)
    (k : K) (v : V) :
    m.Get k = some v ↔ ∃ nd ∈ m.buckets.flatten, nd.key = k ∧ nd.value = v := by
  constructor
  · intro hg
    obtain ⟨nd, hmem, hkey, hval⟩ := chainSearch_mem k _ v hg
    refine ⟨nd, ?_, hkey, hval⟩
    rw [mem_flatten_getD]
    exact ⟨m.hasher k &&& m.capMinus1, h.home_lt _, hmem⟩
  · rintro ⟨nd, hmem, hkey, hval⟩
    rw [mem_flatten_getD] at hmem
    obtain ⟨i, hi, hmem⟩ := hmem
    have hidx : m.hasher nd.key &&& m.capMinus1 = i := h.2.2.1 i nd hmem
    rw [hkey] at hidx
    rw [Unordered.Get, hidx, ← hval]
    exact chainSearch_of_mem_nodup k _ nd (hidx ▸ h.2.2.2 i) hmem hkey

theorem Unordered.get_none_iff [DecidableEq K] {m : Unordered K V} (h : m.WFcore)
    (k : K) :
    m.Get k = none ↔ ∀ nd ∈ m.buckets.flatten, nd.key ≠ k := by
  rw [Unordered.Get, chainSearch_eq_none_iff]
  constructor
  · intro hall nd hmem
    rw [mem_flatten_getD] at hmem
    obtain ⟨i, hi, hmem⟩ := hmem
    intro hkey
    have hidx : m.hasher nd.key &&& m.capMinus1 = i := h.2.2.1 i nd hmem
    rw [hkey] at hidx
    exact hall nd (hidx ▸ hmem) hkey
  · intro hall nd hmem
    refine hall nd ?_
    rw [mem_flatten_getD]
    exact ⟨m.hasher k &&& m.capMinus1, h.home_lt _, hmem⟩

theorem Unordered.get_eq_flatten_search [DecidableEq K] {m : Unordered K V}
    (h : m.WFcore) (k : K) :
    m.Get k = chainSearch k m.buckets.flatten := by
  cases hg : m.Get k with
  | some v =>
    obtain ⟨nd, hmem, hkey, hval⟩ := (Unordered.get_some_iff h k v).1 hg
    rw [← hval]
    exact (chainSearch_of_mem_nodup k _ nd h.flatten_keys_nodup hmem hkey).symm
  | none =>
    have := (Unordered.get_none_iff h k).1 hg
    exact ((chainSearch_eq_none_iff k _).2 this).symm

/-! Relink fold lemmas (Unordered.resize). -/

theorem Unordered.pushFront_fields (m : Unordered K V) (nd : UNode K V) :
    (m.pushFront nd).capMinus1 = m.capMinus1 ∧
    (m.pushFront nd).hasher = m.hasher ∧
    (m.pushFront nd).length = m.length ∧
    (m.pushFront nd).maxLoad = m.maxLoad ∧
    (m.pushFront nd).nextResize = m.nextResize ∧
    (m.pushFront nd).buckets.length = m.buckets.length := by
  refine ⟨rfl, rfl, rfl, rfl, rfl, ?_⟩
  simp [Unordered.pushFront]

theorem Unordered.pushFront_flatten {m : Unordered K V} (h : m.WFcore)
    (nd : UNode K V) :
    ((m.pushFront nd).buckets.flatten).Perm (nd :: m.buckets.flatten) :=
  flatten_set_cons _ _ _ (h.home_lt _)

theorem Unordered.pushFront_core [DecidableEq K] {m : Unordered K V} (h : m.WFcore)
    (nd : UNode K V) (hfresh : ∀ x ∈ m.buckets.flatten, x.key ≠ nd.key) :
    (m.pushFront nd).WFcore := by
  have hlt := h.home_lt (m.hasher nd.key)
  refine ⟨?_, ?_, ?_, ?_⟩
  · rw [(Unordered.pushFront_fields m nd).2.2.2.2.2]
    exact h.1
  · rw [(Unordered.pushFront_fields m nd).2.2.2.2.2]
    exact h.2.1
  · intro i x hx
    simp only [Unordered.pushFront] at hx
    show m.hasher x.key &&& m.capMinus1 = i
    by_cases hi : (m.hasher nd.key &&& m.capMinus1) = i
    · rw [← hi] at hx
      rw [getD_set_self _ _ _ _ hlt] at hx
      rcases List.mem_cons.1 hx with rfl | hx
      · exact hi
      · rw [h.2.2.1 _ x hx]
        exact hi
    · rw [getD_set_ne _ _ _ _ _ hi] at hx
      exact h.2.2.1 i x hx
  · intro i
    simp only [Unordered.pushFront]
    by_cases hi : (m.hasher nd.key &&& m.capMinus1) = i
    · rw [← hi]
      rw [getD_set_self _ _ _ _ hlt]
      rw [List.map_cons, List.nodup_cons]
      constructor
      · intro hmem
        obtain ⟨x, hx, hkey⟩ := List.mem_map.1 hmem
        have hxf : x ∈ m.buckets.flatten := by
          rw [mem_flatten_getD]
          exact ⟨_, hlt, hx⟩
        exact hfresh x hxf hkey
      · exact h.2.2.2 _
    · rw [getD_set_ne _ _ _ _ _ hi]
      exact h.2.2.2 i

theorem Unordered.pushFront_get [DecidableEq K] {m : Unordered K V} (h : m.WFcore)
    (nd : UNode K V) (k : K) :
    (m.pushFront nd).Get k
      = if k = nd.key then some nd.value else m.Get k := by
  have hlt := h.home_lt (m.hasher nd.key)
  simp only [Unordered.pushFront, Unordered.Get]
  by_cases hk : k = nd.key
  · rw [if_pos hk]
    rw [hk]
    rw [getD_set_self _ _ _ _ hlt]
    rw [chainSearch, if_pos rfl]
  · rw [if_neg hk]
    by_cases hi : (m.hasher nd.key &&& m.capMinus1) = (m.hasher k &&& m.capMinus1)
    · rw [← hi, getD_set_self _ _ _ _ hlt]
      rw [chainSearch, if_neg (fun hh => hk (hh.symm))]
    · rw [getD_set_ne _ _ _ _ _ hi]

theorem Unordered.pushAll_spec [DecidableEq K] (nds : List (UNode K V)) :
    ∀ (acc : Unordered K V), acc.WFcore →
    (((nds.map UNode.key) ++ (acc.buckets.flatten.map UNode.key)).Nodup) →
    (let r := nds.foldl Unordered.pushFront acc
     r.capMinus1 = acc.capMinus1 ∧ r.hasher = acc.hasher ∧ r.length = acc.length ∧
     r.maxLoad = acc.maxLoad ∧ r.nextResize = acc.nextResize ∧
     r.buckets.length = acc.buckets.length ∧
     r.WFcore ∧
     (r.buckets.flatten).Perm (nds ++ acc.buckets.flatten) ∧
     (∀ k, r.Get k = Option.or (chainSearch k nds) (acc.Get k))) := by
  induction nds with
  | nil =>
    intro acc hacc hnodup
    refine ⟨rfl, rfl, rfl, rfl, rfl, rfl, hacc, List.Perm.refl _, ?_⟩
    intro k
    rfl
  | cons nd rest ih =>
    intro acc hacc hnodup
    have hnodup' : (nd.key :: (rest.map UNode.key ++ acc.buckets.flatten.map UNode.key)).Nodup := by
      simpa using hnodup
    have hhead : nd.key ∉ rest.map UNode.key ++ acc.buckets.flatten.map UNode.key :=
      (List.nodup_cons.1 hnodup').1
    have hfresh : ∀ x ∈ acc.buckets.flatten, x.key ≠ nd.key := by
      intro x hx hkey
      exact hhead (List.mem_append_right _ (hkey ▸ List.mem_map_of_mem UNode.key hx))
    have hacc' : (acc.pushFront nd).WFcore := Unordered.pushFront_core hacc nd hfresh
    have hperm : ((acc.pushFront nd).buckets.flatten).Perm (nd :: acc.buckets.flatten) :=
      Unordered.pushFront_flatten hacc nd
    have hkeysperm :
        (rest.map UNode.key ++ ((acc.pushFront nd).buckets.flatten).map UNode.key).Perm
          (nd.key :: (rest.map UNode.key ++ acc.buckets.flatten.map UNode.key)) := by
      refine List.Perm.trans (List.Perm.append_left _ (hperm.map UNode.key)) ?_
      exact List.perm_middle
    have hnodup2 : (rest.map UNode.key ++ ((acc.pushFront nd).buckets.flatten).map UNode.key).Nodup :=
      hkeysperm.symm.nodup hnodup'
    have hrec := ih (acc.pushFront nd) hacc' hnodup2
    have hfld := Unordered.pushFront_fields acc nd
    have hfold : (nd :: rest).foldl Unordered.pushFront acc
        = rest.foldl Unordered.pushFront (acc.pushFront nd) := rfl
    rw [hfold]
    obtain ⟨e1, e2, e3, e4, e5, e6, hcore, hpermr, hget⟩ := hrec
    refine ⟨e1.trans hfld.1, e2.trans hfld.2.1, e3.trans hfld.2.2.1,
      e4.trans hfld.2.2.2.1, e5.trans hfld.2.2.2.2.1, e6.trans hfld.2.2.2.2.2,
      hcore, ?_, ?_⟩
    · refine List.Perm.trans hpermr ?_
      exact List.Perm.trans (List.Perm.append_left rest hperm) List.perm_middle
    · intro k
      rw [hget k, Unordered.pushFront_get hacc nd k]
      by_cases hk : k = nd.key
      · rw [if_pos hk]
        have hnone : chainSearch k rest = none := by
          rw [chainSearch_eq_none_iff]
          intro x hx hkey
          refine hhead (List.mem_append_left _ ?_)
          rw [← hk, ← hkey]
          exact List.mem_map_of_mem UNode.key hx
        rw [hnone]
        have hsrch : chainSearch k (nd :: rest) = some nd.value := by
          rw [chainSearch, if_pos hk.symm]
        rw [hsrch]
        rfl
      · rw [if_neg hk]
        have hsrch : chainSearch k (nd :: rest) = chainSearch k rest := by
          rw [chainSearch, if_neg (fun hh => hk hh.symm)]
        rw [hsrch]

theorem flatten_length_set {α : Type} (l : List (List α)) (i : Nat) (ch : List α)
    (h : i < l.length) :
    ((l.set i ch).flatten).length + (l.getD i []).length
      = l.flatten.length + ch.length := by
  induction l generalizing i with
  | nil => simp at h
  | cons hd tl ih =>
    cases i with
    | zero =>
      simp only [List.set, List.getD, List.flatten, List.length_append]
      have : ((ch :: tl).flatten).length = ch.length + tl.flatten.length := by
        simp [List.flatten]
      simp [List.flatten]
      omega
    | succ i =>
      have hi : i < tl.length := by simpa using h
      have e1 : ((hd :: tl).set (i + 1) ch).flatten = hd ++ (tl.set i ch).flatten := rfl
      have e2 : (hd :: tl).getD (i + 1) [] = tl.getD i [] := rfl
      have e3 : (hd :: tl).flatten = hd ++ tl.flatten := rfl
      rw [e1, e2, e3, List.length_append, List.length_append]
      have := ih i hi
      omega

theorem flatten_replicate_nil {α : Type} (n : Nat) :
    (List.replicate n ([] : List α)).flatten = [] := by
  induction n with
  | zero => rfl
  | succ n ih => simp [List.replicate, List.flatten, ih]

theorem option_or_none {α : Type} (x : Option α) : Option.or x none = x := by
  cases x <;> rfl

/-- resize_spec: Unordered.resize with a positive power-of-two size keeps
the structural invariant, every field except the bucket store, and the
observable contents. -/
theorem Unordered.resize_spec [DecidableEq K] {m : Unordered K V} (h : m.WFcore)
    (n t : Nat) (hn : n = 2 ^ t) :
    (m.resize n).WFcore ∧
    (m.resize n).capMinus1 = n - 1 ∧
    (m.resize n).hasher = m.hasher ∧
    (m.resize n).length = m.length ∧
    (m.resize n).maxLoad = m.maxLoad ∧
    (m.resize n).nextResize = Frac.mulNatFloor n m.maxLoad ∧
    (m.resize n).buckets.length = n ∧
    ((m.resize n).buckets.flatten).Perm m.buckets.flatten ∧
    (∀ k, (m.resize n).Get k = m.Get k) := by
  have hnpos : 0 < n := by
    rw [hn]; exact Nat.pos_pow_of_pos t (by omega)
  set start : Unordered K V :=
    { m with
      capMinus1 := n - 1
      buckets := List.replicate n []
      nextResize := Frac.mulNatFloor n m.maxLoad } with hstart
  have hstartcore : start.WFcore := by
    refine ⟨?_, ⟨t, ?_⟩, ?_, ?_⟩
    · show n - 1 + 1 = (List.replicate n ([] : List (UNode K V))).length
      rw [List.length_replicate]
      omega
    · show (List.replicate n ([] : List (UNode K V))).length = 2 ^ t
      rw [List.length_replicate, hn]
    · intro i nd hnd
      rw [show start.buckets = List.replicate n [] from rfl, getD_replicate_nil] at hnd
      exact absurd hnd (List.not_mem_nil nd)
    · intro i
      rw [show start.buckets = List.replicate n [] from rfl, getD_replicate_nil]
      exact List.nodup_nil
  have hstartflat : start.buckets.flatten = [] := flatten_replicate_nil n
  have hnodup : ((m.buckets.flatten.map UNode.key)
      ++ (start.buckets.flatten.map UNode.key)).Nodup := by
    rw [hstartflat]
    simpa using h.flatten_keys_nodup
  have hfold : m.resize n
      = (m.buckets.flatten).foldl Unordered.pushFront start := by
    rw [Unordered.resize, List.foldl_flatten]
  have hall := Unordered.pushAll_spec m.buckets.flatten start hstartcore hnodup
  obtain ⟨e1, e2, e3, e4, e5, e6, hcore, hperm, hget⟩ := hall
  rw [← hfold] at e1 e2 e3 e4 e5 e6 hcore hperm hget
  refine ⟨hcore, e1, e2, e3, e4, e5, ?_, ?_, ?_⟩
  · rw [e6]
    show (List.replicate n ([] : List (UNode K V))).length = n
    exact List.length_replicate n _
  · rw [hstartflat] at hperm
    simpa using hperm
  · intro k
    rw [hget k]
    have hsnone : start.Get k = none := by
      rw [Unordered.Get]
      rw [show start.buckets = List.replicate n [] from rfl, getD_replicate_nil]
      rfl
    rw [hsnone, option_or_none]
    exact (Unordered.get_eq_flatten_search h k).symm

/-- grow_spec: the doubling growth step of the unordered map. -/
theorem Unordered.grow_spec [DecidableEq K] {m : Unordered K V} (h : m.WF) :
    (m.grow).WF ∧
    (m.grow).hasher = m.hasher ∧
    (m.grow).length = m.length ∧
    (m.grow).maxLoad = m.maxLoad ∧
    (m.grow).buckets.length = 2 * m.buckets.length ∧
    (m.grow).nextResize = Frac.mulNatFloor (2 * m.buckets.length) m.maxLoad ∧
    (∀ k, (m.grow).Get k = m.Get k) := by
  obtain ⟨t, ht⟩ := h.pow2
  have hr := Unordered.resize_spec h.core (2 * m.buckets.length) (t + 1)
    (by rw [ht, pow_succ]; ring)
  obtain ⟨hcore, e1, e2, e3, e4, e5, e6, hperm, hget⟩ := hr
  simp only [Unordered.grow]
  refine ⟨⟨hcore.1, hcore.2.1, hcore.2.2.1, hcore.2.2.2, ?_⟩, e2, e3, e4, e6, ?_, hget⟩
  · rw [hperm.length_eq, e3]
    exact h.count_le
  · rw [e5]

/-- put_spec: functional correctness of Unordered.Put on well formed
tables. -/
theorem Unordered.put_spec [DecidableEq K] {m : Unordered K V} (h : m.WF) (k : K) (v : V) :
    (m.Put k v).1.WF ∧
    ((m.Put k v).2 = true ↔ m.Get k = none) ∧
    (m.Put k v).1.Get k = some v ∧
    (∀ k2, k2 ≠ k → (m.Put k v).1.Get k2 = m.Get k2) ∧
    ((m.Put k v).2 = true → (m.Put k v).1.length = m.length + 1) ∧
    ((m.Put k v).2 = false → (m.Put k v).1.length = m.length) ∧
    (m.Put k v).1.hasher = m.hasher := by
  simp only [Unordered.Put]
  set m1 := if m.nextResize ≤ m.length then m.grow else m with hm1
  have h1 : m1.WF ∧ (∀ k2, m1.Get k2 = m.Get k2) ∧ m1.length = m.length ∧
      m1.hasher = m.hasher := by
    rw [hm1]
    by_cases hg : m.nextResize ≤ m.length
    · rw [if_pos hg]
      obtain ⟨hWF, hh, hl, _, _, _, hget⟩ := Unordered.grow_spec h
      exact ⟨hWF, hget, hl, hh⟩
    · rw [if_neg hg]
      exact ⟨h, fun _ => rfl, rfl, rfl⟩
  obtain ⟨hWF1, hget1, hlen1, hhash1⟩ := h1
  have hlt : m1.hasher k &&& m1.capMinus1 < m1.buckets.length := hWF1.core.home_lt _
  by_cases hfound : (chainSearch k (m1.buckets.getD (m1.hasher k &&& m1.capMinus1) [])).isSome = true
  · rw [if_pos hfound]
    have hGm1 : m1.Get k = chainSearch k (m1.buckets.getD (m1.hasher k &&& m1.capMinus1) []) := rfl
    have hnotnone : m.Get k ≠ none := by
      rw [← hget1 k, hGm1]
      intro hh
      rw [hh] at hfound
      exact Bool.noConfusion hfound
    refine ⟨?_, ?_, ?_, ?_, ?_, ?_, hhash1⟩
    · refine ⟨?_, ?_, ?_, ?_, ?_⟩
      · show m1.capMinus1 + 1 = (m1.buckets.set _ _).length
        rw [List.length_set]
        exact hWF1.cap_eq
      · show ∃ t, (m1.buckets.set _ _).length = 2 ^ t
        rw [List.length_set]
        exact hWF1.pow2
      · intro i x hx
        show m1.hasher x.key &&& m1.capMinus1 = i
        by_cases hi : (m1.hasher k &&& m1.capMinus1) = i
        · rw [← hi, getD_set_self _ _ _ _ hlt] at hx
          obtain ⟨nd0, hnd0, hkey⟩ := chainReplace_key_mem k v _ x hx
          rw [hkey, hWF1.idx_eq _ nd0 hnd0]
          exact hi
        · rw [getD_set_ne _ _ _ _ _ hi] at hx
          exact hWF1.idx_eq i x hx
      · intro i
        by_cases hi : (m1.hasher k &&& m1.capMinus1) = i
        · rw [← hi]
          show (((m1.buckets.set _ _).getD _ []).map UNode.key).Nodup
          rw [getD_set_self _ _ _ _ hlt, chainReplace_keys]
          exact hWF1.chains_nodup _
        · show (((m1.buckets.set _ _).getD i []).map UNode.key).Nodup
          rw [getD_set_ne _ _ _ _ _ hi]
          exact hWF1.chains_nodup i
      · show ((m1.buckets.set _ _).flatten).length ≤ m1.length
        have := flatten_length_set m1.buckets (m1.hasher k &&& m1.capMinus1)
          (chainReplace k v (m1.buckets.getD (m1.hasher k &&& m1.capMinus1) [])) hlt
        rw [chainReplace_length] at this
        have hc := hWF1.count_le
        omega
    · constructor
      · intro hh
        exact Bool.noConfusion hh
      · intro hh
        exact absurd hh hnotnone
    · show chainSearch k ((m1.buckets.set _ _).getD (m1.hasher k &&& m1.capMinus1) []) = some v
      rw [getD_set_self _ _ _ _ hlt]
      exact chainReplace_search_self k v _ hfound
    · intro k2 hk2
      rw [← hget1 k2]
      show chainSearch k2 ((m1.buckets.set _ _).getD (m1.hasher k2 &&& m1.capMinus1) [])
        = chainSearch k2 (m1.buckets.getD (m1.hasher k2 &&& m1.capMinus1) [])
      by_cases hi : (m1.hasher k &&& m1.capMinus1) = (m1.hasher k2 &&& m1.capMinus1)
      · rw [← hi, getD_set_self _ _ _ _ hlt]
        exact chainReplace_search_ne k k2 v _ hk2
      · rw [getD_set_ne _ _ _ _ _ hi]
    · intro hh
      exact Bool.noConfusion hh
    · intro _
      exact hlen1
  · rw [if_neg hfound]
    have hnone : chainSearch k (m1.buckets.getD (m1.hasher k &&& m1.capMinus1) []) = none :=
      Option.not_isSome_iff_eq_none.1 (by simpa using hfound)
    have hmnone : m.Get k = none := by
      rw [← hget1 k]
      exact hnone
    have hknotin : ∀ nd ∈ m1.buckets.getD (m1.hasher k &&& m1.capMinus1) [], nd.key ≠ k :=
      (chainSearch_eq_none_iff k _).1 hnone
    refine ⟨?_, ?_, ?_, ?_, ?_, ?_, hhash1⟩
    · refine ⟨?_, ?_, ?_, ?_, ?_⟩
      · show m1.capMinus1 + 1 = (m1.buckets.set _ _).length
        rw [List.length_set]
        exact hWF1.cap_eq
      · show ∃ t, (m1.buckets.set _ _).length = 2 ^ t
        rw [List.length_set]
        exact hWF1.pow2
      · intro i x hx
        show m1.hasher x.key &&& m1.capMinus1 = i
        by_cases hi : (m1.hasher k &&& m1.capMinus1) = i
        · rw [← hi, getD_set_self _ _ _ _ hlt] at hx
          rcases List.mem_cons.1 hx with rfl | hx
          · exact hi
          · rw [hWF1.idx_eq _ x hx]
            exact hi
        · rw [getD_set_ne _ _ _ _ _ hi] at hx
          exact hWF1.idx_eq i x hx
      · intro i
        by_cases hi : (m1.hasher k &&& m1.capMinus1) = i
        · rw [← hi]
          show (((m1.buckets.set _ _).getD _ []).map UNode.key).Nodup
          rw [getD_set_self _ _ _ _ hlt, List.map_cons, List.nodup_cons]
          refine ⟨?_, hWF1.chains_nodup _⟩
          intro hmem
          obtain ⟨x, hx, hkey⟩ := List.mem_map.1 hmem
          exact hknotin x hx hkey
        · show (((m1.buckets.set _ _).getD i []).map UNode.key).Nodup
          rw [getD_set_ne _ _ _ _ _ hi]
          exact hWF1.chains_nodup i
      · show ((m1.buckets.set _ _).flatten).length ≤ m1.length + 1
        have hperm := flatten_set_cons m1.buckets (m1.hasher k &&& m1.capMinus1)
          (⟨k, v⟩ : UNode K V) hlt
        rw [hperm.length_eq]
        have hc := hWF1.count_le
        simp only [List.length_cons]
        omega
    · exact ⟨fun _ => hmnone, fun _ => rfl⟩
    · show chainSearch k ((m1.buckets.set _ _).getD (m1.hasher k &&& m1.capMinus1) []) = some v
      rw [getD_set_self _ _ _ _ hlt]
      show (if (⟨k, v⟩ : UNode K V).key = k then some (⟨k, v⟩ : UNode K V).value else _) = some v
      rw [if_pos rfl]
    · intro k2 hk2
      rw [← hget1 k2]
      show chainSearch k2 ((m1.buckets.set _ _).getD (m1.hasher k2 &&& m1.capMinus1) [])
        = chainSearch k2 (m1.buckets.getD (m1.hasher k2 &&& m1.capMinus1) [])
      by_cases hi : (m1.hasher k &&& m1.capMinus1) = (m1.hasher k2 &&& m1.capMinus1)
      · rw [← hi, getD_set_self _ _ _ _ hlt]
        show (if (⟨k, v⟩ : UNode K V).key = k2 then some (⟨k, v⟩ : UNode K V).value else _) = _
        rw [if_neg (fun hh => hk2 (hh.symm))]
      · rw [getD_set_ne _ _ _ _ _ hi]
    · intro _
      show m1.length + 1 = m.length + 1
      rw [hlen1]
    · intro hh
      exact Bool.noConfusion hh

/-- remove_spec: functional correctness of Unordered.Remove on well formed
tables. -/
theorem Unordered.remove_spec [DecidableEq K] {m : Unordered K V} (h : m.WF) (k : K) :
    (m.Remove k).1.WF ∧
    ((m.Remove k).2 = true ↔ (m.Get k).isSome = true) ∧
    ((m.Remove k).2 = false → (m.Remove k).1 = m) ∧
    ((m.Remove k).2 = true →
      (m.Remove k).1.Get k = none ∧
      (∀ k2, k2 ≠ k → (m.Remove k).1.Get k2 = m.Get k2) ∧
      (m.Remove k).1.length + 1 = m.length ∧
      (m.Remove k).1.buckets.length = m.buckets.length) ∧
    (m.Remove k).1.maxLoad = m.maxLoad ∧
    (m.Remove k).1.nextResize = m.nextResize ∧
    (m.Remove k).1.buckets.length = m.buckets.length ∧
    (m.Remove k).1.length ≤ m.length := by
  have hlt : m.hasher k &&& m.capMinus1 < m.buckets.length := h.core.home_lt _
  have hG : m.Get k = chainSearch k (m.buckets.getD (m.hasher k &&& m.capMinus1) []) := rfl
  simp only [Unordered.Remove]
  cases hrem : chainRemoveFirst k (m.buckets.getD (m.hasher k &&& m.capMinus1) []) with
  | none =>
    have hnone2 : ¬ ∃ nd ∈ m.buckets.getD (m.hasher k &&& m.capMinus1) [], nd.key = k := by
      intro hex
      have := (chainRemoveFirst_isSome_iff k _).2 hex
      rw [hrem] at this
      exact Bool.noConfusion this
    have hnotfound : (m.Get k).isSome = false := by
      rw [hG, ← Bool.not_eq_true, chainSearch_isSome_iff]
      exact hnone2
    refine ⟨h, ⟨fun hh => Bool.noConfusion hh, fun hh => ?_⟩, fun _ => rfl,
      fun hh => Bool.noConfusion hh, rfl, rfl, rfl, Nat.le_refl _⟩
    rw [hnotfound] at hh
    exact Bool.noConfusion hh
  | some ch' =>
    have hfound : (m.Get k).isSome = true := by
      rw [hG, chainSearch_isSome_iff]
      have : (chainRemoveFirst k (m.buckets.getD (m.hasher k &&& m.capMinus1) [])).isSome = true := by
        rw [hrem]; rfl
      exact (chainRemoveFirst_isSome_iff k _).1 this
    have hcount1 : 1 ≤ m.buckets.flatten.length := by
      obtain ⟨nd, hnd, _⟩ := (chainSearch_isSome_iff k _).1 (hG ▸ hfound)
      have : nd ∈ m.buckets.flatten := by
        rw [mem_flatten_getD]
        exact ⟨_, hlt, hnd⟩
      have := List.length_pos_of_mem this
      omega
    have hlen1 : 1 ≤ m.length := le_trans hcount1 h.count_le
    have hchlen := chainRemoveFirst_length k _ ch' hrem
    have hWFr : ({ m with
        buckets := m.buckets.set (m.hasher k &&& m.capMinus1) ch'
        length := m.length - 1 } : Unordered K V).WF := by
      refine ⟨?_, ?_, ?_, ?_, ?_⟩
      · show m.capMinus1 + 1 = (m.buckets.set _ _).length
        rw [List.length_set]
        exact h.cap_eq
      · show ∃ t, (m.buckets.set _ _).length = 2 ^ t
        rw [List.length_set]
        exact h.pow2
      · intro i x hx
        show m.hasher x.key &&& m.capMinus1 = i
        by_cases hi : (m.hasher k &&& m.capMinus1) = i
        · rw [← hi, getD_set_self _ _ _ _ hlt] at hx
          exact hi ▸ h.idx_eq _ x (chainRemoveFirst_subset k _ ch' hrem x hx)
        · rw [getD_set_ne _ _ _ _ _ hi] at hx
          exact h.idx_eq i x hx
      · intro i
        by_cases hi : (m.hasher k &&& m.capMinus1) = i
        · rw [← hi]
          show (((m.buckets.set _ _).getD _ []).map UNode.key).Nodup
          rw [getD_set_self _ _ _ _ hlt]
          exact (chainRemoveFirst_keys_sublist k _ ch' hrem).nodup (h.chains_nodup _)
        · show (((m.buckets.set _ _).getD i []).map UNode.key).Nodup
          rw [getD_set_ne _ _ _ _ _ hi]
          exact h.chains_nodup i
      · show ((m.buckets.set _ _).flatten).length ≤ m.length - 1
        have := flatten_length_set m.buckets (m.hasher k &&& m.capMinus1) ch' hlt
        have hc := h.count_le
        omega
    refine ⟨hWFr, ⟨fun _ => hfound, fun _ => rfl⟩, fun hh => Bool.noConfusion hh, fun _ => ?_,
      rfl, rfl, by show (m.buckets.set _ _).length = m.buckets.length; rw [List.length_set],
      by show m.length - 1 ≤ m.length; omega⟩
    refine ⟨?_, ?_, by show m.length - 1 + 1 = m.length; omega,
      by show (m.buckets.set _ _).length = m.buckets.length; rw [List.length_set]⟩
    · show chainSearch k ((m.buckets.set _ _).getD (m.hasher k &&& m.capMinus1) []) = none
      rw [getD_set_self _ _ _ _ hlt, chainSearch_eq_none_iff]
      exact chainRemoveFirst_no_key k _ ch' (h.chains_nodup _) hrem
    · intro k2 hk2
      show chainSearch k2 ((m.buckets.set _ _).getD (m.hasher k2 &&& m.capMinus1) [])
        = chainSearch k2 (m.buckets.getD (m.hasher k2 &&& m.capMinus1) [])
      by_cases hi : (m.hasher k &&& m.capMinus1) = (m.hasher k2 &&& m.capMinus1)
      · rw [← hi, getD_set_self _ _ _ _ hlt]
        exact chainRemoveFirst_search_ne k k2 _ ch' hk2 hrem
      · rw [getD_set_ne _ _ _ _ _ hi]

/-- clear_spec: Unordered.Clear empties every chain, keeps the bucket
store, and needs no invariant at all. -/
theorem Unordered.clear_spec [DecidableEq K] {m : Unordered K V} (h : m.WF) :
    m.Clear.Size = 0 ∧ (∀ k, m.Clear.Get k = none) ∧
    m.Clear.buckets.length = m.buckets.length ∧ m.Clear.WF := by
  have hchains : ∀ i, m.Clear.buckets.getD i [] = [] := by
    intro i
    show (m.buckets.map (fun _ => [])).getD i [] = []
    rw [List.getD_eq_getElem?_getD, List.getElem?_map]
    cases m.buckets[i]? <;> rfl
  refine ⟨rfl, ?_, by simp [Unordered.Clear], ?_, ?_, ?_, ?_, ?_⟩
  · intro k
    show chainSearch k (m.Clear.buckets.getD _ []) = none
    rw [hchains]
    rfl
  · show m.capMinus1 + 1 = (m.buckets.map _).length
    rw [List.length_map]
    exact h.cap_eq
  · show ∃ t, (m.buckets.map _).length = 2 ^ t
    rw [List.length_map]
    exact h.pow2
  · intro i nd hnd
    rw [hchains] at hnd
    exact absurd hnd (List.not_mem_nil nd)
  · intro i
    rw [hchains]
    exact List.nodup_nil
  · show ((m.buckets.map _).flatten).length ≤ 0
    have : ∀ (l : List (List (UNode K V))), ((l.map (fun _ => ([] : List (UNode K V)))).flatten) = [] := by
      intro l
      induction l with
      | nil => rfl
      | cons hd tl ih => simp [ih]
    rw [this]
    exact Nat.le_refl 0

/-- maxload_spec: Unordered.MaxLoad errors exactly on nonpositive factors
(the upper bound of the documented interval is not checked by the source)
and never touches the bucket store. -/
theorem Unordered.maxload_spec [DecidableEq K] {m : Unordered K V} (h : m.WF) (lf : Frac) :
    ((m.MaxLoad lf).2 = true ↔ lf.num ≤ 0) ∧
    ((m.MaxLoad lf).2 = true → (m.MaxLoad lf).1 = m) ∧
    (m.MaxLoad lf).1.WF ∧
    (∀ k, (m.MaxLoad lf).1.Get k = m.Get k) ∧
    (m.MaxLoad lf).1.length = m.length ∧
    (m.MaxLoad lf).1.buckets = m.buckets := by
  by_cases hlf : lf.num ≤ 0
  · have he : m.MaxLoad lf = (m, true) := by rw [Unordered.MaxLoad, if_pos hlf]
    rw [he]
    exact ⟨iff_of_true rfl hlf, fun _ => rfl, h, fun _ => rfl, rfl, rfl⟩
  · have he : m.MaxLoad lf
        = ({ m with maxLoad := lf, nextResize := Frac.mulNatFloor m.buckets.length lf }, false) := by
      rw [Unordered.MaxLoad, if_neg hlf]
    rw [he]
    refine ⟨iff_of_false (fun hh => Bool.noConfusion hh) hlf,
      fun hh => Bool.noConfusion hh, ?_, fun _ => rfl, rfl, rfl⟩
    exact ⟨h.cap_eq, h.pow2, h.idx_eq, h.chains_nodup, h.count_le⟩

/-- reserve_spec: Unordered.Reserve keeps the invariant, the contents and
the counters, and never shrinks the bucket store. -/
theorem Unordered.reserve_spec [DecidableEq K] {m : Unordered K V} (h : m.WF) (n : Nat) :
    (m.Reserve n).WF ∧
    (∀ k, (m.Reserve n).Get k = m.Get k) ∧
    (m.Reserve n).length = m.length ∧
    (m.Reserve n).hasher = m.hasher ∧
    (m.Reserve n).maxLoad = m.maxLoad ∧
    m.buckets.length ≤ (m.Reserve n).buckets.length := by
  simp only [Unordered.Reserve]
  by_cases hc : m.buckets.length < NextPowerOf2 (Frac.divNatFloor n m.maxLoad)
  · rw [if_pos hc]
    rcases NextPowerOf2_pow2 (Frac.divNatFloor n m.maxLoad) with h0 | ⟨t, ht⟩
    · rw [h0] at hc
      omega
    · obtain ⟨hcore, e1, e2, e3, e4, e5, e6, hperm, hget⟩ :=
        Unordered.resize_spec h.core _ t ht
      refine ⟨⟨hcore.1, hcore.2.1, hcore.2.2.1, hcore.2.2.2, ?_⟩, hget, e3, e2, e4, ?_⟩
      · rw [hperm.length_eq, e3]
        exact h.count_le
      · rw [e6]
        omega
  · rw [if_neg hc]
    exact ⟨h, fun _ => rfl, rfl, rfl, rfl, Nat.le_refl _⟩

/-- putAll_spec: folding Put over fresh, duplicate free nodes. -/
theorem Unordered.putAll_spec [DecidableEq K] (nds : List (UNode K V)) :
    ∀ (acc : Unordered K V), acc.WF →
    (nds.map UNode.key).Nodup →
    (∀ nd ∈ nds, acc.Get nd.key = none) →
    (let r := nds.foldl (fun a nd => (a.Put nd.key nd.value).1) acc
     r.WF ∧ (∀ k, r.Get k = Option.or (chainSearch k nds) (acc.Get k)) ∧
     r.length = acc.length + nds.length ∧ r.hasher = acc.hasher) := by
  induction nds with
  | nil =>
    intro acc hacc _ _
    exact ⟨hacc, fun _ => rfl, rfl, rfl⟩
  | cons nd rest ih =>
    intro acc hacc hnodup hfresh
    simp only [List.foldl_cons]
    obtain ⟨hWF', hiff, hself, hother, hnew, _, hhash⟩ :=
      Unordered.put_spec hacc nd.key nd.value
    have hisnew : (acc.Put nd.key nd.value).2 = true :=
      hiff.2 (hfresh nd (List.mem_cons_self _ _))
    have hlen' := hnew hisnew
    have hfresh' : ∀ x ∈ rest, (acc.Put nd.key nd.value).1.Get x.key = none := by
      intro x hx
      have hne : x.key ≠ nd.key := by
        intro hh
        have : nd.key ∈ rest.map UNode.key := hh ▸ List.mem_map_of_mem UNode.key hx
        exact (List.nodup_cons.1 hnodup).1 this
      rw [hother x.key hne]
      exact hfresh x (List.mem_cons_of_mem _ hx)
    have hrec := ih (acc.Put nd.key nd.value).1 hWF' (List.nodup_cons.1 hnodup).2 hfresh'
    obtain ⟨hWFr, hgetr, hlenr, hhashr⟩ := hrec
    refine ⟨hWFr, ?_, ?_, hhashr.trans hhash⟩
    · intro k
      rw [hgetr k]
      by_cases hk : k = nd.key
      · have hrestnone : chainSearch k rest = none := by
          rw [chainSearch_eq_none_iff]
          intro x hx hkey
          have : nd.key ∈ rest.map UNode.key := by
            rw [← hk, ← hkey]
            exact List.mem_map_of_mem UNode.key hx
          exact (List.nodup_cons.1 hnodup).1 this
        rw [hrestnone, hk, hself]
        have : chainSearch nd.key (nd :: rest) = some nd.value := by
          rw [chainSearch, if_pos rfl]
        rw [this]
        rfl
      · have : chainSearch k (nd :: rest) = chainSearch k rest := by
          rw [chainSearch, if_neg (fun hh => hk hh.symm)]
        rw [this, hother k hk]
    · rw [hlenr, hlen']
      simp only [List.length_cons]
      omega

/-- copy_spec: Unordered.Copy keeps the observable contents but, through
the preset length field plus the re-inserting fold, doubles the reported
size (the source bug behind the copy claim). -/
theorem Unordered.copy_spec [DecidableEq K] {m : Unordered K V} (h : m.WF) :
    m.Copy.WF ∧
    (∀ k, m.Copy.Get k = m.Get k) ∧
    m.Copy.length = m.length + m.buckets.flatten.length ∧
    m.Copy.hasher = m.hasher := by
  set start : Unordered K V :=
    { buckets := List.replicate m.buckets.length []
      capMinus1 := m.capMinus1
      length := m.length
      hasher := m.hasher
      maxLoad := ⟨0, 1⟩
      nextResize := 0 } with hstart
  have hstartWF : start.WF := by
    refine ⟨?_, ?_, ?_, ?_, ?_⟩
    · show m.capMinus1 + 1 = (List.replicate m.buckets.length ([] : List (UNode K V))).length
      rw [List.length_replicate]
      exact h.cap_eq
    · show ∃ t, (List.replicate m.buckets.length ([] : List (UNode K V))).length = 2 ^ t
      rw [List.length_replicate]
      exact h.pow2
    · intro i nd hnd
      rw [show start.buckets = List.replicate m.buckets.length [] from rfl,
        getD_replicate_nil] at hnd
      exact absurd hnd (List.not_mem_nil nd)
    · intro i
      rw [show start.buckets = List.replicate m.buckets.length [] from rfl,
        getD_replicate_nil]
      exact List.nodup_nil
    · show ((List.replicate m.buckets.length ([] : List (UNode K V))).flatten).length ≤ m.length
      rw [flatten_replicate_nil]
      exact Nat.zero_le _
  have hstartGet : ∀ k, start.Get k = none := by
    intro k
    show chainSearch k (start.buckets.getD _ []) = none
    rw [show start.buckets = List.replicate m.buckets.length [] from rfl, getD_replicate_nil]
    rfl
  have hfold : m.Copy = (m.buckets.flatten).foldl (fun a nd => (a.Put nd.key nd.value).1) start := by
    rw [Unordered.Copy, List.foldl_flatten]
  have hkeysnodup : (m.buckets.flatten.map UNode.key).Nodup := h.core.flatten_keys_nodup
  have hfresh : ∀ nd ∈ m.buckets.flatten, start.Get nd.key = none := fun nd _ => hstartGet nd.key
  have hall := Unordered.putAll_spec m.buckets.flatten start hstartWF hkeysnodup hfresh
  obtain ⟨hWFr, hgetr, hlenr, hhashr⟩ := hall
  rw [← hfold] at hWFr hgetr hlenr hhashr
  refine ⟨hWFr, ?_, ?_, hhashr⟩
  · intro k
    rw [hgetr k, hstartGet k, option_or_none]
    exact (Unordered.get_eq_flatten_search h.core k).symm
  · rw [hlenr]

/-- foldl_preserve: a fold keeps any property its step keeps. -/
theorem foldl_preserve {α β : Type} (P : α → Prop) (f : α → β → α) (l : List β)
    (h : ∀ a b, P a → P (f a b)) : ∀ a, P a → P (l.foldl f a) := by
  induction l with
  | nil => exact fun a ha => ha
  | cons b rest ih => exact fun a ha => ih (f a b) (h a b ha)

/-- mulNatFloor_lt: scaling by a factor below one shrinks a positive
count. -/
theorem Frac.mulNatFloor_lt (n : Nat) (f : Frac) (hn : 0 < n) (h0 : 0 ≤ f.num)
    (hlt : f.num < f.den) : Frac.mulNatFloor n f < n := by
  unfold Frac.mulNatFloor
  have hden : 0 < f.den := by omega
  have ht : f.num.toNat < f.den := by omega
  rw [Nat.div_lt_iff_lt_mul hden]
  exact mul_lt_mul_of_pos_left ht hn

/-- new_eq: the concrete start state of the unordered map. -/
theorem Unordered.new_eq (hasher : K → Nat) :
    (Unordered.NewWithHasher hasher : Unordered K V)
      = { buckets := List.replicate 8 []
          hasher := hasher
          length := 0
          capMinus1 := 7
          nextResize := 5
          maxLoad := ⟨7, 10⟩ } := by
  have h5 : Frac.divNatFloor DefaultSize DefaultMaxLoad = 5 := rfl
  have h8 : NextPowerOf2 5 = 8 := rfl
  have hm : Frac.mulNatFloor 8 DefaultMaxLoad = 5 := rfl
  simp only [Unordered.NewWithHasher, Unordered.Reserve, h5, h8, List.length_nil,
    Unordered.resize, List.foldl_nil, hm]
  norm_num
  rfl

/-- new_WF: the fresh unordered map is well formed with a checked load
state. -/
theorem Unordered.new_WF (hasher : K → Nat) :
    ((Unordered.NewWithHasher hasher : Unordered K V)).WF ∧
    ((Unordered.NewWithHasher hasher : Unordered K V)).LoadWF := by
  rw [Unordered.new_eq]
  constructor
  · refine ⟨?_, ⟨3, ?_⟩, ?_, ?_, ?_⟩
    · show 7 + 1 = (List.replicate 8 ([] : List (UNode K V))).length
      rw [List.length_replicate]
    · show (List.replicate 8 ([] : List (UNode K V))).length = 2 ^ 3
      rw [List.length_replicate]
      norm_num
    · intro i nd hnd
      rw [getD_replicate_nil] at hnd
      exact absurd hnd (List.not_mem_nil nd)
    · intro i
      rw [getD_replicate_nil]
      exact List.nodup_nil
    · show ((List.replicate 8 ([] : List (UNode K V))).flatten).length ≤ 0
      rw [flatten_replicate_nil]
      exact Nat.le_refl 0
  · refine ⟨by norm_num, by norm_num, ?_, ?_⟩
    · show (5 : Nat) = Frac.mulNatFloor (List.replicate 8 ([] : List (UNode K V))).length ⟨7, 10⟩
      rw [List.length_replicate]
      decide
    · show (0 : Nat) < (List.replicate 8 ([] : List (UNode K V))).length
      rw [List.length_replicate]
      omega

/-- reachable_WF: every reachable unordered table is well formed. -/
theorem Unordered.reachable_WF [DecidableEq K] {m : Unordered K V}
    (h : m.Reachable) : m.WF := by
  induction h with
  | new hasher => exact (Unordered.new_WF hasher).1
  | put k v _ ih => exact (Unordered.put_spec ih k v).1
  | remove k _ ih => exact (Unordered.remove_spec ih k).1
  | clear _ ih => exact (Unordered.clear_spec ih).2.2.2
  | reserve n _ ih => exact (Unordered.reserve_spec ih n).1
  | maxload lf _ ih => exact (Unordered.maxload_spec ih lf).2.2.1
  | copy _ ih => exact (Unordered.copy_spec ih).1

/-- put_fields: how Unordered.Put moves the bucket count and the resize
threshold. -/
theorem Unordered.put_fields [DecidableEq K] {m : Unordered K V} (h : m.WF) (k : K) (v : V) :
    (m.Put k v).1.maxLoad = m.maxLoad ∧
    ((¬ m.nextResize ≤ m.length ∧
      (m.Put k v).1.buckets.length = m.buckets.length ∧
      (m.Put k v).1.nextResize = m.nextResize) ∨
     (m.nextResize ≤ m.length ∧
      (m.Put k v).1.buckets.length = 2 * m.buckets.length ∧
      (m.Put k v).1.nextResize = Frac.mulNatFloor (2 * m.buckets.length) m.maxLoad)) := by
  simp only [Unordered.Put]
  set m1 := if m.nextResize ≤ m.length then m.grow else m with hm1
  have h1 : m1.maxLoad = m.maxLoad ∧
      ((¬ m.nextResize ≤ m.length ∧ m1.buckets.length = m.buckets.length ∧
        m1.nextResize = m.nextResize) ∨
       (m.nextResize ≤ m.length ∧ m1.buckets.length = 2 * m.buckets.length ∧
        m1.nextResize = Frac.mulNatFloor (2 * m.buckets.length) m.maxLoad)) := by
    rw [hm1]
    by_cases hg : m.nextResize ≤ m.length
    · rw [if_pos hg]
      obtain ⟨_, _, _, hml, hblen, hnr, _⟩ := Unordered.grow_spec h
      exact ⟨hml, Or.inr ⟨hg, hblen, hnr⟩⟩
    · rw [if_neg hg]
      exact ⟨rfl, Or.inl ⟨hg, rfl, rfl⟩⟩
  obtain ⟨hml, hbranch⟩ := h1
  by_cases hfound : (chainSearch k (m1.buckets.getD (m1.hasher k &&& m1.capMinus1) [])).isSome = true
  · rw [if_pos hfound]
    refine ⟨hml, ?_⟩
    rcases hbranch with ⟨ha, hb, hc⟩ | ⟨ha, hb, hc⟩
    · exact Or.inl ⟨ha, by rw [← hb]; exact List.length_set _ _ _, hc⟩
    · exact Or.inr ⟨ha, by rw [← hb]; exact List.length_set _ _ _, hc⟩
  · rw [if_neg hfound]
    refine ⟨hml, ?_⟩
    rcases hbranch with ⟨ha, hb, hc⟩ | ⟨ha, hb, hc⟩
    · exact Or.inl ⟨ha, by rw [← hb]; exact List.length_set _ _ _, hc⟩
    · exact Or.inr ⟨ha, by rw [← hb]; exact List.length_set _ _ _, hc⟩

/-- put_load: Unordered.Put keeps the checked load invariant. -/
theorem Unordered.put_load [DecidableEq K] {m : Unordered K V} (h : m.WF)
    (hl : m.LoadWF) (k : K) (v : V) : (m.Put k v).1.LoadWF := by
  obtain ⟨hWF', _, _, _, hnew, hupd, _⟩ := Unordered.put_spec h k v
  obtain ⟨hml, hbranch⟩ := Unordered.put_fields h k v
  have hcpos : 0 < m.buckets.length := h.core.c_pos
  have hlen' : (m.Put k v).1.length ≤ m.length + 1 := by
    cases hb : (m.Put k v).2
    · rw [hupd hb]; omega
    · rw [hnew hb]
  rcases hbranch with ⟨hg, hblen, hnr⟩ | ⟨hg, hblen, hnr⟩
  · have hthr : m.nextResize < m.buckets.length := by
      rw [hl.next_eq]
      exact Frac.mulNatFloor_lt _ _ hcpos hl.maxLoad_nonneg hl.maxLoad_lt
    refine ⟨?_, ?_, ?_, ?_⟩
    · rw [hml]; exact hl.maxLoad_nonneg
    · rw [hml]; exact hl.maxLoad_lt
    · rw [hnr, hblen, hml]; exact hl.next_eq
    · rw [hblen]
      omega
  · refine ⟨?_, ?_, ?_, ?_⟩
    · rw [hml]; exact hl.maxLoad_nonneg
    · rw [hml]; exact hl.maxLoad_lt
    · rw [hnr, hblen, hml]
    · rw [hblen]
      have := hl.len_lt
      omega

/-- load lemmas for the remaining operations. -/
theorem Unordered.remove_load [DecidableEq K] {m : Unordered K V} (h : m.WF)
    (hl : m.LoadWF) (k : K) : (m.Remove k).1.LoadWF := by
  obtain ⟨_, _, _, _, hml, hnr, hblen, hlen⟩ := Unordered.remove_spec h k
  refine ⟨?_, ?_, ?_, ?_⟩
  · rw [hml]; exact hl.maxLoad_nonneg
  · rw [hml]; exact hl.maxLoad_lt
  · rw [hnr, hblen, hml]; exact hl.next_eq
  · rw [hblen]
    have := hl.len_lt
    omega

theorem Unordered.clear_load [DecidableEq K] {m : Unordered K V} (h : m.WF)
    (hl : m.LoadWF) : m.Clear.LoadWF := by
  have hblen : m.Clear.buckets.length = m.buckets.length := by simp [Unordered.Clear]
  refine ⟨hl.maxLoad_nonneg, hl.maxLoad_lt, ?_, ?_⟩
  · show m.nextResize = _
    rw [hblen]
    exact hl.next_eq
  · show 0 < m.Clear.buckets.length
    rw [hblen]
    exact h.core.c_pos

theorem Unordered.reserve_load [DecidableEq K] {m : Unordered K V} (h : m.WF)
    (hl : m.LoadWF) (n : Nat) : (m.Reserve n).LoadWF := by
  simp only [Unordered.Reserve]
  by_cases hc : m.buckets.length < NextPowerOf2 (Frac.divNatFloor n m.maxLoad)
  · rw [if_pos hc]
    rcases NextPowerOf2_pow2 (Frac.divNatFloor n m.maxLoad) with h0 | ⟨t, ht⟩
    · rw [h0] at hc
      omega
    · obtain ⟨hcore, e1, e2, e3, e4, e5, e6, hperm, hget⟩ :=
        Unordered.resize_spec h.core _ t ht
      refine ⟨?_, ?_, ?_, ?_⟩
      · rw [e4]; exact hl.maxLoad_nonneg
      · rw [e4]; exact hl.maxLoad_lt
      · rw [e5, e6, e4]
      · rw [e6, e3]
        have := hl.len_lt
        omega
  · rw [if_neg hc]
    exact hl

theorem Unordered.maxload_load [DecidableEq K] {m : Unordered K V} (h : m.WF)
    (hl : m.LoadWF) (lf : Frac) (h0 : 0 < lf.num) (h1 : lf.num < lf.den) :
    (m.MaxLoad lf).1.LoadWF := by
  have hlf : ¬ lf.num ≤ 0 := by omega
  have he : m.MaxLoad lf
      = ({ m with maxLoad := lf, nextResize := Frac.mulNatFloor m.buckets.length lf }, false) := by
    rw [Unordered.MaxLoad, if_neg hlf]
  rw [he]
  exact ⟨by show (0 : Int) ≤ lf.num; omega, h1, rfl, hl.len_lt⟩

theorem Unordered.copy_load [DecidableEq K] {m : Unordered K V} (hWF : m.WF)
    (hl : m.LoadWF) : m.Copy.LoadWF := by
  have hfold : m.Copy = (m.buckets.flatten).foldl (fun a nd => (a.Put nd.key nd.value).1)
      ({ buckets := List.replicate m.buckets.length []
         capMinus1 := m.capMinus1
         length := m.length
         hasher := m.hasher
         maxLoad := ⟨0, 1⟩
         nextResize := 0 } : Unordered K V) := by
    rw [Unordered.Copy, List.foldl_flatten]
  set start : Unordered K V :=
    { buckets := List.replicate m.buckets.length []
      capMinus1 := m.capMinus1
      length := m.length
      hasher := m.hasher
      maxLoad := ⟨0, 1⟩
      nextResize := 0 } with hstart
  have hstartWF : start.WF ∧ start.LoadWF := by
    constructor
    · refine ⟨?_, ?_, ?_, ?_, ?_⟩
      · show m.capMinus1 + 1 = (List.replicate m.buckets.length ([] : List (UNode K V))).length
        rw [List.length_replicate]
        exact hWF.cap_eq
      · show ∃ t, (List.replicate m.buckets.length ([] : List (UNode K V))).length = 2 ^ t
        rw [List.length_replicate]
        exact hWF.pow2
      · intro i nd hnd
        rw [show start.buckets = List.replicate m.buckets.length [] from rfl,
          getD_replicate_nil] at hnd
        exact absurd hnd (List.not_mem_nil nd)
      · intro i
        rw [show start.buckets = List.replicate m.buckets.length [] from rfl,
          getD_replicate_nil]
        exact List.nodup_nil
      · show ((List.replicate m.buckets.length ([] : List (UNode K V))).flatten).length ≤ m.length
        rw [flatten_replicate_nil]
        exact Nat.zero_le _
    · refine ⟨by show (0 : Int) ≤ (0 : Int); omega,
        by show (0 : Int) < ((1 : Nat) : Int); norm_num, ?_, ?_⟩
      · show (0 : Nat) = Frac.mulNatFloor (List.replicate m.buckets.length ([] : List (UNode K V))).length ⟨0, 1⟩
        unfold Frac.mulNatFloor
        simp
      · show m.length < (List.replicate m.buckets.length ([] : List (UNode K V))).length
        rw [List.length_replicate]
        exact hl.len_lt
  rw [hfold]
  have hpres := foldl_preserve (fun a : Unordered K V => a.WF ∧ a.LoadWF)
    (fun a nd => (a.Put nd.key nd.value).1) m.buckets.flatten
    (fun a nd hp => ⟨(Unordered.put_spec hp.1 nd.key nd.value).1,
      Unordered.put_load hp.1 hp.2 nd.key nd.value⟩)
  exact (hpres start hstartWF).2

/-- reachableChecked_WF: reachability with checked max-load calls gives
both invariants. -/
theorem Unordered.reachableChecked_WF [DecidableEq K] {m : Unordered K V}
    (h : m.ReachableChecked) : m.WF ∧ m.LoadWF := by
  induction h with
  | new hasher => exact Unordered.new_WF hasher
  | put k v _ ih =>
    exact ⟨(Unordered.put_spec ih.1 k v).1, Unordered.put_load ih.1 ih.2 k v⟩
  | remove k _ ih =>
    exact ⟨(Unordered.remove_spec ih.1 k).1, Unordered.remove_load ih.1 ih.2 k⟩
  | clear _ ih =>
    exact ⟨(Unordered.clear_spec ih.1).2.2.2, Unordered.clear_load ih.1 ih.2⟩
  | reserve n _ ih =>
    exact ⟨(Unordered.reserve_spec ih.1 n).1, Unordered.reserve_load ih.1 ih.2 n⟩
  | maxload lf h0 h1 _ ih =>
    exact ⟨(Unordered.maxload_spec ih.1 lf).2.2.1, Unordered.maxload_load ih.1 ih.2 lf h0 h1⟩
  | copy _ ih =>
    exact ⟨(Unordered.copy_spec ih.1).1, Unordered.copy_load ih.1 ih.2⟩

/-- load_value: the reported load is exactly length over bucket count, and
it stays inside the unit interval when the length invariant holds. -/
theorem Unordered.load_value (m : Unordered K V) (hc : 0 < m.buckets.length)
    (hlen : m.length < m.buckets.length) :
    m.Load = (m.length : ℚ) / (m.buckets.length : ℚ) ∧ 0 ≤ m.Load ∧ m.Load < 1 := by
  refine ⟨rfl, ?_, ?_⟩
  · show 0 ≤ (m.length : ℚ) / (m.buckets.length : ℚ)
    positivity
  · show (m.length : ℚ) / (m.buckets.length : ℚ) < 1
    rw [div_lt_one (by exact_mod_cast hc)]
    exact_mod_cast hlen

/-! Cyclic distance toolkit for the probing proofs. -/

theorem cycDist_lt (c a b : Nat) (hc : 0 < c) : cycDist c a b < c :=
  Nat.mod_lt _ hc

theorem cycDist_self (c a : Nat) : cycDist c a a = 0 := by
  unfold cycDist
  have h : a + c - a = c := by omega
  rw [h, Nat.mod_self]

theorem cyc_recover (c a b : Nat) (ha : a < c) (hb : b < c) :
    (a + cycDist c a b) % c = b := by
  unfold cycDist
  rw [Nat.add_mod, Nat.mod_mod, ← Nat.add_mod]
  have h : a + (b + c - a) = b + c := by omega
  rw [h, Nat.add_mod_right, Nat.mod_eq_of_lt hb]

theorem cycDist_add (c a t : Nat) (ha : a < c) (ht : t < c) :
    cycDist c a ((a + t) % c) = t := by
  unfold cycDist
  have h1 : (a + t) % c + c - a = (a + t) % c + (c - a) := by omega
  rw [h1, Nat.mod_add_mod]
  have h2 : a + t + (c - a) = t + c := by omega
  rw [h2, Nat.add_mod_right, Nat.mod_eq_of_lt ht]

theorem cycDist_inj (c a b b' : Nat) (ha : a < c) (hb : b < c) (hb' : b' < c)
    (h : cycDist c a b = cycDist c a b') : b = b' := by
  have h1 := cyc_recover c a b ha hb
  have h2 := cyc_recover c a b' ha hb'
  rw [h] at h1
  rw [h1] at h2
  exact h2

theorem cycDist_eq_zero (c a b : Nat) (ha : a < c) (hb : b < c)
    (h : cycDist c a b = 0) : a = b := by
  have h1 := cyc_recover c a b ha hb
  rw [h, Nat.add_zero, Nat.mod_eq_of_lt ha] at h1
  exact h1

theorem cycDist_eval (c a b : Nat) (ha : a < c) (hb : b < c) :
    cycDist c a b = if a ≤ b then b - a else b + c - a := by
  unfold cycDist
  by_cases hab : a ≤ b
  · rw [if_pos hab]
    have h1 : b + c - a = b - a + c := by omega
    rw [h1, Nat.add_mod_right]
    exact Nat.mod_eq_of_lt (by omega)
  · rw [if_neg hab]
    exact Nat.mod_eq_of_lt (by omega)

theorem cyc_shift (c j h x : Nat) (hj : j < c) (hh : h < c) (hx : x < c) :
    cycDist c h x = cycDist c (cycDist c j h) (cycDist c j x) := by
  have hc : 0 < c := Nat.lt_of_le_of_lt (Nat.zero_le j) hj
  have hA : cycDist c j h < c := cycDist_lt c j h hc
  have hB : cycDist c j x < c := cycDist_lt c j x hc
  have hh2 : (j + cycDist c j h) % c = h := cyc_recover c j h hj hh
  have hx2 : (j + cycDist c j x) % c = x := cyc_recover c j x hj hx
  set A := cycDist c j h with hAdef
  set B := cycDist c j x with hBdef
  show cycDist c h x = cycDist c A B
  unfold cycDist
  rw [← hh2, ← hx2]
  rcases Nat.lt_or_ge (j + A) c with hja | hja <;>
    rcases Nat.lt_or_ge (j + B) c with hjb | hjb
  · rw [Nat.mod_eq_of_lt hja, Nat.mod_eq_of_lt hjb]
    have h1 : j + B + c - (j + A) = B + c - A := by omega
    rw [h1]
  · have hb1 : (j + B) % c = j + B - c := by
      rw [Nat.mod_eq_sub_mod hjb]
      exact Nat.mod_eq_of_lt (by omega)
    rw [Nat.mod_eq_of_lt hja, hb1]
    have hBA : A < B := by omega
    have h1 : j + B - c + c - (j + A) = B - A := by omega
    have h2 : B + c - A = B - A + c := by omega
    rw [h1, h2, Nat.add_mod_right]
  · have ha1 : (j + A) % c = j + A - c := by
      rw [Nat.mod_eq_sub_mod hja]
      exact Nat.mod_eq_of_lt (by omega)
    rw [Nat.mod_eq_of_lt hjb, ha1]
    have h1 : j + B + c - (j + A - c) = B + c - A + c := by omega
    rw [h1, Nat.add_mod_right]
  · have ha1 : (j + A) % c = j + A - c := by
      rw [Nat.mod_eq_sub_mod hja]
      exact Nat.mod_eq_of_lt (by omega)
    have hb1 : (j + B) % c = j + B - c := by
      rw [Nat.mod_eq_sub_mod hjb]
      exact Nat.mod_eq_of_lt (by omega)
    rw [ha1, hb1]
    have h1 : j + B - c + c - (j + A - c) = B + c - A := by omega
    rw [h1]

/-! List toolkit for the open-addressing stores. -/

theorem getD_replicate {α : Type} (n i : Nat) (x : α) :
    (List.replicate n x).getD i x = x := by
  rcases Nat.lt_or_ge i n with h | h
  · rw [List.getD_eq_getElem?_getD, List.getElem?_eq_getElem (by simpa using h)]
    simp
  · rw [List.getD_eq_getElem?_getD, List.getElem?_eq_none (by simpa using h)]
    rfl

theorem filterMap_cons_toList {α β : Type} (f : α → Option β) (a : α) (t : List α) :
    (a :: t).filterMap f = (f a).toList ++ t.filterMap f := by
  cases h : f a <;> simp [List.filterMap_cons, h]

theorem filterMap_set_perm {α β : Type} (f : α → Option β) :
    ∀ (l : List α) (i : Nat) (x : α) (h : i < l.length),
    ((l.set i x).filterMap f ++ (f (l.get ⟨i, h⟩)).toList).Perm
      (l.filterMap f ++ (f x).toList)
  | [], i, x, h => absurd h (by simp)
  | a :: t, 0, x, h => by
    simp only [List.set_cons_zero, List.get]
    rw [filterMap_cons_toList, filterMap_cons_toList]
    have step1 : ((f x).toList ++ t.filterMap f) ++ (f a).toList =
        (f x).toList ++ (t.filterMap f ++ (f a).toList) := by
      rw [List.append_assoc]
    rw [step1]
    refine List.Perm.trans List.perm_append_comm ?_
    exact List.Perm.append_right _ List.perm_append_comm
  | a :: t, i + 1, x, h => by
    simp only [List.set_cons_succ, List.get]
    rw [filterMap_cons_toList, filterMap_cons_toList]
    rw [List.append_assoc, List.append_assoc]
    exact List.Perm.append_left _
      (filterMap_set_perm f t i x (by simpa using h))

theorem length_filterMap_of_all {α β : Type} (f : α → Option β) :
    ∀ l : List α, (∀ a ∈ l, (f a).isSome) → (l.filterMap f).length = l.length
  | [], _ => rfl
  | a :: t, h => by
    have ha : (f a).isSome := h a (by simp)
    rcases Option.isSome_iff_exists.mp ha with ⟨b, hb⟩
    rw [filterMap_cons_toList, hb]
    simp only [Option.toList_some, List.length_append, List.length_cons]
    have := length_filterMap_of_all f t (fun x hx => h x (by simp [hx]))
    simp [this]
    omega

theorem filterMap_of_all_none {α β : Type} (f : α → Option β) :
    ∀ l : List α, (∀ a ∈ l, f a = none) → l.filterMap f = []
  | [], _ => rfl
  | a :: t, h => by
    rw [filterMap_cons_toList, h a (by simp)]
    exact filterMap_of_all_none f t (fun x hx => h x (by simp [hx]))

theorem pair_sublist {α : Type} (l : List α) (i j : Nat) (hij : i < j)
    (hj : j < l.length) :
    List.Sublist [l.get ⟨i, Nat.lt_trans hij hj⟩, l.get ⟨j, hj⟩] l := by
  have hi : i < l.length := Nat.lt_trans hij hj
  have hsplit : l.take (i + 1) ++ l.drop (i + 1) = l := List.take_append_drop _ _
  have h1 : [l.get ⟨i, hi⟩].Sublist (l.take (i + 1)) := by
    rw [List.singleton_sublist]
    have hlen : i < (l.take (i + 1)).length := by
      rw [List.length_take]
      omega
    have : (l.take (i + 1)).get ⟨i, hlen⟩ = l.get ⟨i, hi⟩ := by
      simp [List.get_eq_getElem, List.getElem_take]
    rw [← this]
    exact List.get_mem _ _ hlen
  have h2 : [l.get ⟨j, hj⟩].Sublist (l.drop (i + 1)) := by
    rw [List.singleton_sublist]
    have hlen : j - (i + 1) < (l.drop (i + 1)).length := by
      rw [List.length_drop]
      omega
    have : (l.drop (i + 1)).get ⟨j - (i + 1), hlen⟩ = l.get ⟨j, hj⟩ := by
      simp only [List.get_eq_getElem, List.getElem_drop]
      congr 1
      omega
    rw [← this]
    exact List.get_mem _ _ hlen
  have h3 := List.Sublist.append h1 h2
  rw [hsplit] at h3
  exact h3

/-! liveEntries toolkit. -/

theorem Flat.nthBucket_eq_get [Inhabited V] (m : Flat K V) (i : Nat)
    (h : i < m.buckets.length) :
    m.nthBucket i = m.buckets.get ⟨i, h⟩ := by
  unfold Flat.nthBucket
  rw [getD_eq_getElem_of_lt _ _ _ h]
  rfl

theorem Flat.fmem_liveEntries [DecidableEq K] [Inhabited V] (m : Flat K V)
    (k : K) (v : V) :
    (k, v) ∈ m.liveEntries ↔
      ¬ k = m.empty ∧ ∃ i, i < m.buckets.length ∧ m.nthBucket i = ⟨k, v⟩ := by
  unfold Flat.liveEntries
  rw [List.mem_filterMap]
  constructor
  · rintro ⟨a, ha, hfa⟩
    by_cases hk : a.key = m.empty
    · rw [if_pos (by simpa using hk)] at hfa
      exact absurd hfa (by simp)
    · rw [if_neg (by simpa using hk)] at hfa
      have hkey : a.key = k := congrArg Prod.fst (Option.some.inj hfa)
      have hval : a.value = v := congrArg Prod.snd (Option.some.inj hfa)
      obtain ⟨i, hi, hgot⟩ := List.mem_iff_getElem.1 ha
      refine ⟨by rw [← hkey]; exact hk, i, hi, ?_⟩
      rw [Flat.nthBucket_eq_get m i hi]
      simp only [List.get_eq_getElem]
      rw [hgot, ← hkey, ← hval]
  · rintro ⟨hk, i, hi, hnth⟩
    refine ⟨m.buckets.get ⟨i, hi⟩, List.get_mem _ _ _, ?_⟩
    rw [← Flat.nthBucket_eq_get m i hi, hnth]
    rw [if_neg (by simpa using hk)]

theorem Flat.fnodup_slot_aux [DecidableEq K] [Inhabited V] (m : Flat K V)
    (hnd : (m.liveEntries.map Prod.fst).Nodup) (i j : Nat) (hij : i < j)
    (hj : j < m.buckets.length)
    (hi2 : ¬ (m.nthBucket i).key = m.empty)
    (hj2 : ¬ (m.nthBucket j).key = m.empty) :
    ¬ (m.nthBucket i).key = (m.nthBucket j).key := by
  intro heq
  have hi : i < m.buckets.length := Nat.lt_trans hij hj
  have hsub := pair_sublist m.buckets i j hij hj
  have hsub2 := hsub.filterMap
    (fun b => if b.key == m.empty then none else some (b.key, b.value))
  rw [Flat.nthBucket_eq_get m i hi] at hi2 heq
  rw [Flat.nthBucket_eq_get m j hj] at hj2 heq
  rw [List.filterMap_cons, List.filterMap_cons] at hsub2
  rw [if_neg (by simpa using hi2), if_neg (by simpa using hj2)] at hsub2
  have hsub3 : List.Sublist
      [(m.buckets.get ⟨i, hi⟩).key, (m.buckets.get ⟨j, hj⟩).key]
      (m.liveEntries.map Prod.fst) := by
    have := hsub2.map Prod.fst
    unfold Flat.liveEntries
    simpa using this
  have := hnd.sublist hsub3
  rw [heq] at this
  simp at this

theorem Flat.fnodup_slot [DecidableEq K] [Inhabited V] (m : Flat K V)
    (hnd : (m.liveEntries.map Prod.fst).Nodup) (i j : Nat)
    (hi : i < m.buckets.length) (hj : j < m.buckets.length)
    (hi2 : ¬ (m.nthBucket i).key = m.empty)
    (hj2 : ¬ (m.nthBucket j).key = m.empty)
    (heq : (m.nthBucket i).key = (m.nthBucket j).key) : i = j := by
  rcases Nat.lt_trichotomy i j with h | h | h
  · exact absurd heq (Flat.fnodup_slot_aux m hnd i j h hj hi2 hj2)
  · exact h
  · exact absurd heq.symm (Flat.fnodup_slot_aux m hnd j i h hi hj2 hi2)

theorem Flat.fexists_empty [DecidableEq K] [Inhabited V] (m : Flat K V)
    (h : m.liveEntries.length < m.buckets.length) :
    ∃ e, e < m.buckets.length ∧ (m.nthBucket e).key = m.empty := by
  by_contra hc
  push_neg at hc
  have hall : ∀ a ∈ m.buckets,
      ((fun b : FBucket K V =>
        if b.key == m.empty then none else some (b.key, b.value)) a).isSome := by
    intro a ha
    obtain ⟨i, hi, hgot⟩ := List.mem_iff_getElem.1 ha
    have hne : ¬ a.key = m.empty := by
      have := hc i hi
      rw [Flat.nthBucket_eq_get m i hi] at this
      simp only [List.get_eq_getElem] at this
      rw [hgot] at this
      exact this
    simp [hne]
  have := length_filterMap_of_all _ m.buckets hall
  unfold Flat.liveEntries at h
  omega

/-! Probe loop characterization. -/

theorem Flat.probe_characterize [Inhabited V] (m : Flat K V) (p : K → Bool)
    (hc : m.capMinus1 + 1 = m.buckets.length) (ht : ∃ t, m.buckets.length = 2 ^ t)
    (fuel : Nat) :
    ∀ start, start < m.buckets.length →
      (m.probe p fuel start = none ∧
        ∀ u, u < fuel →
          p (m.nthBucket ((start + u) % m.buckets.length)).key = false) ∨
      (∃ t, t < fuel ∧
        m.probe p fuel start = some ((start + t) % m.buckets.length) ∧
        p (m.nthBucket ((start + t) % m.buckets.length)).key = true ∧
        ∀ u, u < t →
          p (m.nthBucket ((start + u) % m.buckets.length)).key = false) := by
  induction fuel with
  | zero =>
    intro start hs
    left
    exact ⟨rfl, fun u hu => absurd hu (Nat.not_lt_zero u)⟩
  | succ n ih =>
    intro start hs
    have hcpos : 0 < m.buckets.length := by omega
    have hstep : m.probe p (n + 1) start =
        if p (m.nthBucket start).key then some start
        else m.probe p n ((start + 1) &&& m.capMinus1) := rfl
    have hmask : (start + 1) &&& m.capMinus1 = (start + 1) % m.buckets.length := by
      obtain ⟨t, htt⟩ := ht
      have h2 := mask_eq_mod m.capMinus1 (start + 1) t (by rw [hc]; exact htt)
      rw [h2, hc]
    have hidx : ∀ u : Nat,
        ((start + 1) % m.buckets.length + u) % m.buckets.length =
          (start + (u + 1)) % m.buckets.length := by
      intro u
      rw [Nat.mod_add_mod]
      congr 1
      omega
    by_cases hp : p (m.nthBucket start).key = true
    · right
      refine ⟨0, by omega, ?_, ?_, fun u hu => absurd hu (Nat.not_lt_zero u)⟩
      · rw [hstep, if_pos hp, Nat.add_zero, Nat.mod_eq_of_lt hs]
      · rw [Nat.add_zero, Nat.mod_eq_of_lt hs]
        exact hp
    · have hs1 : (start + 1) % m.buckets.length < m.buckets.length :=
        Nat.mod_lt _ hcpos
      rcases ih ((start + 1) % m.buckets.length) hs1 with
        ⟨hnone, hall⟩ | ⟨t, htf, hsome, hstop, hmin⟩
      · left
        constructor
        · rw [hstep, if_neg hp, hmask]
          exact hnone
        · intro u hu
          match u with
          | 0 =>
            rw [Nat.add_zero, Nat.mod_eq_of_lt hs]
            exact Bool.eq_false_iff.mpr hp
          | u + 1 =>
            have h3 := hall u (by omega)
            rw [hidx u] at h3
            exact h3
      · right
        refine ⟨t + 1, by omega, ?_, ?_, ?_⟩
        · rw [hstep, if_neg hp, hmask, hsome, hidx t]
        · have h3 := hstop
          rw [hidx t] at h3
          exact h3
        · intro u hu
          match u with
          | 0 =>
            rw [Nat.add_zero, Nat.mod_eq_of_lt hs]
            exact Bool.eq_false_iff.mpr hp
          | u + 1 =>
            have h3 := hmin u (by omega)
            rw [hidx u] at h3
            exact h3

theorem Flat.probe_spec_some [Inhabited V] (m : Flat K V) (p : K → Bool)
    (hc : m.capMinus1 + 1 = m.buckets.length) (ht : ∃ t, m.buckets.length = 2 ^ t)
    (start j : Nat) (hs : start < m.buckets.length)
    (hres : m.probe p m.buckets.length start = some j) :
    j < m.buckets.length ∧ p (m.nthBucket j).key = true ∧
      ∀ u, u < m.buckets.length →
        cycDist m.buckets.length start u < cycDist m.buckets.length start j →
        p (m.nthBucket u).key = false := by
  have hcpos : 0 < m.buckets.length := by omega
  rcases m.probe_characterize p hc ht m.buckets.length start hs with
    ⟨hnone, _⟩ | ⟨t, htf, hsome, hstop, hmin⟩
  · rw [hnone] at hres
    exact absurd hres (by simp)
  · rw [hsome] at hres
    have hj : j = (start + t) % m.buckets.length := (Option.some.inj hres).symm
    have hjlt : j < m.buckets.length := by
      rw [hj]
      exact Nat.mod_lt _ hcpos
    have hdj : cycDist m.buckets.length start j = t := by
      rw [hj]
      exact cycDist_add _ _ _ hs htf
    refine ⟨hjlt, by rw [hj]; exact hstop, ?_⟩
    intro u hu hlt
    rw [hdj] at hlt
    have hrec := cyc_recover m.buckets.length start u hs hu
    have := hmin (cycDist m.buckets.length start u) hlt
    rw [hrec] at this
    exact this

theorem Flat.probe_total [Inhabited V] (m : Flat K V) (p : K → Bool)
    (hc : m.capMinus1 + 1 = m.buckets.length) (ht : ∃ t, m.buckets.length = 2 ^ t)
    (start : Nat) (hs : start < m.buckets.length)
    (hstop : ∃ e, e < m.buckets.length ∧ p (m.nthBucket e).key = true) :
    ∃ j, m.probe p m.buckets.length start = some j := by
  rcases m.probe_characterize p hc ht m.buckets.length start hs with
    ⟨hnone, hall⟩ | ⟨t, _, hsome, _, _⟩
  · obtain ⟨e, he, hpe⟩ := hstop
    have hcpos : 0 < m.buckets.length := by omega
    have hlt : cycDist m.buckets.length start e < m.buckets.length :=
      cycDist_lt _ _ _ hcpos
    have := hall (cycDist m.buckets.length start e) hlt
    rw [cyc_recover _ _ _ hs he] at this
    rw [hpe] at this
    exact absurd this (by simp)
  · exact ⟨_, hsome⟩

/-! Flat invariant accessors and emplace. -/

theorem Flat.WF.fcore [DecidableEq K] [Inhabited V] {m : Flat K V} (h : m.WF) :
    m.Core :=
  ⟨h.cap_eq, h.pow2, h.keys_nodup, h.continuity⟩

theorem Flat.WF.of_core [DecidableEq K] [Inhabited V] {m : Flat K V}
    (hco : m.Core) (hcount : m.liveEntries.length = m.length)
    (hlen : m.length ≤ m.buckets.length / 2) : m.WF :=
  ⟨hco.cap_eq, hco.pow2, hlen, hcount, hco.keys_nodup, hco.continuity⟩

theorem Flat.Core.fc_pos [DecidableEq K] [Inhabited V] {m : Flat K V}
    (h : m.Core) : 0 < m.buckets.length := by
  have := h.cap_eq
  omega

theorem Flat.fhome_lt [Inhabited V] (m : Flat K V) (hc : 0 < m.buckets.length)
    (k : K) : m.home k < m.buckets.length :=
  Nat.mod_lt _ hc

theorem Flat.fhome_eq_mask [Inhabited V] (m : Flat K V)
    (hc : m.capMinus1 + 1 = m.buckets.length)
    (ht : ∃ t, m.buckets.length = 2 ^ t) (k : K) :
    m.hasher k &&& m.capMinus1 = m.home k := by
  obtain ⟨t, htt⟩ := ht
  have h2 := mask_eq_mod m.capMinus1 (m.hasher k) t (by rw [hc]; exact htt)
  rw [h2, hc]
  rfl

theorem Flat.Core.has_empty [DecidableEq K] [Inhabited V] {m : Flat K V}
    (hco : m.Core) (hroom : m.liveEntries.length < m.buckets.length) :
    ∃ e, e < m.buckets.length ∧ (m.nthBucket e).key = m.empty :=
  m.fexists_empty hroom

theorem Flat.femplace_spec [DecidableEq K] [Inhabited V] (m : Flat K V)
    (hc : m.capMinus1 + 1 = m.buckets.length)
    (ht : ∃ t, m.buckets.length = 2 ^ t) (k : K) (v : V)
    (he : ∃ e, e < m.buckets.length ∧ (m.nthBucket e).key = m.empty) :
    ∃ q, q < m.buckets.length ∧ (m.nthBucket q).key = m.empty ∧
      m.emplace k v = some { m with buckets := m.buckets.set q ⟨k, v⟩ } ∧
      ∀ u, u < m.buckets.length →
        cycDist m.buckets.length (m.home k) u <
          cycDist m.buckets.length (m.home k) q →
        ¬ (m.nthBucket u).key = m.empty := by
  have hcpos : 0 < m.buckets.length := by omega
  have hhome : m.home k < m.buckets.length := m.fhome_lt hcpos k
  obtain ⟨e, helt, hekey⟩ := he
  obtain ⟨q, hq⟩ := m.probe_total (fun kk => kk == m.empty) hc ht (m.home k) hhome
    ⟨e, helt, by simp [hekey]⟩
  obtain ⟨hqlt, hqkey, hqmin⟩ := m.probe_spec_some _ hc ht _ q hhome hq
  refine ⟨q, hqlt, by simpa using hqkey, ?_, ?_⟩
  · simp only [Flat.emplace]
    rw [m.fhome_eq_mask hc ht k, hq]
    rfl
  · intro u hu hlt
    have := hqmin u hu hlt
    simpa using this

/-! Flat Get correctness. -/

theorem Flat.fget_found [DecidableEq K] [Inhabited V] (m : Flat K V)
    (hwf : m.WF) (k : K) (v : V) (hmem : (k, v) ∈ m.liveEntries) :
    m.Get k = some (some v) := by
  obtain ⟨hk, i, hi, hnth⟩ := (m.fmem_liveEntries k v).mp hmem
  have hc := hwf.cap_eq
  have ht := hwf.pow2
  have hcpos : 0 < m.buckets.length := by omega
  have hhome : m.home k < m.buckets.length := m.fhome_lt hcpos k
  have hikey : (m.nthBucket i).key = k := by rw [hnth]
  have hlive : ¬ (m.nthBucket i).key = m.empty := by rw [hikey]; exact hk
  obtain ⟨j, hj⟩ := m.probe_total (fun kk => kk == m.empty || kk == k) hc ht
    (m.home k) hhome ⟨i, hi, by simp [hikey]⟩
  obtain ⟨hjlt, hjkey, hjmin⟩ := m.probe_spec_some _ hc ht _ j hhome hj
  have hcont := hwf.continuity i hi hlive
  rw [hikey] at hcont
  have hij : j = i := by
    rcases Nat.lt_trichotomy (cycDist m.buckets.length (m.home k) j)
        (cycDist m.buckets.length (m.home k) i) with hlt | heq | hgt
    · exfalso
      have hjne : ¬ (m.nthBucket j).key = m.empty :=
        hcont j hjlt (Nat.le_of_lt hlt)
      have hjne2 : ¬ (m.nthBucket j).key = k := by
        intro hkk
        have := Flat.fnodup_slot m hwf.keys_nodup j i hjlt hi
          (by rw [hkk]; exact hk) hlive (by rw [hkk, hikey])
        rw [this] at hlt
        exact Nat.lt_irrefl _ hlt
      rw [Bool.or_eq_true] at hjkey
      rcases hjkey with h | h
      · exact hjne (by simpa using h)
      · exact hjne2 (by simpa using h)
    · exact cycDist_inj _ _ _ _ hhome hjlt hi heq
    · exfalso
      have := hjmin i hi hgt
      rw [hikey] at this
      simp at this
  subst hij
  simp only [Flat.Get]
  rw [if_neg hk, m.fhome_eq_mask hc ht k, hj]
  have hkk : ((m.nthBucket j).key == k) = true := by simp [hikey]
  simp only [hkk, if_pos]
  rw [hnth]

theorem Flat.fget_absent [DecidableEq K] [Inhabited V] (m : Flat K V)
    (hwf : m.WF) (k : K) (hk : ¬ k = m.empty)
    (habs : ∀ v, ¬ (k, v) ∈ m.liveEntries) :
    m.Get k = some none := by
  have hc := hwf.cap_eq
  have ht := hwf.pow2
  have hcpos : 0 < m.buckets.length := by omega
  have hhome : m.home k < m.buckets.length := m.fhome_lt hcpos k
  have hroom : m.liveEntries.length < m.buckets.length := by
    have h1 := hwf.count
    have h2 := hwf.len_le
    omega
  obtain ⟨e, helt, hekey⟩ := m.fexists_empty hroom
  obtain ⟨j, hj⟩ := m.probe_total (fun kk => kk == m.empty || kk == k) hc ht
    (m.home k) hhome ⟨e, helt, by simp [hekey]⟩
  obtain ⟨hjlt, hjkey, _⟩ := m.probe_spec_some _ hc ht _ j hhome hj
  have hjne : ¬ (m.nthBucket j).key = k := by
    intro hkk
    exact habs (m.nthBucket j).value
      ((m.fmem_liveEntries k _).mpr ⟨hk, j, hjlt, by rw [← hkk]⟩)
  simp only [Flat.Get]
  rw [if_neg hk, m.fhome_eq_mask hc ht k, hj]
  have hkk : ((m.nthBucket j).key == k) = false := by simpa using hjne
  simp [hkk]

theorem Flat.fget_isSome [DecidableEq K] [Inhabited V] (m : Flat K V)
    (hwf : m.WF) (k : K) (hk : ¬ k = m.empty) :
    (m.Get k).isSome = true := by
  by_cases hex : ∃ v, (k, v) ∈ m.liveEntries
  · obtain ⟨v, hv⟩ := hex
    rw [m.fget_found hwf k v hv]
    rfl
  · push_neg at hex
    rw [m.fget_absent hwf k hk hex]
    rfl

/-! emplace preserves the structural invariant. -/

theorem Flat.fill_core [DecidableEq K] [Inhabited V] (m : Flat K V)
    (hco : m.Core) (k : K) (v : V) (hk : ¬ k = m.empty)
    (hfresh : ∀ v2, ¬ (k, v2) ∈ m.liveEntries)
    (q : Nat) (hqlt : q < m.buckets.length)
    (hqkey : (m.nthBucket q).key = m.empty)
    (hqmin : ∀ u, u < m.buckets.length →
      cycDist m.buckets.length (m.home k) u <
        cycDist m.buckets.length (m.home k) q →
      ¬ (m.nthBucket u).key = m.empty)
    (len2 : Nat) :
    ({ m with buckets := m.buckets.set q ⟨k, v⟩, length := len2 } : Flat K V).Core ∧
      ({ m with
          buckets := m.buckets.set q ⟨k, v⟩
          length := len2 } : Flat K V).liveEntries.Perm ((k, v) :: m.liveEntries) := by
  set m2 : Flat K V :=
    { m with
        buckets := m.buckets.set q ⟨k, v⟩
        length := len2 } with hm2
  have hlen : m2.buckets.length = m.buckets.length := by
    rw [hm2]
    exact List.length_set ..
  have hnth_ne : ∀ u, ¬ u = q → m2.nthBucket u = m.nthBucket u := by
    intro u hu
    show (m.buckets.set q ⟨k, v⟩).getD u ⟨m.empty, default⟩ = _
    exact getD_set_ne _ _ _ _ _ (fun h => hu h.symm)
  have hnth_q : m2.nthBucket q = ⟨k, v⟩ := by
    show (m.buckets.set q ⟨k, v⟩).getD q ⟨m.empty, default⟩ = _
    exact getD_set_self _ _ _ _ hqlt
  have hhome : ∀ k2, m2.home k2 = m.home k2 := by
    intro k2
    unfold Flat.home
    rw [hlen]
  have hperm : m2.liveEntries.Perm ((k, v) :: m.liveEntries) := by
    have hstep := filterMap_set_perm
      (fun b : FBucket K V =>
        if b.key == m.empty then none else some (b.key, b.value))
      m.buckets q ⟨k, v⟩ hqlt
    rw [← m.nthBucket_eq_get q hqlt] at hstep
    have hkne : (k == m.empty) = false := by simpa using hk
    simp only [hqkey] at hstep
    simp [hkne] at hstep
    have hgoal : m2.liveEntries = (m.buckets.set q ⟨k, v⟩).filterMap
        (fun b => if b.key == m.empty then none else some (b.key, b.value)) := rfl
    rw [hgoal]
    unfold Flat.liveEntries
    simp only [beq_iff_eq]
    exact hstep.trans (List.perm_append_singleton _ _)
  have hnodup : (m2.liveEntries.map Prod.fst).Nodup := by
    have h1 := hperm.map Prod.fst
    rw [List.Perm.nodup_iff h1]
    simp only [List.map_cons]
    refine List.Nodup.cons ?_ hco.keys_nodup
    intro hmem
    obtain ⟨pr, hpr, hfst⟩ := List.mem_map.mp hmem
    exact hfresh pr.2 (by rw [show pr = (k, pr.2) from by rw [← hfst]] at hpr; exact hpr)
  refine ⟨⟨by rw [hlen]; exact hco.cap_eq, by rw [hlen]; exact hco.pow2,
    hnodup, ?_⟩, hperm⟩
  intro i hi hlive u hu hle
  rw [hlen] at hi hu
  by_cases hiq : i = q
  · subst hiq
    rw [hnth_q] at hle hlive
    rw [hlen, hhome] at hle
    have hle2 : cycDist m.buckets.length (m.home k) u ≤
        cycDist m.buckets.length (m.home k) i := hle
    by_cases huq : u = i
    · subst huq
      rw [hnth_q]
      exact hlive
    · rw [hnth_ne u huq]
      have hlt : cycDist m.buckets.length (m.home k) u <
          cycDist m.buckets.length (m.home k) i := by
        rcases Nat.lt_or_ge (cycDist m.buckets.length (m.home k) u)
            (cycDist m.buckets.length (m.home k) i) with h | h
        · exact h
        · exfalso
          have heq : cycDist m.buckets.length (m.home k) u =
              cycDist m.buckets.length (m.home k) i :=
            Nat.le_antisymm hle2 h
          exact huq (cycDist_inj _ _ _ _
            (m.fhome_lt (by omega) k) hu hqlt heq)
      exact hqmin u hu hlt
  · rw [hnth_ne i hiq] at hlive hle
    rw [hlen, hhome] at hle
    have hle2 : cycDist m.buckets.length (m.home (m.nthBucket i).key) u ≤
        cycDist m.buckets.length (m.home (m.nthBucket i).key) i := hle
    have hcont := hco.continuity i hi hlive
    by_cases huq : u = q
    · subst huq
      rw [hnth_q]
      exact hk
    · rw [hnth_ne u huq]
      exact hcont u hu hle2

theorem Flat.emplace_core [DecidableEq K] [Inhabited V] (m : Flat K V)
    (hco : m.Core) (k : K) (v : V) (hk : ¬ k = m.empty)
    (hfresh : ∀ v2, ¬ (k, v2) ∈ m.liveEntries)
    (hroom : m.liveEntries.length < m.buckets.length) :
    ∃ m2, m.emplace k v = some m2 ∧ m2.Core ∧
      m2.liveEntries.Perm ((k, v) :: m.liveEntries) ∧
      m2.empty = m.empty ∧ m2.hasher = m.hasher ∧
      m2.capMinus1 = m.capMinus1 ∧
      m2.buckets.length = m.buckets.length ∧ m2.length = m.length := by
  obtain ⟨q, hqlt, hqkey, hres, hqmin⟩ :=
    m.femplace_spec hco.cap_eq hco.pow2 k v (hco.has_empty hroom)
  obtain ⟨hcore, hperm⟩ :=
    m.fill_core hco k v hk hfresh q hqlt hqkey hqmin m.length
  exact ⟨_, hres, hcore, hperm, rfl, rfl, rfl, List.length_set .., rfl⟩

/-! Fresh stores and resize. -/

theorem Flat.fresh_nth [DecidableEq K] [Inhabited V] (m : Flat K V) (n : Nat)
    (hb : m.buckets = List.replicate n (⟨m.empty, default⟩ : FBucket K V))
    (i : Nat) : m.nthBucket i = ⟨m.empty, default⟩ := by
  unfold Flat.nthBucket
  rw [hb]
  exact getD_replicate n i _

theorem Flat.ffresh_liveEntries [DecidableEq K] [Inhabited V] (m : Flat K V)
    (n : Nat)
    (hb : m.buckets = List.replicate n (⟨m.empty, default⟩ : FBucket K V)) :
    m.liveEntries = [] := by
  unfold Flat.liveEntries
  rw [hb]
  refine filterMap_of_all_none _ _ ?_
  intro a ha
  have := List.eq_of_mem_replicate ha
  rw [this]
  simp

theorem Flat.ffresh_core [DecidableEq K] [Inhabited V] (m : Flat K V) (n t : Nat)
    (hn : n = 2 ^ t) (hcap : m.capMinus1 + 1 = n)
    (hb : m.buckets = List.replicate n (⟨m.empty, default⟩ : FBucket K V)) :
    m.Core := by
  have hlen : m.buckets.length = n := by rw [hb]; exact List.length_replicate ..
  refine ⟨by rw [hlen]; exact hcap, ⟨t, by rw [hlen]; exact hn⟩, ?_, ?_⟩
  · rw [m.ffresh_liveEntries n hb]
    simp
  · intro i hi hlive
    rw [m.fresh_nth n hb i] at hlive
    simp at hlive

theorem Flat.fresize_fold [DecidableEq K] [Inhabited V] (e : K) :
    ∀ (l : List (FBucket K V)) (T : Flat K V),
      T.empty = e → T.Core →
      (((T.liveEntries ++ l.filterMap
          (fun b => if b.key == e then none else some (b.key, b.value))).map
            Prod.fst).Nodup) →
      T.liveEntries.length + (l.filterMap
          (fun b => if b.key == e then none else some (b.key, b.value))).length <
        T.buckets.length →
      ∃ T2, l.foldl (fun acc b => if b.key == e then acc
          else acc.bind (fun mm => mm.emplace b.key b.value)) (some T) = some T2 ∧
        T2.Core ∧
        T2.liveEntries.Perm (T.liveEntries ++ l.filterMap
          (fun b => if b.key == e then none else some (b.key, b.value))) ∧
        T2.empty = T.empty ∧ T2.hasher = T.hasher ∧
        T2.buckets.length = T.buckets.length ∧ T2.length = T.length
  | [], T, hTe, hco, hnd, hlen => by
    refine ⟨T, rfl, hco, ?_, rfl, rfl, rfl, rfl⟩
    simp
  | b :: l, T, hTe, hco, hnd, hlen => by
    rw [List.foldl_cons]
    by_cases hb : (b.key == e) = true
    · rw [if_pos hb]
      have hfm : (b :: l).filterMap
          (fun b => if b.key == e then none else some (b.key, b.value)) =
          l.filterMap (fun b => if b.key == e then none else some (b.key, b.value)) := by
        rw [List.filterMap_cons, if_pos hb]
      rw [hfm] at hnd hlen
      rw [hfm]
      exact Flat.fresize_fold e l T hTe hco hnd hlen
    · rw [if_neg hb]
      have hfm : (b :: l).filterMap
          (fun b => if b.key == e then none else some (b.key, b.value)) =
          (b.key, b.value) :: l.filterMap
            (fun b => if b.key == e then none else some (b.key, b.value)) := by
        rw [List.filterMap_cons, if_neg hb]
      rw [hfm] at hnd hlen
      rw [hfm]
      have hk : ¬ b.key = T.empty := by
        rw [hTe]
        simpa using hb
      have hmid : (T.liveEntries ++ (b.key, b.value) :: l.filterMap
          (fun b => if b.key == e then none else some (b.key, b.value))).Perm
          ((b.key, b.value) :: (T.liveEntries ++ l.filterMap
            (fun b => if b.key == e then none else some (b.key, b.value)))) :=
        List.perm_middle
      have hfresh : ∀ v2, ¬ (b.key, v2) ∈ T.liveEntries := by
        intro v2 hv2
        have hnd2 := (List.Perm.nodup_iff (hmid.map Prod.fst)).mp hnd
        simp only [List.map_cons, List.nodup_cons] at hnd2
        exact hnd2.1 (by
          rw [List.map_append]
          exact List.mem_append_left _ (List.mem_map.mpr ⟨_, hv2, rfl⟩))
      have hroom : T.liveEntries.length < T.buckets.length := by
        simp only [List.length_cons] at hlen
        omega
      obtain ⟨T1, hres1, hco1, hperm1, he1, hh1, hcm1, hbl1, hl1⟩ :=
        T.emplace_core hco b.key b.value hk hfresh hroom
      have hbind : (some T).bind (fun mm => mm.emplace b.key b.value) = some T1 := by
        simp [hres1]
      rw [hbind]
      have hnd1 : (((T1.liveEntries ++ l.filterMap
          (fun b => if b.key == e then none else some (b.key, b.value))).map
            Prod.fst).Nodup) := by
        have hp : (T1.liveEntries ++ l.filterMap
            (fun b => if b.key == e then none else some (b.key, b.value))).Perm
            (T.liveEntries ++ (b.key, b.value) :: l.filterMap
              (fun b => if b.key == e then none else some (b.key, b.value))) :=
          ((hperm1.append_right _).trans hmid.symm)
        exact (List.Perm.nodup_iff (hp.map Prod.fst)).mpr hnd
      have hlen1 : T1.liveEntries.length + (l.filterMap
          (fun b => if b.key == e then none else some (b.key, b.value))).length <
          T1.buckets.length := by
        have := hperm1.length_eq
        simp only [List.length_cons] at this hlen
        rw [hbl1]
        omega
      obtain ⟨T2, hres2, hco2, hperm2, he2, hh2, hbl2, hl2⟩ :=
        Flat.fresize_fold e l T1 (by rw [he1]; exact hTe) hco1 hnd1 hlen1
      refine ⟨T2, hres2, hco2, ?_, by rw [he2]; exact he1,
        by rw [hh2]; exact hh1, by rw [hbl2]; exact hbl1, by rw [hl2]; exact hl1⟩
      refine hperm2.trans ?_
      refine ((hperm1.append_right _).trans ?_)
      exact hmid.symm

theorem Flat.fresize_spec [DecidableEq K] [Inhabited V] (m : Flat K V) (n t : Nat)
    (hn : n = 2 ^ t) (hnodup : (m.liveEntries.map Prod.fst).Nodup)
    (hroom : m.liveEntries.length < n) :
    ∃ m2, m.resize n = some m2 ∧ m2.Core ∧ m2.liveEntries.Perm m.liveEntries ∧
      m2.empty = m.empty ∧ m2.hasher = m.hasher ∧
      m2.buckets.length = n ∧ m2.length = m.length := by
  have hn1 : 1 ≤ n := by rw [hn]; exact Nat.one_le_two_pow
  set start : Flat K V :=
    { m with capMinus1 := n - 1, buckets := flatNewBucketArray n m.empty } with hstart
  have hsb : start.buckets = List.replicate n (⟨start.empty, default⟩ : FBucket K V) := rfl
  have hsl : start.buckets.length = n := by rw [hsb]; exact List.length_replicate ..
  have hs0 : start.liveEntries = [] := start.ffresh_liveEntries n hsb
  have hsco : start.Core := start.ffresh_core n t hn (by show n - 1 + 1 = n; omega) hsb
  have hse : start.empty = m.empty := rfl
  have harg1 : (((start.liveEntries ++ m.buckets.filterMap
      (fun b => if b.key == m.empty then none else some (b.key, b.value))).map
        Prod.fst).Nodup) := by
    rw [hs0]
    simp only [List.nil_append]
    exact hnodup
  have harg2 : start.liveEntries.length + (m.buckets.filterMap
      (fun b => if b.key == m.empty then none else some (b.key, b.value))).length <
      start.buckets.length := by
    rw [hs0, hsl]
    show 0 + m.liveEntries.length < n
    omega
  obtain ⟨T2, hres, hco2, hperm, he2, hh2, hbl2, hl2⟩ :=
    Flat.fresize_fold m.empty m.buckets start hse hsco harg1 harg2
  refine ⟨T2, ?_, hco2, ?_, by rw [he2], hh2,
    by rw [hbl2]; exact hsl, hl2⟩
  · show m.buckets.foldl _ (some start) = some T2
    exact hres
  · refine hperm.trans ?_
    rw [hs0]
    simp only [List.nil_append]
    exact List.Perm.refl _

/-! Updating the value of a stored key in place. -/

theorem Flat.fupdate_core [DecidableEq K] [Inhabited V] (m : Flat K V)
    (hco : m.Core) (k : K) (v : V) (hk : ¬ k = m.empty)
    (j : Nat) (hjlt : j < m.buckets.length)
    (hjkey : (m.nthBucket j).key = k) :
    ({ m with buckets := m.buckets.set j ⟨k, v⟩ } : Flat K V).Core ∧
      (({ m with buckets := m.buckets.set j ⟨k, v⟩ } : Flat K V).liveEntries ++
        [(k, (m.nthBucket j).value)]).Perm (m.liveEntries ++ [(k, v)]) := by
  set m2 : Flat K V := { m with buckets := m.buckets.set j ⟨k, v⟩ } with hm2
  have hlen : m2.buckets.length = m.buckets.length := by
    rw [hm2]
    exact List.length_set ..
  have hnth_ne : ∀ u, ¬ u = j → m2.nthBucket u = m.nthBucket u := by
    intro u hu
    show (m.buckets.set j ⟨k, v⟩).getD u ⟨m.empty, default⟩ = _
    exact getD_set_ne _ _ _ _ _ (fun h => hu h.symm)
  have hnth_j : m2.nthBucket j = ⟨k, v⟩ := by
    show (m.buckets.set j ⟨k, v⟩).getD j ⟨m.empty, default⟩ = _
    exact getD_set_self _ _ _ _ hjlt
  have hhome : ∀ k2, m2.home k2 = m.home k2 := by
    intro k2
    unfold Flat.home
    rw [hlen]
  have hkeys : ∀ u, (m2.nthBucket u).key = (m.nthBucket u).key := by
    intro u
    by_cases huj : u = j
    · subst huj
      rw [hnth_j, hjkey]
    · rw [hnth_ne u huj]
  have hperm : (m2.liveEntries ++ [(k, (m.nthBucket j).value)]).Perm
      (m.liveEntries ++ [(k, v)]) := by
    have hstep := filterMap_set_perm
      (fun b : FBucket K V =>
        if b.key == m.empty then none else some (b.key, b.value))
      m.buckets j ⟨k, v⟩ hjlt
    rw [← m.nthBucket_eq_get j hjlt] at hstep
    have hkne : (k == m.empty) = false := by simpa using hk
    simp only [hjkey] at hstep
    simp [hkne] at hstep
    have hgoal : m2.liveEntries = (m.buckets.set j ⟨k, v⟩).filterMap
        (fun b => if b.key == m.empty then none else some (b.key, b.value)) := rfl
    rw [hgoal]
    unfold Flat.liveEntries
    simp only [beq_iff_eq]
    simpa using hstep
  have hnodup : (m2.liveEntries.map Prod.fst).Nodup := by
    have hmap := hperm.map Prod.fst
    simp only [List.map_append, List.map_cons, List.map_nil] at hmap
    have h1 : (k :: (m2.liveEntries.map Prod.fst)).Perm
        (k :: (m.liveEntries.map Prod.fst)) :=
      ((List.perm_append_singleton _ _).symm.trans hmap).trans
        (List.perm_append_singleton _ _)
    exact (List.Perm.nodup_iff h1.cons_inv).mpr hco.keys_nodup
  refine ⟨⟨by rw [hlen]; exact hco.cap_eq, by rw [hlen]; exact hco.pow2,
    hnodup, ?_⟩, hperm⟩
  intro i hi hlive u hu hle
  rw [hlen] at hi hu
  rw [hkeys] at hlive
  rw [hkeys u]
  rw [hkeys i, hhome, hlen] at hle
  exact hco.continuity i hi hlive u hu hle

/-! Flat Put specification. -/

theorem Flat.fput_spec [DecidableEq K] [Inhabited V] (m : Flat K V) (hwf : m.WF)
    (k : K) (v : V) (hk : ¬ k = m.empty) :
    ∃ m2 b, m.Put k v = some (m2, b) ∧ m2.WF ∧
      m2.empty = m.empty ∧ m2.hasher = m.hasher ∧
      (b = true →
        m2.liveEntries.Perm ((k, v) :: m.liveEntries) ∧
        m2.length = m.length + 1 ∧ (∀ v2, ¬ (k, v2) ∈ m.liveEntries)) ∧
      (b = false →
        (∃ v0, (k, v0) ∈ m.liveEntries ∧
          (m2.liveEntries ++ [(k, v0)]).Perm (m.liveEntries ++ [(k, v)])) ∧
        m2.length = m.length) := by
  have hcap := hwf.cap_eq
  obtain ⟨m1, hgate, hco1, hperm1, he1, hh1, hlen1, hhalf1⟩ :
      ∃ m1, (if m.buckets.length / 2 ≤ m.length then
          m.resize (2 * m.buckets.length) else some m) = some m1 ∧
        m1.Core ∧ m1.liveEntries.Perm m.liveEntries ∧
        m1.empty = m.empty ∧ m1.hasher = m.hasher ∧
        m1.length = m.length ∧ m1.length < m1.buckets.length / 2 := by
    by_cases hg : m.buckets.length / 2 ≤ m.length
    · rw [if_pos hg]
      obtain ⟨t, htt⟩ := hwf.pow2
      have hroom : m.liveEntries.length < 2 * m.buckets.length := by
        have h1 := hwf.count
        have h2 := hwf.len_le
        omega
      obtain ⟨m1, hres, hco, hperm, he, hh, hbl, hl⟩ :=
        m.fresize_spec (2 * m.buckets.length) (t + 1)
          (by rw [htt]; ring) hwf.keys_nodup hroom
      refine ⟨m1, hres, hco, hperm, he, hh, hl, ?_⟩
      rw [hl, hbl]
      have h2 := hwf.len_le
      omega
    · rw [if_neg hg]
      exact ⟨m, rfl, hwf.fcore, List.Perm.refl _, rfl, rfl, rfl, by omega⟩
  have hcount1 : m1.liveEntries.length = m1.length := by
    rw [hperm1.length_eq, hwf.count, hlen1]
  have hk1 : ¬ k = m1.empty := by rw [he1]; exact hk
  have hcpos1 : 0 < m1.buckets.length := hco1.fc_pos
  have hroom1 : m1.liveEntries.length < m1.buckets.length := by omega
  obtain ⟨e, helt, hekey⟩ := m1.fexists_empty hroom1
  have hhomelt : m1.home k < m1.buckets.length := m1.fhome_lt hcpos1 k
  obtain ⟨j, hj⟩ := m1.probe_total (fun kk => kk == m1.empty || kk == k)
    hco1.cap_eq hco1.pow2 (m1.home k) hhomelt ⟨e, helt, by simp [hekey]⟩
  obtain ⟨hjlt, hjkey, hjmin⟩ :=
    m1.probe_spec_some _ hco1.cap_eq hco1.pow2 _ j hhomelt hj
  have hputeq : ∀ r, (if ((m1.nthBucket j).key == k) = true then
        ({ m1 with buckets := m1.buckets.set j ⟨k, v⟩ }, false)
      else
        ({ m1 with
            buckets := m1.buckets.set j ⟨k, v⟩
            length := m1.length + 1 }, true)) = r →
      m.Put k v = some r := by
    intro r hr
    show (if k = m.empty then none else _) = some r
    rw [if_neg hk, hgate, Option.some_bind]
    show (m1.probe _ m1.buckets.length (m1.hasher k &&& m1.capMinus1)).map _ = some r
    rw [m1.fhome_eq_mask hco1.cap_eq hco1.pow2 k, hj, Option.map_some']
    rw [hr]
  by_cases hkeyk : (m1.nthBucket j).key = k
  · obtain ⟨hcore2, hperm2⟩ := m1.fupdate_core hco1 k v hk1 j hjlt hkeyk
    set m2 : Flat K V := { m1 with buckets := m1.buckets.set j ⟨k, v⟩ } with hm2
    have hlen2 : m2.buckets.length = m1.buckets.length := by
      rw [hm2]
      exact List.length_set ..
    have hcnt2 : m2.liveEntries.length = m2.length := by
      have := hperm2.length_eq
      simp only [List.length_append, List.length_cons, List.length_nil] at this
      have hl2 : m2.length = m1.length := rfl
      omega
    have hwf2 : m2.WF := Flat.WF.of_core hcore2 hcnt2
      (by rw [hlen2]; show m1.length ≤ m1.buckets.length / 2; omega)
    refine ⟨m2, false, hputeq (m2, false) (by rw [if_pos (by simpa using hkeyk)]),
      hwf2, by rw [← he1], by rw [← hh1], by intro h; simp at h, ?_⟩
    intro _
    constructor
    · refine ⟨(m1.nthBucket j).value, ?_, ?_⟩
      · rw [← hperm1.mem_iff]
        exact (m1.fmem_liveEntries k _).mpr ⟨hk1, j, hjlt, by rw [← hkeyk]⟩
      · exact hperm2.trans (hperm1.append_right _)
    · show m1.length = m.length
      exact hlen1
  · have hkeyempty : (m1.nthBucket j).key = m1.empty := by
      rw [Bool.or_eq_true] at hjkey
      rcases hjkey with h | h
      · simpa using h
      · exact absurd (by simpa using h) hkeyk
    have habs1 : ∀ v2, ¬ (k, v2) ∈ m1.liveEntries := by
      intro v2 hmem
      obtain ⟨_, i, hilt, hnth⟩ := (m1.fmem_liveEntries k v2).mp hmem
      have hikey : (m1.nthBucket i).key = k := by rw [hnth]
      have hilive : ¬ (m1.nthBucket i).key = m1.empty := by
        rw [hikey]
        exact hk1
      rcases Nat.lt_trichotomy (cycDist m1.buckets.length (m1.home k) i)
          (cycDist m1.buckets.length (m1.home k) j) with hlt | heq | hgt
      · have := hjmin i hilt hlt
        rw [hikey] at this
        simp at this
      · have : i = j := cycDist_inj _ _ _ _ hhomelt hilt hjlt heq
        rw [this] at hikey
        exact hkeyk hikey
      · have hcont := hco1.continuity i hilt hilive
        rw [hikey] at hcont
        have := hcont j hjlt (Nat.le_of_lt hgt)
        exact this hkeyempty
    have hjmin2 : ∀ u, u < m1.buckets.length →
        cycDist m1.buckets.length (m1.home k) u <
          cycDist m1.buckets.length (m1.home k) j →
        ¬ (m1.nthBucket u).key = m1.empty := by
      intro u hu hlt
      have := hjmin u hu hlt
      rw [Bool.or_eq_false_iff] at this
      simpa using this.1
    obtain ⟨hcore2, hperm2⟩ :=
      m1.fill_core hco1 k v hk1 habs1 j hjlt hkeyempty hjmin2 (m1.length + 1)
    set m2 : Flat K V :=
      { m1 with
          buckets := m1.buckets.set j ⟨k, v⟩
          length := m1.length + 1 } with hm2
    have hlen2 : m2.buckets.length = m1.buckets.length := by
      rw [hm2]
      exact List.length_set ..
    have hcnt2 : m2.liveEntries.length = m2.length := by
      have := hperm2.length_eq
      simp only [List.length_cons] at this
      have hl2 : m2.length = m1.length + 1 := rfl
      omega
    have hwf2 : m2.WF := Flat.WF.of_core hcore2 hcnt2
      (by rw [hlen2]; show m1.length + 1 ≤ m1.buckets.length / 2; omega)
    refine ⟨m2, true, hputeq (m2, true) (by rw [if_neg (by simpa using hkeyk)]),
      hwf2, by rw [← he1], by rw [← hh1], ?_, by intro h; simp at h⟩
    intro _
    refine ⟨hperm2.trans (hperm1.cons _), by show m1.length + 1 = m.length + 1; omega, ?_⟩
    intro v2 hv2
    exact habs1 v2 (hperm1.mem_iff.mpr hv2)

/-! Cyclic geometry for the backward-shift proof. -/

theorem cyc_geom1 (c H Q U I E : Nat) (hH : H < c) (hQ : Q < c) (hU : U < c)
    (hI : I < c) (hE : E < c)
    (h1 : cycDist c H U < cycDist c H Q) (h2 : cycDist c H Q ≤ cycDist c H I)
    (h3 : cycDist c H I < cycDist c H E)
    (h4 : Q < U) (h5 : U < E) : False := by
  rw [cycDist_eval c H U hH hU, cycDist_eval c H Q hH hQ] at h1
  rw [cycDist_eval c H Q hH hQ, cycDist_eval c H I hH hI] at h2
  rw [cycDist_eval c H I hH hI, cycDist_eval c H E hH hE] at h3
  split_ifs at h1 h2 h3 <;> omega

theorem cyc_geom2 (c H U S E : Nat) (hH : H < c) (hU : U < c) (hS : S < c)
    (hE : E < c) (h1 : cycDist c H U ≤ cycDist c H S)
    (h4 : U < E) (h5 : E < S) : cycDist c H E ≤ cycDist c H S := by
  rw [cycDist_eval c H U hH hU, cycDist_eval c H S hH hS] at h1
  rw [cycDist_eval c H E hH hE, cycDist_eval c H S hH hS]
  split_ifs at h1 ⊢ <;> omega

/-! One step of the backward-shift loop preserves the march invariant. -/

theorem Flat.march_step [DecidableEq K] [Inhabited V] (m0 : Flat K V)
    (hwf : m0.WF) (j0 : Nat) (hj0 : j0 < m0.buckets.length) (k0 : K) (v0 : V)
    (de : Nat) (hde : de < m0.buckets.length)
    (hPde : (m0.nthBucket ((j0 + de) % m0.buckets.length)).key = m0.empty)
    (hPmin : ∀ u, u < de →
      ¬ (m0.nthBucket ((j0 + u) % m0.buckets.length)).key = m0.empty)
    (mm : Flat K V) (a : Nat) (hinv : m0.MarchInv j0 k0 v0 de mm a)
    (hstep : a + 1 < de) (idx1 : Nat)
    (hidx1 : idx1 = (j0 + (a + 1)) % m0.buckets.length) :
    ¬ (mm.nthBucket idx1).key = mm.empty ∧
    ∃ mm2,
      ({ mm with buckets :=
          mm.buckets.set idx1 ⟨mm.empty, (mm.nthBucket idx1).value⟩ } :
            Flat K V).emplace
        (mm.nthBucket idx1).key (mm.nthBucket idx1).value = some mm2 ∧
      m0.MarchInv j0 k0 v0 de mm2 (a + 1) := by
  have hc : 0 < m0.buckets.length := by
    have := hwf.cap_eq
    omega
  have hidx1lt : idx1 < m0.buckets.length := by
    rw [hidx1]
    exact Nat.mod_lt _ hc
  have hd1 : cycDist m0.buckets.length j0 idx1 = a + 1 := by
    rw [hidx1]
    exact cycDist_add _ _ _ hj0 (by omega)
  have hM0live : ¬ (m0.nthBucket idx1).key = m0.empty := by
    have h := hPmin (a + 1) hstep
    rw [← hidx1] at h
    exact h
  have hnthidx : mm.nthBucket idx1 = m0.nthBucket idx1 :=
    hinv.ahead idx1 hidx1lt (by rw [hd1]; omega)
  have hlive1 : ¬ (mm.nthBucket idx1).key = mm.empty := by
    rw [hnthidx, hinv.empty_eq]
    exact hM0live
  refine ⟨hlive1, ?_⟩
  set kk := (mm.nthBucket idx1).key with hkk
  set vv := (mm.nthBucket idx1).value with hvv
  have hkk0 : (m0.nthBucket idx1).key = kk := by
    rw [← hnthidx]
  set m1 : Flat K V :=
    { mm with buckets := mm.buckets.set idx1 ⟨mm.empty, vv⟩ } with hm1
  have hmmlen : idx1 < mm.buckets.length := by
    rw [hinv.blen]
    exact hidx1lt
  have hm1len : m1.buckets.length = m0.buckets.length := by
    rw [hm1]
    show (mm.buckets.set idx1 ⟨mm.empty, vv⟩).length = _
    rw [List.length_set]
    exact hinv.blen
  have hm1nth_ne : ∀ u, ¬ u = idx1 → m1.nthBucket u = mm.nthBucket u := by
    intro u hu
    show (mm.buckets.set idx1 ⟨mm.empty, vv⟩).getD u ⟨mm.empty, default⟩ = _
    exact getD_set_ne _ _ _ _ _ (fun h => hu h.symm)
  have hm1nth_i : m1.nthBucket idx1 = ⟨mm.empty, vv⟩ := by
    show (mm.buckets.set idx1 ⟨mm.empty, vv⟩).getD idx1 ⟨mm.empty, default⟩ = _
    exact getD_set_self _ _ _ _ hmmlen
  have hm1cap : m1.capMinus1 + 1 = m1.buckets.length := by
    rw [hm1len]
    show mm.capMinus1 + 1 = _
    rw [hinv.capm_eq]
    exact hwf.cap_eq
  have hm1pow : ∃ t, m1.buckets.length = 2 ^ t := by
    rw [hm1len]
    exact hwf.pow2
  have hm1home : ∀ x, m1.home x = m0.home x := by
    intro x
    unfold Flat.home
    rw [hm1len]
    show mm.hasher x % _ = _
    rw [hinv.hasher_eq]
  have hm1empty : m1.empty = m0.empty := hinv.empty_eq
  have hkne : ¬ kk = m1.empty := hlive1
  obtain ⟨q, hqlt0, hqkeyraw, hres, hqmin0⟩ :=
    m1.femplace_spec hm1cap hm1pow kk vv
      ⟨idx1, by rw [hm1len]; exact hidx1lt, by rw [hm1nth_i]⟩
  have hqlt : q < m0.buckets.length := by
    rw [← hm1len]
    exact hqlt0
  have hqmin : ∀ u, u < m0.buckets.length →
      cycDist m0.buckets.length (m0.home kk) u <
        cycDist m0.buckets.length (m0.home kk) q →
      ¬ (m1.nthBucket u).key = m0.empty := by
    intro u hu hlt
    have h := hqmin0 u (by rw [hm1len]; exact hu)
      (by rw [hm1len, hm1home]; exact hlt)
    rw [hm1empty] at h
    exact h
  have hqkey2 : (m1.nthBucket q).key = m0.empty := by
    rw [← hm1empty]
    exact hqkeyraw
  have hhomelt : m0.home kk < m0.buckets.length := m0.fhome_lt hc kk
  have hG2 := hwf.continuity idx1 hidx1lt hM0live
  rw [hkk0] at hG2
  have hG1 : cycDist m0.buckets.length (m0.home kk) q ≤
      cycDist m0.buckets.length (m0.home kk) idx1 := by
    by_contra hcon
    push_neg at hcon
    have h := hqmin idx1 hidx1lt hcon
    rw [hm1nth_i] at h
    exact h hinv.empty_eq
  have hG3 : ¬ (m0.nthBucket q).key = m0.empty := hG2 q hqlt hG1
  have hG4 : cycDist m0.buckets.length j0 q ≤ a + 1 := by
    by_contra hcon
    push_neg at hcon
    have hq_ne : ¬ q = idx1 := by
      intro h
      rw [h, hd1] at hcon
      omega
    have h5 := hinv.ahead q hqlt (by omega)
    have h6 : m1.nthBucket q = mm.nthBucket q := hm1nth_ne q hq_ne
    rw [h6, h5] at hqkey2
    exact hG3 hqkey2
  have heslt : (j0 + de) % m0.buckets.length < m0.buckets.length :=
    Nat.mod_lt _ hc
  have hdE : cycDist m0.buckets.length j0 ((j0 + de) % m0.buckets.length) = de :=
    cycDist_add _ _ _ hj0 hde
  have hE : cycDist m0.buckets.length (m0.home kk) idx1 <
      cycDist m0.buckets.length (m0.home kk) ((j0 + de) % m0.buckets.length) := by
    by_contra hcon
    push_neg at hcon
    exact (hG2 _ heslt hcon) hPde
  refine ⟨_, hres, ?_⟩
  set mm2 : Flat K V := { m1 with buckets := m1.buckets.set q ⟨kk, vv⟩ } with hmm2
  have hmm2len : mm2.buckets.length = m0.buckets.length := by
    rw [hmm2]
    show (m1.buckets.set q ⟨kk, vv⟩).length = _
    rw [List.length_set]
    exact hm1len
  have hnth2_ne : ∀ u, ¬ u = q → mm2.nthBucket u = m1.nthBucket u := by
    intro u hu
    show (m1.buckets.set q ⟨kk, vv⟩).getD u ⟨mm.empty, default⟩ = _
    exact getD_set_ne _ _ _ _ _ (fun h => hu h.symm)
  have hnth2_q : mm2.nthBucket q = ⟨kk, vv⟩ := by
    show (m1.buckets.set q ⟨kk, vv⟩).getD q ⟨mm.empty, default⟩ = _
    exact getD_set_self _ _ _ _ hqlt0
  have hnth2_other : ∀ u, ¬ u = q → ¬ u = idx1 →
      mm2.nthBucket u = mm.nthBucket u := by
    intro u h1 h2
    rw [hnth2_ne u h1]
    exact hm1nth_ne u h2
  have hkkne0 : ¬ kk = m0.empty := by
    rw [← hkk0]
    exact hM0live
  refine ⟨hinv.empty_eq, hinv.hasher_eq, hinv.capm_eq, hmm2len, hinv.len_eq,
    hstep, ?_, ?_, ?_⟩
  · -- ahead
    intro u hu hgt
    have hne_i : ¬ u = idx1 := by
      intro h
      rw [h, hd1] at hgt
      omega
    have hne_q : ¬ u = q := by
      intro h
      rw [h] at hgt
      omega
    rw [hnth2_other u hne_q hne_i]
    exact hinv.ahead u hu (by omega)
  · -- behind
    intro s hs hds hlive u hu hle
    by_cases hsq : s = q
    · subst hsq
      rw [hnth2_q] at hle
      have hle2 : cycDist m0.buckets.length (m0.home kk) u ≤
          cycDist m0.buckets.length (m0.home kk) s := hle
      by_cases hus : u = s
      · subst hus
        rw [hnth2_q]
        exact ⟨hkkne0, Or.inl (Nat.le_refl _)⟩
      · have hlt : cycDist m0.buckets.length (m0.home kk) u <
            cycDist m0.buckets.length (m0.home kk) s := by
          rcases Nat.lt_or_ge (cycDist m0.buckets.length (m0.home kk) u)
              (cycDist m0.buckets.length (m0.home kk) s) with h | h
          · exact h
          · exact absurd (cycDist_inj _ _ _ _ hhomelt hu hs
              (Nat.le_antisymm hle2 h)) hus
        have hlm1 := hqmin u hu hlt
        have hu_ne_i : ¬ u = idx1 := by
          intro h
          rw [h, hm1nth_i] at hlm1
          exact hlm1 hinv.empty_eq
        refine ⟨by rw [hnth2_ne u hus]; exact hlm1, ?_⟩
        by_contra hcon
        push_neg at hcon
        obtain ⟨h1, h2⟩ := hcon
        have f1 := hlt
        rw [cyc_shift m0.buckets.length j0 (m0.home kk) u hj0 hhomelt hu,
          cyc_shift m0.buckets.length j0 (m0.home kk) s hj0 hhomelt hs] at f1
        have f2 := hG1
        rw [cyc_shift m0.buckets.length j0 (m0.home kk) s hj0 hhomelt hs,
          cyc_shift m0.buckets.length j0 (m0.home kk) idx1 hj0 hhomelt hidx1lt] at f2
        have f3 := hE
        rw [cyc_shift m0.buckets.length j0 (m0.home kk) idx1 hj0 hhomelt hidx1lt,
          cyc_shift m0.buckets.length j0 (m0.home kk) ((j0 + de) % m0.buckets.length)
            hj0 hhomelt heslt] at f3
        rw [hdE] at f3
        exact cyc_geom1 m0.buckets.length
          (cycDist m0.buckets.length j0 (m0.home kk))
          (cycDist m0.buckets.length j0 s)
          (cycDist m0.buckets.length j0 u)
          (cycDist m0.buckets.length j0 idx1) de
          (cycDist_lt _ _ _ hc) (cycDist_lt _ _ _ hc) (cycDist_lt _ _ _ hc)
          (cycDist_lt _ _ _ hc) hde f1 f2 f3 h1 h2
    · by_cases hsi : s = idx1
      · subst hsi
        rw [hnth2_ne s hsq, hm1nth_i] at hlive
        exact absurd hinv.empty_eq hlive
      · have hds_ne : ¬ cycDist m0.buckets.length j0 s = a + 1 := by
          intro h
          exact hsi (cycDist_inj _ _ _ _ hj0 hs hidx1lt (by rw [h, hd1]))
        have hds_a : cycDist m0.buckets.length j0 s ≤ a := by omega
        have hnth_s : mm2.nthBucket s = mm.nthBucket s := hnth2_other s hsq hsi
        rw [hnth_s] at hlive hle
        obtain ⟨hul, hush⟩ := hinv.behind s hs hds_a hlive u hu hle
        have hu_ne_i : ¬ u = idx1 := by
          intro h
          rw [h, hd1] at hush
          rcases hush with h2 | h2 <;> omega
        by_cases huq : u = q
        · subst huq
          exact ⟨by rw [hnth2_q]; exact hkkne0, hush⟩
        · exact ⟨by rw [hnth2_other u huq hu_ne_i]; exact hul, hush⟩
  · -- entries
    have hkkbeq : (kk == mm.empty) = false := by simpa using hlive1
    have hper1 : (m1.liveEntries ++ [(kk, vv)]).Perm mm.liveEntries := by
      have hstep1 := filterMap_set_perm
        (fun b : FBucket K V =>
          if b.key == mm.empty then none else some (b.key, b.value))
        mm.buckets idx1 ⟨mm.empty, vv⟩ hmmlen
      rw [← mm.nthBucket_eq_get idx1 hmmlen] at hstep1
      simp [hkkbeq, ← hkk, ← hvv] at hstep1
      have hg1 : m1.liveEntries = (mm.buckets.set idx1 ⟨mm.empty, vv⟩).filterMap
          (fun b => if b.key == mm.empty then none else some (b.key, b.value)) := rfl
      rw [hg1]
      show ((mm.buckets.set idx1 ⟨mm.empty, vv⟩).filterMap
          (fun b => if b.key == mm.empty then none else some (b.key, b.value)) ++
            [(kk, vv)]).Perm (mm.buckets.filterMap
          (fun b => if b.key == mm.empty then none else some (b.key, b.value)))
      simp only [beq_iff_eq]
      exact hstep1
    have hper2 : mm2.liveEntries.Perm ((kk, vv) :: m1.liveEntries) := by
      have hstep2 := filterMap_set_perm
        (fun b : FBucket K V =>
          if b.key == m1.empty then none else some (b.key, b.value))
        m1.buckets q ⟨kk, vv⟩ hqlt0
      rw [← m1.nthBucket_eq_get q hqlt0] at hstep2
      have hkne2 : (kk == m1.empty) = false := by simpa using hkne
      simp only [hqkeyraw] at hstep2
      simp [hkne2] at hstep2
      have hg2 : mm2.liveEntries = (m1.buckets.set q ⟨kk, vv⟩).filterMap
          (fun b => if b.key == m1.empty then none else some (b.key, b.value)) := rfl
      rw [hg2]
      show ((m1.buckets.set q ⟨kk, vv⟩).filterMap
          (fun b => if b.key == m1.empty then none else some (b.key, b.value))).Perm
        ((kk, vv) :: m1.buckets.filterMap
          (fun b => if b.key == m1.empty then none else some (b.key, b.value)))
      simp only [beq_iff_eq]
      exact hstep2.trans (List.perm_append_singleton _ _)
    have e1 := hper2.append_right [(k0, v0)]
    have e3 := (List.perm_append_singleton (kk, vv) m1.liveEntries).append_right
      [(k0, v0)]
    exact e1.trans (e3.symm.trans ((hper1.append_right _).trans hinv.entries))

/-! Running the backward-shift loop to completion. -/

theorem Flat.march_run [DecidableEq K] [Inhabited V] (m0 : Flat K V)
    (hwf : m0.WF) (j0 : Nat) (hj0 : j0 < m0.buckets.length) (k0 : K) (v0 : V)
    (de : Nat) (hde : de < m0.buckets.length)
    (hPde : (m0.nthBucket ((j0 + de) % m0.buckets.length)).key = m0.empty)
    (hPmin : ∀ u, u < de →
      ¬ (m0.nthBucket ((j0 + u) % m0.buckets.length)).key = m0.empty) :
    ∀ (fuel : Nat) (mm : Flat K V) (a : Nat), m0.MarchInv j0 k0 v0 de mm a →
      de ≤ a + fuel →
      ∃ m2, Flat.shiftLoop mm ((j0 + a) % m0.buckets.length) fuel = some m2 ∧
        m0.MarchInv j0 k0 v0 de m2 (de - 1) := by
  have hc : 0 < m0.buckets.length := by
    have := hwf.cap_eq
    omega
  intro fuel
  induction fuel with
  | zero =>
    intro mm a hinv hfuel
    exact absurd hinv.a_lt (by omega)
  | succ n ih =>
    intro mm a hinv hfuel
    have hmask : ((j0 + a) % m0.buckets.length + 1) &&& mm.capMinus1 =
        (j0 + (a + 1)) % m0.buckets.length := by
      have hcm : mm.capMinus1 + 1 = m0.buckets.length := by
        rw [hinv.capm_eq]
        exact hwf.cap_eq
      obtain ⟨t, htt⟩ := hwf.pow2
      rw [mask_eq_mod mm.capMinus1 _ t (by rw [hcm]; exact htt), hcm,
        Nat.mod_add_mod]
      have h9 : j0 + a + 1 = j0 + (a + 1) := by omega
      rw [h9]
    simp only [Flat.shiftLoop]
    rw [hmask]
    have hi1lt : (j0 + (a + 1)) % m0.buckets.length < m0.buckets.length :=
      Nat.mod_lt _ hc
    by_cases hend : a + 1 = de
    · have hd1 : cycDist m0.buckets.length j0
          ((j0 + (a + 1)) % m0.buckets.length) = a + 1 :=
        cycDist_add _ _ _ hj0 (by omega)
      have hnth : mm.nthBucket ((j0 + (a + 1)) % m0.buckets.length) =
          m0.nthBucket ((j0 + (a + 1)) % m0.buckets.length) :=
        hinv.ahead _ hi1lt (by rw [hd1]; omega)
      have hkey : (mm.nthBucket ((j0 + (a + 1)) % m0.buckets.length)).key =
          mm.empty := by
        rw [hnth, hinv.empty_eq]
        have h2 : (j0 + (a + 1)) % m0.buckets.length =
            (j0 + de) % m0.buckets.length := by rw [hend]
        rw [h2]
        exact hPde
      rw [if_pos (by simpa using hkey)]
      refine ⟨mm, rfl, ?_⟩
      have h3 : de - 1 = a := by omega
      rw [h3]
      exact hinv
    · have hstep : a + 1 < de := by
        have := hinv.a_lt
        omega
      obtain ⟨hlive, mm2, hres, hinv2⟩ :=
        m0.march_step hwf j0 hj0 k0 v0 de hde hPde hPmin mm a hinv hstep
          ((j0 + (a + 1)) % m0.buckets.length) rfl
      rw [if_neg (by simpa using hlive)]
      rw [hres, Option.some_bind]
      exact ih mm2 (a + 1) hinv2 (by omega)

/-! Flat Remove specification. -/

theorem Flat.fremove_spec [DecidableEq K] [Inhabited V] (m : Flat K V)
    (hwf : m.WF) (k : K) (hk : ¬ k = m.empty) :
    ∃ m2 b, m.Remove k = some (m2, b) ∧ m2.WF ∧
      m2.empty = m.empty ∧ m2.hasher = m.hasher ∧
      (b = true → ∃ v0, (k, v0) ∈ m.liveEntries ∧
        (m2.liveEntries ++ [(k, v0)]).Perm m.liveEntries ∧
        m2.length = m.length - 1 ∧ 1 ≤ m.length) ∧
      (b = false → m2 = m ∧ ∀ v2, ¬ (k, v2) ∈ m.liveEntries) := by
  have hcap := hwf.cap_eq
  have hc : 0 < m.buckets.length := by omega
  have hhomelt : m.home k < m.buckets.length := m.fhome_lt hc k
  have hroom : m.liveEntries.length < m.buckets.length := by
    have h1 := hwf.count
    have h2 := hwf.len_le
    omega
  obtain ⟨e, helt, hekey⟩ := m.fexists_empty hroom
  obtain ⟨j, hj⟩ := m.probe_total (fun kk => kk == m.empty || kk == k)
    hwf.cap_eq hwf.pow2 (m.home k) hhomelt ⟨e, helt, by simp [hekey]⟩
  obtain ⟨hjlt, hjkey, hjmin⟩ :=
    m.probe_spec_some _ hwf.cap_eq hwf.pow2 _ j hhomelt hj
  have hremeq : ∀ r, ((if ((m.nthBucket j).key == m.empty) = true then
        some (m, false)
      else
        (Flat.shiftLoop
          ({ m with
              buckets := m.buckets.set j ⟨m.empty, (m.nthBucket j).value⟩
              length := m.length - 1 } : Flat K V) j
          ({ m with
              buckets := m.buckets.set j ⟨m.empty, (m.nthBucket j).value⟩
              length := m.length - 1 } : Flat K V).buckets.length).map
          (fun m2 => (m2, true))) = some r) → m.Remove k = some r := by
    intro r hr
    show (if k = m.empty then none else _) = some r
    rw [if_neg hk]
    show ((m.probe _ m.buckets.length (m.hasher k &&& m.capMinus1)).bind _) = some r
    rw [m.fhome_eq_mask hwf.cap_eq hwf.pow2 k, hj, Option.some_bind]
    exact hr
  by_cases hkeyj : (m.nthBucket j).key = m.empty
  · have habs : ∀ v2, ¬ (k, v2) ∈ m.liveEntries := by
      intro v2 hmem
      obtain ⟨_, i, hilt, hnth⟩ := (m.fmem_liveEntries k v2).mp hmem
      have hikey : (m.nthBucket i).key = k := by rw [hnth]
      have hilive : ¬ (m.nthBucket i).key = m.empty := by
        rw [hikey]
        exact hk
      rcases Nat.lt_trichotomy (cycDist m.buckets.length (m.home k) i)
          (cycDist m.buckets.length (m.home k) j) with hlt | heq | hgt
      · have h2 := hjmin i hilt hlt
        rw [hikey] at h2
        simp at h2
      · have h3 : i = j := cycDist_inj _ _ _ _ hhomelt hilt hjlt heq
        rw [h3, hkeyj] at hikey
        exact hk hikey.symm
      · have hcont := hwf.continuity i hilt hilive
        rw [hikey] at hcont
        exact (hcont j hjlt (Nat.le_of_lt hgt)) hkeyj
    refine ⟨m, false, hremeq (m, false) (by rw [if_pos (by simpa using hkeyj)]),
      hwf, rfl, rfl, by intro h; simp at h, fun _ => ⟨rfl, habs⟩⟩
  · have hkeyk : (m.nthBucket j).key = k := by
      rw [Bool.or_eq_true] at hjkey
      rcases hjkey with h | h
      · exact absurd (by simpa using h) hkeyj
      · simpa using h
    set v0 := (m.nthBucket j).value with hv0
    set m1 : Flat K V :=
      { m with
          buckets := m.buckets.set j ⟨m.empty, v0⟩
          length := m.length - 1 } with hm1
    have hm1len : m1.buckets.length = m.buckets.length := by
      rw [hm1]
      show (m.buckets.set j ⟨m.empty, v0⟩).length = _
      rw [List.length_set]
    have hm1nth_ne : ∀ u, ¬ u = j → m1.nthBucket u = m.nthBucket u := by
      intro u hu
      show (m.buckets.set j ⟨m.empty, v0⟩).getD u ⟨m.empty, default⟩ = _
      exact getD_set_ne _ _ _ _ _ (fun h => hu h.symm)
    have hm1nth_j : m1.nthBucket j = ⟨m.empty, v0⟩ := by
      show (m.buckets.set j ⟨m.empty, v0⟩).getD j ⟨m.empty, default⟩ = _
      exact getD_set_self _ _ _ _ hjlt
    have hPex : ∃ d,
        (m.nthBucket ((j + d) % m.buckets.length)).key = m.empty := by
      refine ⟨cycDist m.buckets.length j e, ?_⟩
      rw [cyc_recover _ _ _ hjlt helt]
      exact hekey
    have hPde := Nat.find_spec hPex
    have hPmin : ∀ u, u < Nat.find hPex →
        ¬ (m.nthBucket ((j + u) % m.buckets.length)).key = m.empty :=
      fun u hu => Nat.find_min hPex hu
    have hde1 : 1 ≤ Nat.find hPex := by
      rcases Nat.eq_zero_or_pos (Nat.find hPex) with h0 | h1
      · exfalso
        rw [h0] at hPde
        rw [Nat.add_zero, Nat.mod_eq_of_lt hjlt] at hPde
        exact hkeyj hPde
      · exact h1
    have hdelt : Nat.find hPex < m.buckets.length := by
      have h1 : Nat.find hPex ≤ cycDist m.buckets.length j e :=
        Nat.find_min' hPex (by rw [cyc_recover _ _ _ hjlt helt]; exact hekey)
      have h2 : cycDist m.buckets.length j e < m.buckets.length :=
        cycDist_lt _ _ _ hc
      omega
    have hmem0 : (k, v0) ∈ m.liveEntries :=
      (m.fmem_liveEntries k v0).mpr ⟨hk, j, hjlt, by rw [← hkeyk]⟩
    have hlen1 : 1 ≤ m.length := by
      have h1 := hwf.count
      have h2 := List.length_pos_of_mem hmem0
      omega
    have hinv0 : m.MarchInv j k v0 (Nat.find hPex) m1 0 := by
      refine ⟨rfl, rfl, rfl, hm1len, rfl, hde1, ?_, ?_, ?_⟩
      · intro u hu hgt
        have hune : ¬ u = j := by
          intro h
          rw [h, cycDist_self] at hgt
          omega
        exact hm1nth_ne u hune
      · intro s hs hds hlive u hu hle
        exfalso
        have hsj : j = s := cycDist_eq_zero _ _ _ hjlt hs (by omega)
        rw [← hsj, hm1nth_j] at hlive
        exact hlive rfl
      · have hstep1 := filterMap_set_perm
          (fun b : FBucket K V =>
            if b.key == m.empty then none else some (b.key, b.value))
          m.buckets j ⟨m.empty, v0⟩ hjlt
        rw [← m.nthBucket_eq_get j hjlt] at hstep1
        simp [hkeyk, hk, ← hv0] at hstep1
        have hg1 : m1.liveEntries =
            (m.buckets.set j ⟨m.empty, v0⟩).filterMap
              (fun b => if b.key == m.empty then none else some (b.key, b.value)) := rfl
        rw [hg1]
        show ((m.buckets.set j ⟨m.empty, v0⟩).filterMap
            (fun b => if b.key == m.empty then none else some (b.key, b.value)) ++
              [(k, v0)]).Perm (m.buckets.filterMap
            (fun b => if b.key == m.empty then none else some (b.key, b.value)))
        simp only [beq_iff_eq]
        exact hstep1
    obtain ⟨m2, hrun, hinvf⟩ :=
      m.march_run hwf j hjlt k v0 (Nat.find hPex) hdelt hPde hPmin
        m1.buckets.length m1 0 hinv0 (by rw [hm1len]; omega)
    have hstart : (j + 0) % m.buckets.length = j := by
      rw [Nat.add_zero]
      exact Nat.mod_eq_of_lt hjlt
    rw [hstart] at hrun
    have hm2len : m2.buckets.length = m.buckets.length := hinvf.blen
    have hm2home : ∀ x, m2.home x = m.home x := by
      intro x
      unfold Flat.home
      rw [hm2len, hinvf.hasher_eq]
    have hcnt : m2.liveEntries.length = m2.length := by
      have h1 := hinvf.entries.length_eq
      simp only [List.length_append, List.length_cons, List.length_nil] at h1
      have h2 := hwf.count
      have h3 := hinvf.len_eq
      omega
    have hndk : ((m2.liveEntries ++ [(k, v0)]).map Prod.fst).Nodup :=
      (List.Perm.nodup_iff (hinvf.entries.map Prod.fst)).mpr hwf.keys_nodup
    have hnd2 : (m2.liveEntries.map Prod.fst).Nodup := by
      rw [List.map_append] at hndk
      exact hndk.sublist (List.sublist_append_left _ _)
    have hcont2 : ∀ i, i < m2.buckets.length →
        ¬ (m2.nthBucket i).key = m2.empty →
        ∀ u, u < m2.buckets.length →
          cycDist m2.buckets.length (m2.home (m2.nthBucket i).key) u ≤
            cycDist m2.buckets.length (m2.home (m2.nthBucket i).key) i →
          ¬ (m2.nthBucket u).key = m2.empty := by
      intro i hi hlive u hu hle
      rw [hm2len] at hi hu
      rw [hm2len, hm2home] at hle
      rw [hinvf.empty_eq] at hlive ⊢
      by_cases hbi : cycDist m.buckets.length j i ≤ Nat.find hPex - 1
      · exact (hinvf.behind i hi hbi hlive u hu hle).1
      · push_neg at hbi
        have hnthi : m2.nthBucket i = m.nthBucket i :=
          hinvf.ahead i hi (by omega)
        rw [hnthi] at hlive hle
        have hcont := hwf.continuity i hi hlive
        by_cases hbu : Nat.find hPex - 1 < cycDist m.buckets.length j u
        · rw [hinvf.ahead u hu hbu]
          exact hcont u hu hle
        · exfalso
          push_neg at hbu
          have hhlt : m.home (m.nthBucket i).key < m.buckets.length :=
            m.fhome_lt hc _
          have heslt : (j + Nat.find hPex) % m.buckets.length <
              m.buckets.length := Nat.mod_lt _ hc
          have hdE : cycDist m.buckets.length j
              ((j + Nat.find hPex) % m.buckets.length) = Nat.find hPex :=
            cycDist_add _ _ _ hjlt hdelt
          have hine : ¬ i = (j + Nat.find hPex) % m.buckets.length := by
            intro h
            rw [h] at hlive
            exact hlive hPde
          have hdsge : Nat.find hPex < cycDist m.buckets.length j i := by
            have : ¬ cycDist m.buckets.length j i = Nat.find hPex := by
              intro h
              exact hine (cycDist_inj _ _ _ _ hjlt hi heslt (by rw [h, hdE]))
            omega
          have f1 := hle
          rw [cyc_shift m.buckets.length j (m.home (m.nthBucket i).key) u
              hjlt hhlt hu,
            cyc_shift m.buckets.length j (m.home (m.nthBucket i).key) i
              hjlt hhlt hi] at f1
          have hgoal : cycDist m.buckets.length
              (m.home (m.nthBucket i).key)
              ((j + Nat.find hPex) % m.buckets.length) ≤
              cycDist m.buckets.length (m.home (m.nthBucket i).key) i := by
            rw [cyc_shift m.buckets.length j (m.home (m.nthBucket i).key)
                ((j + Nat.find hPex) % m.buckets.length) hjlt hhlt heslt,
              cyc_shift m.buckets.length j (m.home (m.nthBucket i).key) i
                hjlt hhlt hi, hdE]
            exact cyc_geom2 m.buckets.length
              (cycDist m.buckets.length j (m.home (m.nthBucket i).key))
              (cycDist m.buckets.length j u)
              (cycDist m.buckets.length j i) (Nat.find hPex)
              (cycDist_lt _ _ _ hc) (cycDist_lt _ _ _ hc)
              (cycDist_lt _ _ _ hc) hdelt f1 (by omega) hdsge
          exact (hcont _ heslt hgoal) hPde
    have hwf2 : m2.WF := by
      refine ⟨?_, ?_, ?_, hcnt, hnd2, hcont2⟩
      · rw [hinvf.capm_eq, hm2len]
        exact hwf.cap_eq
      · rw [hm2len]
        exact hwf.pow2
      · rw [hinvf.len_eq, hm2len]
        have := hwf.len_le
        omega
    refine ⟨m2, true, ?_, hwf2, hinvf.empty_eq, hinvf.hasher_eq,
      fun _ => ⟨v0, hmem0, hinvf.entries, hinvf.len_eq, hlen1⟩,
      by intro h; simp at h⟩
    refine hremeq (m2, true) ?_
    rw [if_neg (by simpa using hkeyj)]
    rw [hrun, Option.map_some']

/-! Flat Clear, New, Copy, Reserve; reachable tables are well-formed. -/

theorem Flat.fclear_spec [DecidableEq K] [Inhabited V] (m : Flat K V)
    (hwf : m.WF) :
    m.Clear.WF ∧ m.Clear.liveEntries = [] ∧ m.Clear.Size = 0 ∧
      m.Clear.empty = m.empty ∧ m.Clear.hasher = m.hasher ∧
      m.Clear.buckets.length = m.buckets.length := by
  have hlen : m.Clear.buckets.length = m.buckets.length := by
    show (m.buckets.map _).length = _
    rw [List.length_map]
  have hlive : m.Clear.liveEntries = [] := by
    show (m.buckets.map (fun b : FBucket K V => ⟨m.empty, b.value⟩)).filterMap
        (fun b : FBucket K V =>
          if b.key == m.Clear.empty then none else some (b.key, b.value)) = []
    rw [List.filterMap_map]
    refine filterMap_of_all_none _ _ ?_
    intro a _
    show (if ((⟨m.empty, a.value⟩ : FBucket K V)).key == m.empty then none
      else _) = none
    simp
  refine ⟨⟨by rw [hlen]; exact hwf.cap_eq, by rw [hlen]; exact hwf.pow2,
    by show (0 : Nat) ≤ _; omega, by rw [hlive]; rfl, by rw [hlive]; simp, ?_⟩,
    hlive, rfl, rfl, rfl, hlen⟩
  intro i hi hlivei
  exfalso
  rw [hlen] at hi
  have hnth : m.Clear.nthBucket i = ⟨m.empty, (m.nthBucket i).value⟩ := by
    show (m.buckets.map
        (fun b : FBucket K V => (⟨m.empty, b.value⟩ : FBucket K V))).getD i
        (⟨m.empty, default⟩ : FBucket K V) =
      (⟨m.empty, (m.nthBucket i).value⟩ : FBucket K V)
    rw [getD_eq_getElem_of_lt _ _ _ (by rw [List.length_map]; exact hi)]
    rw [List.getElem_map]
    rw [Flat.nthBucket_eq_get m i hi]
    rfl
  rw [hnth] at hlivei
  exact hlivei rfl

theorem Flat.fclear_get [DecidableEq K] [Inhabited V] (m : Flat K V)
    (hwf : m.WF) (k : K) (hk : ¬ k = m.empty) :
    m.Clear.Get k = some none := by
  obtain ⟨hwf2, hlive, _, he, _, _⟩ := m.fclear_spec hwf
  refine m.Clear.fget_absent hwf2 k (by rw [he]; exact hk) ?_
  intro v
  rw [hlive]
  simp

theorem Flat.fnew_spec [DecidableEq K] [Inhabited V] (empty : K)
    (hasher : K → Nat) :
    (Flat.NewWithHasher empty hasher : Flat K V).WF ∧
      (Flat.NewWithHasher empty hasher : Flat K V).liveEntries = [] ∧
      (Flat.NewWithHasher empty hasher : Flat K V).Size = 0 ∧
      (Flat.NewWithHasher empty hasher : Flat K V).buckets.length = 4 := by
  set m : Flat K V := Flat.NewWithHasher empty hasher with hm
  have hb : m.buckets = List.replicate 4 (⟨m.empty, default⟩ : FBucket K V) := rfl
  have hlen : m.buckets.length = 4 := by
    rw [hb]
    exact List.length_replicate ..
  have hco : m.Core := m.ffresh_core 4 2 (by norm_num) (by show 4 - 1 + 1 = 4; rfl) hb
  have hlive : m.liveEntries = [] := m.ffresh_liveEntries 4 hb
  refine ⟨Flat.WF.of_core hco ?_ ?_, hlive, rfl, hlen⟩
  · rw [hlive]
    rfl
  · show (0 : Nat) ≤ _
    omega

theorem Flat.fcopy_eq [DecidableEq K] [Inhabited V] (m : Flat K V) :
    m.Copy = m := rfl

theorem Flat.freserve_spec [DecidableEq K] [Inhabited V] (m : Flat K V)
    (hwf : m.WF) (n : Nat) :
    ∃ m2, m.Reserve n = some m2 ∧ m2.WF ∧ m2.empty = m.empty ∧
      m2.hasher = m.hasher ∧ m2.liveEntries.Perm m.liveEntries ∧
      m2.length = m.length := by
  unfold Flat.Reserve
  by_cases hg : m.buckets.length < NextPowerOf2 (2 * n)
  · rw [if_pos hg]
    rcases NextPowerOf2_pow2 (2 * n) with h0 | ⟨t, ht⟩
    · exfalso
      rw [h0] at hg
      omega
    · have hroom : m.liveEntries.length < NextPowerOf2 (2 * n) := by
        have h1 := hwf.count
        have h2 := hwf.len_le
        omega
      obtain ⟨m2, hres, hco, hperm, he, hh, hbl, hl⟩ :=
        m.fresize_spec (NextPowerOf2 (2 * n)) t ht hwf.keys_nodup hroom
      refine ⟨m2, hres, ?_, he, hh, hperm, hl⟩
      refine Flat.WF.of_core hco ?_ ?_
      · rw [hperm.length_eq, hwf.count, hl]
      · rw [hl, hbl]
        have h1 := hwf.len_le
        have h2 := hwf.cap_eq
        omega
  · rw [if_neg hg]
    exact ⟨m, rfl, hwf, rfl, rfl, List.Perm.refl _, rfl⟩

theorem Flat.freachable_WF [DecidableEq K] [Inhabited V] (m : Flat K V)
    (h : m.Reachable) : m.WF := by
  induction h with
  | new empty hasher => exact (Flat.fnew_spec empty hasher).1
  | put k v hr hres ih =>
    rename_i mprev mnext b
    have hk : ¬ k = mprev.empty := by
      intro hkk
      have : mprev.Put k v = none := by
        show (if k = mprev.empty then none else _) = none
        rw [if_pos hkk]
      rw [this] at hres
      exact absurd hres (by simp)
    obtain ⟨m2, b2, heq, hwf2, _⟩ := mprev.fput_spec ih k v hk
    rw [heq] at hres
    have : m2 = mnext := congrArg Prod.fst (Option.some.inj hres)
    rw [← this]
    exact hwf2
  | remove k hr hres ih =>
    rename_i mprev mnext b
    have hk : ¬ k = mprev.empty := by
      intro hkk
      have : mprev.Remove k = none := by
        show (if k = mprev.empty then none else _) = none
        rw [if_pos hkk]
      rw [this] at hres
      exact absurd hres (by simp)
    obtain ⟨m2, b2, heq, hwf2, _⟩ := mprev.fremove_spec ih k hk
    rw [heq] at hres
    have : m2 = mnext := congrArg Prod.fst (Option.some.inj hres)
    rw [← this]
    exact hwf2
  | clear hr ih =>
    rename_i mprev
    exact (mprev.fclear_spec ih).1
  | reserve n hr hres ih =>
    rename_i mprev mnext
    obtain ⟨m2, heq, hwf2, _⟩ := mprev.freserve_spec ih n
    rw [heq] at hres
    have : m2 = mnext := Option.some.inj hres
    rw [← this]
    exact hwf2
  | copy hr ih =>
    rename_i mprev
    rw [Flat.fcopy_eq]
    exact ih

/-! RobinHood invariant toolkit. -/

theorem RobinHood.WF.rcore [DecidableEq K] [Inhabited K] [Inhabited V]
    {m : RobinHood K V} (h : m.WF) : m.Core :=
  ⟨h.cap_eq, h.pow2, h.psl_ge, h.psl_home, h.local_dec⟩

theorem RobinHood.Core.rc_pos [DecidableEq K] [Inhabited K] [Inhabited V]
    {m : RobinHood K V} (h : m.Core) : 0 < m.buckets.length := by
  have := h.cap_eq
  omega

theorem RobinHood.nthRBucket_eq_get [Inhabited K] [Inhabited V]
    (m : RobinHood K V) (i : Nat) (h : i < m.buckets.length) :
    m.nthRBucket i = m.buckets.get ⟨i, h⟩ := by
  unfold RobinHood.nthRBucket
  rw [getD_eq_getElem_of_lt _ _ _ h]
  rfl

theorem RobinHood.rhome_lt [Inhabited K] [Inhabited V] (m : RobinHood K V)
    (hc : 0 < m.buckets.length) (k : K) : m.home k < m.buckets.length :=
  Nat.mod_lt _ hc

theorem RobinHood.rhome_eq_mask [Inhabited K] [Inhabited V] (m : RobinHood K V)
    (hc : m.capMinus1 + 1 = m.buckets.length)
    (ht : ∃ t, m.buckets.length = 2 ^ t) (k : K) :
    m.hasher k &&& m.capMinus1 = m.home k := by
  obtain ⟨t, htt⟩ := ht
  have h2 := mask_eq_mod m.capMinus1 (m.hasher k) t (by rw [hc]; exact htt)
  rw [h2, hc]
  rfl

theorem RobinHood.rmem_liveEntries [DecidableEq K] [Inhabited K] [Inhabited V]
    (m : RobinHood K V) (k : K) (v : V) :
    (k, v) ∈ m.liveEntries ↔
      ∃ i, i < m.buckets.length ∧ ¬ (m.nthRBucket i).psl = -1 ∧
        (m.nthRBucket i).key = k ∧ (m.nthRBucket i).value = v := by
  unfold RobinHood.liveEntries
  rw [List.mem_filterMap]
  constructor
  · rintro ⟨a, ha, hfa⟩
    by_cases hp : a.psl = -1
    · rw [if_pos (by simpa using hp)] at hfa
      exact absurd hfa (by simp)
    · rw [if_neg (by simpa using hp)] at hfa
      have hkey : a.key = k := congrArg Prod.fst (Option.some.inj hfa)
      have hval : a.value = v := congrArg Prod.snd (Option.some.inj hfa)
      obtain ⟨i, hi, hgot⟩ := List.mem_iff_getElem.1 ha
      refine ⟨i, hi, ?_, ?_, ?_⟩ <;>
        rw [RobinHood.nthRBucket_eq_get m i hi] <;>
        simp only [List.get_eq_getElem] <;> rw [hgot]
      · exact hp
      · exact hkey
      · exact hval
  · rintro ⟨i, hi, hp, hkey, hval⟩
    refine ⟨m.buckets.get ⟨i, hi⟩, List.get_mem _ _ _, ?_⟩
    rw [← RobinHood.nthRBucket_eq_get m i hi]
    rw [if_neg (by simpa using hp), hkey, hval]

theorem RobinHood.rnodup_slot_aux [DecidableEq K] [Inhabited K] [Inhabited V]
    (m : RobinHood K V) (hnd : (m.liveEntries.map Prod.fst).Nodup)
    (i j : Nat) (hij : i < j) (hj : j < m.buckets.length)
    (hi2 : ¬ (m.nthRBucket i).psl = -1) (hj2 : ¬ (m.nthRBucket j).psl = -1) :
    ¬ (m.nthRBucket i).key = (m.nthRBucket j).key := by
  intro heq
  have hi : i < m.buckets.length := Nat.lt_trans hij hj
  have hsub := pair_sublist m.buckets i j hij hj
  have hsub2 := hsub.filterMap
    (fun b : RBucket K V =>
      if b.psl == (-1 : Int) then none else some (b.key, b.value))
  rw [RobinHood.nthRBucket_eq_get m i hi] at hi2 heq
  rw [RobinHood.nthRBucket_eq_get m j hj] at hj2 heq
  rw [List.filterMap_cons, List.filterMap_cons] at hsub2
  rw [if_neg (by simpa using hi2), if_neg (by simpa using hj2)] at hsub2
  have hsub3 : List.Sublist
      [(m.buckets.get ⟨i, hi⟩).key, (m.buckets.get ⟨j, hj⟩).key]
      (m.liveEntries.map Prod.fst) := by
    have := hsub2.map Prod.fst
    unfold RobinHood.liveEntries
    simpa using this
  have := hnd.sublist hsub3
  rw [heq] at this
  simp at this

theorem RobinHood.rnodup_slot [DecidableEq K] [Inhabited K] [Inhabited V]
    (m : RobinHood K V) (hnd : (m.liveEntries.map Prod.fst).Nodup)
    (i j : Nat) (hi : i < m.buckets.length) (hj : j < m.buckets.length)
    (hi2 : ¬ (m.nthRBucket i).psl = -1) (hj2 : ¬ (m.nthRBucket j).psl = -1)
    (heq : (m.nthRBucket i).key = (m.nthRBucket j).key) : i = j := by
  rcases Nat.lt_trichotomy i j with h | h | h
  · exact absurd heq (RobinHood.rnodup_slot_aux m hnd i j h hj hi2 hj2)
  · exact h
  · exact absurd heq.symm (RobinHood.rnodup_slot_aux m hnd j i h hi hj2 hi2)

theorem RobinHood.rexists_empty [DecidableEq K] [Inhabited K] [Inhabited V]
    (m : RobinHood K V) (h : m.liveEntries.length < m.buckets.length) :
    ∃ e, e < m.buckets.length ∧ (m.nthRBucket e).psl = -1 := by
  by_contra hc
  push_neg at hc
  have hall : ∀ a ∈ m.buckets,
      ((fun b : RBucket K V =>
        if b.psl == (-1 : Int) then none else some (b.key, b.value)) a).isSome := by
    intro a ha
    obtain ⟨i, hi, hgot⟩ := List.mem_iff_getElem.1 ha
    have hne : ¬ a.psl = -1 := by
      have := hc i hi
      rw [RobinHood.nthRBucket_eq_get m i hi] at this
      simp only [List.get_eq_getElem] at this
      rw [hgot] at this
      exact this
    simp [hne]
  have := length_filterMap_of_all _ m.buckets hall
  unfold RobinHood.liveEntries at h
  omega

theorem RobinHood.psl_forward [DecidableEq K] [Inhabited K] [Inhabited V]
    (m : RobinHood K V) (hld : ∀ j, j < m.buckets.length →
      (m.nthRBucket ((j + 1) % m.buckets.length)).psl ≤ (m.nthRBucket j).psl + 1)
    (hc : 0 < m.buckets.length) (x : Nat) (hx : x < m.buckets.length) :
    ∀ d : Nat, (m.nthRBucket ((x + d) % m.buckets.length)).psl ≤
      (m.nthRBucket x).psl + d := by
  intro d
  induction d with
  | zero =>
    rw [Nat.add_zero, Nat.mod_eq_of_lt hx]
    simp
  | succ n ih =>
    have h1 := hld ((x + n) % m.buckets.length) (Nat.mod_lt _ hc)
    rw [Nat.mod_add_mod] at h1
    have h2 : x + n + 1 = x + (n + 1) := by omega
    rw [h2] at h1
    have : ((n : Int) + 1) = (n : Int) + 1 := rfl
    push_cast
    push_cast at ih
    omega

/-! Robin search loop characterizations. -/

theorem RobinHood.removeLoop_char [DecidableEq K] [Inhabited K] [Inhabited V]
    (m : RobinHood K V) (key : K)
    (hc : m.capMinus1 + 1 = m.buckets.length)
    (ht : ∃ t, m.buckets.length = 2 ^ t) (fuel : Nat) :
    ∀ start (p : Int), start < m.buckets.length →
      (m.removeLoop key fuel start p = none ∧
        ∀ u : Nat, u < fuel →
          (p + u ≤ (m.nthRBucket ((start + u) % m.buckets.length)).psl ∧
           ¬ (m.nthRBucket ((start + u) % m.buckets.length)).key = key)) ∨
      (∃ u : Nat, u < fuel ∧
        (∀ w : Nat, w < u →
          (p + w ≤ (m.nthRBucket ((start + w) % m.buckets.length)).psl ∧
           ¬ (m.nthRBucket ((start + w) % m.buckets.length)).key = key)) ∧
        ((p + u ≤ (m.nthRBucket ((start + u) % m.buckets.length)).psl ∧
          (m.nthRBucket ((start + u) % m.buckets.length)).key = key ∧
          m.removeLoop key fuel start p =
            some (some ((start + u) % m.buckets.length))) ∨
         (¬ (p + u ≤ (m.nthRBucket ((start + u) % m.buckets.length)).psl) ∧
          m.removeLoop key fuel start p = some none))) := by
  induction fuel with
  | zero =>
    intro start p hs
    left
    exact ⟨rfl, fun u hu => absurd hu (Nat.not_lt_zero u)⟩
  | succ n ih =>
    intro start p hs
    have hcpos : 0 < m.buckets.length := by omega
    have hmask : (start + 1) &&& m.capMinus1 = (start + 1) % m.buckets.length := by
      obtain ⟨t, htt⟩ := ht
      have h2 := mask_eq_mod m.capMinus1 (start + 1) t (by rw [hc]; exact htt)
      rw [h2, hc]
    have hstep : m.removeLoop key (n + 1) start p =
        if p ≤ (m.nthRBucket start).psl then
          if (m.nthRBucket start).key == key then some (some start)
          else m.removeLoop key n ((start + 1) &&& m.capMinus1) (p + 1)
        else some none := rfl
    have hidx : ∀ u : Nat,
        ((start + 1) % m.buckets.length + u) % m.buckets.length =
          (start + (u + 1)) % m.buckets.length := by
      intro u
      rw [Nat.mod_add_mod]
      congr 1
      omega
    have hcnt : ∀ u : Nat, p + 1 + (u : Int) = p + ((u + 1 : Nat) : Int) := by
      intro u
      push_cast
      ring
    have hzero : (p + ((0 : Nat) : Int)) = p := by
      push_cast
      ring
    have hmod0 : (start + 0) % m.buckets.length = start := by
      rw [Nat.add_zero]
      exact Nat.mod_eq_of_lt hs
    by_cases h1 : p ≤ (m.nthRBucket start).psl
    · by_cases h2 : (m.nthRBucket start).key = key
      · right
        refine ⟨0, by omega, fun w hw => absurd hw (Nat.not_lt_zero w), Or.inl ?_⟩
        rw [hmod0, hzero]
        refine ⟨h1, h2, ?_⟩
        rw [hstep, if_pos h1, if_pos (by simpa using h2)]
      · have hs1 : (start + 1) % m.buckets.length < m.buckets.length :=
          Nat.mod_lt _ hcpos
        rcases ih ((start + 1) % m.buckets.length) (p + 1) hs1 with
          ⟨hnone, hall⟩ | ⟨u, hu, hpre, hout⟩
        · left
          constructor
          · rw [hstep, if_pos h1, if_neg (by simpa using h2), hmask]
            exact hnone
          · intro u hu
            match u with
            | 0 =>
              rw [hmod0, hzero]
              exact ⟨h1, h2⟩
            | w + 1 =>
              have h3 := hall w (by omega)
              rw [hidx w, hcnt w] at h3
              exact h3
        · right
          refine ⟨u + 1, by omega, ?_, ?_⟩
          · intro w hw
            match w with
            | 0 =>
              rw [hmod0, hzero]
              exact ⟨h1, h2⟩
            | w + 1 =>
              have h3 := hpre w (by omega)
              rw [hidx w, hcnt w] at h3
              exact h3
          · have hloopeq : m.removeLoop key (n + 1) start p =
                m.removeLoop key n ((start + 1) % m.buckets.length) (p + 1) := by
              rw [hstep, if_pos h1, if_neg (by simpa using h2), hmask]
            rcases hout with ⟨ha, hb, hc2⟩ | ⟨ha, hb⟩
            · refine Or.inl ?_
              rw [hidx u, hcnt u] at ha
              rw [hidx u] at hb hc2
              exact ⟨ha, hb, by rw [hloopeq]; exact hc2⟩
            · refine Or.inr ?_
              rw [hidx u, hcnt u] at ha
              exact ⟨ha, by rw [hloopeq]; exact hb⟩
    · right
      refine ⟨0, by omega, fun w hw => absurd hw (Nat.not_lt_zero w), Or.inr ?_⟩
      rw [hmod0, hzero]
      exact ⟨h1, by rw [hstep, if_neg h1]⟩

theorem RobinHood.getLoop_eq [DecidableEq K] [Inhabited K] [Inhabited V]
    (m : RobinHood K V) (key : K) :
    ∀ (fuel : Nat) (idx : Nat) (p : Int),
      m.getLoop key fuel idx p = (m.removeLoop key fuel idx p).map
        (Option.map (fun j => (m.nthRBucket j).value))
  | 0, idx, p => rfl
  | fuel + 1, idx, p => by
    have hgstep : m.getLoop key (fuel + 1) idx p =
        if p ≤ (m.nthRBucket idx).psl then
          if (m.nthRBucket idx).key == key then
            some (some (m.nthRBucket idx).value)
          else m.getLoop key fuel ((idx + 1) &&& m.capMinus1) (p + 1)
        else some none := rfl
    have hrstep : m.removeLoop key (fuel + 1) idx p =
        if p ≤ (m.nthRBucket idx).psl then
          if (m.nthRBucket idx).key == key then some (some idx)
          else m.removeLoop key fuel ((idx + 1) &&& m.capMinus1) (p + 1)
        else some none := rfl
    rw [hgstep, hrstep]
    by_cases h1 : p ≤ (m.nthRBucket idx).psl
    · rw [if_pos h1, if_pos h1]
      by_cases h2 : ((m.nthRBucket idx).key == key) = true
      · rw [if_pos h2, if_pos h2]
        rfl
      · rw [if_neg h2, if_neg h2]
        exact RobinHood.getLoop_eq m key fuel ((idx + 1) &&& m.capMinus1) (p + 1)
    · rw [if_neg h1, if_neg h1]
      rfl

/-! Put search loop characterization. -/

theorem RobinHood.putLoop_char [DecidableEq K] [Inhabited K] [Inhabited V]
    (m : RobinHood K V) (key : K) (val : V)
    (hc : m.capMinus1 + 1 = m.buckets.length)
    (ht : ∃ t, m.buckets.length = 2 ^ t) (fuel : Nat) :
    ∀ start (p : Int), start < m.buckets.length →
      (m.putLoop key val fuel start p = none ∧
        ∀ u : Nat, u < fuel →
          (p + u ≤ (m.nthRBucket ((start + u) % m.buckets.length)).psl ∧
           ¬ (m.nthRBucket ((start + u) % m.buckets.length)).key = key)) ∨
      (∃ u : Nat, u < fuel ∧
        (∀ w : Nat, w < u →
          (p + w ≤ (m.nthRBucket ((start + w) % m.buckets.length)).psl ∧
           ¬ (m.nthRBucket ((start + w) % m.buckets.length)).key = key)) ∧
        ((p + u ≤ (m.nthRBucket ((start + u) % m.buckets.length)).psl ∧
          (m.nthRBucket ((start + u) % m.buckets.length)).key = key ∧
          m.putLoop key val fuel start p =
            some ({ m with buckets := m.buckets.set ((start + u) % m.buckets.length) ⟨(m.nthRBucket ((start + u) % m.buckets.length)).key, (m.nthRBucket ((start + u) % m.buckets.length)).psl, val⟩ }, false)) ∨
         (¬ (p + u ≤ (m.nthRBucket ((start + u) % m.buckets.length)).psl) ∧
          m.putLoop key val fuel start p =
            (({ m with length := m.length + 1 }).emplace
              ⟨key, p + u, val⟩ ((start + u) % m.buckets.length)
              m.buckets.length).map (fun m2 => (m2, true))))) := by
  induction fuel with
  | zero =>
    intro start p hs
    left
    exact ⟨rfl, fun u hu => absurd hu (Nat.not_lt_zero u)⟩
  | succ n ih =>
    intro start p hs
    have hcpos : 0 < m.buckets.length := by omega
    have hmask : (start + 1) &&& m.capMinus1 = (start + 1) % m.buckets.length := by
      obtain ⟨t, htt⟩ := ht
      have h2 := mask_eq_mod m.capMinus1 (start + 1) t (by rw [hc]; exact htt)
      rw [h2, hc]
    have hstep : m.putLoop key val (n + 1) start p =
        if p ≤ (m.nthRBucket start).psl then
          if (m.nthRBucket start).key == key then
            some ({ m with buckets := m.buckets.set start ⟨(m.nthRBucket start).key, (m.nthRBucket start).psl, val⟩ }, false)
          else m.putLoop key val n ((start + 1) &&& m.capMinus1) (p + 1)
        else
          (({ m with length := m.length + 1 }).emplace ⟨key, p, val⟩ start
            m.buckets.length).map (fun m2 => (m2, true)) := rfl
    have hidx : ∀ u : Nat,
        ((start + 1) % m.buckets.length + u) % m.buckets.length =
          (start + (u + 1)) % m.buckets.length := by
      intro u
      rw [Nat.mod_add_mod]
      congr 1
      omega
    have hcnt : ∀ u : Nat, p + 1 + (u : Int) = p + ((u + 1 : Nat) : Int) := by
      intro u
      push_cast
      ring
    have hzero : (p + ((0 : Nat) : Int)) = p := by
      push_cast
      ring
    have hmod0 : (start + 0) % m.buckets.length = start := by
      rw [Nat.add_zero]
      exact Nat.mod_eq_of_lt hs
    by_cases h1 : p ≤ (m.nthRBucket start).psl
    · by_cases h2 : (m.nthRBucket start).key = key
      · right
        refine ⟨0, by omega, fun w hw => absurd hw (Nat.not_lt_zero w), Or.inl ?_⟩
        rw [hmod0, hzero]
        refine ⟨h1, h2, ?_⟩
        rw [hstep, if_pos h1, if_pos (by simpa using h2)]
      · have hs1 : (start + 1) % m.buckets.length < m.buckets.length :=
          Nat.mod_lt _ hcpos
        rcases ih ((start + 1) % m.buckets.length) (p + 1) hs1 with
          ⟨hnone, hall⟩ | ⟨u, hu, hpre, hout⟩
        · left
          constructor
          · rw [hstep, if_pos h1, if_neg (by simpa using h2), hmask]
            exact hnone
          · intro u hu
            match u with
            | 0 =>
              rw [hmod0, hzero]
              exact ⟨h1, h2⟩
            | w + 1 =>
              have h3 := hall w (by omega)
              rw [hidx w, hcnt w] at h3
              exact h3
        · right
          refine ⟨u + 1, by omega, ?_, ?_⟩
          · intro w hw
            match w with
            | 0 =>
              rw [hmod0, hzero]
              exact ⟨h1, h2⟩
            | w + 1 =>
              have h3 := hpre w (by omega)
              rw [hidx w, hcnt w] at h3
              exact h3
          · have hloopeq : m.putLoop key val (n + 1) start p =
                m.putLoop key val n ((start + 1) % m.buckets.length) (p + 1) := by
              rw [hstep, if_pos h1, if_neg (by simpa using h2), hmask]
            rcases hout with ⟨ha, hb, hc2⟩ | ⟨ha, hb⟩
            · refine Or.inl ?_
              rw [hidx u, hcnt u] at ha
              rw [hidx u] at hb hc2
              exact ⟨ha, hb, by rw [hloopeq]; exact hc2⟩
            · refine Or.inr ?_
              rw [hidx u, hcnt u] at ha
              rw [hidx u] at hb
              rw [hcnt u] at hb
              exact ⟨ha, by rw [hloopeq]; exact hb⟩
    · right
      refine ⟨0, by omega, fun w hw => absurd hw (Nat.not_lt_zero w), Or.inr ?_⟩
      rw [hmod0, hzero]
      exact ⟨h1, by rw [hstep, if_neg h1]⟩

/-! Cyclic helpers for the emplace walk. -/

theorem cycDist_step (c h x : Nat) (hh : h < c) (hx : x < c)
    (hlt : cycDist c h x + 1 < c) :
    cycDist c h ((x + 1) % c) = cycDist c h x + 1 := by
  have hrec := cyc_recover c h x hh hx
  conv_lhs => rw [← hrec]
  rw [Nat.mod_add_mod]
  exact cycDist_add c h (cycDist c h x + 1) hh hlt

theorem mod_succ_inj (c j x : Nat) (hj : j < c) (hx : x < c)
    (h : (j + 1) % c = (x + 1) % c) : j = x := by
  rcases Nat.lt_or_ge (j + 1) c with h1 | h1 <;>
    rcases Nat.lt_or_ge (x + 1) c with h2 | h2
  · rw [Nat.mod_eq_of_lt h1, Nat.mod_eq_of_lt h2] at h
    omega
  · have hx1 : x + 1 = c := by omega
    rw [Nat.mod_eq_of_lt h1, hx1, Nat.mod_self] at h
    omega
  · have hj1 : j + 1 = c := by omega
    rw [Nat.mod_eq_of_lt h2, hj1, Nat.mod_self] at h
    omega
  · omega

theorem RobinHood.psl_bound [DecidableEq K] [Inhabited K] [Inhabited V]
    (m : RobinHood K V) (hc : 0 < m.buckets.length)
    (hld : ∀ j, j < m.buckets.length →
      (m.nthRBucket ((j + 1) % m.buckets.length)).psl ≤
        (m.nthRBucket j).psl + 1)
    (hhome : ∀ i, i < m.buckets.length → 0 ≤ (m.nthRBucket i).psl →
      (m.nthRBucket i).psl =
        (cycDist m.buckets.length (m.home (m.nthRBucket i).key) i : Int))
    (e : Nat) (he : e < m.buckets.length) (hekey : (m.nthRBucket e).psl = -1)
    (i : Nat) (hi : i < m.buckets.length)
    (hlive : 0 ≤ (m.nthRBucket i).psl) :
    (m.nthRBucket i).psl + 2 ≤ (m.buckets.length : Int) := by
  by_contra hcon
  push_neg at hcon
  have hD := hhome i hi hlive
  set h := m.home (m.nthRBucket i).key with hh
  have hhlt : h < m.buckets.length := m.rhome_lt hc _
  have hDlt : cycDist m.buckets.length h i < m.buckets.length :=
    cycDist_lt _ h i hc
  have hDval : cycDist m.buckets.length h i = m.buckets.length - 1 := by
    rw [hD] at hcon
    push_cast at hcon
    omega
  have hall : ∀ t : Nat, t < m.buckets.length →
      0 ≤ (m.nthRBucket ((h + t) % m.buckets.length)).psl := by
    intro t htc
    have hfwd2 := RobinHood.psl_forward m hld hc
      ((h + t) % m.buckets.length) (Nat.mod_lt _ hc)
      (m.buckets.length - 1 - t)
    rw [Nat.mod_add_mod] at hfwd2
    have harr : h + t + (m.buckets.length - 1 - t) = h + (m.buckets.length - 1) := by
      omega
    rw [harr] at hfwd2
    have hieq : (h + (m.buckets.length - 1)) % m.buckets.length = i := by
      have := cyc_recover m.buckets.length h i hhlt hi
      rw [hDval] at this
      exact this
    rw [hieq] at hfwd2
    have hD2 := hD
    push_cast at hfwd2
    omega
  have hte : (h + cycDist m.buckets.length h e) % m.buckets.length = e :=
    cyc_recover m.buckets.length h e hhlt he
  have := hall (cycDist m.buckets.length h e) (cycDist_lt _ h e hc)
  rw [hte, hekey] at this
  omega

/-! The robin-hood emplace walk terminates and preserves the invariant. -/

theorem RobinHood.emplace_run [DecidableEq K] [Inhabited K] [Inhabited V]
    (m0 : RobinHood K V) (hc : 0 < m0.buckets.length)
    (hcap0 : m0.capMinus1 + 1 = m0.buckets.length)
    (hpow0 : ∃ t, m0.buckets.length = 2 ^ t)
    (idx0 : Nat) (hidx0 : idx0 < m0.buckets.length) (k0 : K) (v0 : V)
    (dstar : Nat) (hdlt : dstar < m0.buckets.length)
    (hPd : (m0.nthRBucket ((idx0 + dstar) % m0.buckets.length)).psl = -1)
    (fuel : Nat) :
    ∀ (mm : RobinHood K V) (cur : RBucket K V) (a : Nat),
      m0.EmplaceInv idx0 k0 v0 mm cur a → a ≤ dstar → dstar < a + fuel →
      ∃ m2, mm.emplace cur ((idx0 + a) % m0.buckets.length) fuel = some m2 ∧
        m2.Core ∧ m2.liveEntries.Perm ((k0, v0) :: m0.liveEntries) ∧
        (m2.liveEntries.map Prod.fst).Nodup ∧
        m2.hasher = m0.hasher ∧ m2.capMinus1 = m0.capMinus1 ∧
        m2.length = m0.length ∧ m2.nextResize = m0.nextResize ∧
        m2.maxLoad = m0.maxLoad ∧ m2.buckets.length = m0.buckets.length := by
  induction fuel with
  | zero =>
    intro mm cur a hinv ha hfuel
    omega
  | succ n ih =>
    intro mm cur a hinv ha hfuel
    have hidxlt : (idx0 + a) % m0.buckets.length < m0.buckets.length :=
      Nat.mod_lt _ hc
    set idx := (idx0 + a) % m0.buckets.length with hidxdef
    have hmmlen : idx < mm.buckets.length := by
      rw [hinv.blen]
      exact hidxlt
    have hhomeeq : ∀ x, mm.home x = m0.home x := by
      intro x
      unfold RobinHood.home
      rw [hinv.blen, hinv.hasher_eq]
    have hstep : mm.emplace cur idx (n + 1) =
        if (mm.nthRBucket idx).psl == (-1 : Int) then
          some { mm with buckets := mm.buckets.set idx cur }
        else if (mm.nthRBucket idx).psl < cur.psl then
          RobinHood.emplace { mm with buckets := mm.buckets.set idx cur } ⟨(mm.nthRBucket idx).key, (mm.nthRBucket idx).psl + 1, (mm.nthRBucket idx).value⟩ ((idx + 1) &&& mm.capMinus1) n
        else
          RobinHood.emplace mm ⟨cur.key, cur.psl + 1, cur.value⟩ ((idx + 1) &&& mm.capMinus1) n := rfl
    have hmask : (idx + 1) &&& mm.capMinus1 =
        (idx0 + (a + 1)) % m0.buckets.length := by
      have hcm : mm.capMinus1 + 1 = m0.buckets.length := by
        rw [hinv.capm_eq]
        exact hcap0
      obtain ⟨t, htt⟩ := hpow0
      rw [mask_eq_mod mm.capMinus1 _ t (by rw [hcm]; exact htt), hcm, hidxdef,
        Nat.mod_add_mod]
      have h9 : idx0 + a + 1 = idx0 + (a + 1) := by omega
      rw [h9]
    by_cases hemp : (mm.nthRBucket idx).psl = -1
    · -- final placement
      rw [hstep, if_pos (by simpa using hemp)]
      set m2 : RobinHood K V := { mm with buckets := mm.buckets.set idx cur }
        with hm2
      have hm2len : m2.buckets.length = m0.buckets.length := by
        rw [hm2]
        show (mm.buckets.set idx cur).length = _
        rw [List.length_set]
        exact hinv.blen
      have hnth_ne : ∀ u, ¬ u = idx → m2.nthRBucket u = mm.nthRBucket u := by
        intro u hu
        show (mm.buckets.set idx cur).getD u ⟨default, -1, default⟩ = _
        exact getD_set_ne _ _ _ _ _ (fun h => hu h.symm)
      have hnth_idx : m2.nthRBucket idx = cur := by
        show (mm.buckets.set idx cur).getD idx ⟨default, -1, default⟩ = _
        exact getD_set_self _ _ _ _ hmmlen
      have hhome2 : ∀ x, m2.home x = m0.home x := by
        intro x
        unfold RobinHood.home
        rw [hm2len]
        show mm.hasher x % _ = _
        rw [hinv.hasher_eq]
      have hperm : m2.liveEntries.Perm ((cur.key, cur.value) :: mm.liveEntries) := by
        have hstep1 := filterMap_set_perm
          (fun b : RBucket K V =>
            if b.psl == (-1 : Int) then none else some (b.key, b.value))
          mm.buckets idx cur hmmlen
        rw [← mm.nthRBucket_eq_get idx hmmlen] at hstep1
        have hcurne : ¬ cur.psl = -1 := by
          have := hinv.cur_nonneg
          omega
        simp only [hemp] at hstep1
        simp [hcurne] at hstep1
        show ((mm.buckets.set idx cur).filterMap
          (fun b : RBucket K V =>
            if b.psl == (-1 : Int) then none else some (b.key, b.value))).Perm _
        simp only [beq_iff_eq]
        unfold RobinHood.liveEntries
        simp only [beq_iff_eq]
        exact hstep1.trans (List.perm_append_singleton _ _)
      have hperm0 : m2.liveEntries.Perm ((k0, v0) :: m0.liveEntries) :=
        hperm.trans hinv.entries
      have hnd : (m2.liveEntries.map Prod.fst).Nodup := by
        have h1 := hperm.map Prod.fst
        rw [List.Perm.nodup_iff h1]
        exact hinv.keys_nodup2
      refine ⟨m2, rfl, ?_, hperm0, hnd, hinv.hasher_eq, hinv.capm_eq,
        hinv.len_eq, hinv.next_eq2, hinv.ml_eq, hm2len⟩
      refine ⟨by rw [hm2len, hinv.capm_eq]; exact hcap0,
        by rw [hm2len]; exact hpow0, ?_, ?_, ?_⟩
      · intro i hi
        rw [hm2len] at hi
        by_cases hui : i = idx
        · subst hui
          rw [hnth_idx]
          have := hinv.cur_nonneg
          omega
        · rw [hnth_ne i hui]
          exact hinv.psl_ge i hi
      · intro i hi hlive
        rw [hm2len] at hi
        rw [hm2len, hhome2]
        by_cases hui : i = idx
        · subst hui
          rw [hnth_idx] at hlive ⊢
          exact hinv.cur_dist
        · rw [hnth_ne i hui] at hlive ⊢
          exact hinv.psl_home i hi hlive
      · intro j hj
        rw [hm2len] at hj ⊢
        by_cases hj1 : (j + 1) % m0.buckets.length = idx
        · rw [hj1, hnth_idx]
          by_cases hj2 : j = idx
          · rw [hj2, hnth_idx]
            omega
          · rw [hnth_ne j hj2]
            exact hinv.entry j hj hj1
        · rw [hnth_ne _ hj1]
          by_cases hj2 : j = idx
          · rw [hj2, hnth_idx]
            have h3 := hinv.local_dec j hj
            rw [hj2, hemp] at h3
            have := hinv.cur_nonneg
            omega
          · rw [hnth_ne j hj2]
            exact hinv.local_dec j hj
    · -- occupied slot
      have hpos : 0 ≤ (mm.nthRBucket idx).psl := by
        have := hinv.psl_ge idx hidxlt
        omega
      have ha_lt : a < dstar := by
        rcases Nat.lt_or_ge a dstar with h | h
        · exact h
        · exfalso
          have haeq : a = dstar := by omega
          have := (hinv.empties_eq idx hidxlt).mpr (by rw [hidxdef, haeq]; exact hPd)
          exact hemp this
      have he_mm : (mm.nthRBucket ((idx0 + dstar) % m0.buckets.length)).psl = -1 :=
        (hinv.empties_eq _ (Nat.mod_lt _ hc)).mpr hPd
      have hbound : (mm.nthRBucket idx).psl + 2 ≤ (m0.buckets.length : Int) := by
        have hb := RobinHood.psl_bound mm (by rw [hinv.blen]; exact hc)
          (by rw [hinv.blen]; exact fun j hj => hinv.local_dec j hj)
          (by
            rw [hinv.blen]
            intro i hi hl
            rw [hhomeeq]
            exact hinv.psl_home i hi hl)
          ((idx0 + dstar) % m0.buckets.length) (by rw [hinv.blen]; exact Nat.mod_lt _ hc)
          he_mm idx (by rw [hinv.blen]; exact hidxlt) hpos
        rw [hinv.blen] at hb
        exact hb
      have hDidx : (mm.nthRBucket idx).psl =
          (cycDist m0.buckets.length (m0.home (mm.nthRBucket idx).key) idx : Int) :=
        hinv.psl_home idx hidxlt hpos
      have hidx1 : (idx + 1) % m0.buckets.length =
          (idx0 + (a + 1)) % m0.buckets.length := by
        rw [hidxdef, Nat.mod_add_mod]
        have h9 : idx0 + a + 1 = idx0 + (a + 1) := by omega
        rw [h9]
      by_cases hswap : (mm.nthRBucket idx).psl < cur.psl
      · -- swap
        set mm2 : RobinHood K V := { mm with buckets := mm.buckets.set idx cur }
          with hmm2
        set cur2 : RBucket K V :=
          ⟨(mm.nthRBucket idx).key, (mm.nthRBucket idx).psl + 1,
            (mm.nthRBucket idx).value⟩ with hcur2
        have hmm2len : mm2.buckets.length = m0.buckets.length := by
          rw [hmm2]
          show (mm.buckets.set idx cur).length = _
          rw [List.length_set]
          exact hinv.blen
        have hnth_ne : ∀ u, ¬ u = idx → mm2.nthRBucket u = mm.nthRBucket u := by
          intro u hu
          show (mm.buckets.set idx cur).getD u ⟨default, -1, default⟩ = _
          exact getD_set_ne _ _ _ _ _ (fun h => hu h.symm)
        have hnth_idx : mm2.nthRBucket idx = cur := by
          show (mm.buckets.set idx cur).getD idx ⟨default, -1, default⟩ = _
          exact getD_set_self _ _ _ _ hmmlen
        have hhome3 : ∀ x, mm2.home x = m0.home x := by
          intro x
          unfold RobinHood.home
          rw [hmm2len]
          show mm.hasher x % _ = _
          rw [hinv.hasher_eq]
        have hinv2 : m0.EmplaceInv idx0 k0 v0 mm2 cur2 (a + 1) := by
          refine ⟨hinv.hasher_eq, hinv.capm_eq, hinv.len_eq, hinv.next_eq2,
            hinv.ml_eq, hmm2len, ?_, ?_, ?_, ?_, ?_, ?_, ?_, ?_, ?_⟩
          · intro i hi
            by_cases hui : i = idx
            · subst hui
              rw [hnth_idx]
              have := hinv.cur_nonneg
              omega
            · rw [hnth_ne i hui]
              exact hinv.psl_ge i hi
          · intro i hi hlive
            by_cases hui : i = idx
            · subst hui
              rw [hnth_idx] at hlive ⊢
              exact hinv.cur_dist
            · rw [hnth_ne i hui] at hlive ⊢
              exact hinv.psl_home i hi hlive
          · intro j hj
            by_cases hj1 : (j + 1) % m0.buckets.length = idx
            · rw [hj1, hnth_idx]
              by_cases hj2 : j = idx
              · rw [hj2, hnth_idx]
                omega
              · rw [hnth_ne j hj2]
                exact hinv.entry j hj hj1
            · rw [hnth_ne _ hj1]
              by_cases hj2 : j = idx
              · rw [hj2, hnth_idx]
                have h3 := hinv.local_dec j hj
                rw [hj2] at h3
                omega
              · rw [hnth_ne j hj2]
                exact hinv.local_dec j hj
          · intro i hi
            by_cases hui : i = idx
            · rw [hui, hnth_idx]
              have h4 := hinv.empties_eq idx hidxlt
              constructor
              · intro h5
                have := hinv.cur_nonneg
                omega
              · intro h5
                exact absurd (h4.mpr h5) hemp
            · rw [hnth_ne i hui]
              exact hinv.empties_eq i hi
          · show (0 : Int) ≤ (mm.nthRBucket idx).psl + 1
            omega
          · show (mm.nthRBucket idx).psl + 1 =
              (cycDist m0.buckets.length (m0.home (mm.nthRBucket idx).key)
                ((idx0 + (a + 1)) % m0.buckets.length) : Int)
            rw [← hidx1]
            have hhlt : m0.home (mm.nthRBucket idx).key < m0.buckets.length :=
              Nat.mod_lt _ hc
            have hcstep := cycDist_step m0.buckets.length
              (m0.home (mm.nthRBucket idx).key) idx hhlt hidxlt
              (by
                have := hbound
                rw [hDidx] at this
                push_cast at this
                omega)
            rw [hcstep]
            rw [hDidx]
            push_cast
            ring
          · intro j hj hj1
            rw [← hidx1] at hj1
            have hjeq : j = idx := mod_succ_inj _ _ _ hj hidxlt hj1
            rw [hjeq, hnth_idx]
            show (mm.nthRBucket idx).psl + 1 ≤ cur.psl + 1
            omega
          · show (((mm.nthRBucket idx).key, (mm.nthRBucket idx).value) ::
              mm2.liveEntries).Perm ((k0, v0) :: m0.liveEntries)
            have hstep1 := filterMap_set_perm
              (fun b : RBucket K V =>
                if b.psl == (-1 : Int) then none else some (b.key, b.value))
              mm.buckets idx cur hmmlen
            rw [← mm.nthRBucket_eq_get idx hmmlen] at hstep1
            have hcurne : ¬ cur.psl = -1 := by
              have := hinv.cur_nonneg
              omega
            have hmm2live : mm2.liveEntries = (mm.buckets.set idx cur).filterMap
                (fun b : RBucket K V =>
                  if b.psl == (-1 : Int) then none else some (b.key, b.value)) := rfl
            simp [hcurne, hemp] at hstep1
            rw [hmm2live]
            refine List.Perm.trans ?_ hinv.entries
            have h6 : ((mm.nthRBucket idx).key, (mm.nthRBucket idx).value) ::
                ((mm.buckets.set idx cur).filterMap
                  (fun b : RBucket K V =>
                    if b.psl == (-1 : Int) then none else some (b.key, b.value))) =
                [((mm.nthRBucket idx).key, (mm.nthRBucket idx).value)] ++
                ((mm.buckets.set idx cur).filterMap
                  (fun b : RBucket K V =>
                    if b.psl == (-1 : Int) then none else some (b.key, b.value))) := rfl
            rw [h6]
            refine List.Perm.trans (List.perm_append_comm) ?_
            have h8 : ((mm.buckets.set idx cur).filterMap
                (fun b : RBucket K V =>
                  if b.psl == (-1 : Int) then none else some (b.key, b.value)) ++
                [((mm.nthRBucket idx).key, (mm.nthRBucket idx).value)]).Perm
                (mm.liveEntries ++ [(cur.key, cur.value)]) := by
              unfold RobinHood.liveEntries
              simp only [beq_iff_eq]
              exact hstep1
            refine h8.trans ?_
            exact List.perm_append_singleton _ _
          · have hkeysperm := hinv.keys_nodup2
            have h1 : (((mm.nthRBucket idx).key, (mm.nthRBucket idx).value) ::
                mm2.liveEntries).Perm ((cur.key, cur.value) :: mm.liveEntries) := by
              have hstep1 := filterMap_set_perm
                (fun b : RBucket K V =>
                  if b.psl == (-1 : Int) then none else some (b.key, b.value))
                mm.buckets idx cur hmmlen
              rw [← mm.nthRBucket_eq_get idx hmmlen] at hstep1
              have hcurne : ¬ cur.psl = -1 := by
                have := hinv.cur_nonneg
                omega
              simp [hcurne, hemp] at hstep1
              have hmm2live : mm2.liveEntries =
                  (mm.buckets.set idx cur).filterMap
                  (fun b : RBucket K V =>
                    if b.psl == (-1 : Int) then none else some (b.key, b.value)) := rfl
              rw [hmm2live]
              refine List.Perm.trans
                (@List.perm_append_comm _
                  [((mm.nthRBucket idx).key, (mm.nthRBucket idx).value)] _) ?_
              have h8 : ((mm.buckets.set idx cur).filterMap
                  (fun b : RBucket K V =>
                    if b.psl == (-1 : Int) then none else some (b.key, b.value)) ++
                  [((mm.nthRBucket idx).key, (mm.nthRBucket idx).value)]).Perm
                  (mm.liveEntries ++ [(cur.key, cur.value)]) := by
                unfold RobinHood.liveEntries
                simp only [beq_iff_eq]
                exact hstep1
              exact h8.trans (List.perm_append_singleton _ _)
            rw [List.Perm.nodup_iff (h1.map Prod.fst)]
            exact hinv.keys_nodup2
        obtain ⟨m2, hres, hrest⟩ := ih mm2 cur2 (a + 1) hinv2 (by omega) (by omega)
        refine ⟨m2, ?_, hrest⟩
        rw [hstep, if_neg (by simpa using hemp), if_pos hswap, hmask]
        exact hres
      · -- no swap
        set cur2 : RBucket K V := ⟨cur.key, cur.psl + 1, cur.value⟩ with hcur2
        have hle : cur.psl ≤ (mm.nthRBucket idx).psl := by omega
        have hinv2 : m0.EmplaceInv idx0 k0 v0 mm cur2 (a + 1) := by
          refine ⟨hinv.hasher_eq, hinv.capm_eq, hinv.len_eq, hinv.next_eq2,
            hinv.ml_eq, hinv.blen, hinv.psl_ge, hinv.psl_home, hinv.local_dec,
            hinv.empties_eq, ?_, ?_, ?_, ?_, ?_⟩
          · show (0 : Int) ≤ cur.psl + 1
            have := hinv.cur_nonneg
            omega
          · show cur.psl + 1 =
              (cycDist m0.buckets.length (m0.home cur.key)
                ((idx0 + (a + 1)) % m0.buckets.length) : Int)
            rw [← hidx1]
            have hhlt : m0.home cur.key < m0.buckets.length := Nat.mod_lt _ hc
            have hcstep := cycDist_step m0.buckets.length (m0.home cur.key) idx
              hhlt hidxlt
              (by
                have h7 := hinv.cur_dist
                rw [← hidxdef] at h7
                have := hbound
                omega)
            rw [hcstep]
            have h7 := hinv.cur_dist
            rw [← hidxdef] at h7
            rw [h7]
            push_cast
            ring
          · intro j hj hj1
            rw [← hidx1] at hj1
            have hjeq : j = idx := mod_succ_inj _ _ _ hj hidxlt hj1
            rw [hjeq]
            show cur.psl + 1 ≤ (mm.nthRBucket idx).psl + 1
            omega
          · exact hinv.entries
          · exact hinv.keys_nodup2
        obtain ⟨m2, hres, hrest⟩ := ih mm cur2 (a + 1) hinv2 (by omega) (by omega)
        refine ⟨m2, ?_, hrest⟩
        rw [hstep, if_neg (by simpa using hemp), if_neg hswap, hmask]
        exact hres

/-! Robin emplace wrapper and resize. -/

theorem RobinHood.remplace_spec [DecidableEq K] [Inhabited K] [Inhabited V]
    (m : RobinHood K V) (hco : m.Core) (cur : RBucket K V) (idx0 : Nat)
    (hidx0 : idx0 < m.buckets.length) (hcnn : 0 ≤ cur.psl)
    (hcd : cur.psl = (cycDist m.buckets.length (m.home cur.key) idx0 : Int))
    (hentry : ∀ j, j < m.buckets.length →
      (j + 1) % m.buckets.length = idx0 → cur.psl ≤ (m.nthRBucket j).psl + 1)
    (hnodup : (((cur.key, cur.value) :: m.liveEntries).map Prod.fst).Nodup)
    (hempty : ∃ e, e < m.buckets.length ∧ (m.nthRBucket e).psl = -1) :
    ∃ m2, m.emplace cur idx0 m.buckets.length = some m2 ∧
      m2.Core ∧ m2.liveEntries.Perm ((cur.key, cur.value) :: m.liveEntries) ∧
      (m2.liveEntries.map Prod.fst).Nodup ∧
      m2.hasher = m.hasher ∧ m2.capMinus1 = m.capMinus1 ∧
      m2.length = m.length ∧ m2.nextResize = m.nextResize ∧
      m2.maxLoad = m.maxLoad ∧ m2.buckets.length = m.buckets.length := by
  have hc : 0 < m.buckets.length := hco.rc_pos
  obtain ⟨e, helt, hekey⟩ := hempty
  have hPd : (m.nthRBucket
      ((idx0 + cycDist m.buckets.length idx0 e) % m.buckets.length)).psl = -1 := by
    rw [cyc_recover _ _ _ hidx0 helt]
    exact hekey
  have hinv0 : m.EmplaceInv idx0 cur.key cur.value m cur 0 := by
    refine ⟨rfl, rfl, rfl, rfl, rfl, rfl, hco.psl_ge, hco.psl_home,
      hco.local_dec, fun i _ => Iff.rfl, hcnn, ?_, ?_, List.Perm.refl _, hnodup⟩
    · rw [Nat.add_zero, Nat.mod_eq_of_lt hidx0]
      exact hcd
    · intro j hj hj1
      simp only [Nat.add_zero, Nat.mod_eq_of_lt hidx0] at hj1
      exact hentry j hj hj1
  obtain ⟨m2, hres, hrest⟩ := RobinHood.emplace_run m hc hco.cap_eq hco.pow2
    idx0 hidx0 cur.key cur.value (cycDist m.buckets.length idx0 e)
    (cycDist_lt _ _ _ hc) hPd m.buckets.length m cur 0 hinv0
    (by omega) (by have := cycDist_lt m.buckets.length idx0 e hc; omega)
  rw [Nat.add_zero, Nat.mod_eq_of_lt hidx0] at hres
  exact ⟨m2, hres, hrest⟩

theorem RobinHood.rfresh_core [DecidableEq K] [Inhabited K] [Inhabited V]
    (m : RobinHood K V) (n t : Nat) (hn : n = 2 ^ t)
    (hcap : m.capMinus1 + 1 = n)
    (hb : m.buckets = robinNewBucketArray n) : m.Core := by
  have hlen : m.buckets.length = n := by
    rw [hb]
    show (List.replicate n _).length = n
    rw [List.length_replicate]
  have hnth : ∀ i, m.nthRBucket i = ⟨default, -1, default⟩ := by
    intro i
    unfold RobinHood.nthRBucket
    rw [hb]
    exact getD_replicate n i _
  refine ⟨by rw [hlen]; exact hcap, ⟨t, by rw [hlen]; exact hn⟩, ?_, ?_, ?_⟩
  · intro i _
    rw [hnth i]
  · intro i _ hlive
    rw [hnth i] at hlive
    norm_num at hlive
  · intro j _
    rw [hnth, hnth]
    show (-1 : Int) ≤ -1 + 1
    omega

theorem RobinHood.rfresh_liveEntries [DecidableEq K] [Inhabited K] [Inhabited V]
    (m : RobinHood K V) (n : Nat) (hb : m.buckets = robinNewBucketArray n) :
    m.liveEntries = [] := by
  unfold RobinHood.liveEntries
  rw [hb]
  refine filterMap_of_all_none _ _ ?_
  intro a ha
  have := List.eq_of_mem_replicate ha
  rw [this]
  simp

theorem RobinHood.rresize_fold [DecidableEq K] [Inhabited K] [Inhabited V] :
    ∀ (l : List (RBucket K V)) (T : RobinHood K V),
      T.Core →
      (((T.liveEntries ++ l.filterMap
          (fun b => if b.psl == (-1 : Int) then none else some (b.key, b.value))).map
            Prod.fst).Nodup) →
      T.liveEntries.length + (l.filterMap
          (fun b => if b.psl == (-1 : Int) then none else some (b.key, b.value))).length <
        T.buckets.length →
      ∃ T2, l.foldl (fun acc b => if b.psl == (-1 : Int) then acc
          else acc.bind (fun mm =>
            mm.emplace ⟨b.key, 0, b.value⟩ (mm.hasher b.key &&& mm.capMinus1)
              mm.buckets.length)) (some T) = some T2 ∧
        T2.Core ∧
        T2.liveEntries.Perm (T.liveEntries ++ l.filterMap
          (fun b => if b.psl == (-1 : Int) then none else some (b.key, b.value))) ∧
        T2.hasher = T.hasher ∧ T2.capMinus1 = T.capMinus1 ∧
        T2.length = T.length ∧ T2.nextResize = T.nextResize ∧
        T2.maxLoad = T.maxLoad ∧ T2.buckets.length = T.buckets.length
  | [], T, hco, hnd, hlen => by
    refine ⟨T, rfl, hco, ?_, rfl, rfl, rfl, rfl, rfl, rfl⟩
    simp
  | b :: l, T, hco, hnd, hlen => by
    rw [List.foldl_cons]
    by_cases hb : (b.psl == (-1 : Int)) = true
    · rw [if_pos hb]
      have hfm : (b :: l).filterMap
          (fun b => if b.psl == (-1 : Int) then none else some (b.key, b.value)) =
          l.filterMap
            (fun b => if b.psl == (-1 : Int) then none else some (b.key, b.value)) := by
        rw [List.filterMap_cons, if_pos hb]
      rw [hfm] at hnd hlen
      rw [hfm]
      exact RobinHood.rresize_fold l T hco hnd hlen
    · rw [if_neg hb]
      have hfm : (b :: l).filterMap
          (fun b => if b.psl == (-1 : Int) then none else some (b.key, b.value)) =
          (b.key, b.value) :: l.filterMap
            (fun b => if b.psl == (-1 : Int) then none else some (b.key, b.value)) := by
        rw [List.filterMap_cons, if_neg hb]
      rw [hfm] at hnd hlen
      rw [hfm]
      have hc : 0 < T.buckets.length := hco.rc_pos
      have hmid : (T.liveEntries ++ (b.key, b.value) :: l.filterMap
          (fun b => if b.psl == (-1 : Int) then none else some (b.key, b.value))).Perm
          ((b.key, b.value) :: (T.liveEntries ++ l.filterMap
            (fun b => if b.psl == (-1 : Int) then none else some (b.key, b.value)))) :=
        List.perm_middle
      have hnodup2 : (((b.key, b.value) :: T.liveEntries).map Prod.fst).Nodup := by
        have hnd2 := (List.Perm.nodup_iff (hmid.map Prod.fst)).mp hnd
        simp only [List.map_cons, List.nodup_cons] at hnd2 ⊢
        refine ⟨?_, ?_⟩
        · intro hmem
          exact hnd2.1 (by
            rw [List.map_append]
            exact List.mem_append_left _ hmem)
        · have := hnd2.2
          rw [List.map_append] at this
          exact (List.nodup_append.mp this).1
      have hroom : T.liveEntries.length < T.buckets.length := by
        simp only [List.length_cons] at hlen
        omega
      have hemptyT : ∃ e, e < T.buckets.length ∧ (T.nthRBucket e).psl = -1 :=
        T.rexists_empty hroom
      have hmask2 : T.hasher b.key &&& T.capMinus1 = T.home b.key :=
        T.rhome_eq_mask hco.cap_eq hco.pow2 b.key
      have hhomelt : T.home b.key < T.buckets.length := T.rhome_lt hc b.key
      obtain ⟨T1, hres1, hco1, hperm1, hnd1, hh1, hcm1, hl1, hnr1, hml1, hbl1⟩ :=
        T.remplace_spec hco ⟨b.key, 0, b.value⟩ (T.home b.key) hhomelt
          (by norm_num)
          (by show (0 : Int) = _; rw [cycDist_self]; norm_num)
          (by
            intro j hj _
            have := hco.psl_ge j hj
            show (0 : Int) ≤ _
            omega)
          hnodup2 hemptyT
      have hbind : (some T).bind (fun mm =>
          mm.emplace ⟨b.key, 0, b.value⟩ (mm.hasher b.key &&& mm.capMinus1)
            mm.buckets.length) = some T1 := by
        rw [Option.some_bind, hmask2]
        exact hres1
      rw [hbind]
      have hperm1b : T1.liveEntries.Perm ((b.key, b.value) :: T.liveEntries) :=
        hperm1
      have hnd1b : ((T1.liveEntries ++ l.filterMap
          (fun b => if b.psl == (-1 : Int) then none else some (b.key, b.value))).map
            Prod.fst).Nodup := by
        have hp : (T1.liveEntries ++ l.filterMap
            (fun b => if b.psl == (-1 : Int) then none else some (b.key, b.value))).Perm
            (T.liveEntries ++ (b.key, b.value) :: l.filterMap
              (fun b => if b.psl == (-1 : Int) then none else some (b.key, b.value))) :=
          (hperm1b.append_right _).trans hmid.symm
        exact (List.Perm.nodup_iff (hp.map Prod.fst)).mpr hnd
      have hlen1 : T1.liveEntries.length + (l.filterMap
          (fun b => if b.psl == (-1 : Int) then none else some (b.key, b.value))).length <
          T1.buckets.length := by
        have := hperm1b.length_eq
        simp only [List.length_cons] at this hlen
        rw [hbl1]
        omega
      obtain ⟨T2, hres2, hco2, hperm2, hh2, hcm2, hl2, hnr2, hml2, hbl2⟩ :=
        RobinHood.rresize_fold l T1 hco1 hnd1b hlen1
      refine ⟨T2, hres2, hco2, ?_, by rw [hh2]; exact hh1,
        by rw [hcm2]; exact hcm1, by rw [hl2]; exact hl1,
        by rw [hnr2]; exact hnr1, by rw [hml2]; exact hml1,
        by rw [hbl2]; exact hbl1⟩
      refine hperm2.trans ?_
      refine (hperm1b.append_right _).trans ?_
      exact hmid.symm

/-! Robin resize and walk resolution. -/

theorem RobinHood.rresize_spec [DecidableEq K] [Inhabited K] [Inhabited V]
    (m : RobinHood K V) (n t : Nat) (hn : n = 2 ^ t)
    (hnodup : (m.liveEntries.map Prod.fst).Nodup)
    (hroom : m.liveEntries.length < n) :
    ∃ m2, m.resize n = some m2 ∧ m2.Core ∧ m2.liveEntries.Perm m.liveEntries ∧
      m2.hasher = m.hasher ∧ m2.length = m.length ∧
      m2.nextResize = Frac.mulNatFloor n m.maxLoad ∧ m2.maxLoad = m.maxLoad ∧
      m2.buckets.length = n := by
  have hn1 : 1 ≤ n := by
    rw [hn]
    exact Nat.one_le_two_pow
  set start : RobinHood K V :=
    { capMinus1 := n - 1
      length := m.length
      buckets := robinNewBucketArray n
      hasher := m.hasher
      maxLoad := m.maxLoad
      nextResize := Frac.mulNatFloor n m.maxLoad } with hstart
  have hsb : start.buckets = robinNewBucketArray n := rfl
  have hsl : start.buckets.length = n := by
    rw [hsb]
    show (List.replicate n _).length = n
    rw [List.length_replicate]
  have hs0 : start.liveEntries = [] := start.rfresh_liveEntries n hsb
  have hsco : start.Core := start.rfresh_core n t hn (by show n - 1 + 1 = n; omega) hsb
  have harg1 : (((start.liveEntries ++ m.buckets.filterMap
      (fun b => if b.psl == (-1 : Int) then none else some (b.key, b.value))).map
        Prod.fst).Nodup) := by
    rw [hs0]
    simp only [List.nil_append]
    exact hnodup
  have harg2 : start.liveEntries.length + (m.buckets.filterMap
      (fun b => if b.psl == (-1 : Int) then none else some (b.key, b.value))).length <
      start.buckets.length := by
    rw [hs0, hsl]
    show 0 + m.liveEntries.length < n
    omega
  obtain ⟨T2, hres, hco2, hperm2, hh2, hcm2, hl2, hnr2, hml2, hbl2⟩ :=
    RobinHood.rresize_fold m.buckets start hsco harg1 harg2
  refine ⟨T2, ?_, hco2, ?_, by rw [hh2], by rw [hl2], by rw [hnr2],
    by rw [hml2], by rw [hbl2]; exact hsl⟩
  · show m.buckets.foldl _ (some start) = some T2
    exact hres
  · refine hperm2.trans ?_
    rw [hs0]
    simp only [List.nil_append]
    exact List.Perm.refl _

theorem RobinHood.walk_to [DecidableEq K] [Inhabited K] [Inhabited V]
    (m : RobinHood K V) (hco : m.Core)
    (hnd : (m.liveEntries.map Prod.fst).Nodup) (k : K) (v : V)
    (hmem : (k, v) ∈ m.liveEntries) :
    ∃ s, s < m.buckets.length ∧ (m.nthRBucket s).key = k ∧
      (m.nthRBucket s).value = v ∧ 0 ≤ (m.nthRBucket s).psl ∧
      (m.nthRBucket s).psl = (cycDist m.buckets.length (m.home k) s : Int) ∧
      s = (m.home k + cycDist m.buckets.length (m.home k) s) % m.buckets.length ∧
      (∀ w : Nat, (w : Int) ≤ (m.nthRBucket s).psl →
        (w : Int) ≤ (m.nthRBucket ((m.home k + w) % m.buckets.length)).psl) ∧
      (∀ w : Nat, (w : Int) < (m.nthRBucket s).psl →
        ¬ (m.nthRBucket ((m.home k + w) % m.buckets.length)).key = k) := by
  have hc : 0 < m.buckets.length := hco.rc_pos
  obtain ⟨s, hs, hpne, hkey, hval⟩ := (m.rmem_liveEntries k v).mp hmem
  have hlive : 0 ≤ (m.nthRBucket s).psl := by
    have := hco.psl_ge s hs
    omega
  have hd := hco.psl_home s hs hlive
  rw [hkey] at hd
  have hhlt : m.home k < m.buckets.length := m.rhome_lt hc k
  have hrec : (m.home k + cycDist m.buckets.length (m.home k) s) %
      m.buckets.length = s := cyc_recover _ _ _ hhlt hs
  have hCont : ∀ w : Nat, (w : Int) ≤ (m.nthRBucket s).psl →
      (w : Int) ≤ (m.nthRBucket ((m.home k + w) % m.buckets.length)).psl := by
    intro w hw
    have hwlt : (w : Int) ≤ (cycDist m.buckets.length (m.home k) s : Int) := by
      rw [← hd]
      exact hw
    have hwn : w ≤ cycDist m.buckets.length (m.home k) s := by exact_mod_cast hwlt
    have hfwd := RobinHood.psl_forward m hco.local_dec hc
      ((m.home k + w) % m.buckets.length) (Nat.mod_lt _ hc)
      (cycDist m.buckets.length (m.home k) s - w)
    rw [Nat.mod_add_mod] at hfwd
    have harr : m.home k + w + (cycDist m.buckets.length (m.home k) s - w) =
        m.home k + cycDist m.buckets.length (m.home k) s := by omega
    rw [harr, hrec] at hfwd
    rw [hd] at hfwd
    push_cast at hfwd ⊢
    omega
  refine ⟨s, hs, hkey, hval, hlive, hd, hrec.symm, hCont, ?_⟩
  intro w hw hkw
  have hwle : (w : Int) ≤ (m.nthRBucket s).psl := by omega
  have hwlive := hCont w hwle
  have hwlt : (w : Int) < (cycDist m.buckets.length (m.home k) s : Int) := by
    rw [← hd]
    exact hw
  have hwn : w < cycDist m.buckets.length (m.home k) s := by exact_mod_cast hwlt
  have hwc : w < m.buckets.length := by
    have := cycDist_lt m.buckets.length (m.home k) s hc
    omega
  have hidxlt : (m.home k + w) % m.buckets.length < m.buckets.length :=
    Nat.mod_lt _ hc
  have heqs := RobinHood.rnodup_slot m hnd ((m.home k + w) % m.buckets.length) s
    hidxlt hs (by omega) (by omega) (by rw [hkw, hkey])
  have hds : cycDist m.buckets.length (m.home k)
      ((m.home k + w) % m.buckets.length) = w :=
    cycDist_add _ _ _ hhlt hwc
  rw [heqs] at hds
  omega

/-! Robin search resolution and Get. -/

theorem RobinHood.removeLoop_found [DecidableEq K] [Inhabited K] [Inhabited V]
    (m : RobinHood K V) (hco : m.Core)
    (hnd : (m.liveEntries.map Prod.fst).Nodup) (k : K) (v : V)
    (hmem : (k, v) ∈ m.liveEntries) :
    ∃ s, s < m.buckets.length ∧ (m.nthRBucket s).key = k ∧
      (m.nthRBucket s).value = v ∧ 0 ≤ (m.nthRBucket s).psl ∧
      m.removeLoop k (m.buckets.length + 1) (m.home k) 0 = some (some s) := by
  have hc : 0 < m.buckets.length := hco.rc_pos
  have hhlt : m.home k < m.buckets.length := m.rhome_lt hc k
  obtain ⟨s, hs, hkey, hval, hlive, hd, hrec, hCont, hNom⟩ :=
    m.walk_to hco hnd k v hmem
  set ds := cycDist m.buckets.length (m.home k) s with hds
  have hdlt : ds < m.buckets.length := cycDist_lt _ _ _ hc
  refine ⟨s, hs, hkey, hval, hlive, ?_⟩
  rcases m.removeLoop_char k hco.cap_eq hco.pow2 (m.buckets.length + 1)
      (m.home k) 0 hhlt with ⟨_, hall⟩ | ⟨u, hu, hpre, hout⟩
  · exfalso
    have h3 := hall ds (by omega)
    rw [← hrec] at h3
    exact h3.2 hkey
  · rcases Nat.lt_trichotomy u ds with hult | hueq | hugt
    · exfalso
      rcases hout with ⟨_, hb, _⟩ | ⟨ha, _⟩
      · refine hNom u ?_ hb
        rw [hd]
        exact_mod_cast hult
      · refine ha ?_
        have := hCont u (by rw [hd]; exact_mod_cast Nat.le_of_lt hult)
        omega
    · rcases hout with ⟨_, _, hc2⟩ | ⟨ha, _⟩
      · rw [hc2, hueq, ← hrec]
      · exfalso
        refine ha ?_
        have h4 : ((u : Int)) ≤ (m.nthRBucket s).psl := by
          rw [hd, hueq]
        have h5 := hCont u h4
        omega
    · exfalso
      have h3 := hpre ds hugt
      rw [← hrec] at h3
      exact h3.2 hkey

theorem RobinHood.removeLoop_absent [DecidableEq K] [Inhabited K] [Inhabited V]
    (m : RobinHood K V) (hco : m.Core)
    (hempty : ∃ e, e < m.buckets.length ∧ (m.nthRBucket e).psl = -1) (k : K)
    (habs : ∀ v2, ¬ (k, v2) ∈ m.liveEntries) :
    m.removeLoop k (m.buckets.length + 1) (m.home k) 0 = some none := by
  have hc : 0 < m.buckets.length := hco.rc_pos
  have hhlt : m.home k < m.buckets.length := m.rhome_lt hc k
  obtain ⟨e, helt, hekey⟩ := hempty
  rcases m.removeLoop_char k hco.cap_eq hco.pow2 (m.buckets.length + 1)
      (m.home k) 0 hhlt with ⟨_, hall⟩ | ⟨u, hu, hpre, hout⟩
  · exfalso
    have h3 := (hall m.buckets.length (by omega)).1
    have hidxlt : (m.home k + m.buckets.length) % m.buckets.length <
        m.buckets.length := Nat.mod_lt _ hc
    have hlv : 0 ≤ (m.nthRBucket
        ((m.home k + m.buckets.length) % m.buckets.length)).psl := by
      push_cast at h3
      omega
    have hb := RobinHood.psl_bound m hc hco.local_dec hco.psl_home e helt hekey
      _ hidxlt hlv
    push_cast at h3
    omega
  · rcases hout with ⟨ha, hb, _⟩ | ⟨_, hb⟩
    · exfalso
      have hidxlt : (m.home k + u) % m.buckets.length < m.buckets.length :=
        Nat.mod_lt _ hc
      have hlv : 0 ≤ (m.nthRBucket ((m.home k + u) % m.buckets.length)).psl := by
        omega
      refine habs (m.nthRBucket ((m.home k + u) % m.buckets.length)).value ?_
      refine (m.rmem_liveEntries k _).mpr ⟨_, hidxlt, by omega, hb, rfl⟩
    · exact hb

theorem RobinHood.rget_found [DecidableEq K] [Inhabited K] [Inhabited V]
    (m : RobinHood K V) (hwf : m.WF) (k : K) (v : V)
    (hmem : (k, v) ∈ m.liveEntries) :
    m.Get k = some (some v) := by
  obtain ⟨s, hs, hkey, hval, hlive, hloop⟩ :=
    m.removeLoop_found hwf.rcore hwf.keys_nodup k v hmem
  show m.getLoop k (m.buckets.length + 1) (m.hasher k &&& m.capMinus1) 0 = _
  rw [m.rhome_eq_mask hwf.cap_eq hwf.pow2 k]
  rw [RobinHood.getLoop_eq, hloop]
  show some (some (m.nthRBucket s).value) = some (some v)
  rw [hval]

theorem RobinHood.rget_absent [DecidableEq K] [Inhabited K] [Inhabited V]
    (m : RobinHood K V) (hwf : m.WF) (k : K)
    (habs : ∀ v2, ¬ (k, v2) ∈ m.liveEntries) :
    m.Get k = some none := by
  have hroom : m.liveEntries.length < m.buckets.length := by
    have h1 := hwf.count
    have h2 := hwf.len_lt
    omega
  have hloop := m.removeLoop_absent hwf.rcore (m.rexists_empty hroom) k habs
  show m.getLoop k (m.buckets.length + 1) (m.hasher k &&& m.capMinus1) 0 = _
  rw [m.rhome_eq_mask hwf.cap_eq hwf.pow2 k]
  rw [RobinHood.getLoop_eq, hloop]
  rfl

/-! Updating the value of a stored key in place (the found branch of Put). -/

theorem RobinHood.rupdate_core [DecidableEq K] [Inhabited K] [Inhabited V]
    (m : RobinHood K V) (hco : m.Core)
    (hnodup : (m.liveEntries.map Prod.fst).Nodup)
    (j : Nat) (hjlt : j < m.buckets.length)
    (hjlive : 0 ≤ (m.nthRBucket j).psl) (val : V) :
    ({ m with buckets := m.buckets.set j ⟨(m.nthRBucket j).key, (m.nthRBucket j).psl, val⟩ } : RobinHood K V).Core ∧
      (({ m with buckets := m.buckets.set j ⟨(m.nthRBucket j).key, (m.nthRBucket j).psl, val⟩ } : RobinHood K V).liveEntries ++
        [((m.nthRBucket j).key, (m.nthRBucket j).value)]).Perm
        (m.liveEntries ++ [((m.nthRBucket j).key, val)]) ∧
      (({ m with buckets := m.buckets.set j ⟨(m.nthRBucket j).key, (m.nthRBucket j).psl, val⟩ } : RobinHood K V).liveEntries.map Prod.fst).Nodup := by
  set m2 : RobinHood K V :=
    { m with buckets := m.buckets.set j ⟨(m.nthRBucket j).key, (m.nthRBucket j).psl, val⟩ } with hm2
  have hlen : m2.buckets.length = m.buckets.length := by
    rw [hm2]
    exact List.length_set ..
  have hnth_ne : ∀ u, ¬ u = j → m2.nthRBucket u = m.nthRBucket u := by
    intro u hu
    show (m.buckets.set j _).getD u ⟨default, -1, default⟩ = _
    exact getD_set_ne _ _ _ _ _ (fun h => hu h.symm)
  have hnth_j : m2.nthRBucket j =
      ⟨(m.nthRBucket j).key, (m.nthRBucket j).psl, val⟩ := by
    show (m.buckets.set j _).getD j ⟨default, -1, default⟩ = _
    exact getD_set_self _ _ _ _ hjlt
  have hkeys : ∀ u, (m2.nthRBucket u).key = (m.nthRBucket u).key := by
    intro u
    by_cases huj : u = j
    · rw [huj, hnth_j]
    · rw [hnth_ne u huj]
  have hpsls : ∀ u, (m2.nthRBucket u).psl = (m.nthRBucket u).psl := by
    intro u
    by_cases huj : u = j
    · rw [huj, hnth_j]
    · rw [hnth_ne u huj]
  have hhome : ∀ k2, m2.home k2 = m.home k2 := by
    intro k2
    unfold RobinHood.home
    rw [hlen]
  have hjne : ¬ (m.nthRBucket j).psl = -1 := by omega
  have hperm : (m2.liveEntries ++ [((m.nthRBucket j).key, (m.nthRBucket j).value)]).Perm
      (m.liveEntries ++ [((m.nthRBucket j).key, val)]) := by
    have hstep := filterMap_set_perm
      (fun b : RBucket K V =>
        if b.psl == (-1 : Int) then none else some (b.key, b.value))
      m.buckets j ⟨(m.nthRBucket j).key, (m.nthRBucket j).psl, val⟩ hjlt
    rw [← m.nthRBucket_eq_get j hjlt] at hstep
    simp [hjne] at hstep
    have hgoal : m2.liveEntries =
        (m.buckets.set j ⟨(m.nthRBucket j).key, (m.nthRBucket j).psl, val⟩).filterMap
          (fun b => if b.psl == (-1 : Int) then none else some (b.key, b.value)) := rfl
    rw [hgoal]
    unfold RobinHood.liveEntries
    simp only [beq_iff_eq]
    simpa using hstep
  have hnodup2 : (m2.liveEntries.map Prod.fst).Nodup := by
    have hmap := hperm.map Prod.fst
    simp only [List.map_append, List.map_cons, List.map_nil] at hmap
    have h1 : ((m.nthRBucket j).key :: (m2.liveEntries.map Prod.fst)).Perm
        ((m.nthRBucket j).key :: (m.liveEntries.map Prod.fst)) :=
      ((List.perm_append_singleton _ _).symm.trans hmap).trans
        (List.perm_append_singleton _ _)
    exact (List.Perm.nodup_iff h1.cons_inv).mpr hnodup
  refine ⟨⟨by rw [hlen]; exact hco.cap_eq, by rw [hlen]; exact hco.pow2,
    ?_, ?_, ?_⟩, hperm, hnodup2⟩
  · intro i hi
    rw [hlen] at hi
    rw [hpsls]
    exact hco.psl_ge i hi
  · intro i hi hlive
    rw [hlen] at hi
    rw [hpsls] at hlive
    rw [hpsls, hlen, hkeys, hhome]
    exact hco.psl_home i hi hlive
  · intro j2 hj2
    rw [hlen] at hj2
    rw [hlen, hpsls, hpsls]
    exact hco.local_dec j2 hj2

/-! Robin Put specification. -/

theorem RobinHood.rput_spec [DecidableEq K] [Inhabited K] [Inhabited V]
    (m : RobinHood K V) (hwf : m.WF) (k : K) (v : V) :
    ∃ m2 b, m.Put k v = some (m2, b) ∧ m2.WF ∧
      m2.hasher = m.hasher ∧ m2.maxLoad = m.maxLoad ∧
      (b = true →
        m2.liveEntries.Perm ((k, v) :: m.liveEntries) ∧
        m2.length = m.length + 1 ∧ (∀ v2, ¬ (k, v2) ∈ m.liveEntries)) ∧
      (b = false →
        (∃ v0, (k, v0) ∈ m.liveEntries ∧
          (m2.liveEntries ++ [(k, v0)]).Perm (m.liveEntries ++ [(k, v)])) ∧
        m2.length = m.length) := by
  have hcpos : 0 < m.buckets.length := hwf.rcore.rc_pos
  obtain ⟨m1, hgate, hco1, hperm1, hh1, hlen1, hnext1, hml1, hroom1⟩ :
      ∃ m1, (if m.nextResize ≤ m.length then m.resize (2 * m.buckets.length)
          else some m) = some m1 ∧
        m1.Core ∧ m1.liveEntries.Perm m.liveEntries ∧
        m1.hasher = m.hasher ∧ m1.length = m.length ∧
        m1.nextResize = Frac.mulNatFloor m1.buckets.length m1.maxLoad ∧
        m1.maxLoad = m.maxLoad ∧ m1.length + 1 < m1.buckets.length := by
    by_cases hg : m.nextResize ≤ m.length
    · rw [if_pos hg]
      obtain ⟨t, htt⟩ := hwf.pow2
      have hroom : m.liveEntries.length < 2 * m.buckets.length := by
        have h1 := hwf.count
        have h2 := hwf.len_lt
        omega
      obtain ⟨m1, hres, hco, hperm, hh, hl, hnr, hml, hbl⟩ :=
        m.rresize_spec (2 * m.buckets.length) (t + 1)
          (by rw [htt]; ring) hwf.keys_nodup hroom
      refine ⟨m1, hres, hco, hperm, hh, hl, ?_, hml, ?_⟩
      · rw [hnr, hbl, hml]
      · have h2 := hwf.len_lt
        omega
    · rw [if_neg hg]
      have hml2 := Frac.mulNatFloor_lt m.buckets.length m.maxLoad hcpos
        (by have := hwf.ml_pos; omega) hwf.ml_lt
      have hne := hwf.next_eq
      refine ⟨m, rfl, hwf.rcore, List.Perm.refl _, rfl, rfl, hwf.next_eq, rfl, ?_⟩
      omega
  have hnodup1 : (m1.liveEntries.map Prod.fst).Nodup :=
    ((hperm1.map Prod.fst).nodup_iff).mpr hwf.keys_nodup
  have hcount1 : m1.liveEntries.length = m1.length := by
    rw [hperm1.length_eq, hwf.count, hlen1]
  have hcpos1 : 0 < m1.buckets.length := hco1.rc_pos
  have hroomlt : m1.liveEntries.length < m1.buckets.length := by omega
  obtain ⟨e, helt, hekey⟩ := m1.rexists_empty hroomlt
  have hhomelt : m1.home k < m1.buckets.length := m1.rhome_lt hcpos1 k
  have hput : m.Put k v =
      m1.putLoop k v (m1.buckets.length + 1) (m1.home k) 0 := by
    show (if m.nextResize ≤ m.length then m.resize (2 * m.buckets.length)
        else some m).bind _ = _
    rw [hgate, Option.some_bind, m1.rhome_eq_mask hco1.cap_eq hco1.pow2 k]
  have hmlp1 : 0 < m1.maxLoad.num := by rw [hml1]; exact hwf.ml_pos
  have hmll1 : m1.maxLoad.num < (m1.maxLoad.den : Int) := by
    rw [hml1]
    exact hwf.ml_lt
  rcases m1.putLoop_char k v hco1.cap_eq hco1.pow2 (m1.buckets.length + 1)
      (m1.home k) 0 hhomelt with ⟨_, hall⟩ | ⟨u, hu, hpre, hout⟩
  · exfalso
    have h3 := (hall m1.buckets.length (by omega)).1
    have hidxlt : (m1.home k + m1.buckets.length) % m1.buckets.length <
        m1.buckets.length := Nat.mod_lt _ hcpos1
    have hlv : 0 ≤ (m1.nthRBucket
        ((m1.home k + m1.buckets.length) % m1.buckets.length)).psl := by
      push_cast at h3
      omega
    have hb := RobinHood.psl_bound m1 hcpos1 hco1.local_dec hco1.psl_home
      e helt hekey _ hidxlt hlv
    push_cast at h3
    omega
  · rcases hout with ⟨ha, hb, hc2⟩ | ⟨ha, hb⟩
    · -- found: update the stored value in place
      have hidxlt : (m1.home k + u) % m1.buckets.length < m1.buckets.length :=
        Nat.mod_lt _ hcpos1
      have hlive : 0 ≤ (m1.nthRBucket ((m1.home k + u) % m1.buckets.length)).psl := by
        omega
      obtain ⟨hcore2, hperm2, hnodup2⟩ :=
        m1.rupdate_core hco1 hnodup1 ((m1.home k + u) % m1.buckets.length)
          hidxlt hlive v
      set idx := (m1.home k + u) % m1.buckets.length with hidx
      set m2 : RobinHood K V := { m1 with buckets := m1.buckets.set idx ⟨(m1.nthRBucket idx).key, (m1.nthRBucket idx).psl, v⟩ } with hm2
      have hlen2 : m2.buckets.length = m1.buckets.length := by
        rw [hm2]
        exact List.length_set ..

      have hcnt2 : m2.liveEntries.length = m2.length := by
        have := hperm2.length_eq
        simp only [List.length_append, List.length_cons, List.length_nil] at this
        have hl2 : m2.length = m1.length := rfl
        omega
      have hwf2 : m2.WF := by
        refine ⟨hcore2.cap_eq, hcore2.pow2, ?_, ?_, ?_, ?_, hcnt2, hnodup2,
          hcore2.psl_ge, hcore2.psl_home, hcore2.local_dec⟩
        · show 0 < m1.maxLoad.num
          exact hmlp1
        · show m1.maxLoad.num < (m1.maxLoad.den : Int)
          exact hmll1
        · show m1.nextResize = Frac.mulNatFloor m2.buckets.length m1.maxLoad
          rw [hlen2]
          exact hnext1
        · show m1.length < m2.buckets.length
          rw [hlen2]
          omega
      refine ⟨m2, false, ?_, hwf2, by rw [← hh1], by rw [← hml1],
        by intro h; simp at h, ?_⟩
      · rw [hput, hc2]
      · intro _
        constructor
        · refine ⟨(m1.nthRBucket idx).value, ?_, ?_⟩
          · rw [← hperm1.mem_iff]
            refine (m1.rmem_liveEntries k _).mpr ⟨idx, hidxlt, by omega, hb, rfl⟩
          · rw [hb] at hperm2
            exact hperm2.trans (hperm1.append_right _)
        · show m1.length = m.length
          exact hlen1
    · -- stopped: insert the new pair via the emplace walk
      have hult : u < m1.buckets.length := by
        rcases Nat.eq_zero_or_pos u with hu0 | hu1
        · omega
        · have h3 := (hpre (u - 1) (by omega)).1
          have hidxlt2 : (m1.home k + (u - 1)) % m1.buckets.length <
              m1.buckets.length := Nat.mod_lt _ hcpos1
          have hlv : 0 ≤ (m1.nthRBucket
              ((m1.home k + (u - 1)) % m1.buckets.length)).psl := by
            omega
          have hbd := RobinHood.psl_bound m1 hcpos1 hco1.local_dec hco1.psl_home
            e helt hekey _ hidxlt2 hlv
          omega
      have habs1 : ∀ v2, ¬ (k, v2) ∈ m1.liveEntries := by
        intro v2 hmem
        obtain ⟨s, hs, hskey, hsval, hslive, hsd, hsrec, hsCont, hsNom⟩ :=
          m1.walk_to hco1 hnodup1 k v2 hmem
        set dsn := cycDist m1.buckets.length (m1.home k) s with hdsn
        rcases Nat.lt_or_ge dsn u with hlt | hge
        · have h3 := (hpre dsn hlt).2
          rw [← hsrec] at h3
          exact h3 hskey
        · refine ha ?_
          have h4 := hsCont u (by rw [hsd]; exact_mod_cast hge)
          omega
      have hknotin : ¬ k ∈ m1.liveEntries.map Prod.fst := by
        intro hmem
        obtain ⟨p, hp, hpk⟩ := List.mem_map.mp hmem
        have hp2 : (p.1, p.2) ∈ m1.liveEntries := by simpa using hp
        rw [hpk] at hp2
        exact habs1 p.2 hp2
      set m1p : RobinHood K V := { m1 with length := m1.length + 1 } with hm1p
      have hco1p : m1p.Core :=
        ⟨hco1.cap_eq, hco1.pow2, hco1.psl_ge, hco1.psl_home, hco1.local_dec⟩
      have hlives1p : m1p.liveEntries = m1.liveEntries := rfl
      have hnodup1p : (((k, v) :: m1p.liveEntries).map Prod.fst).Nodup := by
        rw [hlives1p]
        simp only [List.map_cons]
        exact List.nodup_cons.mpr ⟨hknotin, hnodup1⟩
      set idx := (m1.home k + u) % m1.buckets.length with hidx
      have hidxlt : idx < m1.buckets.length := Nat.mod_lt _ hcpos1
      have hcd : ((0 : Int) + (u : Int)) =
          (cycDist m1.buckets.length (m1.home k) idx : Int) := by
        rw [hidx, cycDist_add _ _ _ hhomelt hult]
        omega
      have hentry : ∀ j, j < m1.buckets.length →
          (j + 1) % m1.buckets.length = idx →
          ((0 : Int) + (u : Int)) ≤ (m1.nthRBucket j).psl + 1 := by
        intro j hj hj1
        rcases Nat.eq_zero_or_pos u with hu0 | hu1
        · have := hco1.psl_ge j hj
          rw [hu0]
          push_cast
          omega
        · have hidw : ((m1.home k + (u - 1)) % m1.buckets.length + 1) %
              m1.buckets.length = idx := by
            rw [Nat.mod_add_mod, hidx]
            congr 1
            omega
          have hjw : j = (m1.home k + (u - 1)) % m1.buckets.length := by
            refine mod_succ_inj m1.buckets.length j _ hj (Nat.mod_lt _ hcpos1) ?_
            rw [hj1, hidw]
          have h3 := (hpre (u - 1) (by omega)).1
          rw [← hjw] at h3
          omega
      obtain ⟨m2, hres, hco2, hperm2, hnodup2, hh2, hcm2, hl2, hnr2, hml2, hbl2⟩ :=
        m1p.remplace_spec hco1p ⟨k, (0 : Int) + (u : Int), v⟩ idx hidxlt
          (by show (0 : Int) ≤ 0 + (u : Int); omega) hcd hentry hnodup1p
          ⟨e, helt, hekey⟩
      have hperm2a : m2.liveEntries.Perm ((k, v) :: m1.liveEntries) := hperm2
      have hl2a : m2.length = m1.length + 1 := hl2
      have hnr2a : m2.nextResize = m1.nextResize := hnr2
      have hml2a : m2.maxLoad = m1.maxLoad := hml2
      have hbl2a : m2.buckets.length = m1.buckets.length := hbl2
      have hh2a : m2.hasher = m1.hasher := hh2
      have hcnt2 : m2.liveEntries.length = m2.length := by
        have := hperm2a.length_eq
        simp only [List.length_cons] at this
        omega
      have hwf2 : m2.WF := by
        refine ⟨hco2.cap_eq, hco2.pow2, ?_, ?_, ?_, ?_, hcnt2, hnodup2,
          hco2.psl_ge, hco2.psl_home, hco2.local_dec⟩
        · rw [hml2a]
          exact hmlp1
        · rw [hml2a]
          exact hmll1
        · rw [hnr2a, hml2a, hbl2a]
          exact hnext1
        · rw [hl2a, hbl2a]
          omega
      refine ⟨m2, true, ?_, hwf2, by rw [hh2a, hh1], by rw [hml2a, hml1], ?_,
        by intro h; simp at h⟩
      · rw [hput, hb]
        show (m1p.emplace ⟨k, (0 : Int) + (u : Int), v⟩ idx
          m1p.buckets.length).map _ = _
        rw [hres, Option.map_some']
      · intro _
        refine ⟨hperm2a.trans (hperm1.cons _), by omega, ?_⟩
        intro v2 hv2
        exact habs1 v2 (hperm1.mem_iff.mpr hv2)

/-! One step of the robin-hood backward-shift loop. -/

theorem RobinHood.back_step [DecidableEq K] [Inhabited K] [Inhabited V]
    (m1 : RobinHood K V) (hcap : m1.capMinus1 + 1 = m1.buckets.length)
    (hpow : ∃ t, m1.buckets.length = 2 ^ t) (j0 : Nat)
    (hj0 : j0 < m1.buckets.length) (mm : RobinHood K V) (a : Nat)
    (hinv : RobinHood.BackInv m1 j0 mm a) (ha1 : a + 1 < m1.buckets.length)
    (hgo : 0 < (mm.nthRBucket ((j0 + a + 1) % m1.buckets.length)).psl)
    (fuel : Nat) :
    ∃ mm', mm.backShift ((j0 + a) % m1.buckets.length)
        ((j0 + a + 1) % m1.buckets.length) (fuel + 1) =
      mm'.backShift ((j0 + a + 1) % m1.buckets.length)
        ((j0 + a + 2) % m1.buckets.length) fuel ∧
      RobinHood.BackInv m1 j0 mm' (a + 1) := by
  have hc : 0 < m1.buckets.length := by omega
  have hha : (j0 + a) % m1.buckets.length < m1.buckets.length := Nat.mod_lt _ hc
  have hia : (j0 + a + 1) % m1.buckets.length < m1.buckets.length :=
    Nat.mod_lt _ hc
  have hstep1 : ((j0 + a) % m1.buckets.length + 1) % m1.buckets.length =
      (j0 + a + 1) % m1.buckets.length := by
    rw [Nat.mod_add_mod]
  have hstep2 : ((j0 + a + 1) % m1.buckets.length + 1) % m1.buckets.length =
      (j0 + a + 2) % m1.buckets.length := by
    rw [Nat.mod_add_mod]
  have hne : ¬ (j0 + a + 1) % m1.buckets.length =
      (j0 + a) % m1.buckets.length := by
    intro h
    rw [h, hinv.hole] at hgo
    omega
  set mv : RBucket K V := ⟨(mm.nthRBucket ((j0 + a + 1) % m1.buckets.length)).key, (mm.nthRBucket ((j0 + a + 1) % m1.buckets.length)).psl - 1, (mm.nthRBucket ((j0 + a + 1) % m1.buckets.length)).value⟩ with hmv
  set mk2 : RBucket K V := mm.nthRBucket ((j0 + a) % m1.buckets.length) with hmk2
  set mm' : RobinHood K V := { mm with buckets := (mm.buckets.set ((j0 + a) % m1.buckets.length) mv).set ((j0 + a + 1) % m1.buckets.length) mk2 } with hmm2
  have hadd1 : j0 + (a + 1) = j0 + a + 1 := by omega
  have hadd2 : j0 + (a + 1) + 1 = j0 + a + 2 := by omega
  have hblen' : mm'.buckets.length = m1.buckets.length := by
    rw [hmm2]
    show ((mm.buckets.set _ mv).set _ mk2).length = _
    rw [List.length_set, List.length_set]
    exact hinv.blen
  have hn_ia : mm'.nthRBucket ((j0 + a + 1) % m1.buckets.length) = mk2 := by
    show ((mm.buckets.set _ mv).set _ mk2).getD _ ⟨default, -1, default⟩ = mk2
    refine getD_set_self _ _ _ _ ?_
    rw [List.length_set, hinv.blen]
    exact hia
  have hn_ha : mm'.nthRBucket ((j0 + a) % m1.buckets.length) = mv := by
    show ((mm.buckets.set _ mv).set _ mk2).getD _ ⟨default, -1, default⟩ = mv
    rw [getD_set_ne _ _ _ _ _ hne]
    refine getD_set_self _ _ _ _ ?_
    rw [hinv.blen]
    exact hha
  have hn_other : ∀ u, ¬ u = (j0 + a) % m1.buckets.length →
      ¬ u = (j0 + a + 1) % m1.buckets.length →
      mm'.nthRBucket u = mm.nthRBucket u := by
    intro u hu1 hu2
    show ((mm.buckets.set _ mv).set _ mk2).getD u ⟨default, -1, default⟩ = _
    rw [getD_set_ne _ _ _ _ _ (fun h => hu2 h.symm),
      getD_set_ne _ _ _ _ _ (fun h => hu1 h.symm)]
    rfl
  have hmodinj : ∀ u w, u < m1.buckets.length → w < m1.buckets.length →
      (j0 + u) % m1.buckets.length = (j0 + w) % m1.buckets.length → u = w := by
    intro u w hu hw h
    have h1 := cycDist_add m1.buckets.length j0 u hj0 hu
    have h2 := cycDist_add m1.buckets.length j0 w hj0 hw
    rw [h, h2] at h1
    exact h1.symm
  have hmvne : ¬ mv.psl = -1 := by
    rw [hmv]
    show ¬ (mm.nthRBucket ((j0 + a + 1) % m1.buckets.length)).psl - 1 = -1
    omega
  have hperm_mm : mm'.liveEntries.Perm mm.liveEntries := by
    have hlt0 : (j0 + a) % m1.buckets.length < mm.buckets.length := by
      rw [hinv.blen]
      exact hha
    have hstepA := filterMap_set_perm
      (fun b : RBucket K V =>
        if b.psl == (-1 : Int) then none else some (b.key, b.value))
      mm.buckets ((j0 + a) % m1.buckets.length) mv hlt0
    rw [← mm.nthRBucket_eq_get _ hlt0] at hstepA
    have hmvkey : mv.key = (mm.nthRBucket ((j0 + a + 1) % m1.buckets.length)).key := by
      rw [hmv]
    have hmvval : mv.value = (mm.nthRBucket ((j0 + a + 1) % m1.buckets.length)).value := by
      rw [hmv]
    simp [hinv.hole, hmvne] at hstepA
    have hlt1 : (j0 + a + 1) % m1.buckets.length <
        (mm.buckets.set ((j0 + a) % m1.buckets.length) mv).length := by
      rw [List.length_set, hinv.blen]
      exact hia
    have hstepB := filterMap_set_perm
      (fun b : RBucket K V =>
        if b.psl == (-1 : Int) then none else some (b.key, b.value))
      (mm.buckets.set ((j0 + a) % m1.buckets.length) mv)
      ((j0 + a + 1) % m1.buckets.length) mk2 hlt1
    have hgetB : (mm.buckets.set ((j0 + a) % m1.buckets.length) mv).get
        ⟨(j0 + a + 1) % m1.buckets.length, hlt1⟩ =
        mm.nthRBucket ((j0 + a + 1) % m1.buckets.length) := by
      rw [List.get_eq_getElem,
        ← getD_eq_getElem_of_lt _ _ (⟨default, -1, default⟩ : RBucket K V) hlt1]
      exact getD_set_ne _ _ _ _ _ (fun h => hne h.symm)
    rw [hgetB] at hstepB
    have hiane : ¬ (mm.nthRBucket ((j0 + a + 1) % m1.buckets.length)).psl = -1 := by
      omega
    have hmkpsl : mk2.psl = -1 := by
      rw [hmk2]
      exact hinv.hole
    simp [hiane, hmkpsl] at hstepB
    rw [hmvkey, hmvval] at hstepA
    have hcons1 : (((mm.nthRBucket ((j0 + a + 1) % m1.buckets.length)).key,
        (mm.nthRBucket ((j0 + a + 1) % m1.buckets.length)).value) ::
        ((mm.buckets.set ((j0 + a) % m1.buckets.length) mv).set
          ((j0 + a + 1) % m1.buckets.length) mk2).filterMap
            (fun b => if b.psl = (-1 : Int) then none else some (b.key, b.value))).Perm
        (((mm.nthRBucket ((j0 + a + 1) % m1.buckets.length)).key,
        (mm.nthRBucket ((j0 + a + 1) % m1.buckets.length)).value) ::
        mm.buckets.filterMap
          (fun b => if b.psl = (-1 : Int) then none else some (b.key, b.value))) :=
      ((List.perm_append_singleton _ _).symm.trans (hstepB.trans hstepA)).trans
        (List.perm_append_singleton _ _)
    have hfm := hcons1.cons_inv
    have hent : mm'.liveEntries =
        ((mm.buckets.set ((j0 + a) % m1.buckets.length) mv).set
          ((j0 + a + 1) % m1.buckets.length) mk2).filterMap
          (fun b => if b.psl == (-1 : Int) then none else some (b.key, b.value)) := rfl
    rw [hent]
    unfold RobinHood.liveEntries
    simp only [beq_iff_eq]
    exact hfm
  refine ⟨mm', ?_, ?_⟩
  · have hbody : mm.backShift ((j0 + a) % m1.buckets.length)
        ((j0 + a + 1) % m1.buckets.length) (fuel + 1) =
        if 0 < (mm.nthRBucket ((j0 + a + 1) % m1.buckets.length)).psl then
          RobinHood.backShift { mm with buckets := (mm.buckets.set ((j0 + a) % m1.buckets.length) mv).set ((j0 + a + 1) % m1.buckets.length) mk2 } ((j0 + a + 1) % m1.buckets.length) (((j0 + a + 1) % m1.buckets.length + 1) &&& mm.capMinus1) fuel
        else some mm := rfl
    rw [hbody, if_pos hgo]
    have hmask : ((j0 + a + 1) % m1.buckets.length + 1) &&& mm.capMinus1 =
        (j0 + a + 2) % m1.buckets.length := by
      obtain ⟨t, htt⟩ := hpow
      rw [hinv.capm_eq,
        mask_eq_mod m1.capMinus1 _ t (by rw [hcap]; exact htt), hcap, hstep2]
    rw [hmask]
  · refine ⟨hinv.hasher_eq, hinv.capm_eq, hinv.len_eq, hinv.next_eq2,
      hinv.ml_eq, hblen', ?_, ?_, ?_, ?_, ?_, ?_,
      hperm_mm.trans hinv.entries,
      ((hperm_mm.map Prod.fst).nodup_iff).mpr hinv.nodup2⟩
    · rw [hadd1, hn_ia, hmk2]
      exact hinv.hole
    · intro u hu huc
      have h1 : ¬ (j0 + u) % m1.buckets.length =
          (j0 + a) % m1.buckets.length := by
        intro h
        have := hmodinj u a huc (by omega) h
        omega
      have h2 : ¬ (j0 + u) % m1.buckets.length =
          (j0 + a + 1) % m1.buckets.length := by
        intro h
        rw [← hadd1] at h
        have := hmodinj u (a + 1) huc ha1 h
        omega
      rw [hn_other _ h1 h2]
      exact hinv.ahead u (by omega) huc
    · intro i hi
      by_cases hi1 : i = (j0 + a) % m1.buckets.length
      · rw [hi1, hn_ha, hmv]
        show (-1 : Int) ≤
          (mm.nthRBucket ((j0 + a + 1) % m1.buckets.length)).psl - 1
        omega
      · by_cases hi2 : i = (j0 + a + 1) % m1.buckets.length
        · rw [hi2, hn_ia, hmk2, hinv.hole]
        · rw [hn_other i hi1 hi2]
          exact hinv.psl_ge i hi
    · intro i hi hp
      by_cases hi2 : i = (j0 + a + 1) % m1.buckets.length
      · rw [hi2, hn_ia, hmk2, hinv.hole] at hp
        exfalso
        omega
      · by_cases hi1 : i = (j0 + a) % m1.buckets.length
        · rw [hi1, hn_ha, hmv]
          show (mm.nthRBucket ((j0 + a + 1) % m1.buckets.length)).psl - 1 =
            (cycDist m1.buckets.length
              (m1.home (mm.nthRBucket ((j0 + a + 1) % m1.buckets.length)).key)
              ((j0 + a) % m1.buckets.length) : Int)
          have hpia := hinv.psl_home ((j0 + a + 1) % m1.buckets.length) hia
            (by omega)
          set B := mm.nthRBucket ((j0 + a + 1) % m1.buckets.length) with hBdef
          have hH : m1.home B.key < m1.buckets.length := m1.rhome_lt hc _
          have hD1 : 1 ≤ cycDist m1.buckets.length (m1.home B.key)
              ((j0 + a + 1) % m1.buckets.length) := by
            have h5 : (1 : Int) ≤ (cycDist m1.buckets.length (m1.home B.key)
                ((j0 + a + 1) % m1.buckets.length) : Int) := by
              rw [← hpia]
              omega
            exact_mod_cast h5
          have hE : cycDist m1.buckets.length (m1.home B.key)
              ((j0 + a) % m1.buckets.length) + 1 =
              cycDist m1.buckets.length (m1.home B.key)
              ((j0 + a + 1) % m1.buckets.length) := by
            by_cases hEc : cycDist m1.buckets.length (m1.home B.key)
                ((j0 + a) % m1.buckets.length) + 1 < m1.buckets.length
            · have h6 := cycDist_step m1.buckets.length (m1.home B.key)
                ((j0 + a) % m1.buckets.length) hH hha hEc
              rw [hstep1] at h6
              exact h6.symm
            · exfalso
              have hEval : cycDist m1.buckets.length (m1.home B.key)
                  ((j0 + a) % m1.buckets.length) = m1.buckets.length - 1 := by
                have := cycDist_lt m1.buckets.length (m1.home B.key)
                  ((j0 + a) % m1.buckets.length) hc
                omega
              have hia2 : (j0 + a + 1) % m1.buckets.length = m1.home B.key := by
                rw [← hstep1, ← cyc_recover m1.buckets.length (m1.home B.key)
                  ((j0 + a) % m1.buckets.length) hH hha, hEval, Nat.mod_add_mod]
                have harr : m1.home B.key + (m1.buckets.length - 1) + 1 =
                    m1.home B.key + m1.buckets.length := by omega
                rw [harr, Nat.add_mod_right, Nat.mod_eq_of_lt hH]
              rw [hia2, cycDist_self] at hD1
              omega
          rw [← hE] at hpia
          push_cast at hpia
          omega
        · rw [hn_other i hi1 hi2] at hp ⊢
          exact hinv.psl_home i hi hp
    · intro j hj hjne
      rw [hadd1] at hjne
      by_cases hjha : j = (j0 + a) % m1.buckets.length
      · rw [hjha, hstep1, hn_ia, hn_ha, hmk2, hmv, hinv.hole]
        show (-1 : Int) ≤
          (mm.nthRBucket ((j0 + a + 1) % m1.buckets.length)).psl - 1 + 1
        omega
      · by_cases hj1ha : (j + 1) % m1.buckets.length =
            (j0 + a) % m1.buckets.length
        · rw [hj1ha, hn_ha, hmv, hn_other j hjha hjne]
          have hjmp := hinv.jump j hj hj1ha
          show (mm.nthRBucket ((j0 + a + 1) % m1.buckets.length)).psl - 1 ≤
            (mm.nthRBucket j).psl + 1
          omega
        · have hj1ia : ¬ (j + 1) % m1.buckets.length =
              (j0 + a + 1) % m1.buckets.length := by
            intro h
            rw [← hstep1] at h
            exact hjha (mod_succ_inj m1.buckets.length j _ hj hha h)
          rw [hn_other _ hj1ha hj1ia, hn_other j hjha hjne]
          exact hinv.local_dec j hj hjha
    · intro p hp hp1
      rw [hadd1] at hp1
      have hpha : p = (j0 + a) % m1.buckets.length := by
        refine mod_succ_inj m1.buckets.length p _ hp hha ?_
        rw [hp1, hstep1]
      rw [hadd2, hpha, hn_ha, hmv]
      by_cases hs3a : (j0 + a + 2) % m1.buckets.length =
          (j0 + a) % m1.buckets.length
      · rw [hs3a, hn_ha, hmv]
        show (mm.nthRBucket ((j0 + a + 1) % m1.buckets.length)).psl - 1 ≤
          (mm.nthRBucket ((j0 + a + 1) % m1.buckets.length)).psl - 1 + 2
        omega
      · by_cases hs3b : (j0 + a + 2) % m1.buckets.length =
            (j0 + a + 1) % m1.buckets.length
        · exfalso
          rw [← hstep2] at hs3b
          rcases Nat.lt_or_ge ((j0 + a + 1) % m1.buckets.length + 1)
              m1.buckets.length with hlt | hge
          · rw [Nat.mod_eq_of_lt hlt] at hs3b
            omega
          · have hx : (j0 + a + 1) % m1.buckets.length + 1 =
                m1.buckets.length := by omega
            rw [hx, Nat.mod_self] at hs3b
            have hc1 : m1.buckets.length = 1 := by omega
            rw [hc1] at hne
            exact hne (by omega)
        · rw [hn_other _ hs3a hs3b]
          have hld := hinv.local_dec ((j0 + a + 1) % m1.buckets.length) hia hne
          rw [hstep2] at hld
          show (mm.nthRBucket ((j0 + a + 2) % m1.buckets.length)).psl ≤
            (mm.nthRBucket ((j0 + a + 1) % m1.buckets.length)).psl - 1 + 2
          omega

/-! Running the backward-shift loop to completion. -/

theorem RobinHood.back_run [DecidableEq K] [Inhabited K] [Inhabited V]
    (m1 : RobinHood K V) (hcap : m1.capMinus1 + 1 = m1.buckets.length)
    (hpow : ∃ t, m1.buckets.length = 2 ^ t) (j0 : Nat)
    (hj0 : j0 < m1.buckets.length) :
    ∀ (fuel a : Nat) (mm : RobinHood K V), RobinHood.BackInv m1 j0 mm a →
      (∃ ds, a ≤ ds ∧ ds + 2 ≤ m1.buckets.length ∧
        (m1.nthRBucket ((j0 + ds + 1) % m1.buckets.length)).psl ≤ 0 ∧
        ds - a < fuel) →
      ∃ m2, mm.backShift ((j0 + a) % m1.buckets.length)
          ((j0 + a + 1) % m1.buckets.length) fuel = some m2 ∧
        m2.hasher = m1.hasher ∧ m2.capMinus1 = m1.capMinus1 ∧
        m2.length = m1.length ∧ m2.nextResize = m1.nextResize ∧
        m2.maxLoad = m1.maxLoad ∧ m2.buckets.length = m1.buckets.length ∧
        m2.liveEntries.Perm m1.liveEntries ∧
        (m2.liveEntries.map Prod.fst).Nodup ∧
        (∀ i, i < m1.buckets.length → -1 ≤ (m2.nthRBucket i).psl) ∧
        (∀ i, i < m1.buckets.length → 0 ≤ (m2.nthRBucket i).psl →
          (m2.nthRBucket i).psl =
            (cycDist m1.buckets.length (m1.home (m2.nthRBucket i).key) i : Int)) ∧
        (∀ j, j < m1.buckets.length →
          (m2.nthRBucket ((j + 1) % m1.buckets.length)).psl ≤
            (m2.nthRBucket j).psl + 1) := by
  intro fuel
  induction fuel with
  | zero =>
    intro a mm hinv hstop
    obtain ⟨ds, h1, h2, h3, h4⟩ := hstop
    exact absurd h4 (by omega)
  | succ n ih =>
    intro a mm hinv hstop
    obtain ⟨ds, hads, hds2, hdstop, hfuel⟩ := hstop
    have hc : 0 < m1.buckets.length := by omega
    have ha1 : a + 1 < m1.buckets.length := by omega
    have hadd1 : j0 + (a + 1) = j0 + a + 1 := by omega
    have huntouched : mm.nthRBucket ((j0 + a + 1) % m1.buckets.length) =
        m1.nthRBucket ((j0 + a + 1) % m1.buckets.length) := by
      have h := hinv.ahead (a + 1) (by omega) ha1
      rw [hadd1] at h
      exact h
    by_cases hgo : 0 < (mm.nthRBucket ((j0 + a + 1) % m1.buckets.length)).psl
    · have hand : ¬ a = ds := by
        intro h
        rw [huntouched, h] at hgo
        omega
      obtain ⟨mm', heq, hinv'⟩ := RobinHood.back_step m1 hcap hpow j0 hj0 mm a
        hinv ha1 hgo n
      have hstop' : ∃ ds2, a + 1 ≤ ds2 ∧ ds2 + 2 ≤ m1.buckets.length ∧
          (m1.nthRBucket ((j0 + ds2 + 1) % m1.buckets.length)).psl ≤ 0 ∧
          ds2 - (a + 1) < n := ⟨ds, by omega, hds2, hdstop, by omega⟩
      obtain ⟨m2, hrun, hrest⟩ := ih (a + 1) mm' hinv' hstop'
      refine ⟨m2, ?_, hrest⟩
      rw [heq]
      have hi1 : (j0 + (a + 1)) % m1.buckets.length =
          (j0 + a + 1) % m1.buckets.length := by rw [hadd1]
      have hi2 : (j0 + (a + 1) + 1) % m1.buckets.length =
          (j0 + a + 2) % m1.buckets.length := by
        have h7 : j0 + (a + 1) + 1 = j0 + a + 2 := by omega
        rw [h7]
      rw [hi1, hi2] at hrun
      exact hrun
    · refine ⟨mm, ?_, hinv.hasher_eq, hinv.capm_eq, hinv.len_eq,
        hinv.next_eq2, hinv.ml_eq, hinv.blen, hinv.entries, hinv.nodup2,
        hinv.psl_ge, hinv.psl_home, ?_⟩
      · have hbody : mm.backShift ((j0 + a) % m1.buckets.length)
            ((j0 + a + 1) % m1.buckets.length) (n + 1) =
            if 0 < (mm.nthRBucket ((j0 + a + 1) % m1.buckets.length)).psl then
              RobinHood.backShift { mm with buckets := (mm.buckets.set ((j0 + a) % m1.buckets.length) ⟨(mm.nthRBucket ((j0 + a + 1) % m1.buckets.length)).key, (mm.nthRBucket ((j0 + a + 1) % m1.buckets.length)).psl - 1, (mm.nthRBucket ((j0 + a + 1) % m1.buckets.length)).value⟩).set ((j0 + a + 1) % m1.buckets.length) (mm.nthRBucket ((j0 + a) % m1.buckets.length)) } ((j0 + a + 1) % m1.buckets.length) (((j0 + a + 1) % m1.buckets.length + 1) &&& mm.capMinus1) n
            else some mm := rfl
        rw [hbody, if_neg hgo]
      · intro j hj
        by_cases hjha : j = (j0 + a) % m1.buckets.length
        · rw [hjha, Nat.mod_add_mod, hinv.hole]
          omega
        · exact hinv.local_dec j hj hjha

/-! Robin Remove specification. -/

theorem RobinHood.rremove_spec [DecidableEq K] [Inhabited K] [Inhabited V]
    (m : RobinHood K V) (hwf : m.WF) (k : K) :
    ∃ m2 b, m.Remove k = some (m2, b) ∧ m2.WF ∧
      m2.hasher = m.hasher ∧ m2.maxLoad = m.maxLoad ∧
      m2.nextResize = m.nextResize ∧
      m2.buckets.length = m.buckets.length ∧
      (b = true → ∃ v0, (k, v0) ∈ m.liveEntries ∧
        (m2.liveEntries ++ [(k, v0)]).Perm m.liveEntries ∧
        m2.length + 1 = m.length) ∧
      (b = false → m2 = m ∧ ∀ v2, ¬ (k, v2) ∈ m.liveEntries) := by
  have hc : 0 < m.buckets.length := hwf.rcore.rc_pos
  have hroom : m.liveEntries.length < m.buckets.length := by
    have h1 := hwf.count
    have h2 := hwf.len_lt
    omega
  have hmaskh := m.rhome_eq_mask hwf.cap_eq hwf.pow2 k
  by_cases hex : ∃ v, (k, v) ∈ m.liveEntries
  · obtain ⟨v0, hv0⟩ := hex
    obtain ⟨s, hs, hskey, hsval, hslive, hloop⟩ :=
      m.removeLoop_found hwf.rcore hwf.keys_nodup k v0 hv0
    set mk0 : RBucket K V := ⟨(m.nthRBucket s).key, -1, (m.nthRBucket s).value⟩ with hmk0
    set m1 : RobinHood K V := { m with length := m.length - 1, buckets := m.buckets.set s mk0 } with hm1
    have hmk0psl : mk0.psl = -1 := by rw [hmk0]
    have hbl1 : m1.buckets.length = m.buckets.length := by
      rw [hm1]
      show (m.buckets.set s mk0).length = _
      exact List.length_set ..
    have hcap1 : m1.capMinus1 + 1 = m1.buckets.length := by
      rw [hbl1]
      exact hwf.cap_eq
    have hn_s : m1.nthRBucket s = mk0 := by
      show (m.buckets.set s mk0).getD s ⟨default, -1, default⟩ = mk0
      exact getD_set_self _ _ _ _ hs
    have hn_ne : ∀ u, ¬ u = s → m1.nthRBucket u = m.nthRBucket u := by
      intro u hu
      show (m.buckets.set s mk0).getD u ⟨default, -1, default⟩ = _
      rw [getD_set_ne _ _ _ _ _ (fun h => hu h.symm)]
      rfl
    have hhome1 : ∀ k2, m1.home k2 = m.home k2 := by
      intro k2
      unfold RobinHood.home
      rw [hbl1]
    have hslivene : ¬ (m.nthRBucket s).psl = -1 := by omega
    have hperm1 : (m1.liveEntries ++ [(k, v0)]).Perm m.liveEntries := by
      have hstep := filterMap_set_perm
        (fun b : RBucket K V =>
          if b.psl == (-1 : Int) then none else some (b.key, b.value))
        m.buckets s mk0 hs
      rw [← m.nthRBucket_eq_get s hs] at hstep
      simp [hslivene, hmk0psl] at hstep
      rw [hskey, hsval] at hstep
      have hent : m1.liveEntries = (m.buckets.set s mk0).filterMap
          (fun b => if b.psl == (-1 : Int) then none else some (b.key, b.value)) := rfl
      rw [hent]
      unfold RobinHood.liveEntries
      simp only [beq_iff_eq]
      simpa using hstep
    have hnodup1 : (m1.liveEntries.map Prod.fst).Nodup := by
      have hmap := hperm1.map Prod.fst
      simp only [List.map_append, List.map_cons, List.map_nil] at hmap
      have h1 : (k :: (m1.liveEntries.map Prod.fst)).Perm
          (m.liveEntries.map Prod.fst) :=
        (List.perm_append_singleton _ _).symm.trans hmap
      exact ((h1.nodup_iff).mpr hwf.keys_nodup).of_cons
    have h0 : (s + 0) % m1.buckets.length = s := by
      rw [Nat.add_zero, hbl1]
      exact Nat.mod_eq_of_lt hs
    have hs01 : (s + 0 + 1) % m1.buckets.length = (s + 1) % m1.buckets.length := by
      have h9 : s + 0 + 1 = s + 1 := by omega
      rw [h9]
    have hinv0 : RobinHood.BackInv m1 s m1 0 := by
      refine ⟨rfl, rfl, rfl, rfl, rfl, rfl, ?_, fun u _ _ => rfl, ?_, ?_, ?_, ?_,
        List.Perm.refl _, hnodup1⟩
      · rw [h0, hn_s, hmk0psl]
      · intro i hi
        by_cases his : i = s
        · rw [his, hn_s, hmk0psl]
        · rw [hn_ne i his]
          exact hwf.psl_ge i (by rw [hbl1] at hi; exact hi)
      · intro i hi hp
        by_cases his : i = s
        · rw [his, hn_s, hmk0psl] at hp
          exfalso
          omega
        · rw [hn_ne i his] at hp ⊢
          rw [hbl1, hhome1]
          exact hwf.psl_home i (by rw [hbl1] at hi; exact hi) hp
      · intro j hj hjs
        rw [h0] at hjs
        by_cases hj1s : (j + 1) % m1.buckets.length = s
        · rw [hj1s, hn_s, hmk0psl, hn_ne j hjs]
          have := hwf.psl_ge j (by rw [hbl1] at hj; exact hj)
          omega
        · rw [hn_ne _ hj1s, hn_ne j hjs, hbl1]
          exact hwf.local_dec j (by rw [hbl1] at hj; exact hj)
      · intro p hp hp1
        rw [h0] at hp1
        rw [hs01]
        by_cases hcase : (s + 1) % m1.buckets.length = s
        · rw [hcase, hn_s, hmk0psl]
          by_cases hps : p = s
          · rw [hps, hn_s, hmk0psl]
            omega
          · rw [hn_ne p hps]
            have := hwf.psl_ge p (by rw [hbl1] at hp; exact hp)
            omega
        · have hps : ¬ p = s := by
            intro h
            rw [h] at hp1
            exact hcase hp1
          rw [hn_ne _ hcase, hn_ne p hps, hbl1]
          rw [hbl1] at hp1
          have h11 := hwf.local_dec s hs
          have h12 := hwf.local_dec p (by rw [hbl1] at hp; exact hp)
          rw [hp1] at h12
          omega
    obtain ⟨e, helt, hekey⟩ := m.rexists_empty hroom
    have hes : ¬ e = s := by
      intro h
      rw [h] at hekey
      omega
    have hde1 : 1 ≤ cycDist m.buckets.length s e := by
      rcases Nat.eq_zero_or_pos (cycDist m.buckets.length s e) with h | h
      · exact absurd (cycDist_eq_zero _ _ _ hs helt h).symm hes
      · exact h
    have hdelt : cycDist m.buckets.length s e < m.buckets.length :=
      cycDist_lt _ _ _ hc
    have hstop0 : ∃ ds, 0 ≤ ds ∧ ds + 2 ≤ m1.buckets.length ∧
        (m1.nthRBucket ((s + ds + 1) % m1.buckets.length)).psl ≤ 0 ∧
        ds - 0 < m1.buckets.length := by
      refine ⟨cycDist m.buckets.length s e - 1, by omega, by omega, ?_, by omega⟩
      have harr : s + (cycDist m.buckets.length s e - 1) + 1 =
          s + cycDist m.buckets.length s e := by omega
      rw [harr, hbl1, cyc_recover m.buckets.length s e hs helt, hn_ne e hes,
        hekey]
      omega
    obtain ⟨m2, hrun, hh2, hcm2, hl2, hnr2, hml2, hbl2, hperm2, hnodup2, hge2,
        hph2, hld2⟩ :=
      RobinHood.back_run m1 hcap1 (by rw [hbl1]; exact hwf.pow2) s
        (by rw [hbl1]; exact hs) m1.buckets.length 0 m1 hinv0 hstop0
    rw [h0, hs01] at hrun
    have hmask2 : (s + 1) &&& m1.capMinus1 = (s + 1) % m1.buckets.length := by
      obtain ⟨t, htt⟩ := hwf.pow2
      have h13 := mask_eq_mod m1.capMinus1 (s + 1) t
        (by rw [hcap1, hbl1]; exact htt)
      rw [h13, hcap1]
    rw [← hmask2] at hrun
    have hrem : m.Remove k = ((m1.backShift s ((s + 1) &&& m1.capMinus1)
        m1.buckets.length).map (fun m2 => (m2, true))) := by
      show (m.removeLoop k (m.buckets.length + 1)
        (m.hasher k &&& m.capMinus1) 0).bind _ = _
      rw [hmaskh, hloop, Option.some_bind]
    have hl1d : m1.length = m.length - 1 := rfl
    have hlml : 1 ≤ m.length := by
      have h14 : 0 < m.liveEntries.length := List.length_pos.mpr
        (fun h => by rw [h] at hv0; exact absurd hv0 (List.not_mem_nil _))
      have h15 := hwf.count
      omega
    have hcnt2 : m2.liveEntries.length = m2.length := by
      have hlen2a := hperm2.length_eq
      have hlen1a := hperm1.length_eq
      simp only [List.length_append, List.length_cons, List.length_nil] at hlen1a
      have h15 := hwf.count
      omega
    have hhome2 : ∀ k2, m2.home k2 = m.home k2 := by
      intro k2
      unfold RobinHood.home
      have hh1d : m1.hasher = m.hasher := rfl
      rw [hh2, hh1d, hbl2, hbl1]
    have hml1d : m1.maxLoad = m.maxLoad := rfl
    have hnr1d : m1.nextResize = m.nextResize := rfl
    have hwf2 : m2.WF := by
      refine ⟨?_, ?_, ?_, ?_, ?_, ?_, hcnt2, hnodup2, ?_, ?_, ?_⟩
      · rw [hcm2, hbl2]
        exact hcap1
      · rw [hbl2, hbl1]
        exact hwf.pow2
      · rw [hml2, hml1d]
        exact hwf.ml_pos
      · rw [hml2, hml1d]
        exact hwf.ml_lt
      · rw [hnr2, hnr1d, hbl2, hbl1, hml2, hml1d]
        exact hwf.next_eq
      · have h16 := hwf.len_lt
        omega
      · intro i hi
        exact hge2 i (by rw [hbl2] at hi; exact hi)
      · intro i hi hp
        have h17 := hph2 i (by rw [hbl2] at hi; exact hi) hp
        rw [hbl1, hhome1] at h17
        rw [hbl2, hbl1, hhome2]
        exact h17
      · intro j hj
        have h18 := hld2 j (by rw [hbl2] at hj; exact hj)
        rw [hbl1] at h18
        rw [hbl2, hbl1]
        exact h18
    refine ⟨m2, true, by rw [hrem, hrun, Option.map_some'], hwf2,
      by rw [hh2], by rw [hml2, hml1d], by rw [hnr2, hnr1d],
      by rw [hbl2, hbl1], ?_, by intro h; simp at h⟩
    intro _
    refine ⟨v0, hv0, (hperm2.append_right _).trans hperm1, by omega⟩
  · push_neg at hex
    have hloop := m.removeLoop_absent hwf.rcore (m.rexists_empty hroom) k hex
    have hrem : m.Remove k = some (m, false) := by
      show (m.removeLoop k (m.buckets.length + 1)
        (m.hasher k &&& m.capMinus1) 0).bind _ = _
      rw [hmaskh, hloop, Option.some_bind]
    exact ⟨m, false, hrem, hwf, rfl, rfl, rfl, rfl,
      by intro h; simp at h, fun _ => ⟨rfl, hex⟩⟩

/-! Robin Clear, MaxLoad, Reserve, New, Copy; reachable tables are
well-formed. -/

theorem RobinHood.rclear_spec [DecidableEq K] [Inhabited K] [Inhabited V]
    (m : RobinHood K V) (hwf : m.WF) :
    m.Clear.WF ∧ m.Clear.liveEntries = [] ∧ m.Clear.length = 0 ∧
    m.Clear.buckets.length = m.buckets.length := by
  have hbl : m.Clear.buckets.length = m.buckets.length := by
    show (m.buckets.map _).length = _
    rw [List.length_map]
  have hnth : ∀ i, i < m.buckets.length →
      m.Clear.nthRBucket i =
        ⟨(m.nthRBucket i).key, -1, (m.nthRBucket i).value⟩ := by
    intro i hi
    have hi2 : i < m.Clear.buckets.length := by
      rw [hbl]
      exact hi
    rw [RobinHood.nthRBucket_eq_get _ i hi2, RobinHood.nthRBucket_eq_get m i hi]
    show (m.buckets.map _).get ⟨i, hi2⟩ = _
    rw [List.get_eq_getElem, List.get_eq_getElem, List.getElem_map]
  have hlv : m.Clear.liveEntries = [] := by
    unfold RobinHood.liveEntries
    refine filterMap_of_all_none _ _ ?_
    intro a ha
    obtain ⟨b, _, hab⟩ := List.mem_map.mp ha
    rw [← hab]
    simp
  refine ⟨⟨?_, ?_, hwf.ml_pos, hwf.ml_lt, ?_, ?_, ?_, ?_, ?_, ?_, ?_⟩,
    hlv, rfl, hbl⟩
  · rw [hbl]
    exact hwf.cap_eq
  · rw [hbl]
    exact hwf.pow2
  · rw [hbl]
    exact hwf.next_eq
  · rw [hbl]
    show 0 < m.buckets.length
    exact hwf.rcore.rc_pos
  · rw [hlv]
    rfl
  · rw [hlv]
    simp
  · intro i hi
    rw [hbl] at hi
    rw [hnth i hi]
  · intro i hi hp
    rw [hbl] at hi
    rw [hnth i hi] at hp
    exfalso
    revert hp
    show ¬ (0 : Int) ≤ -1
    omega
  · intro j hj
    rw [hbl] at hj
    rw [hbl, hnth _ (Nat.mod_lt _ (by omega)), hnth j hj]
    show (-1 : Int) ≤ -1 + 1
    omega

theorem RobinHood.rclear_get [DecidableEq K] [Inhabited K] [Inhabited V]
    (m : RobinHood K V) (hwf : m.WF) (k : K) :
    m.Clear.Get k = some none := by
  obtain ⟨hwf2, hlv, _, _⟩ := m.rclear_spec hwf
  refine RobinHood.rget_absent _ hwf2 k ?_
  intro v2 hmem
  rw [hlv] at hmem
  exact absurd hmem (List.not_mem_nil _)

theorem RobinHood.rmaxload_spec [DecidableEq K] [Inhabited K] [Inhabited V]
    (m : RobinHood K V) (hwf : m.WF) (lf : Frac) :
    ((m.MaxLoad lf).2 = true ↔ lf.num ≤ 0 ∨ (lf.den : Int) ≤ lf.num) ∧
    ((m.MaxLoad lf).2 = true → (m.MaxLoad lf).1 = m) ∧
    (m.MaxLoad lf).1.WF ∧ (m.MaxLoad lf).1.liveEntries = m.liveEntries ∧
    (m.MaxLoad lf).1.length = m.length ∧
    ((m.MaxLoad lf).2 = false → (m.MaxLoad lf).1.maxLoad = lf) := by
  unfold RobinHood.MaxLoad
  by_cases hcond : lf.num ≤ 0 ∨ (lf.den : Int) ≤ lf.num
  · rw [if_pos hcond]
    exact ⟨⟨fun _ => hcond, fun _ => rfl⟩, fun _ => rfl, hwf, rfl, rfl,
      by intro h; simp at h⟩
  · rw [if_neg hcond]
    refine ⟨⟨fun h => by simp at h, fun h => absurd h hcond⟩,
      fun h => by simp at h, ?_, rfl, rfl, fun _ => rfl⟩
    push_neg at hcond
    exact ⟨hwf.cap_eq, hwf.pow2, hcond.1, hcond.2, rfl, hwf.len_lt,
      hwf.count, hwf.keys_nodup, hwf.psl_ge, hwf.psl_home, hwf.local_dec⟩

theorem RobinHood.rreserve_spec [DecidableEq K] [Inhabited K] [Inhabited V]
    (m : RobinHood K V) (hwf : m.WF) (n : Nat) :
    ∃ m2, m.Reserve n = some m2 ∧ m2.WF ∧ m2.hasher = m.hasher ∧
      m2.liveEntries.Perm m.liveEntries ∧ m2.length = m.length ∧
      m2.maxLoad = m.maxLoad := by
  unfold RobinHood.Reserve
  by_cases hg : m.buckets.length < NextPowerOf2 (Frac.divNatFloor n m.maxLoad)
  · rw [if_pos hg]
    rcases NextPowerOf2_pow2 (Frac.divNatFloor n m.maxLoad) with h0 | ⟨t, ht⟩
    · exfalso
      rw [h0] at hg
      omega
    · have hroom : m.liveEntries.length <
          NextPowerOf2 (Frac.divNatFloor n m.maxLoad) := by
        have h1 := hwf.count
        have h2 := hwf.len_lt
        omega
      obtain ⟨m2, hres, hco, hperm, hh, hl, hnr, hml, hbl⟩ :=
        m.rresize_spec (NextPowerOf2 (Frac.divNatFloor n m.maxLoad)) t ht
          hwf.keys_nodup hroom
      refine ⟨m2, hres, ?_, hh, hperm, hl, hml⟩
      refine ⟨hco.cap_eq, hco.pow2, ?_, ?_, ?_, ?_, ?_, ?_, hco.psl_ge,
        hco.psl_home, hco.local_dec⟩
      · rw [hml]
        exact hwf.ml_pos
      · rw [hml]
        exact hwf.ml_lt
      · rw [hnr, hbl, hml]
      · rw [hl, hbl]
        have := hwf.len_lt
        omega
      · rw [hperm.length_eq, hwf.count, hl]
      · exact ((hperm.map Prod.fst).nodup_iff).mpr hwf.keys_nodup
  · rw [if_neg hg]
    exact ⟨m, rfl, hwf, rfl, List.Perm.refl _, rfl, rfl⟩

theorem RobinHood.rnew_spec [DecidableEq K] [Inhabited K] [Inhabited V]
    (hasher : K → Nat) :
    ∃ m : RobinHood K V, RobinHood.NewWithHasher hasher = some m ∧ m.WF ∧
      m.liveEntries = [] ∧ m.length = 0 ∧ m.buckets.length = 8 := by
  refine ⟨{ buckets := robinNewBucketArray 8, hasher := hasher, length := 0, capMinus1 := 7, nextResize := 5, maxLoad := DefaultMaxLoad }, ?_, ?_, ?_, rfl, ?_⟩
  · have h5 : Frac.divNatFloor DefaultSize DefaultMaxLoad = 5 := rfl
    have h8 : NextPowerOf2 5 = 8 := rfl
    have hm : Frac.mulNatFloor 8 DefaultMaxLoad = 5 := rfl
    show ({ buckets := [], hasher := hasher, length := 0, capMinus1 := 0, nextResize := 0, maxLoad := DefaultMaxLoad } : RobinHood K V).Reserve DefaultSize = _
    simp only [RobinHood.Reserve, h5, h8, List.length_nil, RobinHood.resize,
      List.foldl_nil, hm]
    norm_num
  · have hco : ({ buckets := robinNewBucketArray 8, hasher := hasher, length := 0, capMinus1 := 7, nextResize := 5, maxLoad := DefaultMaxLoad } : RobinHood K V).Core :=
      RobinHood.rfresh_core _ 8 3 (by norm_num) rfl rfl
    have hlv : ({ buckets := robinNewBucketArray 8, hasher := hasher, length := 0, capMinus1 := 7, nextResize := 5, maxLoad := DefaultMaxLoad } : RobinHood K V).liveEntries = [] :=
      RobinHood.rfresh_liveEntries _ 8 rfl
    have hlen8 : (robinNewBucketArray 8 : List (RBucket K V)).length = 8 := by
      show (List.replicate 8 _).length = 8
      rw [List.length_replicate]
    refine ⟨hco.cap_eq, hco.pow2, by norm_num [DefaultMaxLoad], ?_, ?_, ?_,
      ?_, ?_, hco.psl_ge, hco.psl_home, hco.local_dec⟩
    · show (DefaultMaxLoad.num : Int) < (DefaultMaxLoad.den : Int)
      norm_num [DefaultMaxLoad]
    · show (5 : Nat) =
        Frac.mulNatFloor ((robinNewBucketArray 8 : List (RBucket K V))).length
          DefaultMaxLoad
      rw [hlen8]
      decide
    · show (0 : Nat) < ((robinNewBucketArray 8 : List (RBucket K V))).length
      rw [hlen8]
      norm_num
    · rw [hlv]
      rfl
    · rw [hlv]
      simp
  · exact RobinHood.rfresh_liveEntries _ 8 rfl
  · show ((robinNewBucketArray 8 : List (RBucket K V))).length = 8
    show (List.replicate 8 _).length = 8
    rw [List.length_replicate]

theorem RobinHood.rcopy_eq [DecidableEq K] [Inhabited K] [Inhabited V]
    (m : RobinHood K V) : m.Copy = m := rfl

theorem RobinHood.rreachable_WF [DecidableEq K] [Inhabited K] [Inhabited V]
    (m : RobinHood K V) (h : m.Reachable) : m.WF := by
  induction h with
  | new hasher mm hnew =>
    obtain ⟨m3, heq, hwf3, _, _, _⟩ := @RobinHood.rnew_spec K V _ _ _ hasher
    rw [heq] at hnew
    have h2 : m3 = mm := Option.some.inj hnew
    rw [← h2]
    exact hwf3
  | put k v _ hput ih =>
    obtain ⟨m3, b3, heq, hwf3, _⟩ := RobinHood.rput_spec _ ih k v
    rw [heq] at hput
    have h2 := Option.some.inj hput
    injection h2 with h3 h4
    rw [← h3]
    exact hwf3
  | remove k _ hrem ih =>
    obtain ⟨m3, b3, heq, hwf3, _⟩ := RobinHood.rremove_spec _ ih k
    rw [heq] at hrem
    have h2 := Option.some.inj hrem
    injection h2 with h3 h4
    rw [← h3]
    exact hwf3
  | clear _ ih =>
    exact (RobinHood.rclear_spec _ ih).1
  | reserve n _ hres ih =>
    obtain ⟨m3, heq, hwf3, _⟩ := RobinHood.rreserve_spec _ ih n
    rw [heq] at hres
    have h2 : m3 = _ := Option.some.inj hres
    rw [← h2]
    exact hwf3
  | maxload lf _ ih =>
    exact (RobinHood.rmaxload_spec _ ih lf).2.2.1
  | copy _ ih =>
    rw [RobinHood.rcopy_eq]
    exact ih

theorem RobinHood.put_isSome [DecidableEq K] [Inhabited K] [Inhabited V]
    (m : RobinHood K V) (hwf : m.WF) (k : K) (v : V) :
    (m.Put k v).isSome = true := by
  obtain ⟨m2, b, heq, _⟩ := m.rput_spec hwf k v
  rw [heq]
  rfl

theorem RobinHood.remove_isSome [DecidableEq K] [Inhabited K] [Inhabited V]
    (m : RobinHood K V) (hwf : m.WF) (k : K) :
    (m.Remove k).isSome = true := by
  obtain ⟨m2, b, heq, _⟩ := m.rremove_spec hwf k
  rw [heq]
  rfl

theorem RobinHood.rget_isSome [DecidableEq K] [Inhabited K] [Inhabited V]
    (m : RobinHood K V) (hwf : m.WF) (k : K) :
    (m.Get k).isSome = true := by
  by_cases hex : ∃ v, (k, v) ∈ m.liveEntries
  · obtain ⟨v, hv⟩ := hex
    rw [m.rget_found hwf k v hv]
    rfl
  · push_neg at hex
    rw [m.rget_absent hwf k hex]
    rfl

/-! Hopscotch bit toolkit. -/

theorem flip_testBit (m : Nat) (hm : m < 2 ^ 64) (d : Nat) :
    (flip m).testBit d = (decide (d < 64) && !m.testBit d) := by
  unfold flip
  rw [Nat.testBit_xor, Nat.testBit_two_pow_sub_one]
  by_cases hd : d < 64
  · simp [hd]
  · have h1 : m.testBit d = false := by
      refine Nat.testBit_lt_two_pow (Nat.lt_of_lt_of_le hm ?_)
      exact Nat.pow_le_pow_right (by norm_num) (by omega)
    simp [hd, h1]

theorem testBit_flip_two_pow (i : Nat) (hi : i < 64) (d : Nat) :
    (flip (2 ^ i)).testBit d = (decide (d < 64) && !decide (i = d)) := by
  rw [flip_testBit (2 ^ i) (Nat.pow_lt_pow_right (by norm_num) hi) d,
    Nat.testBit_two_pow]

theorem shiftLeft_one_mod (i : Nat) (hi : i < 64) :
    (1 <<< i) % 2 ^ 64 = 2 ^ i := by
  rw [Nat.one_shiftLeft]
  exact Nat.mod_eq_of_lt (Nat.pow_lt_pow_right (by norm_num) hi)

theorem HBucket.nb_testBit (b : HBucket K V) (d : Nat) :
    b.getNeighborhood.testBit d = b.hopInfo.testBit (1 + d) := by
  unfold HBucket.getNeighborhood
  rw [Nat.testBit_shiftRight]

theorem HBucket.isEmpty_iff (b : HBucket K V) :
    b.isEmpty = true ↔ b.hopInfo.testBit 0 = false := by
  unfold HBucket.isEmpty
  rw [Nat.and_one_is_mod, Nat.testBit_zero]
  constructor
  · intro h
    have h2 : b.hopInfo % 2 = 0 := by simpa using h
    simp [h2]
  · intro h
    have h2 : ¬ b.hopInfo % 2 = 1 := by simpa using h
    have h3 : b.hopInfo % 2 = 0 := by omega
    simp [h3]

theorem HBucket.set_key (b : HBucket K V) (i : Nat) (v : Bool) :
    (b.set i v).key = b.key := by
  unfold HBucket.set
  split <;> rfl

theorem HBucket.set_val (b : HBucket K V) (i : Nat) (v : Bool) :
    (b.set i v).val = b.val := by
  unfold HBucket.set
  split <;> rfl

theorem HBucket.nb_set_true (b : HBucket K V) (i : Nat) (hi : i + 1 < 64) :
    (b.set i true).getNeighborhood = b.getNeighborhood ||| 2 ^ i := by
  refine Nat.eq_of_testBit_eq ?_
  intro d
  rw [Nat.testBit_or, HBucket.nb_testBit, HBucket.nb_testBit]
  show ((b.hopInfo ||| (1 <<< (i + 1)) % 2 ^ 64)).testBit (1 + d) = _
  rw [shiftLeft_one_mod (i + 1) hi, Nat.testBit_or, Nat.testBit_two_pow,
    Nat.testBit_two_pow]
  have h1 : decide (i + 1 = 1 + d) = decide (i = d) := by
    rw [decide_eq_decide]
    omega
  rw [h1]

theorem HBucket.bit0_set_true (b : HBucket K V) (i : Nat) (hi : i + 1 < 64) :
    (b.set i true).hopInfo.testBit 0 = b.hopInfo.testBit 0 := by
  show ((b.hopInfo ||| (1 <<< (i + 1)) % 2 ^ 64)).testBit 0 = _
  rw [shiftLeft_one_mod (i + 1) hi, Nat.testBit_or, Nat.testBit_two_pow]
  simp

theorem HBucket.nb_set_false (b : HBucket K V) (hb : b.hopInfo < 2 ^ 64)
    (i : Nat) (hi : i + 1 < 64) :
    (b.set i false).getNeighborhood = b.getNeighborhood &&& flip (2 ^ i) := by
  refine Nat.eq_of_testBit_eq ?_
  intro d
  rw [Nat.testBit_and, HBucket.nb_testBit, HBucket.nb_testBit,
    testBit_flip_two_pow i (by omega) d]
  show ((b.hopInfo &&& flip ((1 <<< (i + 1)) % 2 ^ 64))).testBit (1 + d) = _
  rw [shiftLeft_one_mod (i + 1) hi, Nat.testBit_and,
    flip_testBit _ (Nat.pow_lt_pow_right (by norm_num) hi) _,
    Nat.testBit_two_pow]
  by_cases hd : d < 64
  · have h2 : 1 + d < 64 ∨ ¬ 1 + d < 64 := by omega
    rcases h2 with h2 | h2
    · have h3 : decide (i + 1 = 1 + d) = decide (i = d) := by
        rw [decide_eq_decide]
        omega
      rw [h3]
      simp [h2, hd]
    · have h4 : b.hopInfo.testBit (1 + d) = false := by
        refine Nat.testBit_lt_two_pow (Nat.lt_of_lt_of_le hb ?_)
        exact Nat.pow_le_pow_right (by norm_num) (by omega)
      simp [h2, hd, h4]
  · have h4 : b.hopInfo.testBit (1 + d) = false := by
      refine Nat.testBit_lt_two_pow (Nat.lt_of_lt_of_le hb ?_)
      exact Nat.pow_le_pow_right (by norm_num) (by omega)
    simp [hd, h4]

theorem HBucket.bit0_set_false (b : HBucket K V) (i : Nat) (hi : i + 1 < 64) :
    (b.set i false).hopInfo.testBit 0 = b.hopInfo.testBit 0 := by
  show ((b.hopInfo &&& flip ((1 <<< (i + 1)) % 2 ^ 64))).testBit 0 = _
  rw [shiftLeft_one_mod (i + 1) hi, Nat.testBit_and,
    flip_testBit _ (Nat.pow_lt_pow_right (by norm_num) hi) _,
    Nat.testBit_two_pow]
  have h1 : (i + 1 = 0) = False := by simp
  simp [h1]

theorem HBucket.nb_occupy (b : HBucket K V) :
    b.occupy.getNeighborhood = b.getNeighborhood := by
  refine Nat.eq_of_testBit_eq ?_
  intro d
  rw [HBucket.nb_testBit, HBucket.nb_testBit]
  show (b.hopInfo ||| 1).testBit (1 + d) = _
  rw [Nat.testBit_or]
  have h1 : (1 : Nat).testBit (1 + d) = false := by
    have h2 : (1 : Nat) = 2 ^ 0 := by norm_num
    rw [h2, Nat.testBit_two_pow]
    exact decide_eq_false (by omega)
  rw [h1]
  simp

theorem HBucket.bit0_occupy (b : HBucket K V) :
    b.occupy.hopInfo.testBit 0 = true := by
  show (b.hopInfo ||| 1).testBit 0 = true
  rw [Nat.testBit_or]
  have h1 : (1 : Nat).testBit 0 = true := by
    have h2 : (1 : Nat) = 2 ^ 0 := by norm_num
    rw [h2, Nat.testBit_two_pow]
    simp
  rw [h1]
  simp

theorem HBucket.nb_release (b : HBucket K V) (hb : b.hopInfo < 2 ^ 64) :
    b.release.getNeighborhood = b.getNeighborhood := by
  refine Nat.eq_of_testBit_eq ?_
  intro d
  rw [HBucket.nb_testBit, HBucket.nb_testBit]
  show (b.hopInfo &&& flip 1).testBit (1 + d) = _
  rw [Nat.testBit_and, flip_testBit 1 (by norm_num) _]
  have h1 : (1 : Nat).testBit (1 + d) = false := by
    have h2 : (1 : Nat) = 2 ^ 0 := by norm_num
    rw [h2, Nat.testBit_two_pow]
    exact decide_eq_false (by omega)
  by_cases hd : 1 + d < 64
  · simp [hd, h1]
  · have h4 : b.hopInfo.testBit (1 + d) = false := by
      refine Nat.testBit_lt_two_pow (Nat.lt_of_lt_of_le hb ?_)
      exact Nat.pow_le_pow_right (by norm_num) (by omega)
    simp [hd, h4]

theorem HBucket.bit0_release (b : HBucket K V) :
    b.release.hopInfo.testBit 0 = false := by
  show (b.hopInfo &&& flip 1).testBit 0 = false
  rw [Nat.testBit_and, flip_testBit 1 (by norm_num) 0]
  have h1 : (1 : Nat).testBit 0 = true := by
    have h2 : (1 : Nat) = 2 ^ 0 := by norm_num
    rw [h2, Nat.testBit_two_pow]
    simp
  simp [h1]

theorem HBucket.hop_lt_set_true (b : HBucket K V) (hb : b.hopInfo < 2 ^ 64)
    (i : Nat) (hi : i + 1 < 64) : (b.set i true).hopInfo < 2 ^ 64 := by
  show b.hopInfo ||| (1 <<< (i + 1)) % 2 ^ 64 < 2 ^ 64
  rw [shiftLeft_one_mod (i + 1) hi]
  exact Nat.or_lt_two_pow hb (Nat.pow_lt_pow_right (by norm_num) hi)

theorem HBucket.hop_lt_set_false (b : HBucket K V) (hb : b.hopInfo < 2 ^ 64)
    (i : Nat) : (b.set i false).hopInfo < 2 ^ 64 := by
  show b.hopInfo &&& _ < 2 ^ 64
  exact Nat.lt_of_le_of_lt Nat.and_le_left hb

theorem HBucket.hop_lt_occupy (b : HBucket K V) (hb : b.hopInfo < 2 ^ 64) :
    b.occupy.hopInfo < 2 ^ 64 := by
  show b.hopInfo ||| 1 < 2 ^ 64
  exact Nat.or_lt_two_pow hb (by norm_num)

theorem HBucket.hop_lt_release (b : HBucket K V) (hb : b.hopInfo < 2 ^ 64) :
    b.release.hopInfo < 2 ^ 64 := by
  show b.hopInfo &&& _ < 2 ^ 64
  exact Nat.lt_of_le_of_lt Nat.and_le_left hb

/-! Hopscotch structural toolkit. -/

theorem Hopscotch.hnth_eq_get [Inhabited K] [Inhabited V] (m : Hopscotch K V)
    (i : Nat) (h : i < m.buckets.length) :
    m.nthHBucket i = m.buckets.get ⟨i, h⟩ := by
  unfold Hopscotch.nthHBucket
  rw [getD_eq_getElem_of_lt _ _ _ h]
  rfl

theorem Hopscotch.hnth_oob [Inhabited K] [Inhabited V] (m : Hopscotch K V)
    (i : Nat) (h : m.buckets.length ≤ i) :
    m.nthHBucket i = ⟨0, default, default⟩ := by
  unfold Hopscotch.nthHBucket
  rw [List.getD_eq_getElem?_getD, List.getElem?_eq_none h]
  rfl

theorem Hopscotch.hhome_lt [Inhabited K] [Inhabited V] (m : Hopscotch K V)
    (k : K) : m.home k < m.capMinus1 + 1 :=
  Nat.mod_lt _ (by omega)

theorem Hopscotch.hhome_eq_mask [Inhabited K] [Inhabited V] (m : Hopscotch K V)
    (hpow : ∃ t, m.capMinus1 + 1 = 2 ^ t) (k : K) :
    m.hasher k &&& m.capMinus1 = m.home k := by
  obtain ⟨t, htt⟩ := hpow
  rw [mask_eq_mod m.capMinus1 (m.hasher k) t htt]
  rfl

theorem Hopscotch.hmem_liveEntries [DecidableEq K] [Inhabited K] [Inhabited V]
    (m : Hopscotch K V) (k : K) (v : V) :
    (k, v) ∈ m.liveEntries ↔
      ∃ i, i < m.buckets.length ∧ ¬ (m.nthHBucket i).isEmpty = true ∧
        (m.nthHBucket i).key = k ∧ (m.nthHBucket i).val = v := by
  unfold Hopscotch.liveEntries
  rw [List.mem_filterMap]
  constructor
  · rintro ⟨a, ha, hfa⟩
    by_cases hp : a.isEmpty = true
    · rw [if_pos hp] at hfa
      exact absurd hfa (by simp)
    · rw [if_neg hp] at hfa
      have hkey : a.key = k := congrArg Prod.fst (Option.some.inj hfa)
      have hval : a.val = v := congrArg Prod.snd (Option.some.inj hfa)
      obtain ⟨i, hi, hgot⟩ := List.mem_iff_getElem.1 ha
      refine ⟨i, hi, ?_, ?_, ?_⟩ <;>
        rw [Hopscotch.hnth_eq_get m i hi] <;>
        simp only [List.get_eq_getElem] <;> rw [hgot]
      · exact hp
      · exact hkey
      · exact hval
  · rintro ⟨i, hi, hp, hkey, hval⟩
    refine ⟨m.buckets.get ⟨i, hi⟩, List.get_mem _ _ _, ?_⟩
    rw [← Hopscotch.hnth_eq_get m i hi]
    rw [if_neg hp, hkey, hval]

theorem Hopscotch.hnodup_slot_aux [DecidableEq K] [Inhabited K] [Inhabited V]
    (m : Hopscotch K V) (hnd : (m.liveEntries.map Prod.fst).Nodup)
    (i j : Nat) (hij : i < j) (hj : j < m.buckets.length)
    (hi2 : ¬ (m.nthHBucket i).isEmpty = true)
    (hj2 : ¬ (m.nthHBucket j).isEmpty = true) :
    ¬ (m.nthHBucket i).key = (m.nthHBucket j).key := by
  intro heq
  have hi : i < m.buckets.length := Nat.lt_trans hij hj
  have hsub := pair_sublist m.buckets i j hij hj
  have hsub2 := hsub.filterMap
    (fun b : HBucket K V => if b.isEmpty then none else some (b.key, b.val))
  rw [Hopscotch.hnth_eq_get m i hi] at hi2 heq
  rw [Hopscotch.hnth_eq_get m j hj] at hj2 heq
  rw [List.filterMap_cons, List.filterMap_cons] at hsub2
  rw [if_neg hi2, if_neg hj2] at hsub2
  have hsub3 : List.Sublist
      [(m.buckets.get ⟨i, hi⟩).key, (m.buckets.get ⟨j, hj⟩).key]
      (m.liveEntries.map Prod.fst) := by
    have := hsub2.map Prod.fst
    unfold Hopscotch.liveEntries
    simpa using this
  have := hnd.sublist hsub3
  rw [heq] at this
  simp at this

theorem Hopscotch.hnodup_slot [DecidableEq K] [Inhabited K] [Inhabited V]
    (m : Hopscotch K V) (hnd : (m.liveEntries.map Prod.fst).Nodup)
    (i j : Nat) (hi : i < m.buckets.length) (hj : j < m.buckets.length)
    (hi2 : ¬ (m.nthHBucket i).isEmpty = true)
    (hj2 : ¬ (m.nthHBucket j).isEmpty = true)
    (heq : (m.nthHBucket i).key = (m.nthHBucket j).key) : i = j := by
  rcases Nat.lt_trichotomy i j with h | h | h
  · exact absurd heq (Hopscotch.hnodup_slot_aux m hnd i j h hj hi2 hj2)
  · exact h
  · exact absurd heq.symm (Hopscotch.hnodup_slot_aux m hnd j i h hi hj2 hi2)

theorem Hopscotch.Core.hsize_le [DecidableEq K] [Inhabited K] [Inhabited V]
    {m : Hopscotch K V} (hco : m.Core) : m.neighborhoodSize ≤ 63 := by
  rcases hco.hsize with h | h | h | h | h <;> omega

theorem Hopscotch.Core.hsize_pos [DecidableEq K] [Inhabited K] [Inhabited V]
    {m : Hopscotch K V} (hco : m.Core) : 0 < m.neighborhoodSize := by
  rcases hco.hsize with h | h | h | h | h <;> omega

theorem Hopscotch.Core.hop_lt [DecidableEq K] [Inhabited K] [Inhabited V]
    {m : Hopscotch K V} (hco : m.Core) (i : Nat) :
    (m.nthHBucket i).hopInfo < 2 ^ 64 := by
  by_cases hi : i < m.buckets.length
  · have h1 := hco.bits_lt i hi
    have hH : m.neighborhoodSize ≤ 63 := hco.hsize_le
    have h2 : (m.nthHBucket i).getNeighborhood < 2 ^ 63 :=
      Nat.lt_of_lt_of_le h1 (Nat.pow_le_pow_right (by norm_num) hH)
    have h3 : (m.nthHBucket i).hopInfo >>> 1 < 2 ^ 63 := h2
    rw [Nat.shiftRight_eq_div_pow, pow_one] at h3
    have h7 := Nat.div_add_mod (m.nthHBucket i).hopInfo 2
    have h9 : (2 : Nat) ^ 64 = 2 * 2 ^ 63 := by norm_num
    omega
  · rw [m.hnth_oob i (by omega)]
    show (0 : Nat) < 2 ^ 64
    positivity

theorem Hopscotch.Core.nb_lt_fuel [DecidableEq K] [Inhabited K] [Inhabited V]
    {m : Hopscotch K V} (hco : m.Core) (i : Nat) (hi : i < m.buckets.length) :
    (m.nthHBucket i).getNeighborhood < 2 ^ hopFuel := by
  have h1 := hco.bits_lt i hi
  have hH : m.neighborhoodSize ≤ 63 := hco.hsize_le
  refine Nat.lt_of_lt_of_le h1 ?_
  exact Nat.pow_le_pow_right (by norm_num) (by unfold hopFuel; omega)

/-! Hopscotch search loop characterization. -/

theorem testBit_true_lt (nb h d : Nat) (hnb : nb < 2 ^ h)
    (ht : nb.testBit d = true) : d < h := by
  by_contra hc
  push_neg at hc
  have h1 : nb < 2 ^ d :=
    Nat.lt_of_lt_of_le hnb (Nat.pow_le_pow_right (by norm_num) hc)
  rw [Nat.testBit_lt_two_pow h1] at ht
  exact absurd ht (by simp)

theorem Hopscotch.searchLoop_some [DecidableEq K] [Inhabited K] [Inhabited V]
    (m : Hopscotch K V) (key : K) :
    ∀ (fuel idx nb j : Nat), m.searchLoop key fuel idx nb = some j →
      ∃ d, j = idx + d ∧ nb.testBit d = true ∧ (m.nthHBucket j).key = key := by
  intro fuel
  induction fuel with
  | zero =>
    intro idx nb j h
    exact absurd h (by simp [Hopscotch.searchLoop])
  | succ n ih =>
    intro idx nb j h
    rw [Hopscotch.searchLoop] at h
    by_cases h0 : nb = 0
    · rw [if_pos h0] at h
      exact absurd h (by simp)
    · rw [if_neg h0] at h
      by_cases hc : nb &&& 1 = 1 ∧ (m.nthHBucket idx).key = key
      · rw [if_pos hc] at h
        have hj : j = idx := (Option.some.inj h).symm
        refine ⟨0, by omega, ?_, by rw [hj]; exact hc.2⟩
        rw [Nat.testBit_zero]
        rw [Nat.and_one_is_mod] at hc
        simp [hc.1]
      · rw [if_neg hc] at h
        obtain ⟨d, hd1, hd2, hd3⟩ := ih (idx + 1) (nb >>> 1) j h
        refine ⟨d + 1, by omega, ?_, hd3⟩
        rw [Nat.testBit_shiftRight] at hd2
        have h4 : 1 + d = d + 1 := by omega
        rw [h4] at hd2
        exact hd2

theorem Hopscotch.searchLoop_complete [DecidableEq K] [Inhabited K]
    [Inhabited V] (m : Hopscotch K V) (key : K) :
    ∀ (fuel idx nb : Nat), nb < 2 ^ fuel →
      ∀ d, nb.testBit d = true → (m.nthHBucket (idx + d)).key = key →
      ∃ j, m.searchLoop key fuel idx nb = some j := by
  intro fuel
  induction fuel with
  | zero =>
    intro idx nb hnb d ht _
    have h0 : nb = 0 := by omega
    rw [h0, Nat.zero_testBit] at ht
    exact absurd ht (by simp)
  | succ n ih =>
    intro idx nb hnb d ht hkey
    have h0 : ¬ nb = 0 := by
      intro h
      rw [h, Nat.zero_testBit] at ht
      exact absurd ht (by simp)
    rw [Hopscotch.searchLoop, if_neg h0]
    by_cases hc : nb &&& 1 = 1 ∧ (m.nthHBucket idx).key = key
    · rw [if_pos hc]
      exact ⟨idx, rfl⟩
    · rw [if_neg hc]
      match d with
      | 0 =>
        exfalso
        refine hc ⟨?_, ?_⟩
        · rw [Nat.and_one_is_mod]
          rw [Nat.testBit_zero] at ht
          simpa using ht
        · rw [Nat.add_zero] at hkey
          exact hkey
      | e + 1 =>
        have h1 : (nb >>> 1).testBit e = true := by
          rw [Nat.testBit_shiftRight]
          have h2 : 1 + e = e + 1 := by omega
          rw [h2]
          exact ht
        have h3 : nb >>> 1 < 2 ^ n := by
          rw [Nat.shiftRight_eq_div_pow, pow_one]
          have h4 : (2 : Nat) ^ (n + 1) = 2 * 2 ^ n := by ring
          rw [h4] at hnb
          omega
        have h5 : (m.nthHBucket (idx + 1 + e)).key = key := by
          have h6 : idx + 1 + e = idx + (e + 1) := by omega
          rw [h6]
          exact hkey
        exact ih (idx + 1) (nb >>> 1) h3 e h1 h5

theorem Hopscotch.hsearch_found [DecidableEq K] [Inhabited K] [Inhabited V]
    (m : Hopscotch K V) (hco : m.Core)
    (hnd : (m.liveEntries.map Prod.fst).Nodup) (k : K) (v : V)
    (hmem : (k, v) ∈ m.liveEntries) :
    ∃ s, m.search (m.home k) k = some s ∧ s < m.buckets.length ∧
      ¬ (m.nthHBucket s).isEmpty = true ∧
      (m.nthHBucket s).key = k ∧ (m.nthHBucket s).val = v ∧
      m.home k ≤ s ∧ s - m.home k < m.neighborhoodSize := by
  obtain ⟨s, hs, hocc, hkey, hval⟩ := (m.hmem_liveEntries k v).mp hmem
  have hhomelt : m.home k < m.buckets.length :=
    Nat.lt_of_lt_of_le (m.hhome_lt k) hco.cap_le
  obtain ⟨hle, hdist, hbit⟩ := hco.occ_sound s hs hocc
  rw [hkey] at hle hdist hbit
  have hrec : m.home k + (s - m.home k) = s := by omega
  obtain ⟨j, hj⟩ := m.searchLoop_complete k hopFuel (m.home k)
    (m.nthHBucket (m.home k)).getNeighborhood
    (hco.nb_lt_fuel (m.home k) hhomelt) (s - m.home k) hbit
    (by rw [hrec]; exact hkey)
  obtain ⟨d, hd1, hd2, hd3⟩ := m.searchLoop_some k hopFuel (m.home k)
    (m.nthHBucket (m.home k)).getNeighborhood j hj
  obtain ⟨hjlt, hjocc, _⟩ := hco.bit_sound (m.home k) d hhomelt hd2
  rw [← hd1] at hjlt hjocc
  have hjs : j = s := by
    refine Hopscotch.hnodup_slot m hnd j s hjlt hs hjocc hocc ?_
    rw [hd3, hkey]
  rw [hjs] at hj
  exact ⟨s, hj, hs, hocc, hkey, hval, hle, hdist⟩

theorem Hopscotch.hsearch_absent [DecidableEq K] [Inhabited K] [Inhabited V]
    (m : Hopscotch K V) (hco : m.Core) (k : K)
    (habs : ∀ v, ¬ (k, v) ∈ m.liveEntries) :
    m.search (m.home k) k = none := by
  cases hj : m.search (m.home k) k with
  | none => rfl
  | some j =>
    exfalso
    have hhomelt : m.home k < m.buckets.length :=
      Nat.lt_of_lt_of_le (m.hhome_lt k) hco.cap_le
    obtain ⟨d, hd1, hd2, hd3⟩ := m.searchLoop_some k hopFuel (m.home k)
      (m.nthHBucket (m.home k)).getNeighborhood j hj
    obtain ⟨hjlt, hjocc, _⟩ := hco.bit_sound (m.home k) d hhomelt hd2
    rw [← hd1] at hjlt hjocc
    refine habs (m.nthHBucket j).val ?_
    exact (m.hmem_liveEntries k _).mpr ⟨j, hjlt, hjocc, hd3, rfl⟩

theorem Hopscotch.hget_found [DecidableEq K] [Inhabited K] [Inhabited V]
    (m : Hopscotch K V) (hwf : m.WF) (k : K) (v : V)
    (hmem : (k, v) ∈ m.liveEntries) : m.Get k = some v := by
  obtain ⟨s, hj, _, _, _, hval, _, _⟩ :=
    m.hsearch_found hwf.hcore hwf.keys_nodup k v hmem
  unfold Hopscotch.Get
  rw [m.hhome_eq_mask hwf.hcore.pow2 k, hj]
  show some (m.nthHBucket s).val = some v
  rw [hval]

theorem Hopscotch.hget_absent [DecidableEq K] [Inhabited K] [Inhabited V]
    (m : Hopscotch K V) (hwf : m.WF) (k : K)
    (habs : ∀ v, ¬ (k, v) ∈ m.liveEntries) : m.Get k = none := by
  have hj := m.hsearch_absent hwf.hcore k habs
  unfold Hopscotch.Get
  rw [m.hhome_eq_mask hwf.hcore.pow2 k, hj]

/-! Updating the value of a stored hopscotch key in place. -/

theorem Hopscotch.hupdate_core [DecidableEq K] [Inhabited K] [Inhabited V]
    (m : Hopscotch K V) (hco : m.Core)
    (hnd : (m.liveEntries.map Prod.fst).Nodup) (j : Nat)
    (hjlt : j < m.buckets.length)
    (hjocc : ¬ (m.nthHBucket j).isEmpty = true) (v : V) :
    ({ m with buckets := m.buckets.set j ⟨(m.nthHBucket j).hopInfo, (m.nthHBucket j).key, v⟩ } : Hopscotch K V).Core ∧
      (({ m with buckets := m.buckets.set j ⟨(m.nthHBucket j).hopInfo, (m.nthHBucket j).key, v⟩ } : Hopscotch K V).liveEntries ++
        [((m.nthHBucket j).key, (m.nthHBucket j).val)]).Perm
        (m.liveEntries ++ [((m.nthHBucket j).key, v)]) ∧
      (({ m with buckets := m.buckets.set j ⟨(m.nthHBucket j).hopInfo, (m.nthHBucket j).key, v⟩ } : Hopscotch K V).liveEntries.map Prod.fst).Nodup := by
  set m2 : Hopscotch K V := { m with buckets := m.buckets.set j ⟨(m.nthHBucket j).hopInfo, (m.nthHBucket j).key, v⟩ } with hm2
  have hlen : m2.buckets.length = m.buckets.length := by
    rw [hm2]
    exact List.length_set ..
  have hnth_ne : ∀ u, ¬ u = j → m2.nthHBucket u = m.nthHBucket u := by
    intro u hu
    show (m.buckets.set j _).getD u ⟨0, default, default⟩ = _
    rw [getD_set_ne _ _ _ _ _ (fun h => hu h.symm)]
    rfl
  have hnth_j : m2.nthHBucket j =
      ⟨(m.nthHBucket j).hopInfo, (m.nthHBucket j).key, v⟩ := by
    show (m.buckets.set j _).getD j ⟨0, default, default⟩ = _
    exact getD_set_self _ _ _ _ hjlt
  have hhops : ∀ u, (m2.nthHBucket u).hopInfo = (m.nthHBucket u).hopInfo := by
    intro u
    by_cases huj : u = j
    · rw [huj, hnth_j]
    · rw [hnth_ne u huj]
  have hkeys : ∀ u, (m2.nthHBucket u).key = (m.nthHBucket u).key := by
    intro u
    by_cases huj : u = j
    · rw [huj, hnth_j]
    · rw [hnth_ne u huj]
  have hnbs : ∀ u, (m2.nthHBucket u).getNeighborhood =
      (m.nthHBucket u).getNeighborhood := by
    intro u
    unfold HBucket.getNeighborhood
    rw [hhops]
  have hemp : ∀ u, (m2.nthHBucket u).isEmpty = (m.nthHBucket u).isEmpty := by
    intro u
    unfold HBucket.isEmpty
    rw [hhops]
  have hhome : ∀ k2, m2.home k2 = m.home k2 := fun _ => rfl
  have hperm : (m2.liveEntries ++ [((m.nthHBucket j).key, (m.nthHBucket j).val)]).Perm
      (m.liveEntries ++ [((m.nthHBucket j).key, v)]) := by
    have hstep := filterMap_set_perm
      (fun b : HBucket K V => if b.isEmpty then none else some (b.key, b.val))
      m.buckets j ⟨(m.nthHBucket j).hopInfo, (m.nthHBucket j).key, v⟩ hjlt
    rw [← m.hnth_eq_get j hjlt] at hstep
    have hocc2 : (⟨(m.nthHBucket j).hopInfo, (m.nthHBucket j).key, v⟩ :
        HBucket K V).isEmpty = (m.nthHBucket j).isEmpty := rfl
    simp only [hocc2] at hstep
    rw [if_neg hjocc, if_neg hjocc] at hstep
    have hgoal : m2.liveEntries =
        (m.buckets.set j ⟨(m.nthHBucket j).hopInfo, (m.nthHBucket j).key, v⟩).filterMap
          (fun b => if b.isEmpty then none else some (b.key, b.val)) := rfl
    rw [hgoal]
    unfold Hopscotch.liveEntries
    simpa using hstep
  have hnodup2 : (m2.liveEntries.map Prod.fst).Nodup := by
    have hmap := hperm.map Prod.fst
    simp only [List.map_append, List.map_cons, List.map_nil] at hmap
    have h1 : ((m.nthHBucket j).key :: (m2.liveEntries.map Prod.fst)).Perm
        ((m.nthHBucket j).key :: (m.liveEntries.map Prod.fst)) :=
      ((List.perm_append_singleton _ _).symm.trans hmap).trans
        (List.perm_append_singleton _ _)
    exact (List.Perm.nodup_iff h1.cons_inv).mpr hnd
  refine ⟨⟨hco.pow2, by rw [hlen]; exact hco.cap_le, hco.hsize, ?_, ?_, ?_⟩,
    hperm, hnodup2⟩
  · intro i hi
    rw [hlen] at hi
    rw [hnbs]
    exact hco.bits_lt i hi
  · intro h d hh hbit
    rw [hlen] at hh
    rw [hnbs] at hbit
    obtain ⟨h1, h2, h3⟩ := hco.bit_sound h d hh hbit
    refine ⟨by rw [hlen]; exact h1, by rw [hemp]; exact h2, ?_⟩
    rw [hkeys, hhome]
    exact h3
  · intro s hs hocc
    rw [hlen] at hs
    rw [hemp] at hocc
    obtain ⟨h1, h2, h3⟩ := hco.occ_sound s hs hocc
    rw [hkeys, hhome]
    refine ⟨h1, h2, ?_⟩
    rw [hnbs]
    exact h3

/-! Hopscotch Remove specification. -/

theorem Hopscotch.hremove_spec [DecidableEq K] [Inhabited K] [Inhabited V]
    (m : Hopscotch K V) (hwf : m.WF) (k : K) :
    ∃ m2 b, m.Remove k = (m2, b) ∧ m2.WF ∧
      m2.hasher = m.hasher ∧ m2.maxLoad = m.maxLoad ∧
      m2.nextResize = m.nextResize ∧ m2.capMinus1 = m.capMinus1 ∧
      m2.neighborhoodSize = m.neighborhoodSize ∧
      m2.buckets.length = m.buckets.length ∧
      (b = true → ∃ v0, (k, v0) ∈ m.liveEntries ∧
        (m2.liveEntries ++ [(k, v0)]).Perm m.liveEntries ∧
        m2.length + 1 = m.length) ∧
      (b = false → m2 = m ∧ ∀ v2, ¬ (k, v2) ∈ m.liveEntries) := by
  have hmask := m.hhome_eq_mask hwf.hcore.pow2 k
  by_cases hex : ∃ v, (k, v) ∈ m.liveEntries
  · obtain ⟨v0, hv0⟩ := hex
    obtain ⟨s, hj, hs, hocc, hkey, hval, hle, hdist⟩ :=
      m.hsearch_found hwf.hcore hwf.keys_nodup k v0 hv0
    have hrw : m.search (m.hasher k &&& m.capMinus1) k = some s := by
      rw [hmask]
      exact hj
    have hhomelt : m.home k < m.buckets.length :=
      Nat.lt_of_lt_of_le (m.hhome_lt k) hwf.hcore.cap_le
    have hH64 : m.neighborhoodSize ≤ 63 := hwf.hcore.hsize_le
    have hd64 : s - m.home k + 1 < 64 := by omega
    set d := s - m.home k with hd
    set hb0 : HBucket K V := (m.nthHBucket (m.home k)).set d false with hhb0
    set m1 : Hopscotch K V := { m with buckets := m.buckets.set (m.home k) hb0 } with hm1
    have hbl1 : m1.buckets.length = m.buckets.length := by
      rw [hm1]
      exact List.length_set ..
    have hn1_ne : ∀ u, ¬ u = m.home k → m1.nthHBucket u = m.nthHBucket u := by
      intro u hu
      show (m.buckets.set _ hb0).getD u ⟨0, default, default⟩ = _
      rw [getD_set_ne _ _ _ _ _ (fun h => hu h.symm)]
      rfl
    have hn1_h : m1.nthHBucket (m.home k) = hb0 := by
      show (m.buckets.set _ hb0).getD _ ⟨0, default, default⟩ = hb0
      exact getD_set_self _ _ _ _ hhomelt
    have hhop_home := hwf.hcore.hop_lt (m.home k)
    have hn1_hops : ∀ u, ¬ u = m.home k →
        (m1.nthHBucket u).hopInfo = (m.nthHBucket u).hopInfo := by
      intro u hu
      rw [hn1_ne u hu]
    have hn1_nb_h : ∀ e, (m1.nthHBucket (m.home k)).getNeighborhood.testBit e =
        ((m.nthHBucket (m.home k)).getNeighborhood.testBit e &&
          !decide (d = e)) := by
      intro e
      rw [hn1_h, hhb0, HBucket.nb_set_false _ hhop_home d hd64,
        Nat.testBit_and, testBit_flip_two_pow d (by omega) e]
      by_cases he : e < 64
      · simp [he]
      · have h4 : (m.nthHBucket (m.home k)).getNeighborhood.testBit e = false := by
          refine Nat.testBit_lt_two_pow
            (Nat.lt_of_lt_of_le (hwf.hcore.bits_lt _ hhomelt) ?_)
          exact Nat.pow_le_pow_right (by norm_num) (by omega)
        simp [he, h4]
    have hn1_bit0 : ∀ u, (m1.nthHBucket u).hopInfo.testBit 0 =
        (m.nthHBucket u).hopInfo.testBit 0 := by
      intro u
      by_cases hu : u = m.home k
      · rw [hu, hn1_h, hhb0]
        exact HBucket.bit0_set_false _ d hd64
      · rw [hn1_ne u hu]
    have hn1_key : ∀ u, (m1.nthHBucket u).key = (m.nthHBucket u).key := by
      intro u
      by_cases hu : u = m.home k
      · rw [hu, hn1_h, hhb0]
        exact HBucket.set_key _ d false
      · rw [hn1_ne u hu]
    have hn1_val : ∀ u, (m1.nthHBucket u).val = (m.nthHBucket u).val := by
      intro u
      by_cases hu : u = m.home k
      · rw [hu, hn1_h, hhb0]
        exact HBucket.set_val _ d false
      · rw [hn1_ne u hu]
    have hn1_emp : ∀ u, (m1.nthHBucket u).isEmpty = (m.nthHBucket u).isEmpty := by
      intro u
      by_cases h1 : (m.nthHBucket u).isEmpty = true
      · rw [h1]
        rw [HBucket.isEmpty_iff] at h1 ⊢
        rw [hn1_bit0]
        exact h1
      · have h2 : (m.nthHBucket u).isEmpty = false := by
          cases h3 : (m.nthHBucket u).isEmpty
          · rfl
          · exact absurd h3 h1
        rw [h2]
        have h4 : ¬ (m1.nthHBucket u).isEmpty = true := by
          rw [HBucket.isEmpty_iff, hn1_bit0]
          rw [HBucket.isEmpty_iff] at h1
          intro h5
          cases h6 : (m.nthHBucket u).hopInfo.testBit 0
          · exact h1 h6
          · rw [h6] at h5
            exact absurd h5 (by simp)
        cases h7 : (m1.nthHBucket u).isEmpty
        · rfl
        · exact absurd h7 h4
    have hlives1 : m1.liveEntries.Perm m.liveEntries := by
      have hstep := filterMap_set_perm
        (fun b : HBucket K V => if b.isEmpty then none else some (b.key, b.val))
        m.buckets (m.home k) hb0 hhomelt
      rw [← m.hnth_eq_get _ hhomelt] at hstep
      have hfeq : (if hb0.isEmpty then none else some (hb0.key, hb0.val)) =
          (if (m.nthHBucket (m.home k)).isEmpty then none
           else some ((m.nthHBucket (m.home k)).key,
             (m.nthHBucket (m.home k)).val)) := by
        have he1 : hb0.isEmpty = (m.nthHBucket (m.home k)).isEmpty := by
          have := hn1_emp (m.home k)
          rw [hn1_h] at this
          exact this
        have he2 : hb0.key = (m.nthHBucket (m.home k)).key :=
          HBucket.set_key _ d false
        have he3 : hb0.val = (m.nthHBucket (m.home k)).val :=
          HBucket.set_val _ d false
        rw [he1, he2, he3]
      rw [hfeq] at hstep
      have hgoal : m1.liveEntries = (m.buckets.set (m.home k) hb0).filterMap
          (fun b => if b.isEmpty then none else some (b.key, b.val)) := rfl

      rw [hgoal]
      unfold Hopscotch.liveEntries
      exact (List.perm_append_right_iff _).mp hstep
    have hnd1 : (m1.liveEntries.map Prod.fst).Nodup :=
      ((hlives1.map Prod.fst).nodup_iff).mpr hwf.keys_nodup
    have hhop1 : ∀ u, (m1.nthHBucket u).hopInfo < 2 ^ 64 := by
      intro u
      by_cases hu : u = m.home k
      · rw [hu, hn1_h, hhb0]
        exact HBucket.hop_lt_set_false _ hhop_home d
      · rw [hn1_ne u hu]
        exact hwf.hcore.hop_lt u
    have hs1 : s < m1.buckets.length := by
      rw [hbl1]
      exact hs
    set m2 : Hopscotch K V := { m1 with buckets := m1.buckets.set s (m1.nthHBucket s).release } with hm2
    have hbl2 : m2.buckets.length = m.buckets.length := by
      rw [hm2]
      show (m1.buckets.set _ _).length = _
      rw [List.length_set]
      exact hbl1
    have hn2_ne : ∀ u, ¬ u = s → m2.nthHBucket u = m1.nthHBucket u := by
      intro u hu
      show (m1.buckets.set s _).getD u ⟨0, default, default⟩ = _
      rw [getD_set_ne _ _ _ _ _ (fun h => hu h.symm)]
      rfl
    have hn2_s : m2.nthHBucket s = (m1.nthHBucket s).release := by
      show (m1.buckets.set s _).getD s ⟨0, default, default⟩ = _
      exact getD_set_self _ _ _ _ hs1
    have hn2_nball : ∀ u, (m2.nthHBucket u).getNeighborhood =
        (m1.nthHBucket u).getNeighborhood := by
      intro u
      by_cases hu : u = s
      · rw [hu, hn2_s]
        exact HBucket.nb_release _ (hhop1 s)
      · rw [hn2_ne u hu]
    have hn2_key : ∀ u, (m2.nthHBucket u).key = (m1.nthHBucket u).key := by
      intro u
      by_cases hu : u = s
      · rw [hu, hn2_s]
        rfl
      · rw [hn2_ne u hu]
    have hn2_emp_s : (m2.nthHBucket s).isEmpty = true := by
      rw [HBucket.isEmpty_iff, hn2_s]
      exact HBucket.bit0_release _
    have hn2_emp_ne : ∀ u, ¬ u = s →
        (m2.nthHBucket u).isEmpty = (m1.nthHBucket u).isEmpty := by
      intro u hu
      rw [hn2_ne u hu]
    have hocc1 : ¬ (m1.nthHBucket s).isEmpty = true := by
      rw [hn1_emp]
      exact hocc
    have hkey1 : (m1.nthHBucket s).key = k := by
      rw [hn1_key]
      exact hkey
    have hval1 : (m1.nthHBucket s).val = v0 := by
      rw [hn1_val]
      exact hval
    have hperm2 : (m2.liveEntries ++ [(k, v0)]).Perm m.liveEntries := by
      have hstep := filterMap_set_perm
        (fun b : HBucket K V => if b.isEmpty then none else some (b.key, b.val))
        m1.buckets s (m1.nthHBucket s).release hs1
      rw [← m1.hnth_eq_get s hs1] at hstep
      have hrel_empty : ((m1.nthHBucket s).release).isEmpty = true := by
        rw [HBucket.isEmpty_iff]
        exact HBucket.bit0_release _
      rw [if_neg hocc1, if_pos hrel_empty, hkey1, hval1] at hstep
      have hgoal : m2.liveEntries =
          (m1.buckets.set s (m1.nthHBucket s).release).filterMap
            (fun b => if b.isEmpty then none else some (b.key, b.val)) := rfl
      rw [hgoal]
      refine List.Perm.trans ?_ hlives1
      show ((m1.buckets.set s (m1.nthHBucket s).release).filterMap _ ++ [(k, v0)]).Perm m1.liveEntries
      unfold Hopscotch.liveEntries
      simpa using hstep
    have hnd2 : (m2.liveEntries.map Prod.fst).Nodup := by
      have hmap := hperm2.map Prod.fst
      simp only [List.map_append, List.map_cons, List.map_nil] at hmap
      have h1 : (k :: (m2.liveEntries.map Prod.fst)).Perm
          (m.liveEntries.map Prod.fst) :=
        (List.perm_append_singleton _ _).symm.trans hmap
      exact ((h1.nodup_iff).mpr hwf.keys_nodup).of_cons
    have hcore2 : m2.Core := by
      refine ⟨hwf.hcore.pow2, by rw [hbl2]; exact hwf.hcore.cap_le,
        hwf.hcore.hsize, ?_, ?_, ?_⟩
      · intro i hi
        rw [hbl2] at hi
        rw [hn2_nball i]
        by_cases hih : i = m.home k
        · rw [hih, hn1_h, hhb0, HBucket.nb_set_false _ hhop_home d hd64]
          exact Nat.lt_of_le_of_lt Nat.and_le_left
            (hwf.hcore.bits_lt _ hhomelt)
        · rw [hn1_ne i hih]
          exact hwf.hcore.bits_lt i hi
      · intro h e hh hbit
        rw [hbl2] at hh
        rw [hn2_nball h] at hbit
        by_cases hhh : h = m.home k
        · rw [hhh] at hbit ⊢
          rw [hn1_nb_h e] at hbit
          have hb3 : (m.nthHBucket (m.home k)).getNeighborhood.testBit e = true ∧
              ¬ d = e := by
            constructor
            · cases h4 : (m.nthHBucket (m.home k)).getNeighborhood.testBit e
              · rw [h4] at hbit
                exact absurd hbit (by simp)
              · rfl
            · intro h5
              rw [h5] at hbit
              simp at hbit
          obtain ⟨h6, h7, h8⟩ :=
            hwf.hcore.bit_sound (m.home k) e hhomelt hb3.1
          have hne_s : ¬ m.home k + e = s := by
            intro h9
            refine hb3.2 ?_
            omega
          refine ⟨by rw [hbl2]; exact h6, ?_, ?_⟩
          · rw [hn2_emp_ne _ hne_s, hn1_emp]
            exact h7
          · rw [hn2_key, hn1_key]
            exact h8
        · rw [hn1_ne h hhh] at hbit
          obtain ⟨h6, h7, h8⟩ := hwf.hcore.bit_sound h e hh hbit
          have hne_s : ¬ h + e = s := by
            intro h9
            refine hhh ?_
            rw [← h8, h9, hkey]
          refine ⟨by rw [hbl2]; exact h6, ?_, ?_⟩
          · rw [hn2_emp_ne _ hne_s, hn1_emp]
            exact h7
          · rw [hn2_key, hn1_key]
            exact h8
      · intro t ht hocc2
        rw [hbl2] at ht
        have hts : ¬ t = s := by
          intro h9
          rw [h9] at hocc2
          exact hocc2 hn2_emp_s
        have hocc_m : ¬ (m.nthHBucket t).isEmpty = true := by
          rw [hn2_emp_ne t hts, hn1_emp] at hocc2
          exact hocc2
        obtain ⟨h1, h2, h3⟩ := hwf.hcore.occ_sound t ht hocc_m
        rw [hn2_key, hn1_key]
        refine ⟨h1, h2, ?_⟩
        rw [hn2_nball]
        have hhome2 : m2.home (m.nthHBucket t).key
            = m.home (m.nthHBucket t).key := rfl
        rw [hhome2]
        by_cases hth : m.home (m.nthHBucket t).key = m.home k
        · rw [hth] at h1 h3 ⊢
          rw [hn1_nb_h (t - m.home k)]
          have hde : ¬ d = t - m.home k := by
            intro h9
            refine hts ?_
            omega
          simp [hde, h3]
        · rw [hn1_ne _ hth]
          exact h3
    have hlen_pos : 1 ≤ m.length := by
      have h14 : 0 < m.liveEntries.length := List.length_pos.mpr
        (fun h => by rw [h] at hv0; exact absurd hv0 (List.not_mem_nil _))
      have h15 := hwf.count
      omega
    have hcnt2 : m2.liveEntries.length + 1 = m.length := by
      have h16 := hperm2.length_eq
      simp only [List.length_append, List.length_cons, List.length_nil] at h16
      have h15 := hwf.count
      omega
    refine ⟨{ m2 with length := m2.length - 1 }, true, ?_, ?_, rfl, rfl, rfl,
      rfl, rfl, hbl2, ?_, by intro h; simp at h⟩
    · unfold Hopscotch.Remove
      rw [hrw, hmask]
    · refine ⟨⟨hcore2.pow2, hcore2.cap_le, hcore2.hsize, hcore2.bits_lt,
        hcore2.bit_sound, hcore2.occ_sound⟩, ?_, hnd2⟩
      show m2.liveEntries.length = m2.length - 1
      have hl2 : m2.length = m.length := rfl
      omega
    · intro _
      refine ⟨v0, hv0, hperm2, ?_⟩
      show m2.length - 1 + 1 = m.length
      have hl2 : m2.length = m.length := rfl
      omega
  · push_neg at hex
    have hj := m.hsearch_absent hwf.hcore k hex
    have hrw : m.search (m.hasher k &&& m.capMinus1) k = none := by
      rw [hmask]
      exact hj
    refine ⟨m, false, ?_, hwf, rfl, rfl, rfl, rfl, rfl, rfl,
      by intro h; simp at h, fun _ => ⟨rfl, hex⟩⟩
    unfold Hopscotch.Remove
    rw [hrw]

/-! Hopscotch emplace toolkit. -/

theorem HBucket.isEmpty_eq_bit0 (b : HBucket K V) :
    b.isEmpty = !b.hopInfo.testBit 0 := by
  show (b.hopInfo &&& 1 == 0) = _
  rw [Nat.and_one_is_mod, Nat.testBit_zero]
  rcases Nat.mod_two_eq_zero_or_one b.hopInfo with h | h <;> rw [h] <;> rfl

theorem Hopscotch.hcore_transport [DecidableEq K] [Inhabited K] [Inhabited V]
    (a b : Hopscotch K V) (hb : a.buckets = b.buckets)
    (hc : a.capMinus1 = b.capMinus1)
    (hs : a.neighborhoodSize = b.neighborhoodSize)
    (hh : a.hasher = b.hasher) (hco : a.Core) : b.Core := by
  have hn : ∀ i, b.nthHBucket i = a.nthHBucket i := by
    intro i
    unfold Hopscotch.nthHBucket
    rw [hb]
  have hhome : ∀ x, b.home x = a.home x := by
    intro x
    unfold Hopscotch.home
    rw [hc, hh]
  have hlen : b.buckets.length = a.buckets.length := by rw [hb]
  refine ⟨by rw [← hc]; exact hco.pow2,
    by rw [← hc, hlen]; exact hco.cap_le,
    by rw [← hs]; exact hco.hsize, ?_, ?_, ?_⟩
  · intro i hi
    rw [hlen] at hi
    rw [hn, ← hs]
    exact hco.bits_lt i hi
  · intro h d hhlt hbit
    rw [hlen] at hhlt
    rw [hn] at hbit
    obtain ⟨h1, h2, h3⟩ := hco.bit_sound h d hhlt hbit
    refine ⟨by rw [hlen]; exact h1, by rw [hn]; exact h2, ?_⟩
    rw [hn, hhome]
    exact h3
  · intro s hslt hocc
    rw [hlen] at hslt
    rw [hn] at hocc
    obtain ⟨h1, h2, h3⟩ := hco.occ_sound s hslt hocc
    rw [hn, hhome]
    refine ⟨h1, by rw [← hs]; exact h2, ?_⟩
    rw [hn]
    exact h3

theorem Hopscotch.hlive_transport [DecidableEq K] [Inhabited K] [Inhabited V]
    (a b : Hopscotch K V) (hb : a.buckets = b.buckets) :
    a.liveEntries = b.liveEntries := by
  unfold Hopscotch.liveEntries
  rw [hb]

theorem Hopscotch.hhome_congr [Inhabited K] [Inhabited V]
    (a b : Hopscotch K V) (hh : a.hasher = b.hasher)
    (hc : a.capMinus1 = b.capMinus1) (x : K) : a.home x = b.home x := by
  unfold Hopscotch.home
  rw [hc, hh]

theorem hopFresh_getD [Inhabited K] [Inhabited V] (n i : Nat) :
    (hopFreshBuckets n : List (HBucket K V)).getD i ⟨0, default, default⟩ =
      ⟨0, default, default⟩ := by
  unfold hopFreshBuckets
  by_cases hi : i < n
  · rw [getD_eq_getElem_of_lt _ _ _ (by simpa using hi)]
    exact List.getElem_replicate ..
  · rw [List.getD_eq_getElem?_getD, List.getElem?_eq_none (by simpa using hi)]
    rfl

theorem Hopscotch.hprobe_spec [DecidableEq K] [Inhabited K] [Inhabited V]
    (m : Hopscotch K V) :
    ∀ (fuel idx e : Nat), m.probeEmpty fuel idx = some e →
      idx ≤ e ∧ e < m.buckets.length ∧ (m.nthHBucket e).isEmpty = true := by
  intro fuel
  induction fuel with
  | zero =>
    intro idx e h
    exact absurd h (by simp [Hopscotch.probeEmpty])
  | succ n ih =>
    intro idx e h
    unfold Hopscotch.probeEmpty at h
    split at h
    · exact absurd h (by simp)
    · split at h
      · rename_i hlt hemp
        have he : e = idx := (Option.some.inj h).symm
        refine ⟨by omega, by omega, by rw [he]; exact hemp⟩
      · obtain ⟨h1, h2, h3⟩ := ih (idx + 1) e h
        exact ⟨by omega, h2, h3⟩

theorem mcScan_spec (e : Nat) :
    ∀ (fuel cIdx nb c : Nat), mcScan e fuel cIdx nb = some c →
      cIdx ≤ c ∧ c < e ∧ nb.testBit (c - cIdx) = true := by
  intro fuel
  induction fuel with
  | zero =>
    intro cIdx nb c h
    exact absurd h (by simp [mcScan])
  | succ n ih =>
    intro cIdx nb c h
    unfold mcScan at h
    split at h
    · exact absurd h (by simp)
    · rename_i hguard
      push_neg at hguard
      split at h
      · rename_i hbit
        have hc : c = cIdx := (Option.some.inj h).symm
        refine ⟨by omega, by omega, ?_⟩
        rw [hc, Nat.sub_self, Nat.testBit_zero]
        rw [Nat.and_one_is_mod] at hbit
        simp [hbit]
      · obtain ⟨h1, h2, h3⟩ := ih (cIdx + 1) (nb >>> 1) c h
        refine ⟨by omega, h2, ?_⟩
        rw [Nat.testBit_shiftRight] at h3
        have h4 : 1 + (c - (cIdx + 1)) = c - cIdx := by omega
        rw [h4] at h3
        exact h3

/-- hmcMove_spec: one moveCloser swap keeps the structural invariant and
the live entries, empties the candidate slot and preserves the backing
length. -/
theorem Hopscotch.hmcMove_spec [DecidableEq K] [Inhabited K] [Inhabited V]
    (m : Hopscotch K V) (hco : m.Core) (e hh c : Nat)
    (he : e < m.buckets.length) (hemp : (m.nthHBucket e).isEmpty = true)
    (hhc : hh ≤ c) (hce : c < e)
    (hbit : ((m.nthHBucket hh).getNeighborhood).testBit (c - hh) = true)
    (hdist : e - hh < m.neighborhoodSize) :
    (m.mcMove e hh c).Core ∧
    (m.mcMove e hh c).liveEntries.Perm m.liveEntries ∧
    ((m.mcMove e hh c).nthHBucket c).isEmpty = true ∧
    (m.mcMove e hh c).buckets.length = m.buckets.length := by
  have hhlt : hh < m.buckets.length := by omega
  have hc_lt : c < m.buckets.length := by omega
  have hsum : hh + (c - hh) = c := by omega
  obtain ⟨hb1, hcocc, hchome⟩ := hco.bit_sound hh (c - hh) hhlt hbit
  rw [hsum] at hb1 hcocc hchome
  have hH63 : m.neighborhoodSize ≤ 63 := hco.hsize_le
  have hch : c - hh < m.neighborhoodSize :=
    testBit_true_lt _ _ _ (hco.bits_lt hh hhlt) hbit
  have hc64 : c - hh + 1 < 64 := by omega
  have hd64 : e - hh + 1 < 64 := by omega
  have hce' : ¬ e = c := by omega
  have hhe : ¬ hh = e := by omega
  set bC : HBucket K V := (m.nthHBucket c).release with hbC
  set m1 : Hopscotch K V := { m with buckets := m.buckets.set c bC } with hm1
  have hbl1 : m1.buckets.length = m.buckets.length := by
    rw [hm1]
    exact List.length_set ..
  have hn1_ne : ∀ u, ¬ u = c → m1.nthHBucket u = m.nthHBucket u := by
    intro u hu
    show (m.buckets.set c bC).getD u ⟨0, default, default⟩ = _
    rw [getD_set_ne _ _ _ _ _ (fun h => hu h.symm)]
    rfl
  have hn1_c : m1.nthHBucket c = bC := by
    show (m.buckets.set c bC).getD c ⟨0, default, default⟩ = bC
    exact getD_set_self _ _ _ _ hc_lt
  have hn1_hop : ∀ u, (m1.nthHBucket u).hopInfo < 2 ^ 64 := by
    intro u
    by_cases hu : u = c
    · rw [hu, hn1_c, hbC]
      exact HBucket.hop_lt_release _ (hco.hop_lt c)
    · rw [hn1_ne u hu]
      exact hco.hop_lt u
  have hn1_nb : ∀ u, (m1.nthHBucket u).getNeighborhood =
      (m.nthHBucket u).getNeighborhood := by
    intro u
    by_cases hu : u = c
    · rw [hu, hn1_c, hbC]
      exact HBucket.nb_release _ (hco.hop_lt c)
    · rw [hn1_ne u hu]
  have hn1_key : ∀ u, (m1.nthHBucket u).key = (m.nthHBucket u).key := by
    intro u
    by_cases hu : u = c
    · rw [hu, hn1_c, hbC]
      rfl
    · rw [hn1_ne u hu]
  have hn1_val : ∀ u, (m1.nthHBucket u).val = (m.nthHBucket u).val := by
    intro u
    by_cases hu : u = c
    · rw [hu, hn1_c, hbC]
      rfl
    · rw [hn1_ne u hu]
  have hn1_emp_ne : ∀ u, ¬ u = c →
      (m1.nthHBucket u).isEmpty = (m.nthHBucket u).isEmpty := by
    intro u hu
    rw [hn1_ne u hu]
  have hn1_emp_c : (m1.nthHBucket c).isEmpty = true := by
    rw [hn1_c, hbC, HBucket.isEmpty_eq_bit0, HBucket.bit0_release]
    rfl
  have he1 : e < m1.buckets.length := by
    rw [hbl1]
    exact he
  set bE : HBucket K V := ⟨(m1.nthHBucket e).hopInfo ||| 1,
    (m1.nthHBucket c).key, (m1.nthHBucket c).val⟩ with hbE
  set m2 : Hopscotch K V := { m1 with buckets := m1.buckets.set e bE } with hm2
  have hbl2 : m2.buckets.length = m.buckets.length := by
    rw [hm2]
    show (m1.buckets.set e bE).length = _
    rw [List.length_set]
    exact hbl1
  have hn2_ne : ∀ u, ¬ u = e → m2.nthHBucket u = m1.nthHBucket u := by
    intro u hu
    show (m1.buckets.set e bE).getD u ⟨0, default, default⟩ = _
    rw [getD_set_ne _ _ _ _ _ (fun h => hu h.symm)]
    rfl
  have hn2_e : m2.nthHBucket e = bE := by
    show (m1.buckets.set e bE).getD e ⟨0, default, default⟩ = bE
    exact getD_set_self _ _ _ _ he1
  have hbE_key : bE.key = (m.nthHBucket c).key := hn1_key c
  have hbE_val : bE.val = (m.nthHBucket c).val := hn1_val c
  have hbE_nb : bE.getNeighborhood = (m.nthHBucket e).getNeighborhood := by
    have h1 : bE.getNeighborhood = (m1.nthHBucket e).occupy.getNeighborhood :=
      rfl
    rw [h1, HBucket.nb_occupy, hn1_nb e]
  have hbE_emp : ¬ bE.isEmpty = true := by
    rw [HBucket.isEmpty_eq_bit0]
    have h1 : bE.hopInfo.testBit 0 =
        (m1.nthHBucket e).occupy.hopInfo.testBit 0 := rfl
    rw [h1, HBucket.bit0_occupy]
    simp
  have hn2_hop : ∀ u, (m2.nthHBucket u).hopInfo < 2 ^ 64 := by
    intro u
    by_cases hu : u = e
    · rw [hu, hn2_e]
      show (m1.nthHBucket e).occupy.hopInfo < 2 ^ 64
      exact HBucket.hop_lt_occupy _ (hn1_hop e)
    · rw [hn2_ne u hu]
      exact hn1_hop u
  have hn2_nb : ∀ u, (m2.nthHBucket u).getNeighborhood =
      (m.nthHBucket u).getNeighborhood := by
    intro u
    by_cases hu : u = e
    · rw [hu, hn2_e, hbE_nb]
    · rw [hn2_ne u hu, hn1_nb]
  have hn2_key : ∀ u, ¬ u = e →
      (m2.nthHBucket u).key = (m.nthHBucket u).key := by
    intro u hu
    rw [hn2_ne u hu, hn1_key]
  have hn2_key_e : (m2.nthHBucket e).key = (m.nthHBucket c).key := by
    rw [hn2_e, hbE_key]
  have hn2_val_e : (m2.nthHBucket e).val = (m.nthHBucket c).val := by
    rw [hn2_e, hbE_val]
  have hn2_emp : ∀ u, ¬ u = e → ¬ u = c →
      (m2.nthHBucket u).isEmpty = (m.nthHBucket u).isEmpty := by
    intro u hu hu2
    rw [hn2_ne u hu, hn1_emp_ne u hu2]
  have hn2_emp_e : ¬ (m2.nthHBucket e).isEmpty = true := by
    rw [hn2_e]
    exact hbE_emp
  have hn2_emp_c : (m2.nthHBucket c).isEmpty = true := by
    rw [hn2_ne c (by omega), hn1_emp_c]
  have hh2 : hh < m2.buckets.length := by
    rw [hbl2]
    exact hhlt
  set b3 : HBucket K V := (m2.nthHBucket hh).set (c - hh) false with hb3
  set m3 : Hopscotch K V := { m2 with buckets := m2.buckets.set hh b3 } with hm3
  have hbl3 : m3.buckets.length = m.buckets.length := by
    rw [hm3]
    show (m2.buckets.set hh b3).length = _
    rw [List.length_set]
    exact hbl2
  have hn3_ne : ∀ u, ¬ u = hh → m3.nthHBucket u = m2.nthHBucket u := by
    intro u hu
    show (m2.buckets.set hh b3).getD u ⟨0, default, default⟩ = _
    rw [getD_set_ne _ _ _ _ _ (fun h => hu h.symm)]
    rfl
  have hn3_hh : m3.nthHBucket hh = b3 := by
    show (m2.buckets.set hh b3).getD hh ⟨0, default, default⟩ = b3
    exact getD_set_self _ _ _ _ hh2
  have hb3_nb : b3.getNeighborhood =
      (m.nthHBucket hh).getNeighborhood &&& flip (2 ^ (c - hh)) := by
    rw [hb3, HBucket.nb_set_false _ (hn2_hop hh) _ hc64, hn2_nb hh]
  have hb3_key : b3.key = (m.nthHBucket hh).key := by
    rw [hb3, HBucket.set_key, hn2_key hh hhe]
  have hb3_val : b3.val = (m2.nthHBucket hh).val := by
    rw [hb3, HBucket.set_val]
  have hb3_bit0 : b3.hopInfo.testBit 0 =
      (m2.nthHBucket hh).hopInfo.testBit 0 := by
    rw [hb3]
    exact HBucket.bit0_set_false _ _ hc64
  have hb3_hop : b3.hopInfo < 2 ^ 64 := by
    rw [hb3]
    exact HBucket.hop_lt_set_false _ (hn2_hop hh) _
  have hn3_hop : ∀ u, (m3.nthHBucket u).hopInfo < 2 ^ 64 := by
    intro u
    by_cases hu : u = hh
    · rw [hu, hn3_hh]
      exact hb3_hop
    · rw [hn3_ne u hu]
      exact hn2_hop u
  have hn3_emp_c : (m3.nthHBucket c).isEmpty = true := by
    by_cases hch2 : c = hh
    · rw [hch2, hn3_hh, HBucket.isEmpty_eq_bit0, hb3_bit0,
        ← HBucket.isEmpty_eq_bit0, ← hch2]
      rw [hn2_emp_c]
    · rw [hn3_ne c hch2, hn2_emp_c]
  have hh3 : hh < m3.buckets.length := by
    rw [hbl3]
    exact hhlt
  set b4 : HBucket K V := (m3.nthHBucket hh).set (e - hh) true with hb4
  set m4 : Hopscotch K V := { m3 with buckets := m3.buckets.set hh b4 } with hm4
  have hlen4 : m4.buckets.length = m.buckets.length := by
    rw [hm4]
    show (m3.buckets.set hh b4).length = _
    rw [List.length_set]
    exact hbl3
  have hn4_ne : ∀ u, ¬ u = hh → m4.nthHBucket u = m3.nthHBucket u := by
    intro u hu
    show (m3.buckets.set hh b4).getD u ⟨0, default, default⟩ = _
    rw [getD_set_ne _ _ _ _ _ (fun h => hu h.symm)]
    rfl
  have hn4_hh : m4.nthHBucket hh = b4 := by
    show (m3.buckets.set hh b4).getD hh ⟨0, default, default⟩ = b4
    exact getD_set_self _ _ _ _ hh3
  have hb4_nb : b4.getNeighborhood = b3.getNeighborhood ||| 2 ^ (e - hh) := by
    rw [hb4, hn3_hh, HBucket.nb_set_true _ _ hd64]
  have hb4_key : b4.key = (m.nthHBucket hh).key := by
    rw [hb4, HBucket.set_key, hn3_hh, hb3_key]
  have hb4_bit0 : b4.hopInfo.testBit 0 =
      (m2.nthHBucket hh).hopInfo.testBit 0 := by
    rw [hb4, HBucket.bit0_set_true _ _ hd64, hn3_hh, hb3_bit0]
  have hnb4_hh : ∀ j, ((m4.nthHBucket hh).getNeighborhood).testBit j =
      (((m.nthHBucket hh).getNeighborhood.testBit j &&
        !decide (c - hh = j)) || decide (e - hh = j)) := by
    intro j
    rw [hn4_hh, hb4_nb, hb3_nb, Nat.testBit_or, Nat.testBit_and,
      testBit_flip_two_pow (c - hh) (by omega) j, Nat.testBit_two_pow]
    by_cases hj : j < 64
    · simp [hj]
    · have h5 : (m.nthHBucket hh).getNeighborhood.testBit j = false := by
        refine Nat.testBit_lt_two_pow
          (Nat.lt_of_lt_of_le (hco.bits_lt hh hhlt) ?_)
        exact Nat.pow_le_pow_right (by norm_num) (by omega)
      have h6 : ¬ e - hh = j := by omega
      simp [hj, h5, h6]
  have hnb4_ne : ∀ u, ¬ u = hh → (m4.nthHBucket u).getNeighborhood =
      (m.nthHBucket u).getNeighborhood := by
    intro u hu
    rw [hn4_ne u hu, hn3_ne u hu, hn2_nb]
  have hkey4 : ∀ u, ¬ u = e → (m4.nthHBucket u).key = (m.nthHBucket u).key := by
    intro u hu
    by_cases huh : u = hh
    · rw [huh, hn4_hh, hb4_key]
    · rw [hn4_ne u huh, hn3_ne u huh, hn2_key u hu]
  have hkey4_e : (m4.nthHBucket e).key = (m.nthHBucket c).key := by
    rw [hn4_ne e (fun h => hhe h.symm), hn3_ne e (fun h => hhe h.symm),
      hn2_key_e]
  have hval4_e : (m4.nthHBucket e).val = (m.nthHBucket c).val := by
    rw [hn4_ne e (fun h => hhe h.symm), hn3_ne e (fun h => hhe h.symm),
      hn2_val_e]
  have hemp4 : ∀ u, ¬ u = e → ¬ u = c →
      (m4.nthHBucket u).isEmpty = (m.nthHBucket u).isEmpty := by
    intro u hu hu2
    by_cases huh : u = hh
    · rw [huh, HBucket.isEmpty_eq_bit0, hn4_hh, hb4_bit0,
        ← HBucket.isEmpty_eq_bit0, ← huh, hn2_emp u hu hu2]
    · rw [hn4_ne u huh, hn3_ne u huh, hn2_emp u hu hu2]
  have hemp4_c : (m4.nthHBucket c).isEmpty = true := by
    by_cases hch2 : c = hh
    · rw [hch2, hn4_hh, HBucket.isEmpty_eq_bit0, hb4_bit0,
        ← HBucket.isEmpty_eq_bit0, ← hch2, hn2_emp_c]
    · rw [hn4_ne c hch2, hn3_emp_c]
  have hemp4_e : ¬ (m4.nthHBucket e).isEmpty = true := by
    rw [hn4_ne e (fun h => hhe h.symm), hn3_ne e (fun h => hhe h.symm)]
    exact hn2_emp_e
  have hhome4 : ∀ x, m4.home x = m.home x := fun _ => rfl
  have hlp1 : (m1.liveEntries ++
      [((m.nthHBucket c).key, (m.nthHBucket c).val)]).Perm m.liveEntries := by
    have hstep := filterMap_set_perm
      (fun b : HBucket K V => if b.isEmpty then none else some (b.key, b.val))
      m.buckets c bC hc_lt
    rw [← m.hnth_eq_get c hc_lt] at hstep
    have hrel_empty : bC.isEmpty = true := by
      rw [hbC, HBucket.isEmpty_eq_bit0, HBucket.bit0_release]
      rfl
    rw [if_neg hcocc, if_pos hrel_empty] at hstep
    have hgoal : m1.liveEntries = (m.buckets.set c bC).filterMap
        (fun b => if b.isEmpty then none else some (b.key, b.val)) := rfl
    rw [hgoal]
    unfold Hopscotch.liveEntries
    simpa using hstep
  have hlp2 : m2.liveEntries.Perm (m1.liveEntries ++
      [((m.nthHBucket c).key, (m.nthHBucket c).val)]) := by
    have hstep := filterMap_set_perm
      (fun b : HBucket K V => if b.isEmpty then none else some (b.key, b.val))
      m1.buckets e bE he1
    rw [← m1.hnth_eq_get e he1] at hstep
    have hm1e : (m1.nthHBucket e).isEmpty = true := by
      rw [hn1_emp_ne e (by omega)]
      exact hemp
    rw [if_pos hm1e, if_neg hbE_emp, hbE_key, hbE_val] at hstep
    have hgoal : m2.liveEntries = (m1.buckets.set e bE).filterMap
        (fun b => if b.isEmpty then none else some (b.key, b.val)) := rfl
    rw [hgoal]
    show ((m1.buckets.set e bE).filterMap _).Perm (m1.liveEntries ++ _)
    unfold Hopscotch.liveEntries
    simpa using hstep
  have hlp3 : m3.liveEntries.Perm m2.liveEntries := by
    have hstep := filterMap_set_perm
      (fun b : HBucket K V => if b.isEmpty then none else some (b.key, b.val))
      m2.buckets hh b3 hh2
    rw [← m2.hnth_eq_get hh hh2] at hstep
    have hbe : b3.isEmpty = (m2.nthHBucket hh).isEmpty := by
      rw [HBucket.isEmpty_eq_bit0, HBucket.isEmpty_eq_bit0, hb3_bit0]
    have hbk : b3.key = (m2.nthHBucket hh).key := by
      rw [hb3, HBucket.set_key]
    have hfeq : (if b3.isEmpty then none else some (b3.key, b3.val)) =
        (if (m2.nthHBucket hh).isEmpty then none
         else some ((m2.nthHBucket hh).key, (m2.nthHBucket hh).val)) := by
      rw [hbe, hbk, hb3_val]
    rw [hfeq] at hstep
    have hgoal : m3.liveEntries = (m2.buckets.set hh b3).filterMap
        (fun b => if b.isEmpty then none else some (b.key, b.val)) := rfl
    rw [hgoal]
    unfold Hopscotch.liveEntries
    exact (List.perm_append_right_iff _).mp hstep
  have hlp4 : m4.liveEntries.Perm m3.liveEntries := by
    have hstep := filterMap_set_perm
      (fun b : HBucket K V => if b.isEmpty then none else some (b.key, b.val))
      m3.buckets hh b4 hh3
    rw [← m3.hnth_eq_get hh hh3] at hstep
    have hbe : b4.isEmpty = (m3.nthHBucket hh).isEmpty := by
      rw [HBucket.isEmpty_eq_bit0, HBucket.isEmpty_eq_bit0, hb4,
        HBucket.bit0_set_true _ _ hd64]
    have hbk : b4.key = (m3.nthHBucket hh).key := by
      rw [hb4, HBucket.set_key]
    have hbv : b4.val = (m3.nthHBucket hh).val := by
      rw [hb4, HBucket.set_val]
    have hfeq : (if b4.isEmpty then none else some (b4.key, b4.val)) =
        (if (m3.nthHBucket hh).isEmpty then none
         else some ((m3.nthHBucket hh).key, (m3.nthHBucket hh).val)) := by
      rw [hbe, hbk, hbv]
    rw [hfeq] at hstep
    have hgoal : m4.liveEntries = (m3.buckets.set hh b4).filterMap
        (fun b => if b.isEmpty then none else some (b.key, b.val)) := rfl
    rw [hgoal]
    unfold Hopscotch.liveEntries
    exact (List.perm_append_right_iff _).mp hstep
  have hperm : m4.liveEntries.Perm m.liveEntries :=
    hlp4.trans (hlp3.trans (hlp2.trans hlp1))
  have hcore4 : m4.Core := by
    refine ⟨hco.pow2, by rw [hlen4]; exact hco.cap_le, hco.hsize, ?_, ?_, ?_⟩
    · intro i hi
      rw [hlen4] at hi
      by_cases hih : i = hh
      · have hnum : (m4.nthHBucket hh).getNeighborhood =
            ((m.nthHBucket hh).getNeighborhood &&& flip (2 ^ (c - hh))) |||
              2 ^ (e - hh) := by
          rw [hn4_hh, hb4_nb, hb3_nb]
        rw [hih, hnum]
        exact Nat.or_lt_two_pow
          (Nat.lt_of_le_of_lt Nat.and_le_left (hco.bits_lt hh hhlt))
          (Nat.pow_lt_pow_right (by norm_num) hdist)
      · rw [hnb4_ne i hih]
        exact hco.bits_lt i hi
    · intro h' d h'lt hbit4
      rw [hlen4] at h'lt
      by_cases hh' : h' = hh
      · rw [hh'] at hbit4 ⊢
        rw [hnb4_hh d] at hbit4
        by_cases hde : e - hh = d
        · have hslot : hh + d = e := by omega
          rw [hslot]
          refine ⟨by rw [hlen4]; exact he, hemp4_e, ?_⟩
          rw [hhome4, hkey4_e]
          exact hchome
        · rw [decide_eq_false hde] at hbit4
          simp only [Bool.or_false, Bool.and_eq_true,
            Bool.not_eq_true', decide_eq_false_iff_not] at hbit4
          obtain ⟨hA, hned⟩ := hbit4
          obtain ⟨hq1, hq2, hq3⟩ := hco.bit_sound hh d hhlt hA
          have hne_e : ¬ hh + d = e := by omega
          have hne_c : ¬ hh + d = c := by omega
          refine ⟨by rw [hlen4]; exact hq1, ?_, ?_⟩
          · rw [hemp4 _ hne_e hne_c]
            exact hq2
          · rw [hhome4, hkey4 _ hne_e]
            exact hq3
      · rw [hnb4_ne h' hh'] at hbit4
        obtain ⟨hq1, hq2, hq3⟩ := hco.bit_sound h' d h'lt hbit4
        have hne_e : ¬ h' + d = e := by
          intro hq
          rw [hq] at hq2
          exact hq2 hemp
        have hne_c : ¬ h' + d = c := by
          intro hq
          rw [hq] at hq3
          exact hh' (hq3.symm.trans hchome)
        refine ⟨by rw [hlen4]; exact hq1, ?_, ?_⟩
        · rw [hemp4 _ hne_e hne_c]
          exact hq2
        · rw [hhome4, hkey4 _ hne_e]
          exact hq3
    · intro t ht hocc4
      rw [hlen4] at ht
      by_cases hte : t = e
      · rw [hte]
        have hrwk : m4.home (m4.nthHBucket e).key = m.home (m.nthHBucket c).key := by
          rw [hkey4_e]
          rfl
        rw [hrwk, hchome]
        refine ⟨by omega, hdist, ?_⟩
        rw [hnb4_hh (e - hh)]
        simp
      · by_cases htc : t = c
        · rw [htc] at hocc4
          exact absurd hemp4_c hocc4
        · have hocc_m : ¬ (m.nthHBucket t).isEmpty = true := by
            rw [← hemp4 t hte htc]
            exact hocc4
          obtain ⟨h1, h2, h3⟩ := hco.occ_sound t ht hocc_m
          have hrwk : m4.home (m4.nthHBucket t).key =
              m.home (m.nthHBucket t).key := by
            rw [hkey4 t hte]
            rfl
          rw [hrwk]
          refine ⟨h1, h2, ?_⟩
          by_cases hgh : m.home (m.nthHBucket t).key = hh
          · rw [hgh] at h3 ⊢
            rw [hnb4_hh (t - hh)]
            have hne : ¬ c - hh = t - hh := by
              intro hq
              refine htc ?_
              rw [hgh] at h1
              omega
            simp [h3, hne]
          · rw [hnb4_ne _ hgh]
            exact h3
  have hmc : m.mcMove e hh c = m4 := rfl
  rw [hmc]
  exact ⟨hcore4, hperm, hemp4_c, hlen4⟩

/-- hmcOuter_spec: the outer moveCloser loop, when it succeeds, performs
one invariant-preserving swap and reports an empty slot in the scanned
range. -/
theorem Hopscotch.hmcOuter_spec [DecidableEq K] [Inhabited K] [Inhabited V]
    (m : Hopscotch K V) (hco : m.Core) (e : Nat)
    (he : e < m.buckets.length) (hemp : (m.nthHBucket e).isEmpty = true) :
    ∀ (fuel h0 : Nat) (m2 : Hopscotch K V) (c : Nat),
    e - h0 < m.neighborhoodSize →
    m.mcOuter e fuel h0 = some (m2, c) →
    m2.Core ∧ m2.liveEntries.Perm m.liveEntries ∧
    (m2.nthHBucket c).isEmpty = true ∧
    m2.buckets.length = m.buckets.length ∧
    m2.hasher = m.hasher ∧ m2.length = m.length ∧
    m2.capMinus1 = m.capMinus1 ∧ m2.neighborhoodSize = m.neighborhoodSize ∧
    m2.nextResize = m.nextResize ∧ m2.maxLoad = m.maxLoad ∧
    h0 ≤ c ∧ c < e := by
  intro fuel
  induction fuel with
  | zero =>
    intro h0 m2 c hspan h
    exact absurd h (by simp [Hopscotch.mcOuter])
  | succ n ih =>
    intro h0 m2 c hspan h
    unfold Hopscotch.mcOuter at h
    split at h
    · exact absurd h (by simp)
    · rename_i hlt
      push_neg at hlt
      split at h
      · rename_i cIdx hscan
        injection h with hpq
        injection hpq with hm2 hc
        subst hm2
        subst hc
        obtain ⟨hs1, hs2, hs3⟩ := mcScan_spec e hopFuel h0
          (m.nthHBucket h0).getNeighborhood cIdx hscan
        obtain ⟨hc1, hc2, hc3, hc4⟩ :=
          Hopscotch.hmcMove_spec m hco e h0 cIdx he hemp hs1 hs2 hs3 hspan
        exact ⟨hc1, hc2, hc3, hc4, rfl, rfl, rfl, rfl, rfl, rfl, hs1, hs2⟩
      · obtain ⟨c1, c2, c3, c4, c5, c6, c7, c8, c9, c10, c11, c12⟩ :=
          ih (h0 + 1) m2 c (by omega) h
        exact ⟨c1, c2, c3, c4, c5, c6, c7, c8, c9, c10, by omega, c12⟩

/-- hmoveCloser_spec: a successful moveCloser keeps the invariant and the
entries, and hands back a closer empty slot within one neighborhood of
the old one. -/
theorem Hopscotch.hmoveCloser_spec [DecidableEq K] [Inhabited K] [Inhabited V]
    (m : Hopscotch K V) (hco : m.Core) (e : Nat)
    (he : e < m.buckets.length) (hemp : (m.nthHBucket e).isEmpty = true)
    (m2 : Hopscotch K V) (c : Nat)
    (hrun : m.moveCloser e = some (m2, c)) :
    m2.Core ∧ m2.liveEntries.Perm m.liveEntries ∧
    (m2.nthHBucket c).isEmpty = true ∧
    m2.buckets.length = m.buckets.length ∧
    m2.hasher = m.hasher ∧ m2.length = m.length ∧
    m2.capMinus1 = m.capMinus1 ∧ m2.neighborhoodSize = m.neighborhoodSize ∧
    m2.nextResize = m.nextResize ∧ m2.maxLoad = m.maxLoad ∧
    e + 1 ≤ c + m.neighborhoodSize ∧ c < e := by
  unfold Hopscotch.moveCloser at hrun
  split at hrun
  · exact absurd hrun (by simp)
  · rename_i hge
    push_neg at hge
    have hH : 0 < m.neighborhoodSize := hco.hsize_pos
    obtain ⟨c1, c2, c3, c4, c5, c6, c7, c8, c9, c10, c11, c12⟩ :=
      Hopscotch.hmcOuter_spec m hco e he hemp m.neighborhoodSize
        (e - (m.neighborhoodSize - 1)) m2 c (by omega) hrun
    exact ⟨c1, c2, c3, c4, c5, c6, c7, c8, c9, c10, by omega, c12⟩

/-- hplace_spec: occupying an empty slot inside the neighborhood of the
key's home bucket and setting the home bit keeps the structural invariant
and adds exactly the new pair to the live entries. -/
theorem Hopscotch.hplace_spec [DecidableEq K] [Inhabited K] [Inhabited V]
    (m : Hopscotch K V) (hco : m.Core) (key : K) (val : V) (e : Nat)
    (he : e < m.buckets.length) (hemp : (m.nthHBucket e).isEmpty = true)
    (hhe : m.home key ≤ e)
    (hdist : e - m.home key < m.neighborhoodSize) (mp : Hopscotch K V)
    (hmp : mp =
      (let m1 : Hopscotch K V := { m with buckets := m.buckets.set e ⟨(m.nthHBucket e).hopInfo ||| 1, key, val⟩ }
       { m1 with buckets := m1.buckets.set (m.home key) ((m1.nthHBucket (m.home key)).set (e - m.home key) true) })) :
    mp.Core ∧ mp.liveEntries.Perm ((key, val) :: m.liveEntries) ∧
    mp.buckets.length = m.buckets.length ∧
    mp.hasher = m.hasher ∧ mp.length = m.length ∧
    mp.capMinus1 = m.capMinus1 ∧
    mp.neighborhoodSize = m.neighborhoodSize ∧
    mp.nextResize = m.nextResize ∧ mp.maxLoad = m.maxLoad := by
  have hhomelt : m.home key < m.buckets.length := Nat.lt_of_le_of_lt hhe he
  have hH63 : m.neighborhoodSize ≤ 63 := hco.hsize_le
  have hd64 : e - m.home key + 1 < 64 := by omega
  set bA : HBucket K V := ⟨(m.nthHBucket e).hopInfo ||| 1, key, val⟩ with hbA
  set mA : Hopscotch K V := { m with buckets := m.buckets.set e bA } with hmA
  have hblA : mA.buckets.length = m.buckets.length := by
    rw [hmA]
    exact List.length_set ..
  have hnA_ne : ∀ u, ¬ u = e → mA.nthHBucket u = m.nthHBucket u := by
    intro u hu
    show (m.buckets.set e bA).getD u ⟨0, default, default⟩ = _
    rw [getD_set_ne _ _ _ _ _ (fun h => hu h.symm)]
    rfl
  have hnA_e : mA.nthHBucket e = bA := by
    show (m.buckets.set e bA).getD e ⟨0, default, default⟩ = bA
    exact getD_set_self _ _ _ _ he
  have hbA_nb : bA.getNeighborhood = (m.nthHBucket e).getNeighborhood := by
    have h1 : bA.getNeighborhood = (m.nthHBucket e).occupy.getNeighborhood :=
      rfl
    rw [h1, HBucket.nb_occupy]
  have hbA_emp : ¬ bA.isEmpty = true := by
    rw [HBucket.isEmpty_eq_bit0]
    have h1 : bA.hopInfo.testBit 0 =
        (m.nthHBucket e).occupy.hopInfo.testBit 0 := rfl
    rw [h1, HBucket.bit0_occupy]
    simp
  have hnA_hop : ∀ u, (mA.nthHBucket u).hopInfo < 2 ^ 64 := by
    intro u
    by_cases hu : u = e
    · rw [hu, hnA_e]
      show (m.nthHBucket e).occupy.hopInfo < 2 ^ 64
      exact HBucket.hop_lt_occupy _ (hco.hop_lt e)
    · rw [hnA_ne u hu]
      exact hco.hop_lt u
  have hnA_nb : ∀ u, (mA.nthHBucket u).getNeighborhood =
      (m.nthHBucket u).getNeighborhood := by
    intro u
    by_cases hu : u = e
    · rw [hu, hnA_e, hbA_nb]
    · rw [hnA_ne u hu]
  have hnA_key_ne : ∀ u, ¬ u = e →
      (mA.nthHBucket u).key = (m.nthHBucket u).key := by
    intro u hu
    rw [hnA_ne u hu]
  have hnA_key_e : (mA.nthHBucket e).key = key := by
    rw [hnA_e]
  have hnA_val_e : (mA.nthHBucket e).val = val := by
    rw [hnA_e]
  have hnA_emp_ne : ∀ u, ¬ u = e →
      (mA.nthHBucket u).isEmpty = (m.nthHBucket u).isEmpty := by
    intro u hu
    rw [hnA_ne u hu]
  have hnA_emp_e : ¬ (mA.nthHBucket e).isEmpty = true := by
    rw [hnA_e]
    exact hbA_emp
  have hIlt : m.home key < mA.buckets.length := by
    rw [hblA]
    exact hhomelt
  set bB : HBucket K V :=
    (mA.nthHBucket (m.home key)).set (e - m.home key) true with hbB
  set mB : Hopscotch K V :=
    { mA with buckets := mA.buckets.set (m.home key) bB } with hmB
  have hmpB : mp = mB := hmp
  have hblB : mB.buckets.length = m.buckets.length := by
    rw [hmB]
    show (mA.buckets.set _ bB).length = _
    rw [List.length_set]
    exact hblA
  have hnB_ne : ∀ u, ¬ u = m.home key → mB.nthHBucket u = mA.nthHBucket u := by
    intro u hu
    show (mA.buckets.set _ bB).getD u ⟨0, default, default⟩ = _
    rw [getD_set_ne _ _ _ _ _ (fun h => hu h.symm)]
    rfl
  have hnB_h : mB.nthHBucket (m.home key) = bB := by
    show (mA.buckets.set _ bB).getD _ ⟨0, default, default⟩ = bB
    exact getD_set_self _ _ _ _ hIlt
  have hbB_nb : bB.getNeighborhood =
      (m.nthHBucket (m.home key)).getNeighborhood ||| 2 ^ (e - m.home key) := by
    rw [hbB, HBucket.nb_set_true _ _ hd64, hnA_nb]
  have hbB_bit0 : bB.hopInfo.testBit 0 =
      (mA.nthHBucket (m.home key)).hopInfo.testBit 0 := by
    rw [hbB]
    exact HBucket.bit0_set_true _ _ hd64
  have hkeyB : ∀ u, ¬ u = e →
      (mB.nthHBucket u).key = (m.nthHBucket u).key := by
    intro u hu
    by_cases huh : u = m.home key
    · rw [huh, hnB_h, hbB, HBucket.set_key, hnA_ne _ (by rw [← huh]; exact hu)]
    · rw [hnB_ne u huh, hnA_key_ne u hu]
  have hkeyB_e : (mB.nthHBucket e).key = key := by
    by_cases hhe2 : e = m.home key
    · rw [hhe2, hnB_h, hbB, HBucket.set_key, ← hhe2, hnA_key_e]
    · rw [hnB_ne e hhe2, hnA_key_e]
  have hvalB_e : (mB.nthHBucket e).val = val := by
    by_cases hhe2 : e = m.home key
    · rw [hhe2, hnB_h, hbB, HBucket.set_val, ← hhe2, hnA_val_e]
    · rw [hnB_ne e hhe2, hnA_val_e]
  have hempB : ∀ u, ¬ u = e →
      (mB.nthHBucket u).isEmpty = (m.nthHBucket u).isEmpty := by
    intro u hu
    by_cases huh : u = m.home key
    · rw [huh, HBucket.isEmpty_eq_bit0, hnB_h, hbB_bit0,
        ← HBucket.isEmpty_eq_bit0, ← huh, hnA_emp_ne u hu]
    · rw [hnB_ne u huh, hnA_emp_ne u hu]
  have hempB_e : ¬ (mB.nthHBucket e).isEmpty = true := by
    by_cases hhe2 : e = m.home key
    · rw [hhe2, HBucket.isEmpty_eq_bit0, hnB_h, hbB_bit0,
        ← HBucket.isEmpty_eq_bit0, ← hhe2]
      exact hnA_emp_e
    · rw [hnB_ne e hhe2]
      exact hnA_emp_e
  have hnbB_h : ∀ j, ((mB.nthHBucket (m.home key)).getNeighborhood).testBit j =
      (((m.nthHBucket (m.home key)).getNeighborhood).testBit j ||
        decide (e - m.home key = j)) := by
    intro j
    rw [hnB_h, hbB_nb, Nat.testBit_or, Nat.testBit_two_pow]
  have hnbB_ne : ∀ u, ¬ u = m.home key → (mB.nthHBucket u).getNeighborhood =
      (m.nthHBucket u).getNeighborhood := by
    intro u hu
    rw [hnB_ne u hu, hnA_nb]
  have hhomeB : ∀ x, mB.home x = m.home x := fun _ => rfl
  have hlpA : mA.liveEntries.Perm ((key, val) :: m.liveEntries) := by
    have hstep := filterMap_set_perm
      (fun b : HBucket K V => if b.isEmpty then none else some (b.key, b.val))
      m.buckets e bA he
    rw [← m.hnth_eq_get e he] at hstep
    rw [if_pos hemp, if_neg hbA_emp] at hstep
    have hgoal : mA.liveEntries = (m.buckets.set e bA).filterMap
        (fun b => if b.isEmpty then none else some (b.key, b.val)) := rfl
    rw [hgoal]
    unfold Hopscotch.liveEntries
    have hstep2 : ((m.buckets.set e bA).filterMap
        (fun b => if b.isEmpty then none else some (b.key, b.val))).Perm
          (m.buckets.filterMap
            (fun b => if b.isEmpty then none else some (b.key, b.val)) ++
              [(key, val)]) := by
      simpa using hstep
    exact hstep2.trans (List.perm_append_singleton _ _)
  have hlpB : mB.liveEntries.Perm mA.liveEntries := by
    have hstep := filterMap_set_perm
      (fun b : HBucket K V => if b.isEmpty then none else some (b.key, b.val))
      mA.buckets (m.home key) bB hIlt
    rw [← mA.hnth_eq_get _ hIlt] at hstep
    have hbe : bB.isEmpty = (mA.nthHBucket (m.home key)).isEmpty := by
      rw [HBucket.isEmpty_eq_bit0, HBucket.isEmpty_eq_bit0, hbB_bit0]
    have hbk : bB.key = (mA.nthHBucket (m.home key)).key := by
      rw [hbB, HBucket.set_key]
    have hbv : bB.val = (mA.nthHBucket (m.home key)).val := by
      rw [hbB, HBucket.set_val]
    have hfeq : (if bB.isEmpty then none else some (bB.key, bB.val)) =
        (if (mA.nthHBucket (m.home key)).isEmpty then none
         else some ((mA.nthHBucket (m.home key)).key,
           (mA.nthHBucket (m.home key)).val)) := by
      rw [hbe, hbk, hbv]
    rw [hfeq] at hstep
    have hgoal : mB.liveEntries = (mA.buckets.set (m.home key) bB).filterMap
        (fun b => if b.isEmpty then none else some (b.key, b.val)) := rfl
    rw [hgoal]
    unfold Hopscotch.liveEntries
    exact (List.perm_append_right_iff _).mp hstep
  have hcoreB : mB.Core := by
    refine ⟨hco.pow2, by rw [hblB]; exact hco.cap_le, hco.hsize, ?_, ?_, ?_⟩
    · intro i hi
      rw [hblB] at hi
      by_cases hih : i = m.home key
      · have hnum : (mB.nthHBucket (m.home key)).getNeighborhood =
            (m.nthHBucket (m.home key)).getNeighborhood |||
              2 ^ (e - m.home key) := by
          rw [hnB_h, hbB_nb]
        rw [hih, hnum]
        exact Nat.or_lt_two_pow (hco.bits_lt _ hhomelt)
          (Nat.pow_lt_pow_right (by norm_num) hdist)
      · rw [hnbB_ne i hih]
        exact hco.bits_lt i hi
    · intro h' d h'lt hbit4
      rw [hblB] at h'lt
      by_cases hh' : h' = m.home key
      · rw [hh'] at hbit4 ⊢
        rw [hnbB_h d] at hbit4
        by_cases hde : e - m.home key = d
        · have hslot : m.home key + d = e := by omega
          rw [hslot]
          refine ⟨by rw [hblB]; exact he, hempB_e, ?_⟩
          have hrwk : mB.home (mB.nthHBucket e).key = m.home key := by
            rw [hkeyB_e]
            rfl
          exact hrwk
        · rw [decide_eq_false hde] at hbit4
          simp only [Bool.or_false] at hbit4
          obtain ⟨hq1, hq2, hq3⟩ := hco.bit_sound _ d hhomelt hbit4
          have hne_e : ¬ m.home key + d = e := by omega
          refine ⟨by rw [hblB]; exact hq1, ?_, ?_⟩
          · rw [hempB _ hne_e]
            exact hq2
          · have hrwk : mB.home (mB.nthHBucket (m.home key + d)).key =
                m.home (m.nthHBucket (m.home key + d)).key := by
              rw [hkeyB _ hne_e]
              rfl
            rw [hrwk]
            exact hq3
      · rw [hnbB_ne h' hh'] at hbit4
        obtain ⟨hq1, hq2, hq3⟩ := hco.bit_sound h' d h'lt hbit4
        have hne_e : ¬ h' + d = e := by
          intro hq
          rw [hq] at hq2
          exact hq2 hemp
        refine ⟨by rw [hblB]; exact hq1, ?_, ?_⟩
        · rw [hempB _ hne_e]
          exact hq2
        · have hrwk : mB.home (mB.nthHBucket (h' + d)).key =
              m.home (m.nthHBucket (h' + d)).key := by
            rw [hkeyB _ hne_e]
            rfl
          rw [hrwk]
          exact hq3
    · intro t ht hocc4
      rw [hblB] at ht
      by_cases hte : t = e
      · rw [hte]
        have hrwk : mB.home (mB.nthHBucket e).key = m.home key := by
          rw [hkeyB_e]
          rfl
        rw [hrwk]
        refine ⟨hhe, hdist, ?_⟩
        rw [hnbB_h (e - m.home key)]
        simp
      · have hocc_m : ¬ (m.nthHBucket t).isEmpty = true := by
          rw [← hempB t hte]
          exact hocc4
        obtain ⟨h1, h2, h3⟩ := hco.occ_sound t ht hocc_m
        have hrwk : mB.home (mB.nthHBucket t).key =
            m.home (m.nthHBucket t).key := by
          rw [hkeyB t hte]
          rfl
        rw [hrwk]
        refine ⟨h1, h2, ?_⟩
        by_cases hgh : m.home (m.nthHBucket t).key = m.home key
        · rw [hgh] at h3 ⊢
          rw [hnbB_h]
          simp [h3]
        · rw [hnbB_ne _ hgh]
          exact h3
  rw [hmpB]
  exact ⟨hcoreB, hlpB.trans hlpA, hblB, rfl, rfl, rfl, rfl, rfl, rfl⟩

/-- hemplaceLoop_spec: the placement loop, run from a genuine empty slot at
or after the key's home slot, preserves the bookkeeping fields; on the
placed outcome it adds exactly the new pair, on the break outcome it keeps
the entries. -/
theorem Hopscotch.hemplaceLoop_spec [DecidableEq K] [Inhabited K]
    [Inhabited V] (key : K) (val : V) :
    ∀ (fuel : Nat) (m : Hopscotch K V) (homeIdx e : Nat)
      (m' : Hopscotch K V) (b : Bool),
    m.Core → homeIdx = m.home key → homeIdx ≤ e →
    e < m.buckets.length → (m.nthHBucket e).isEmpty = true →
    Hopscotch.emplaceLoop fuel m key val homeIdx e = some (m', b) →
    m'.buckets.length = m.buckets.length ∧
    m'.hasher = m.hasher ∧ m'.length = m.length ∧
    m'.capMinus1 = m.capMinus1 ∧ m'.neighborhoodSize = m.neighborhoodSize ∧
    m'.nextResize = m.nextResize ∧ m'.maxLoad = m.maxLoad ∧
    (b = true → m'.Core ∧ m'.liveEntries.Perm ((key, val) :: m.liveEntries)) ∧
    (b = false → m'.Core ∧ m'.liveEntries.Perm m.liveEntries) := by
  intro fuel
  induction fuel with
  | zero =>
    intro m homeIdx e m' b hco hhome hhe he hemp hrun
    exact absurd hrun (by simp [Hopscotch.emplaceLoop])
  | succ n ih =>
    intro m homeIdx e m' b hco hhome hhe he hemp hrun
    subst hhome
    unfold Hopscotch.emplaceLoop at hrun
    split at hrun
    · rename_i hdlt
      injection hrun with hpq
      injection hpq with hm' hb
      subst hb
      obtain ⟨p1, p2, p3, p4, p5, p6, p7, p8, p9⟩ :=
        Hopscotch.hplace_spec m hco key val e he hemp hhe hdlt m' hm'.symm
      refine ⟨p3, p4, p5, p6, p7, p8, p9, fun _ => ⟨p1, p2⟩, ?_⟩
      intro hfalse
      exact absurd hfalse (by simp)
    · rename_i hdge
      split at hrun
      · rename_i m2 e2 hmc
        obtain ⟨c1, c2, c3, c4, c5, c6, c7, c8, c9, c10, c11, c12⟩ :=
          Hopscotch.hmoveCloser_spec m hco e he hemp m2 e2 hmc
        have hhome2 : m.home key = m2.home key :=
          Hopscotch.hhome_congr m m2 c5.symm c7.symm key
        have hhe2 : m.home key ≤ e2 := by
          push_neg at hdge
          omega
        have he2lt : e2 < m2.buckets.length := by
          rw [c4]
          omega
        obtain ⟨d1, d2, d3, d4, d5, d6, d7, d8, d9⟩ :=
          ih m2 (m.home key) e2 m' b c1 hhome2 hhe2 he2lt c3 hrun
        refine ⟨by rw [d1, c4], by rw [d2, c5], by rw [d3, c6],
          by rw [d4, c7], by rw [d5, c8], by rw [d6, c9], by rw [d7, c10],
          ?_, ?_⟩
        · intro hb
          obtain ⟨e1x, e2x⟩ := d8 hb
          exact ⟨e1x, e2x.trans (c2.cons _)⟩
        · intro hb
          obtain ⟨e1x, e2x⟩ := d9 hb
          exact ⟨e1x, e2x.trans c2⟩
      · injection hrun with hpq
        injection hpq with hm' hb
        subst hb
        rw [← hm']
        refine ⟨rfl, rfl, rfl, rfl, rfl, rfl, rfl, ?_, ?_⟩
        · intro htrue
          exact absurd htrue (by simp)
        · intro _
          exact ⟨hco, List.Perm.refl _⟩

theorem hopZero_isEmpty [Inhabited K] [Inhabited V] :
    ((⟨0, default, default⟩ : HBucket K V)).isEmpty = true := by
  rw [HBucket.isEmpty_eq_bit0]
  have h0 : ((⟨0, default, default⟩ : HBucket K V)).hopInfo.testBit 0 =
      false := Nat.zero_testBit 0
  rw [h0]
  rfl

theorem hopZero_nb [Inhabited K] [Inhabited V] :
    ((⟨0, default, default⟩ : HBucket K V)).getNeighborhood = 0 := by
  show (0 : Nat) >>> 1 = 0
  rw [Nat.shiftRight_eq_div_pow]

theorem hopFresh_liveFilter [DecidableEq K] [Inhabited K] [Inhabited V] :
    ∀ n : Nat, ((hopFreshBuckets n : List (HBucket K V)).filterMap
      (fun b => if b.isEmpty then none else some (b.key, b.val))) = [] := by
  intro n
  induction n with
  | zero => rfl
  | succ k ih =>
    show List.filterMap _
      ((⟨0, default, default⟩ : HBucket K V) :: hopFreshBuckets k) = []
    rw [List.filterMap_cons_none (by simp [hopZero_isEmpty])]
    exact ih

/-- hrehashStart_spec: the fresh table of a rehash satisfies the
structural invariant and has no live entries. -/
theorem Hopscotch.hrehashStart_spec [DecidableEq K] [Inhabited K]
    [Inhabited V] (m : Hopscotch K V) (hco : m.Core) (n : Nat)
    (hn : ∃ t, n = 2 ^ t) :
    (m.rehashStart n).Core ∧ (m.rehashStart n).liveEntries = [] := by
  obtain ⟨t, ht⟩ := hn
  have hn1 : 1 ≤ n := by
    rw [ht]
    exact Nat.one_le_two_pow
  have hnth : ∀ i, (m.rehashStart n).nthHBucket i =
      ⟨0, default, default⟩ := by
    intro i
    show (hopFreshBuckets (n + m.neighborhoodSize) :
      List (HBucket K V)).getD i ⟨0, default, default⟩ = _
    exact hopFresh_getD _ _
  have hlen : (m.rehashStart n).buckets.length = n + m.neighborhoodSize := by
    show (hopFreshBuckets _ : List (HBucket K V)).length = _
    unfold hopFreshBuckets
    exact List.length_replicate ..
  constructor
  · refine ⟨⟨t, by show n - 1 + 1 = 2 ^ t; omega⟩, ?_, hco.hsize, ?_, ?_, ?_⟩
    · show n - 1 + 1 ≤ (m.rehashStart n).buckets.length
      rw [hlen]
      omega
    · intro i hi
      rw [hnth i, hopZero_nb]
      exact Nat.two_pow_pos _
    · intro h d hh hbit
      rw [hnth h, hopZero_nb, Nat.zero_testBit] at hbit
      exact absurd hbit (by simp)
    · intro s hs hocc
      rw [hnth s] at hocc
      exact absurd hopZero_isEmpty hocc
  · show (hopFreshBuckets _ : List (HBucket K V)).filterMap _ = []
    exact hopFresh_liveFilter _

theorem Hopscotch.hfoldNone [DecidableEq K] [Inhabited K] [Inhabited V]
    (fuel : Nat) :
    ∀ l : List (HBucket K V),
    List.foldl (fun acc b => if b.isEmpty then acc else acc.bind (fun mm =>
      Hopscotch.emplace fuel mm b.key b.val
        (mm.hasher b.key &&& mm.capMinus1))) none l = none := by
  intro l
  induction l with
  | nil => rfl
  | cons a tl ih =>
    simp only [List.foldl_cons]
    by_cases ha : a.isEmpty = true
    · rw [if_pos ha]
      exact ih
    · rw [if_neg ha]
      show List.foldl _ (Option.bind none _) tl = none
      rw [Option.none_bind]
      exact ih

/-- hfold_spec: the rehash fold re-emplaces the live buckets of a list one
by one; given the emplace contract at the same fuel, it keeps the
structural invariant and accumulates exactly the listed live pairs. -/
theorem Hopscotch.hfold_spec [DecidableEq K] [Inhabited K] [Inhabited V]
    (fuel : Nat)
    (hemp : ∀ (k2 : K) (v2 : V) (mm mo : Hopscotch K V),
      mm.Core → (mm.liveEntries.map Prod.fst).Nodup →
      (∀ v3, ¬ (k2, v3) ∈ mm.liveEntries) →
      Hopscotch.emplace fuel mm k2 v2 (mm.hasher k2 &&& mm.capMinus1) =
        some mo →
      mo.Core ∧ mo.liveEntries.Perm ((k2, v2) :: mm.liveEntries) ∧
      mo.hasher = mm.hasher ∧ mo.length = mm.length ∧
      mo.maxLoad = mm.maxLoad) :
    ∀ (l : List (HBucket K V)) (acc out : Hopscotch K V) (es : List (K × V)),
    acc.Core → acc.liveEntries.Perm es →
    ((es ++ l.filterMap
      (fun b => if b.isEmpty then none else some (b.key, b.val))).map
        Prod.fst).Nodup →
    List.foldl (fun acc2 b => if b.isEmpty then acc2 else acc2.bind
      (fun mm => Hopscotch.emplace fuel mm b.key b.val
        (mm.hasher b.key &&& mm.capMinus1))) (some acc) l = some out →
    out.Core ∧ out.liveEntries.Perm (es ++ l.filterMap
      (fun b => if b.isEmpty then none else some (b.key, b.val))) ∧
    out.hasher = acc.hasher ∧ out.length = acc.length ∧
    out.maxLoad = acc.maxLoad := by
  intro l
  induction l with
  | nil =>
    intro acc out es hco hperm hnd hrun
    have hout : acc = out := Option.some.inj hrun
    rw [← hout]
    refine ⟨hco, ?_, rfl, rfl, rfl⟩
    simpa using hperm
  | cons a tl ih =>
    intro acc out es hco hperm hnd hrun
    simp only [List.foldl_cons] at hrun
    by_cases ha : a.isEmpty = true
    · rw [if_pos ha] at hrun
      have hfma : (a :: tl).filterMap
          (fun b : HBucket K V =>
            if b.isEmpty then none else some (b.key, b.val)) =
          tl.filterMap
            (fun b => if b.isEmpty then none else some (b.key, b.val)) :=
        List.filterMap_cons_none (by simp [ha])
      rw [hfma] at hnd ⊢
      exact ih acc out es hco hperm hnd hrun
    · rw [if_neg ha] at hrun
      rw [Option.some_bind] at hrun
      have hfma : (a :: tl).filterMap
          (fun b : HBucket K V =>
            if b.isEmpty then none else some (b.key, b.val)) =
          (a.key, a.val) :: tl.filterMap
            (fun b => if b.isEmpty then none else some (b.key, b.val)) :=
        List.filterMap_cons_some (by simp [ha])
      rw [hfma] at hnd ⊢
      rcases hse : Hopscotch.emplace fuel acc a.key a.val
          (acc.hasher a.key &&& acc.capMinus1) with _ | acc'
      · rw [hse, Hopscotch.hfoldNone fuel tl] at hrun
        exact absurd hrun (by simp)
      · rw [hse] at hrun
        have hndes : (es.map Prod.fst).Nodup := by
          rw [List.map_append] at hnd
          exact hnd.of_append_left
        have hndacc : (acc.liveEntries.map Prod.fst).Nodup :=
          ((hperm.map Prod.fst).nodup_iff).mpr hndes
        have habs : ∀ v3, ¬ (a.key, v3) ∈ acc.liveEntries := by
          intro v3 hmem
          have h1 : a.key ∈ es.map Prod.fst := by
            refine List.mem_map.mpr ⟨(a.key, v3), ?_, rfl⟩
            exact (hperm.mem_iff).mp hmem
          have h2 : a.key ∈ ((a.key, a.val) :: tl.filterMap
              (fun b => if b.isEmpty then none
                else some (b.key, b.val))).map Prod.fst := by
            rw [List.map_cons]
            exact List.mem_cons_self _ _
          rw [List.map_append] at hnd
          exact (List.disjoint_of_nodup_append hnd) h1 h2
        obtain ⟨hcoA, hpermA, hhA, hlA, hmlA⟩ :=
          hemp a.key a.val acc acc' hco hndacc habs hse
        have hpermA2 : acc'.liveEntries.Perm (es ++ [(a.key, a.val)]) :=
          hpermA.trans ((hperm.cons _).trans
            (List.perm_append_singleton _ _).symm)
        have hnd2 : (((es ++ [(a.key, a.val)]) ++ tl.filterMap
            (fun b => if b.isEmpty then none
              else some (b.key, b.val))).map Prod.fst).Nodup := by
          rw [List.append_assoc]
          exact hnd
        obtain ⟨q1, q2, q3, q4, q5⟩ :=
          ih acc' out (es ++ [(a.key, a.val)]) hcoA hpermA2 hnd2 hrun
        refine ⟨q1, ?_, q3.trans hhA, q4.trans hlA, q5.trans hmlA⟩
        refine q2.trans ?_
        rw [List.append_assoc]
        exact List.Perm.refl _

/-- hcore_grow: increasing the neighborhood size along the growth schedule
preserves the structural invariant. -/
theorem Hopscotch.hcore_grow [DecidableEq K] [Inhabited K] [Inhabited V]
    (m : Hopscotch K V) (hco : m.Core) (H2 : Nat)
    (hle : m.neighborhoodSize ≤ H2)
    (hsched : H2 = 4 ∨ H2 = 8 ∨ H2 = 16 ∨ H2 = 32 ∨ H2 = 63) :
    ({ m with neighborhoodSize := H2 } : Hopscotch K V).Core := by
  refine ⟨hco.pow2, hco.cap_le, hsched, ?_, hco.bit_sound, ?_⟩
  · intro i hi
    exact Nat.lt_of_lt_of_le (hco.bits_lt i hi)
      (Nat.pow_le_pow_right (by norm_num) hle)
  · intro s hs hocc
    obtain ⟨h1, h2, h3⟩ := hco.occ_sound s hs hocc
    exact ⟨h1, Nat.lt_of_lt_of_le h2 hle, h3⟩

/-- hgrow_spec: the grow-and-retry path of emplace (rehash into a doubled
table, then emplace the pending pair), given the emplace contract at the
inner fuel. -/
theorem Hopscotch.hgrow_spec [DecidableEq K] [Inhabited K] [Inhabited V]
    (fuel : Nat) (key : K) (val : V)
    (hemp : ∀ (k2 : K) (v2 : V) (mm mo : Hopscotch K V),
      mm.Core → (mm.liveEntries.map Prod.fst).Nodup →
      (∀ v3, ¬ (k2, v3) ∈ mm.liveEntries) →
      Hopscotch.emplace fuel mm k2 v2 (mm.hasher k2 &&& mm.capMinus1) =
        some mo →
      mo.Core ∧ mo.liveEntries.Perm ((k2, v2) :: mm.liveEntries) ∧
      mo.hasher = mm.hasher ∧ mo.length = mm.length ∧
      mo.maxLoad = mm.maxLoad)
    (m m' : Hopscotch K V) (hco : m.Core)
    (hnd : (m.liveEntries.map Prod.fst).Nodup)
    (habs : ∀ v2, ¬ (key, v2) ∈ m.liveEntries)
    (hrun : ((m.buckets.foldl
        (fun acc b => if b.isEmpty then acc else acc.bind (fun mm =>
          Hopscotch.emplace fuel mm b.key b.val
            (mm.hasher b.key &&& mm.capMinus1)))
        (some (m.rehashStart (2 * (m.capMinus1 + 1))))).map
      (fun nm => { m with buckets := nm.buckets, capMinus1 := nm.capMinus1, nextResize := nm.nextResize, neighborhoodSize := nm.neighborhoodSize })).bind
      (fun m2 => Hopscotch.emplace fuel m2 key val
        (m2.hasher key &&& m2.capMinus1)) = some m') :
    m'.Core ∧ m'.liveEntries.Perm ((key, val) :: m.liveEntries) ∧
    m'.hasher = m.hasher ∧ m'.length = m.length ∧ m'.maxLoad = m.maxLoad := by
  obtain ⟨t, ht⟩ := hco.pow2
  have hpow : ∃ u, 2 * (m.capMinus1 + 1) = 2 ^ u := by
    refine ⟨t + 1, ?_⟩
    rw [ht, pow_succ]
    ring
  obtain ⟨hcoR, hlvR⟩ := m.hrehashStart_spec hco _ hpow
  rcases hfl : m.buckets.foldl
      (fun acc b => if b.isEmpty then acc else acc.bind (fun mm =>
        Hopscotch.emplace fuel mm b.key b.val
          (mm.hasher b.key &&& mm.capMinus1)))
      (some (m.rehashStart (2 * (m.capMinus1 + 1)))) with _ | out
  · rw [hfl] at hrun
    exact absurd hrun (by simp)
  · rw [hfl] at hrun
    obtain ⟨q1, q2, q3, q4, q5⟩ := Hopscotch.hfold_spec fuel hemp m.buckets
      (m.rehashStart (2 * (m.capMinus1 + 1))) out [] hcoR
      (by rw [hlvR]) hnd hfl
    set M2 : Hopscotch K V := { m with buckets := out.buckets, capMinus1 := out.capMinus1, nextResize := out.nextResize, neighborhoodSize := out.neighborhoodSize } with hM2
    have hrun2 : Hopscotch.emplace fuel M2 key val
        (M2.hasher key &&& M2.capMinus1) = some m' := by
      simpa using hrun
    have hhout : out.hasher = m.hasher := q3
    have hlout : out.length = m.length := q4
    have hmlout : out.maxLoad = m.maxLoad := q5
    have hcoM2 : M2.Core := by
      refine Hopscotch.hcore_transport out M2 rfl rfl rfl ?_ q1
      rw [hhout]
    have hlvM2 : M2.liveEntries = out.liveEntries :=
      Hopscotch.hlive_transport out M2 rfl |>.symm
    have hpermM2 : M2.liveEntries.Perm m.liveEntries := by
      rw [hlvM2]
      exact q2
    have hndM2 : (M2.liveEntries.map Prod.fst).Nodup :=
      ((hpermM2.map Prod.fst).nodup_iff).mpr hnd
    have habsM2 : ∀ v2, ¬ (key, v2) ∈ M2.liveEntries := by
      intro v2 hm2
      exact habs v2 ((hpermM2.mem_iff).mp hm2)
    obtain ⟨r1, r2, r3, r4, r5⟩ :=
      hemp key val M2 m' hcoM2 hndM2 habsM2 hrun2
    refine ⟨r1, r2.trans (hpermM2.cons _), r3, r4, r5⟩

/-- hemplace_spec: a fuelled emplace run that returns a table keeps the
structural invariant, adds exactly the pending pair to the live entries
and preserves the hasher, count and max-load setting. -/
theorem Hopscotch.hemplace_spec [DecidableEq K] [Inhabited K] [Inhabited V] :
    ∀ (fuel : Nat) (key : K) (val : V) (m m' : Hopscotch K V),
    m.Core → (m.liveEntries.map Prod.fst).Nodup →
    (∀ v2, ¬ (key, v2) ∈ m.liveEntries) →
    Hopscotch.emplace fuel m key val (m.hasher key &&& m.capMinus1) =
      some m' →
    m'.Core ∧ m'.liveEntries.Perm ((key, val) :: m.liveEntries) ∧
    m'.hasher = m.hasher ∧ m'.length = m.length ∧
    m'.maxLoad = m.maxLoad := by
  intro fuel
  induction fuel with
  | zero =>
    intro key val m m' _ _ _ hrun
    exact absurd hrun (by simp [Hopscotch.emplace])
  | succ n ih =>
    intro key val m m' hco hnd habs hrun
    unfold Hopscotch.emplace at hrun
    split at hrun
    · exact Hopscotch.hgrow_spec n key val ih m m' hco hnd habs hrun
    · rename_i e hpe
      obtain ⟨hp1, hp2, hp3⟩ := m.hprobe_spec _ _ _ hpe
      have hmask : m.hasher key &&& m.capMinus1 = m.home key :=
        m.hhome_eq_mask hco.pow2 key
      split at hrun
      · exact absurd hrun (by simp)
      · rename_i m2 hloop
        have hm2 : m2 = m' := Option.some.inj hrun
        obtain ⟨d1, d2, d3, d4, d5, d6, d7, d8, d9⟩ :=
          Hopscotch.hemplaceLoop_spec key val (e + 1) m
            (m.hasher key &&& m.capMinus1) e m2 true hco hmask hp1 hp2 hp3
            hloop
        obtain ⟨hcoT, hpermT⟩ := d8 rfl
        rw [← hm2]
        exact ⟨hcoT, hpermT, d2, d3, d7⟩
      · rename_i m2 hloop
        obtain ⟨d1, d2, d3, d4, d5, d6, d7, d8, d9⟩ :=
          Hopscotch.hemplaceLoop_spec key val (e + 1) m
            (m.hasher key &&& m.capMinus1) e m2 false hco hmask hp1 hp2 hp3
            hloop
        obtain ⟨hco2, hperm2⟩ := d9 rfl
        have hnd2 : (m2.liveEntries.map Prod.fst).Nodup :=
          ((hperm2.map Prod.fst).nodup_iff).mpr hnd
        have habs2 : ∀ v2, ¬ (key, v2) ∈ m2.liveEntries := by
          intro v2 hm2
          exact habs v2 ((hperm2.mem_iff).mp hm2)
        split at hrun
        · rename_i hlt32
          have hsched : 2 * m2.neighborhoodSize = 4 ∨
              2 * m2.neighborhoodSize = 8 ∨ 2 * m2.neighborhoodSize = 16 ∨
              2 * m2.neighborhoodSize = 32 ∨
              2 * m2.neighborhoodSize = 63 := by
            rcases hco2.hsize with h | h | h | h | h <;> omega
          have hco3 : ({ m2 with neighborhoodSize :=
              2 * m2.neighborhoodSize } : Hopscotch K V).Core :=
            Hopscotch.hcore_grow m2 hco2 _ (by omega) hsched
          obtain ⟨r1, r2, r3, r4, r5⟩ := ih key val
            { m2 with neighborhoodSize := 2 * m2.neighborhoodSize } m'
            hco3 hnd2 habs2 hrun
          refine ⟨r1, r2.trans (hperm2.cons _), r3.trans d2, r4.trans d3,
            r5.trans d7⟩
        · split at hrun
          · rename_i heq32
            have hsched : maxNeighborhoodSize = 4 ∨
                maxNeighborhoodSize = 8 ∨ maxNeighborhoodSize = 16 ∨
                maxNeighborhoodSize = 32 ∨ maxNeighborhoodSize = 63 := by
              right
              right
              right
              right
              rfl
            have hco3 : ({ m2 with neighborhoodSize :=
                maxNeighborhoodSize } : Hopscotch K V).Core :=
              Hopscotch.hcore_grow m2 hco2 _
                (by rw [heq32]; norm_num [maxNeighborhoodSize]) hsched
            obtain ⟨r1, r2, r3, r4, r5⟩ := ih key val
              { m2 with neighborhoodSize := maxNeighborhoodSize } m'
              hco3 hnd2 habs2 hrun
            refine ⟨r1, r2.trans (hperm2.cons _), r3.trans d2, r4.trans d3,
              r5.trans d7⟩
          · obtain ⟨r1, r2, r3, r4, r5⟩ :=
              Hopscotch.hgrow_spec n key val ih m2 m' hco2 hnd2 habs2 hrun
            refine ⟨r1, r2.trans (hperm2.cons _), r3.trans d2, r4.trans d3,
              r5.trans d7⟩

/-- hresize_spec: a successful resize keeps the invariant and the live
entries while moving them into the fresh store. -/
theorem Hopscotch.hresize_spec [DecidableEq K] [Inhabited K] [Inhabited V]
    (fuel : Nat) (m : Hopscotch K V) (n : Nat) (m' : Hopscotch K V)
    (hco : m.Core) (hnd : (m.liveEntries.map Prod.fst).Nodup)
    (hn : ∃ t, n = 2 ^ t) (hrun : m.resize fuel n = some m') :
    m'.Core ∧ m'.liveEntries.Perm m.liveEntries ∧
    m'.hasher = m.hasher ∧ m'.length = m.length ∧ m'.maxLoad = m.maxLoad ∧
    (m'.liveEntries.map Prod.fst).Nodup := by
  unfold Hopscotch.resize at hrun
  obtain ⟨hcoR, hlvR⟩ := m.hrehashStart_spec hco n hn
  rcases hfl : m.buckets.foldl
      (fun acc b => if b.isEmpty then acc else acc.bind (fun mm =>
        Hopscotch.emplace fuel mm b.key b.val
          (mm.hasher b.key &&& mm.capMinus1)))
      (some (m.rehashStart n)) with _ | out
  · rw [hfl] at hrun
    exact absurd hrun (by simp)
  · rw [hfl] at hrun
    obtain ⟨q1, q2, q3, q4, q5⟩ := Hopscotch.hfold_spec fuel
      (fun k2 v2 mm mo => Hopscotch.hemplace_spec fuel k2 v2 mm mo)
      m.buckets (m.rehashStart n) out [] hcoR (by rw [hlvR]) hnd hfl
    set M2 : Hopscotch K V := { m with buckets := out.buckets, capMinus1 := out.capMinus1, nextResize := out.nextResize, neighborhoodSize := out.neighborhoodSize } with hM2
    have hrun2 : some M2 = some m' := hrun
    have hm' : M2 = m' := Option.some.inj hrun2
    have hcoM2 : M2.Core := by
      refine Hopscotch.hcore_transport out M2 rfl rfl rfl ?_ q1
      exact q3.trans rfl
    have hlvM2 : M2.liveEntries = out.liveEntries :=
      Hopscotch.hlive_transport out M2 rfl |>.symm
    have hpermM2 : M2.liveEntries.Perm m.liveEntries := by
      rw [hlvM2]
      exact q2
    rw [← hm']
    refine ⟨hcoM2, hpermM2, rfl, rfl, rfl, ?_⟩
    exact ((hpermM2.map Prod.fst).nodup_iff).mpr hnd

/-- hput_core: the body of Put after the resize gate, on any well-formed
table: update in place on a hit (returning false), emplace on a miss
(returning true). -/
theorem Hopscotch.hput_core [DecidableEq K] [Inhabited K] [Inhabited V]
    (m1 : Hopscotch K V) (hwf1 : m1.WF) (k : K) (v : V)
    (m' : Hopscotch K V) (b : Bool)
    (hrun : (match m1.search (m1.hasher k &&& m1.capMinus1) k with
      | some idx => some ({ m1 with buckets := m1.buckets.set idx ⟨(m1.nthHBucket idx).hopInfo, (m1.nthHBucket idx).key, v⟩ }, false)
      | none => (Hopscotch.emplace hopFuel { m1 with length := m1.length + 1 } k v
          (m1.hasher k &&& m1.capMinus1)).map (fun m2 => (m2, true))) =
        some (m', b)) :
    m'.WF ∧ m'.hasher = m1.hasher ∧ m'.maxLoad = m1.maxLoad ∧
    (k, v) ∈ m'.liveEntries ∧
    (∀ k2 v2, ¬ k2 = k →
      ((k2, v2) ∈ m'.liveEntries ↔ (k2, v2) ∈ m1.liveEntries)) ∧
    (b = true ↔ ∀ v2, ¬ (k, v2) ∈ m1.liveEntries) ∧
    (b = true → m'.length = m1.length + 1) ∧
    (b = false → m'.length = m1.length) := by
  have hmask : m1.hasher k &&& m1.capMinus1 = m1.home k :=
    m1.hhome_eq_mask hwf1.hcore.pow2 k
  have hhomelt : m1.home k < m1.buckets.length :=
    Nat.lt_of_lt_of_le (m1.hhome_lt k) hwf1.hcore.cap_le
  split at hrun
  · rename_i s hsome
    injection hrun with hpair
    injection hpair with hm' hb
    subst hb
    rw [hmask] at hsome
    unfold Hopscotch.search at hsome
    obtain ⟨d, hsd, hbit, hkeyj⟩ :=
      m1.searchLoop_some k hopFuel (m1.home k)
        (m1.nthHBucket (m1.home k)).getNeighborhood s hsome
    obtain ⟨hslt, hsocc, hshome⟩ :=
      hwf1.hcore.bit_sound (m1.home k) d hhomelt hbit
    rw [← hsd] at hslt hsocc hshome
    obtain ⟨hupd1, hupd2, hupd3⟩ :=
      m1.hupdate_core hwf1.hcore hwf1.keys_nodup s hslt hsocc v
    have hmem1 : (k, (m1.nthHBucket s).val) ∈ m1.liveEntries :=
      (m1.hmem_liveEntries k _).mpr ⟨s, hslt, hsocc, hkeyj, rfl⟩
    rw [← hm']
    have hlen2 : ({ m1 with buckets := m1.buckets.set s ⟨(m1.nthHBucket s).hopInfo, (m1.nthHBucket s).key, v⟩ } : Hopscotch K V).buckets.length = m1.buckets.length := by
      show (m1.buckets.set s _).length = _
      exact List.length_set ..
    have hcnt2 : ({ m1 with buckets := m1.buckets.set s ⟨(m1.nthHBucket s).hopInfo, (m1.nthHBucket s).key, v⟩ } : Hopscotch K V).liveEntries.length = m1.length := by
      have h1 := hupd2.length_eq
      simp only [List.length_append, List.length_cons, List.length_nil] at h1
      have h2 := hwf1.count
      omega
    refine ⟨⟨hupd1, hcnt2, hupd3⟩, rfl, rfl, ?_, ?_, ?_, ?_, fun _ => rfl⟩
    · refine (Hopscotch.hmem_liveEntries _ k v).mpr ⟨s, ?_, ?_, ?_, ?_⟩
      · rw [hlen2]
        exact hslt
      · have hnth2 : ({ m1 with buckets := m1.buckets.set s ⟨(m1.nthHBucket s).hopInfo, (m1.nthHBucket s).key, v⟩ } : Hopscotch K V).nthHBucket s = ⟨(m1.nthHBucket s).hopInfo, (m1.nthHBucket s).key, v⟩ := by
          show (m1.buckets.set s _).getD s ⟨0, default, default⟩ = _
          exact getD_set_self _ _ _ _ hslt
        rw [hnth2]
        have hie : ((⟨(m1.nthHBucket s).hopInfo, (m1.nthHBucket s).key, v⟩ :
            HBucket K V)).isEmpty = (m1.nthHBucket s).isEmpty := rfl
        rw [hie]
        exact hsocc
      · have hnth2 : ({ m1 with buckets := m1.buckets.set s ⟨(m1.nthHBucket s).hopInfo, (m1.nthHBucket s).key, v⟩ } : Hopscotch K V).nthHBucket s = ⟨(m1.nthHBucket s).hopInfo, (m1.nthHBucket s).key, v⟩ := by
          show (m1.buckets.set s _).getD s ⟨0, default, default⟩ = _
          exact getD_set_self _ _ _ _ hslt
        rw [hnth2]
        exact hkeyj
      · have hnth2 : ({ m1 with buckets := m1.buckets.set s ⟨(m1.nthHBucket s).hopInfo, (m1.nthHBucket s).key, v⟩ } : Hopscotch K V).nthHBucket s = ⟨(m1.nthHBucket s).hopInfo, (m1.nthHBucket s).key, v⟩ := by
          show (m1.buckets.set s _).getD s ⟨0, default, default⟩ = _
          exact getD_set_self _ _ _ _ hslt
        rw [hnth2]
    · intro k2 v2 hk2
      have hne_old : ¬ (k2, v2) = ((m1.nthHBucket s).key, (m1.nthHBucket s).val) := by
        intro hq
        exact hk2 ((congrArg Prod.fst hq).trans hkeyj)
      have hne_new : ¬ (k2, v2) = ((m1.nthHBucket s).key, v) := by
        intro hq
        exact hk2 ((congrArg Prod.fst hq).trans hkeyj)
      constructor
      · intro hmem
        have h1 : (k2, v2) ∈ ({ m1 with buckets := m1.buckets.set s ⟨(m1.nthHBucket s).hopInfo, (m1.nthHBucket s).key, v⟩ } : Hopscotch K V).liveEntries ++ [((m1.nthHBucket s).key, (m1.nthHBucket s).val)] :=
          List.mem_append.mpr (Or.inl hmem)
        have h2 := (hupd2.mem_iff).mp h1
        rcases List.mem_append.mp h2 with h3 | h3
        · exact h3
        · rw [List.mem_singleton] at h3
          exact absurd h3 hne_new
      · intro hmem
        have h1 : (k2, v2) ∈ m1.liveEntries ++ [((m1.nthHBucket s).key, v)] :=
          List.mem_append.mpr (Or.inl hmem)
        have h2 := (hupd2.mem_iff).mpr h1
        rcases List.mem_append.mp h2 with h3 | h3
        · exact h3
        · rw [List.mem_singleton] at h3
          exact absurd h3 hne_old
    · constructor
      · intro hq
        exact absurd hq (by simp)
      · intro habs
        exact absurd hmem1 (habs _)
    · intro hq
      exact absurd hq (by simp)
  · rename_i hnone
    rw [hmask] at hnone
    have habs : ∀ v2, ¬ (k, v2) ∈ m1.liveEntries := by
      intro v2 hv2
      obtain ⟨s, hj, _, _, _, _, _, _⟩ :=
        m1.hsearch_found hwf1.hcore hwf1.keys_nodup k v2 hv2
      rw [hnone] at hj
      exact absurd hj (by simp)
    rcases hem : Hopscotch.emplace hopFuel
        { m1 with length := m1.length + 1 } k v
        (m1.hasher k &&& m1.capMinus1) with _ | m2
    · rw [hem] at hrun
      exact absurd hrun (by simp)
    · rw [hem] at hrun
      have hpair : (m2, true) = (m', b) := Option.some.inj hrun
      injection hpair with hm' hb
      subst hb
      have hcoP : ({ m1 with length := m1.length + 1 } : Hopscotch K V).Core :=
        Hopscotch.hcore_transport m1 _ rfl rfl rfl rfl hwf1.hcore
      have hlvP : ({ m1 with length := m1.length + 1 } :
          Hopscotch K V).liveEntries = m1.liveEntries :=
        (Hopscotch.hlive_transport m1 _ rfl).symm
      obtain ⟨c1, c2, c3, c4, c5⟩ :=
        Hopscotch.hemplace_spec hopFuel k v
          { m1 with length := m1.length + 1 } m2 hcoP
          (by rw [hlvP]; exact hwf1.keys_nodup)
          (by rw [hlvP]; exact habs) hem
      rw [hlvP] at c2
      have hknot : ¬ k ∈ m1.liveEntries.map Prod.fst := by
        intro hkm
        obtain ⟨p, hp, hfst⟩ := List.mem_map.mp hkm
        refine habs p.2 ?_
        have hpe : (p.1, p.2) = p := rfl
        rw [← hfst, hpe]
        exact hp
      have hnd2 : (m2.liveEntries.map Prod.fst).Nodup := by
        have h1 := c2.map Prod.fst
        rw [List.map_cons] at h1
        refine (h1.nodup_iff).mpr ?_
        exact List.nodup_cons.mpr ⟨hknot, hwf1.keys_nodup⟩
      have hcnt2 : m2.liveEntries.length = m2.length := by
        have h1 := c2.length_eq
        rw [List.length_cons] at h1
        have h2 := hwf1.count
        have h3 : m2.length = m1.length + 1 := c4
        omega
      rw [← hm']
      refine ⟨⟨c1, hcnt2, hnd2⟩, c3, c5, ?_, ?_, ?_, fun _ => c4, ?_⟩
      · exact (c2.mem_iff).mpr (List.mem_cons_self _ _)
      · intro k2 v2 hk2
        rw [c2.mem_iff, List.mem_cons]
        constructor
        · intro h1
          rcases h1 with h1 | h1
          · exact absurd (congrArg Prod.fst h1) hk2
          · exact h1
        · intro h1
          exact Or.inr h1
      · exact ⟨fun _ => habs, fun _ => rfl⟩
      · intro hq
        exact absurd hq (by simp)

/-- hput_spec: a successful Put yields a well-formed table containing the
new pair, leaves every other key's membership unchanged, and returns true
exactly when the key was absent. -/
theorem Hopscotch.hput_spec [DecidableEq K] [Inhabited K] [Inhabited V]
    (m : Hopscotch K V) (hwf : m.WF) (k : K) (v : V)
    (m' : Hopscotch K V) (b : Bool) (hrun : m.Put k v = some (m', b)) :
    m'.WF ∧ m'.hasher = m.hasher ∧ m'.maxLoad = m.maxLoad ∧
    (k, v) ∈ m'.liveEntries ∧
    (∀ k2 v2, ¬ k2 = k →
      ((k2, v2) ∈ m'.liveEntries ↔ (k2, v2) ∈ m.liveEntries)) ∧
    (b = true ↔ ∀ v2, ¬ (k, v2) ∈ m.liveEntries) ∧
    (b = true → m'.length = m.length + 1) ∧
    (b = false → m'.length = m.length) := by
  unfold Hopscotch.Put at hrun
  by_cases hg : m.nextResize ≤ m.length
  · rw [if_pos hg] at hrun
    rcases hrz : m.resize hopFuel (2 * (m.capMinus1 + 1)) with _ | m1
    · rw [hrz] at hrun
      exact absurd hrun (by simp)
    · rw [hrz] at hrun
      rw [Option.some_bind] at hrun
      obtain ⟨t, ht⟩ := hwf.hcore.pow2
      obtain ⟨r1, r2, r3, r4, r5, r6⟩ :=
        Hopscotch.hresize_spec hopFuel m (2 * (m.capMinus1 + 1)) m1
          hwf.hcore hwf.keys_nodup ⟨t + 1, by rw [ht, pow_succ]; ring⟩ hrz
      have hwf1 : m1.WF := by
        refine ⟨r1, ?_, r6⟩
        rw [r2.length_eq, hwf.count, r4]
      obtain ⟨p1, p2, p3, p4, p5, p6, p7, p8⟩ :=
        Hopscotch.hput_core m1 hwf1 k v m' b hrun
      refine ⟨p1, p2.trans r3, p3.trans r5, p4, ?_, ?_, ?_, ?_⟩
      · intro k2 v2 hk2
        exact (p5 k2 v2 hk2).trans (r2.mem_iff)
      · refine p6.trans ?_
        constructor
        · intro h1 v2 hv2
          exact h1 v2 ((r2.mem_iff).mpr hv2)
        · intro h1 v2 hv2
          exact h1 v2 ((r2.mem_iff).mp hv2)
      · intro hq
        rw [p7 hq, r4]
      · intro hq
        rw [p8 hq, r4]
  · rw [if_neg hg] at hrun
    rw [Option.some_bind] at hrun
    exact Hopscotch.hput_core m hwf k v m' b hrun

theorem hsearchLoop_nb0 [DecidableEq K] [Inhabited K] [Inhabited V]
    (mm : Hopscotch K V) (k : K) :
    ∀ fuel idx, mm.searchLoop k fuel idx 0 = none := by
  intro fuel idx
  cases fuel with
  | zero => rfl
  | succ n =>
    unfold Hopscotch.searchLoop
    rw [if_pos rfl]

/-- hclear_spec: Clear zeroes every hop-info word, leaving a well-formed
empty table over the same backing store. -/
theorem Hopscotch.hclear_spec [DecidableEq K] [Inhabited K] [Inhabited V]
    (m : Hopscotch K V) (hwf : m.WF) :
    m.Clear.WF ∧ m.Clear.liveEntries = [] ∧ m.Clear.length = 0 ∧
    m.Clear.buckets.length = m.buckets.length ∧
    m.Clear.capMinus1 = m.capMinus1 ∧ m.Clear.hasher = m.hasher ∧
    m.Clear.maxLoad = m.maxLoad ∧
    m.Clear.neighborhoodSize = m.neighborhoodSize := by
  have hlenC : m.Clear.buckets.length = m.buckets.length := by
    show (m.buckets.map _).length = _
    rw [List.length_map]
  have hhop0 : ∀ i, (m.Clear.nthHBucket i).hopInfo = 0 := by
    intro i
    by_cases hi : i < m.buckets.length
    · rw [Hopscotch.hnth_eq_get _ i (by rw [hlenC]; exact hi)]
      show ((m.buckets.map (fun b => (⟨0, b.key, b.val⟩ : HBucket K V))).get
        ⟨i, _⟩).hopInfo = 0
      simp [List.get_eq_getElem, List.getElem_map]
    · rw [Hopscotch.hnth_oob _ i (by rw [hlenC]; omega)]
  have hnb0 : ∀ i, (m.Clear.nthHBucket i).getNeighborhood = 0 := by
    intro i
    show (m.Clear.nthHBucket i).hopInfo >>> 1 = 0
    rw [hhop0 i, Nat.shiftRight_eq_div_pow]
  have hemp1 : ∀ i, (m.Clear.nthHBucket i).isEmpty = true := by
    intro i
    rw [HBucket.isEmpty_eq_bit0, hhop0 i, Nat.zero_testBit]
    rfl
  have hlv : m.Clear.liveEntries = [] := by
    refine List.eq_nil_iff_forall_not_mem.mpr ?_
    rintro ⟨k2, v2⟩ hmem
    obtain ⟨i, _, hocc, _, _⟩ :=
      (Hopscotch.hmem_liveEntries _ k2 v2).mp hmem
    exact hocc (hemp1 i)
  refine ⟨⟨⟨hwf.hcore.pow2, by rw [hlenC]; exact hwf.hcore.cap_le,
    hwf.hcore.hsize, ?_, ?_, ?_⟩, ?_, ?_⟩, hlv, rfl, hlenC, rfl, rfl, rfl,
    rfl⟩
  · intro i hi
    rw [hnb0]
    exact Nat.two_pow_pos _
  · intro h d hh hbit
    rw [hnb0, Nat.zero_testBit] at hbit
    exact absurd hbit (by simp)
  · intro s hs hocc
    exact absurd (hemp1 s) hocc
  · rw [hlv]
    rfl
  · rw [hlv]
    simp

/-- hclear_get: after Clear every lookup misses, for every key. -/
theorem Hopscotch.hclear_get [DecidableEq K] [Inhabited K] [Inhabited V]
    (m : Hopscotch K V) (k : K) : m.Clear.Get k = none := by
  have hhop0 : ∀ i, (m.Clear.nthHBucket i).hopInfo = 0 := by
    intro i
    by_cases hi : i < m.buckets.length
    · have hlenC : m.Clear.buckets.length = m.buckets.length := by
        show (m.buckets.map _).length = _
        rw [List.length_map]
      rw [Hopscotch.hnth_eq_get _ i (by rw [hlenC]; exact hi)]
      show ((m.buckets.map (fun b => (⟨0, b.key, b.val⟩ : HBucket K V))).get
        ⟨i, _⟩).hopInfo = 0
      simp [List.get_eq_getElem, List.getElem_map]
    · have hlenC : m.Clear.buckets.length = m.buckets.length := by
        show (m.buckets.map _).length = _
        rw [List.length_map]
      rw [Hopscotch.hnth_oob _ i (by rw [hlenC]; omega)]
  have hnb0 : ∀ i, (m.Clear.nthHBucket i).getNeighborhood = 0 := by
    intro i
    show (m.Clear.nthHBucket i).hopInfo >>> 1 = 0
    rw [hhop0 i, Nat.shiftRight_eq_div_pow]
  have hs : m.Clear.search (m.Clear.hasher k &&& m.Clear.capMinus1) k =
      none := by
    unfold Hopscotch.search
    rw [hnb0]
    exact hsearchLoop_nb0 _ k _ _
  unfold Hopscotch.Get
  rw [hs]

/-- hmaxload_spec: MaxLoad reports the error exactly for ratios at or
below zero or at or above one, leaves the table unchanged in that case,
and otherwise rewrites only the max-load factor and the resize threshold
(computed from the backing length), preserving well-formedness. -/
theorem Hopscotch.hmaxload_spec [DecidableEq K] [Inhabited K] [Inhabited V]
    (m : Hopscotch K V) (lf : Frac) :
    ((m.MaxLoad lf).2 = true ↔ (lf.num ≤ 0 ∨ (lf.den : Int) ≤ lf.num)) ∧
    ((m.MaxLoad lf).2 = true → (m.MaxLoad lf).1 = m) ∧
    ((m.MaxLoad lf).2 = false → (m.MaxLoad lf).1 = { m with maxLoad := lf, nextResize := Frac.mulNatFloor m.buckets.length lf }) ∧
    (m.WF → (m.MaxLoad lf).1.WF) := by
  unfold Hopscotch.MaxLoad
  by_cases hc : lf.num ≤ 0 ∨ (lf.den : Int) ≤ lf.num
  · rw [if_pos hc]
    exact ⟨⟨fun _ => hc, fun _ => rfl⟩, fun _ => rfl,
      fun hq => absurd hq (by simp), fun hwf => hwf⟩
  · rw [if_neg hc]
    refine ⟨⟨fun hq => absurd hq (by simp), fun hq => absurd hq hc⟩,
      fun hq => absurd hq (by simp), fun _ => rfl, ?_⟩
    intro hwf
    refine ⟨Hopscotch.hcore_transport m _ rfl rfl rfl rfl hwf.hcore, ?_, ?_⟩
    · have hlv : ({ m with maxLoad := lf, nextResize := Frac.mulNatFloor m.buckets.length lf } : Hopscotch K V).liveEntries = m.liveEntries :=
        (Hopscotch.hlive_transport m _ rfl).symm
      rw [hlv]
      exact hwf.count
    · have hlv : ({ m with maxLoad := lf, nextResize := Frac.mulNatFloor m.buckets.length lf } : Hopscotch K V).liveEntries = m.liveEntries :=
        (Hopscotch.hlive_transport m _ rfl).symm
      rw [hlv]
      exact hwf.keys_nodup

/-- hcopy_eq: Copy rebuilds the identical table value. -/
theorem Hopscotch.hcopy_eq [DecidableEq K] [Inhabited K] [Inhabited V]
    (m : Hopscotch K V) : m.Copy = m := rfl

/-- hreserve_spec: a successful Reserve preserves well-formedness and the
live entries. -/
theorem Hopscotch.hreserve_spec [DecidableEq K] [Inhabited K] [Inhabited V]
    (m : Hopscotch K V) (hwf : m.WF) (n : Nat) (m' : Hopscotch K V)
    (hrun : m.Reserve n = some m') :
    m'.WF ∧ m'.liveEntries.Perm m.liveEntries ∧ m'.hasher = m.hasher ∧
    m'.length = m.length ∧ m'.maxLoad = m.maxLoad := by
  have hrun2 : (if m.buckets.length <
      NextPowerOf2 (Frac.divNatFloor n m.maxLoad) then
        Hopscotch.resize hopFuel m
          (NextPowerOf2 (Frac.divNatFloor n m.maxLoad))
      else some m) = some m' := hrun
  clear hrun
  split at hrun2
  · rename_i hlt
    rcases NextPowerOf2_pow2 (Frac.divNatFloor n m.maxLoad) with h0 | ⟨t, ht⟩
    · rw [h0] at hlt
      omega
    · obtain ⟨r1, r2, r3, r4, r5, r6⟩ :=
        Hopscotch.hresize_spec hopFuel m _ m' hwf.hcore hwf.keys_nodup
          ⟨t, ht⟩ hrun2
      refine ⟨⟨r1, ?_, r6⟩, r2, r3, r4, r5⟩
      rw [r2.length_eq, hwf.count, r4]
  · have hm' : m = m' := Option.some.inj hrun2
    rw [← hm']
    exact ⟨hwf, List.Perm.refl _, rfl, rfl, rfl⟩

/-- hnew_spec: NewWithHasher builds the 12-slot fresh table with masked
capacity 8, neighborhood 4 and resize threshold 5. -/
theorem Hopscotch.hnew_spec [DecidableEq K] [Inhabited K] [Inhabited V]
    (hasher : K → Nat) :
    (Hopscotch.NewWithHasher hasher : Option (Hopscotch K V)) =
      some { buckets := hopFreshBuckets 12, hasher := hasher, length := 0, capMinus1 := 7, neighborhoodSize := 4, nextResize := 5, maxLoad := DefaultMaxLoad } := by
  have h5 : Frac.divNatFloor DefaultSize DefaultMaxLoad = 5 := rfl
  have h8 : NextPowerOf2 5 = 8 := rfl
  have hm : Frac.mulNatFloor 8 DefaultMaxLoad = 5 := rfl
  show ({ buckets := [], hasher := hasher, length := 0, capMinus1 := 0, neighborhoodSize := 4, nextResize := 0, maxLoad := DefaultMaxLoad } : Hopscotch K V).Reserve DefaultSize = _
  simp only [Hopscotch.Reserve, h5, h8, List.length_nil, Hopscotch.resize,
    List.foldl_nil, Hopscotch.rehashStart, hm]
  norm_num

/-- hnew_wf: the fresh table produced by NewWithHasher is well-formed and
empty. -/
theorem Hopscotch.hnew_wf [DecidableEq K] [Inhabited K] [Inhabited V]
    (hasher : K → Nat) :
    ({ buckets := hopFreshBuckets 12, hasher := hasher, length := 0, capMinus1 := 7, neighborhoodSize := 4, nextResize := 5, maxLoad := DefaultMaxLoad } : Hopscotch K V).WF ∧
    ({ buckets := hopFreshBuckets 12, hasher := hasher, length := 0, capMinus1 := 7, neighborhoodSize := 4, nextResize := 5, maxLoad := DefaultMaxLoad } : Hopscotch K V).liveEntries = [] := by
  set M : Hopscotch K V := { buckets := hopFreshBuckets 12, hasher := hasher, length := 0, capMinus1 := 7, neighborhoodSize := 4, nextResize := 5, maxLoad := DefaultMaxLoad } with hM
  have hnth : ∀ i, M.nthHBucket i = ⟨0, default, default⟩ := by
    intro i
    show (hopFreshBuckets 12 : List (HBucket K V)).getD i ⟨0, default, default⟩ = _
    exact hopFresh_getD _ _
  have hlen : M.buckets.length = 12 := by
    show (hopFreshBuckets 12 : List (HBucket K V)).length = 12
    unfold hopFreshBuckets
    rw [List.length_replicate]
  have hlv : M.liveEntries = [] := by
    show (hopFreshBuckets 12 : List (HBucket K V)).filterMap _ = []
    exact hopFresh_liveFilter _
  refine ⟨⟨⟨⟨3, by norm_num⟩, by rw [hlen]; norm_num, Or.inl rfl, ?_, ?_,
    ?_⟩, ?_, ?_⟩, hlv⟩
  · intro i hi
    rw [hnth i, hopZero_nb]
    exact Nat.two_pow_pos _
  · intro h d hh hbit
    rw [hnth h, hopZero_nb, Nat.zero_testBit] at hbit
    exact absurd hbit (by simp)
  · intro s hs hocc
    exact absurd (hnth s ▸ hopZero_isEmpty) hocc
  · rw [hlv]
    rfl
  · rw [hlv]
    simp

/-- hreachable_WF: every hopscotch table reachable through the public
operations is well-formed. -/
theorem Hopscotch.hreachable_WF [DecidableEq K] [Inhabited K] [Inhabited V]
    (m : Hopscotch K V) (hr : Hopscotch.Reachable m) : m.WF := by
  induction hr with
  | new hasher m0 hnew =>
    rw [@Hopscotch.hnew_spec K V _ _ _ hasher] at hnew
    have hm0 := Option.some.inj hnew
    rw [← hm0]
    exact (Hopscotch.hnew_wf hasher).1
  | put k v _ hrun ih =>
    exact (Hopscotch.hput_spec _ ih k v _ _ hrun).1
  | remove k _ ih =>
    rename_i mr _
    obtain ⟨m2, b, heq, hwf2, _⟩ := mr.hremove_spec ih k
    rw [heq]
    exact hwf2
  | clear _ ih =>
    rename_i mc _
    exact (mc.hclear_spec ih).1
  | reserve n _ hrun ih =>
    exact (Hopscotch.hreserve_spec _ ih n _ hrun).1
  | maxload lf _ ih =>
    rename_i mm _
    exact (mm.hmaxload_spec lf).2.2.2 ih
  | copy _ ih =>
    rename_i mc2 _
    rw [mc2.hcopy_eq]
    exact ih

/-! Shared list helpers for the claim assemblies. -/

theorem nodup_key_unique {α β : Type} (L : List (α × β))
    (hnd : (L.map Prod.fst).Nodup) (k : α) (a b : β)
    (ha : (k, a) ∈ L) (hb : (k, b) ∈ L) : a = b := by
  induction L with
  | nil => exact absurd ha (List.not_mem_nil _)
  | cons c t ih =>
    rw [List.map_cons] at hnd
    have hnd2 := List.nodup_cons.mp hnd
    rcases List.mem_cons.mp ha with ha1 | ha1 <;>
      rcases List.mem_cons.mp hb with hb1 | hb1
    · exact congrArg Prod.snd (ha1.trans hb1.symm)
    · exfalso
      refine hnd2.1 ?_
      have hc1 : c.1 = k := (congrArg Prod.fst ha1).symm
      rw [hc1]
      exact List.mem_map.mpr ⟨(k, b), hb1, rfl⟩
    · exfalso
      refine hnd2.1 ?_
      have hc1 : c.1 = k := (congrArg Prod.fst hb1).symm
      rw [hc1]
      exact List.mem_map.mpr ⟨(k, a), ha1, rfl⟩
    · exact ih hnd2.2 ha1 hb1

theorem key_not_mem_of_absent {α β : Type} (L : List (α × β)) (k : α)
    (habs : ∀ v, ¬ (k, v) ∈ L) : ¬ k ∈ L.map Prod.fst := by
  intro hk
  obtain ⟨p, hp, hfst⟩ := List.mem_map.mp hk
  refine habs p.2 ?_
  have hpe : (p.1, p.2) = p := rfl
  rw [← hfst, hpe]
  exact hp

theorem swap_pair_mem {α β : Type} (L2 L1 : List (α × β)) (k : α) (v0 v1 : β)
    (hperm : (L2 ++ [(k, v0)]).Perm (L1 ++ [(k, v1)]))
    (hv0 : (k, v0) ∈ L1) : (k, v1) ∈ L2 := by
  by_cases hvv : v1 = v0
  · rw [hvv] at hperm ⊢
    have h2 : L2.Perm L1 := (List.perm_append_right_iff _).mp hperm
    exact (h2.mem_iff).mpr hv0
  · have h1 : (k, v1) ∈ L2 ++ [(k, v0)] :=
      (hperm.mem_iff).mpr
        (List.mem_append.mpr (Or.inr (List.mem_singleton.mpr rfl)))
    rcases List.mem_append.mp h1 with h2 | h2
    · exact h2
    · rw [List.mem_singleton] at h2
      exact absurd (congrArg Prod.snd h2) hvv

theorem removed_key_absent {α β : Type} (L2 L1 : List (α × β)) (k : α)
    (v0 : β) (hperm : (L2 ++ [(k, v0)]).Perm L1)
    (hnd : (L1.map Prod.fst).Nodup) : ∀ v2, ¬ (k, v2) ∈ L2 := by
  intro v2 hmem
  have hnd2 : ((L2 ++ [(k, v0)]).map Prod.fst).Nodup :=
    ((hperm.map Prod.fst).nodup_iff).mpr hnd
  rw [List.map_append] at hnd2
  have hdis := List.disjoint_of_nodup_append hnd2
  refine hdis (List.mem_map.mpr ⟨(k, v2), hmem, rfl⟩) ?_
  show k ∈ [(k, v0)].map Prod.fst
  simp

/-! Hopscotch lookup-cost toolkit. -/

theorem hexamined_length : ∀ (fuel idx nb h : Nat), nb < 2 ^ h →
    (hopExamined fuel idx nb).length ≤ h := by
  intro fuel
  induction fuel with
  | zero =>
    intro idx nb h _
    simp [hopExamined]
  | succ n ih =>
    intro idx nb h hnb
    unfold hopExamined
    split
    · simp
    · rename_i hnb0
      have hh : 0 < h := by

        by_contra hc
        push_neg at hc
        have h0 : h = 0 := by omega
        rw [h0, pow_zero] at hnb
        omega
      have hrec : nb >>> 1 < 2 ^ (h - 1) := by
        rw [Nat.shiftRight_eq_div_pow, pow_one]
        have h2 : 2 ^ h = 2 * 2 ^ (h - 1) := by
          obtain ⟨g, hg⟩ : ∃ g, h = g + 1 := ⟨h - 1, by omega⟩
          subst hg
          rw [Nat.add_sub_cancel, pow_succ]
          ring
        omega
      have h4 := ih (idx + 1) (nb >>> 1) (h - 1) hrec
      simp only [List.length_cons]
      omega

theorem hexamined_mem : ∀ (fuel idx nb h : Nat), nb < 2 ^ h →
    ∀ x ∈ hopExamined fuel idx nb, idx ≤ x ∧ x < idx + h := by
  intro fuel
  induction fuel with
  | zero =>
    intro idx nb h _ x hx
    exact absurd hx (by simp [hopExamined])
  | succ n ih =>
    intro idx nb h hnb x hx
    unfold hopExamined at hx
    split at hx
    · exact absurd hx (List.not_mem_nil _)
    · rename_i hnb0
      have hh : 0 < h := by
        by_contra hc
        push_neg at hc
        have h0 : h = 0 := by omega
        rw [h0, pow_zero] at hnb
        omega
      have hrec : nb >>> 1 < 2 ^ (h - 1) := by
        rw [Nat.shiftRight_eq_div_pow, pow_one]
        have h2 : 2 ^ h = 2 * 2 ^ (h - 1) := by
          obtain ⟨g, hg⟩ : ∃ g, h = g + 1 := ⟨h - 1, by omega⟩
          subst hg
          rw [Nat.add_sub_cancel, pow_succ]
          ring
        omega
      rcases List.mem_cons.mp hx with hx1 | hx1
      · omega
      · have h4 := ih (idx + 1) (nb >>> 1) (h - 1) hrec x hx1
        omega

theorem hsearchLoop_mem_examined [DecidableEq K] [Inhabited K] [Inhabited V]
    (m : Hopscotch K V) (key : K) :
    ∀ (fuel idx nb j : Nat), m.searchLoop key fuel idx nb = some j →
      j ∈ hopExamined fuel idx nb := by
  intro fuel
  induction fuel with
  | zero =>
    intro idx nb j hj
    exact absurd hj (by simp [Hopscotch.searchLoop])
  | succ n ih =>
    intro idx nb j hj
    unfold Hopscotch.searchLoop at hj
    unfold hopExamined
    by_cases hnb : nb = 0
    · rw [if_pos hnb] at hj
      exact absurd hj (by simp)
    · rw [if_neg hnb] at hj
      rw [if_neg hnb]
      by_cases hhit : nb &&& 1 = 1 ∧ (m.nthHBucket idx).key = key
      · rw [if_pos hhit] at hj
        have hji : j = idx := (Option.some.inj hj).symm
        rw [hji]
        exact List.mem_cons_self _ _
      · rw [if_neg hhit] at hj
        exact List.mem_cons.mpr (Or.inr (ih (idx + 1) (nb >>> 1) j hj))

theorem load_ratio_bounds (l L : Nat) (hL : 0 < L) (hlt : l < L) :
    0 ≤ (l : ℚ) / (L : ℚ) ∧ (l : ℚ) / (L : ℚ) < 1 := by
  constructor
  · positivity
  · rw [div_lt_one (by exact_mod_cast hL)]
    exact_mod_cast hlt

theorem load_ratio_le (l L : Nat) (hL : 0 < L) (hle : l ≤ L) :
    0 ≤ (l : ℚ) / (L : ℚ) ∧ (l : ℚ) / (L : ℚ) ≤ 1 := by
  constructor
  · positivity
  · rw [div_le_one (by exact_mod_cast hL)]
    exact_mod_cast hle

/-! Claim theorems. -/

/-- C3: the chained Unordered table's MaxLoad only rejects ratios at or
below zero: the ratio 3/2, which lies outside the documented open
interval (0,1), is accepted, the stored max-load factor and resize
threshold are overwritten, and no error is reported, unlike the RobinHood
variant which rejects the same ratio. -/
theorem claim_maxload_bug :
    (((Unordered.NewWithHasher (fun x => x) :
        Unordered Nat Nat).MaxLoad ⟨3, 2⟩).2 = false) ∧
    (((Unordered.NewWithHasher (fun x => x) :
        Unordered Nat Nat).MaxLoad ⟨3, 2⟩).1.maxLoad = ⟨3, 2⟩) ∧
    (((Unordered.NewWithHasher (fun x => x) :
        Unordered Nat Nat).MaxLoad ⟨3, 2⟩).1.nextResize = 12) ∧
    (((⟨3, 2⟩ : Frac).den : Int) ≤ (⟨3, 2⟩ : Frac).num) ∧
    (∀ m : RobinHood Nat Nat, (m.MaxLoad ⟨3, 2⟩).2 = true) := by
  refine ⟨rfl, rfl, rfl, by decide, ?_⟩
  intro m
  show (if (⟨3, 2⟩ : Frac).num ≤ 0 ∨ ((⟨3, 2⟩ : Frac).den : Int) ≤
    (⟨3, 2⟩ : Frac).num then (m, true) else _).2 = true
  rw [if_pos (by decide)]

/-- C5: Clear empties the table without shrinking it: size drops to zero,
lookups miss for every key, and the backing-store size is unchanged.
Confirmed for the chained, RobinHood and Hopscotch tables for every key
and for the Flat table for every non-sentinel key; a Get of the sentinel
key after Clear still panics, refuting the unrestricted every-key claim
(see the counterexample). -/
theorem claim_clear [DecidableEq K] [Inhabited K] [Inhabited V] :
    (∀ (m : Unordered K V), m.Reachable →
      m.Clear.Size = 0 ∧ (∀ k, m.Clear.Get k = none) ∧
      m.Clear.buckets.length = m.buckets.length) ∧
    (∀ (m : Flat K V), m.Reachable →
      m.Clear.Size = 0 ∧ (∀ k, ¬ k = m.empty → m.Clear.Get k = some none) ∧
      m.Clear.buckets.length = m.buckets.length) ∧
    (∀ (m : RobinHood K V), m.Reachable →
      m.Clear.Size = 0 ∧ (∀ k, m.Clear.Get k = some none) ∧
      m.Clear.buckets.length = m.buckets.length) ∧
    (∀ (m : Hopscotch K V), m.Reachable →
      m.Clear.Size = 0 ∧ (∀ k, m.Clear.Get k = none) ∧
      m.Clear.buckets.length = m.buckets.length ∧
      m.Clear.capMinus1 = m.capMinus1) := by
  refine ⟨?_, ?_, ?_, ?_⟩
  · intro m hr
    have hwf := Unordered.reachable_WF hr
    obtain ⟨hsz, hget, hbl, _⟩ := Unordered.clear_spec hwf
    exact ⟨hsz, hget, hbl⟩
  · intro m hr
    have hwf := m.freachable_WF hr
    obtain ⟨_, _, hsz, _, _, hbl⟩ := m.fclear_spec hwf
    exact ⟨hsz, fun k hk => m.fclear_get hwf k hk, hbl⟩
  · intro m hr
    have hwf := m.rreachable_WF hr
    obtain ⟨_, _, hlen, hbl⟩ := m.rclear_spec hwf
    exact ⟨hlen, fun k => m.rclear_get hwf k, hbl⟩
  · intro m hr
    have hwf := m.hreachable_WF hr
    obtain ⟨_, _, hlen, hbl, hcap, _, _, _⟩ := m.hclear_spec hwf
    exact ⟨hlen, fun k => m.hclear_get k, hbl, hcap⟩

/-- C5 counterexample: on the Flat table, Get of the sentinel key after
Clear panics (modelled as none) instead of reporting not-found. -/
theorem claim_clear_counterexample :
    (Flat.NewWithHasher 0 (fun x => x) : Flat Nat Nat).Clear.Get 0 = none ∧
    ¬ (Flat.NewWithHasher 0 (fun x => x) : Flat Nat Nat).Clear.Get 0 =
      some none := by
  refine ⟨rfl, ?_⟩
  intro h
  have h2 : (none : Option (Option Nat)) = some none := by
    rw [← h]
    rfl
  exact absurd h2 (by simp)

/-- C6: the chained Unordered table's Copy first copies the struct with
its length field and then re-Puts every stored pair, so the copy reports
twice the size of the original while holding the same contents: after one
Put the original has size 1 but its copy has size 2, refuting the claimed
size equality. -/
theorem claim_copy_bug :
    ((Unordered.NewWithHasher (fun x => x) :
      Unordered Nat Nat).Put 1 2).1.Size = 1 ∧
    ((Unordered.NewWithHasher (fun x => x) :
      Unordered Nat Nat).Put 1 2).1.Copy.Size = 2 ∧
    ((Unordered.NewWithHasher (fun x => x) :
      Unordered Nat Nat).Put 1 2).1.Copy.Get 1 = some 2 ∧
    ¬ ((Unordered.NewWithHasher (fun x => x) :
        Unordered Nat Nat).Put 1 2).1.Copy.Size =
      ((Unordered.NewWithHasher (fun x => x) :
        Unordered Nat Nat).Put 1 2).1.Size := by
  refine ⟨rfl, rfl, rfl, ?_⟩
  intro h
  have h2 : (2 : Nat) = 1 := h
  omega

/-- C7: on every reachable Hopscotch table the lookup for any key only
walks the home bucket's neighborhood bitmap: the examined slot list has
length at most the current neighborhood size, stays inside the window
home..home+H-1, contains every slot the search can return, and the
neighborhood size itself follows the growth schedule 4, 8, 16, 32, 63 and
never exceeds 63. -/
theorem claim_hop_get_cost [DecidableEq K] [Inhabited K] [Inhabited V] :
    ∀ (m : Hopscotch K V), m.Reachable → ∀ k : K,
      (m.neighborhoodSize = 4 ∨ m.neighborhoodSize = 8 ∨
        m.neighborhoodSize = 16 ∨ m.neighborhoodSize = 32 ∨
        m.neighborhoodSize = 63) ∧
      m.neighborhoodSize ≤ 63 ∧
      (hopExamined hopFuel (m.home k)
        ((m.nthHBucket (m.home k)).getNeighborhood)).length ≤
          m.neighborhoodSize ∧
      (∀ x ∈ hopExamined hopFuel (m.home k)
        ((m.nthHBucket (m.home k)).getNeighborhood),
        m.home k ≤ x ∧ x < m.home k + m.neighborhoodSize) ∧
      (∀ j, m.search (m.home k) k = some j →
        j ∈ hopExamined hopFuel (m.home k)
          ((m.nthHBucket (m.home k)).getNeighborhood)) ∧
      (∀ v, m.Get k = some v → ∃ j, m.search (m.home k) k = some j ∧
        (m.nthHBucket j).val = v) := by
  intro m hr k
  have hwf := m.hreachable_WF hr
  have hhl : m.home k < m.buckets.length :=
    Nat.lt_of_lt_of_le (m.hhome_lt k) hwf.hcore.cap_le
  have hnb := hwf.hcore.bits_lt _ hhl
  refine ⟨hwf.hcore.hsize, hwf.hcore.hsize_le,
    hexamined_length _ _ _ _ hnb,
    fun x hx => hexamined_mem _ _ _ _ hnb x hx, ?_, ?_⟩
  · intro j hj
    unfold Hopscotch.search at hj
    exact hsearchLoop_mem_examined m k _ _ _ j hj
  · intro v hv
    unfold Hopscotch.Get at hv
    rw [m.hhome_eq_mask hwf.hcore.pow2 k] at hv
    split at hv
    · rename_i j heq
      exact ⟨j, heq, Option.some.inj hv⟩
    · exact absurd hv (by simp)

/-- C8: every reachable Flat table satisfies probe continuity: for every
occupied slot, every slot whose cyclic distance from that key's home slot
is at most the slot's own distance is also occupied; and after any
successful Remove, Get still finds every remaining live pair. -/
theorem claim_flat_probe_continuity [DecidableEq K] [Inhabited K]
    [Inhabited V] :
    ∀ (m : Flat K V), m.Reachable →
      (∀ i, i < m.buckets.length → ¬ (m.nthBucket i).key = m.empty →
        ∀ u, u < m.buckets.length →
          cycDist m.buckets.length (m.home (m.nthBucket i).key) u ≤
            cycDist m.buckets.length (m.home (m.nthBucket i).key) i →
          ¬ (m.nthBucket u).key = m.empty) ∧
      (∀ k, ¬ k = m.empty → ∀ m2 b, m.Remove k = some (m2, b) →
        ∀ k2 v2, (k2, v2) ∈ m2.liveEntries →
          m2.Get k2 = some (some v2)) := by
  intro m hr
  have hwf := m.freachable_WF hr
  refine ⟨hwf.continuity, ?_⟩
  intro k hk m2 b hrem k2 v2 hmem
  obtain ⟨m2', b', heq', hwf2, _⟩ := m.fremove_spec hwf k hk
  rw [hrem] at heq'
  have hpair := Option.some.inj heq'
  injection hpair with hm2 hb2
  rw [hm2]
  refine m2'.fget_found hwf2 k2 v2 ?_
  rw [← hm2]
  exact hmem

/-- C9: calling Get, Put or Remove on the Flat table with the configured
empty-sentinel key itself panics (modelled by the operation returning
none rather than a result), on every table. -/
theorem claim_flat_sentinel [DecidableEq K] [Inhabited K] [Inhabited V] :
    ∀ (m : Flat K V) (v : V),
      m.Get m.empty = none ∧ m.Put m.empty v = none ∧
      m.Remove m.empty = none := by
  intro m v
  refine ⟨?_, ?_, ?_⟩
  · unfold Flat.Get
    rw [if_pos rfl]
  · unfold Flat.Put
    rw [if_pos rfl]
  · unfold Flat.Remove
    rw [if_pos rfl]

/-- Witness for C7 at the fresh 12-slot hopscotch table and key 1. -/
theorem claim_hop_get_cost_witness :
    ({ buckets := hopFreshBuckets 12, hasher := fun x => x, length := 0, capMinus1 := 7, neighborhoodSize := 4, nextResize := 5, maxLoad := DefaultMaxLoad } : Hopscotch Nat Nat).neighborhoodSize ≤ 63 ∧
    (hopExamined hopFuel
      (({ buckets := hopFreshBuckets 12, hasher := fun x => x, length := 0, capMinus1 := 7, neighborhoodSize := 4, nextResize := 5, maxLoad := DefaultMaxLoad } : Hopscotch Nat Nat).home 1)
      ((({ buckets := hopFreshBuckets 12, hasher := fun x => x, length := 0, capMinus1 := 7, neighborhoodSize := 4, nextResize := 5, maxLoad := DefaultMaxLoad } : Hopscotch Nat Nat).nthHBucket
        (({ buckets := hopFreshBuckets 12, hasher := fun x => x, length := 0, capMinus1 := 7, neighborhoodSize := 4, nextResize := 5, maxLoad := DefaultMaxLoad } : Hopscotch Nat Nat).home 1)).getNeighborhood)).length ≤
      ({ buckets := hopFreshBuckets 12, hasher := fun x => x, length := 0, capMinus1 := 7, neighborhoodSize := 4, nextResize := 5, maxLoad := DefaultMaxLoad } : Hopscotch Nat Nat).neighborhoodSize := by
  have h1 := claim_hop_get_cost
    ({ buckets := hopFreshBuckets 12, hasher := fun x => x, length := 0, capMinus1 := 7, neighborhoodSize := 4, nextResize := 5, maxLoad := DefaultMaxLoad } : Hopscotch Nat Nat)
    (Hopscotch.Reachable.new (fun x => x) _ rfl) 1
  exact ⟨h1.2.1, h1.2.2.1⟩

/-- Witness for C8 at the four-slot flat table holding the pair (1, 2),
after a Remove of the absent key 5. -/
theorem claim_flat_probe_continuity_witness :
    ({ buckets := (flatNewBucketArray 4 0).set 1 ⟨1, 2⟩, empty := 0, hasher := fun x => x, capMinus1 := 3, length := 1 } : Flat Nat Nat).Get 1 =
      some (some 2) := by
  have hreach : Flat.Reachable ({ buckets := (flatNewBucketArray 4 0).set 1 ⟨1, 2⟩, empty := 0, hasher := fun x => x, capMinus1 := 3, length := 1 } : Flat Nat Nat) :=
    Flat.Reachable.put 1 2 (Flat.Reachable.new 0 (fun x => x)) rfl
  exact (claim_flat_probe_continuity _ hreach).2 5 (by decide) _ false rfl
    1 2 (by decide)

/-! Lemmas about the wrapping robin-hood model. The reachable 128-key
probe cluster below is where the int8 wrap of the Go code first fires:
keys 1..128 all hash to slot 0, fill slots 0..127 with psl 0..127, and
any further probe walk wraps its counter from 127 to -128. -/

theorem wrap8_eq_self (x : Int) (h1 : -128 ≤ x) (h2 : x ≤ 127) : wrap8 x = x := by
  unfold wrap8
  have h3 : (x + 128) % 256 = x + 128 := Int.emod_eq_of_lt (by omega) (by omega)
  rw [h3]
  omega

theorem wrap8_128 : wrap8 128 = -128 := by decide

theorem mask255 (x : Nat) : x &&& 255 = x % 256 := mask_eq_mod 255 x 8 rfl

theorem clusterBuckets_length (c : Nat) : (clusterBuckets c).length = 256 := by
  simp [clusterBuckets]

theorem cluster_nth_lt (c l i : Nat) (h1 : i < c) (h2 : i < 256) :
    (clusterState c l).nthRBucket i = ⟨i + 1, (i : Int), i + 1⟩ := by
  show (clusterBuckets c).getD i ⟨default, -1, default⟩ = _
  rw [getD_eq_getElem_of_lt _ _ _ (by rw [clusterBuckets_length]; exact h2)]
  simp only [clusterBuckets, List.getElem_map, List.getElem_range]
  rw [if_pos h1]

theorem cluster_nth_ge (c l i : Nat) (h1 : c ≤ i) :
    (clusterState c l).nthRBucket i = ⟨0, -1, 0⟩ := by
  show (clusterBuckets c).getD i ⟨default, -1, default⟩ = _
  by_cases h2 : i < 256
  · rw [getD_eq_getElem_of_lt _ _ _ (by rw [clusterBuckets_length]; exact h2)]
    simp only [clusterBuckets, List.getElem_map, List.getElem_range]
    rw [if_neg (by omega)]
  · rw [List.getD_eq_default _ _ (show (clusterBuckets c).length ≤ i by
      rw [clusterBuckets_length]; omega)]
    rfl

theorem cluster_set_next (c : Nat) (hc : c < 256) :
    (clusterBuckets c).set c ⟨c + 1, (c : Int), c + 1⟩ = clusterBuckets (c + 1) := by
  apply List.ext_getElem
  · simp [clusterBuckets]
  · intro i h1 h2
    rw [List.getElem_set]
    simp only [clusterBuckets, List.getElem_map, List.getElem_range]
    by_cases h : c = i
    · subst h
      rw [if_pos rfl, if_pos (by omega)]
    · rw [if_neg h]
      by_cases h3 : i < c
      · rw [if_pos h3, if_pos (by omega)]
      · rw [if_neg h3, if_neg (by omega)]

theorem cluster_set_id :
    (clusterBuckets 128).set 128 (⟨0, -1, 0⟩ : RBucket Nat Nat) = clusterBuckets 128 := by
  apply List.ext_getElem
  · simp
  · intro i h1 h2
    rw [List.getElem_set]
    by_cases h : 128 = i
    · subst h
      simp only [clusterBuckets, List.getElem_map, List.getElem_range]
      simp
    · rw [if_neg h]

theorem robinNewBucketArray_length [Inhabited K] [Inhabited V] (n : Nat) :
    (robinNewBucketArray n : List (RBucket K V)).length = n := by
  show (List.replicate n (⟨default, -1, default⟩ : RBucket K V)).length = n
  rw [List.length_replicate]

theorem cluster_zero :
    (robinNewBucketArray 256 : List (RBucket Nat Nat)) = clusterBuckets 0 := by
  apply List.ext_getElem
  · rw [robinNewBucketArray_length, clusterBuckets_length]
  · intro i hi1 hi2
    have h3 : i < 256 := by rw [robinNewBucketArray_length] at hi1; exact hi1
    have hlen : i < (List.replicate 256 (⟨default, -1, default⟩ : RBucket Nat Nat)).length := by
      rw [List.length_replicate]
      exact h3
    have h4 : (robinNewBucketArray 256 : List (RBucket Nat Nat))[i] =
        (⟨default, -1, default⟩ : RBucket Nat Nat) := List.getElem_replicate _ _
    rw [h4]
    simp only [clusterBuckets, List.getElem_map, List.getElem_range]
    rw [if_neg (Nat.not_lt_zero i)]
    rfl

theorem emplaceW_place [DecidableEq K] [Inhabited K] [Inhabited V]
    (m : RobinHood K V) (cur : RBucket K V) (idx fuel : Nat)
    (h : (m.nthRBucket idx).psl = -1) :
    RobinHood.emplaceW m cur idx (fuel + 1) =
      some { m with buckets := m.buckets.set idx cur } := by
  rw [RobinHood.emplaceW, if_pos (by rw [h]; rfl)]

theorem putLoopW_cluster_insert (c : Nat) (hc : c ≤ 127) :
    ∀ d j fuel, j + d = c →
      RobinHood.putLoopW (clusterState c c) (c + 1) (c + 1) (d + fuel + 2) j
        ((j : Nat) : Int) = some (clusterState (c + 1) (c + 1), true) := by
  intro d
  induction d with
  | zero =>
    intro j fuel hj
    have hjc : j = c := by omega
    subst hjc
    simp only [Nat.zero_add]
    rw [show fuel + 2 = fuel + 1 + 1 from rfl]
    rw [RobinHood.putLoopW]
    rw [cluster_nth_ge j j j (le_refl j)]
    rw [if_neg (show ¬ (((j : Nat) : Int) ≤ (⟨0, -1, 0⟩ : RBucket Nat Nat).psl) from by
      show ¬ (((j : Nat) : Int) ≤ -1)
      omega)]
    have hrec : ({ clusterState j j with
        length := ((clusterState j j).length + 1) % 2 ^ 64 } : RobinHood Nat Nat) =
        clusterState j (j + 1) := by
      show clusterState j ((j + 1) % 2 ^ 64) = clusterState j (j + 1)
      have h64 : j + 1 < 2 ^ 64 :=
        lt_of_le_of_lt (show j + 1 ≤ 128 by omega) (by norm_num)
      rw [Nat.mod_eq_of_lt h64]
    rw [hrec]
    rw [emplaceW_place (clusterState j (j + 1)) ⟨j + 1, (j : Int), j + 1⟩ j fuel
      (by rw [cluster_nth_ge j (j + 1) j (le_refl j)])]
    have hbuck : (clusterState j (j + 1)).buckets.set j ⟨j + 1, (j : Int), j + 1⟩ =
        clusterBuckets (j + 1) := by
      show (clusterBuckets j).set j ⟨j + 1, (j : Int), j + 1⟩ = clusterBuckets (j + 1)
      exact cluster_set_next j (by omega)
    rw [hbuck]
    rfl
  | succ n ih =>
    intro j fuel hj
    have hjlt : j < c := by omega
    rw [show n + 1 + fuel + 2 = n + fuel + 2 + 1 from by omega]
    rw [RobinHood.putLoopW]
    rw [cluster_nth_lt c c j hjlt (by omega)]
    rw [if_pos (show ((j : Nat) : Int) ≤
        (⟨j + 1, (j : Int), j + 1⟩ : RBucket Nat Nat).psl from le_refl _)]
    rw [if_neg (show ¬ (((⟨j + 1, (j : Int), j + 1⟩ : RBucket Nat Nat).key ==
        c + 1) = true) from by
      show ¬ ((j + 1 == c + 1) = true)
      simp only [beq_iff_eq]
      omega)]
    have hmask2 : (j + 1) &&& (clusterState c c).capMinus1 = j + 1 := by
      show (j + 1) &&& 255 = j + 1
      rw [mask255]
      exact Nat.mod_eq_of_lt (by omega)
    rw [hmask2]
    have hwrap : wrap8 (((j : Nat) : Int) + 1) = (((j + 1 : Nat)) : Int) := by
      rw [wrap8_eq_self _ (by omega) (by omega)]
      omega
    rw [hwrap]
    exact ih (j + 1) fuel (by omega)

theorem putW_cluster_step (c : Nat) (hc : c ≤ 127) :
    RobinHood.PutW 300 (clusterState c c) (c + 1) (c + 1) =
      some (clusterState (c + 1) (c + 1), true) := by
  have h := putLoopW_cluster_insert c hc c 0 (298 - c) (by omega)
  rw [show c + (298 - c) + 2 = 300 from by omega] at h
  rw [show ((0 : Nat) : Int) = (0 : Int) from rfl] at h
  unfold RobinHood.PutW
  rw [if_neg (show ¬ ((clusterState c c).nextResize ≤ (clusterState c c).length) from by
    show ¬ (179 ≤ c)
    omega)]
  simp only [Option.some_bind]
  show RobinHood.putLoopW (clusterState c c) (c + 1) (c + 1) 300 (0 &&& 255) 0 =
    some (clusterState (c + 1) (c + 1), true)
  exact h

theorem rnewW_eval :
    RobinHood.NewWithHasherW 1 (fun _ : Nat => 0) =
      some ({ buckets := robinNewBucketArray 8, hasher := fun _ : Nat => 0, length := 0, capMinus1 := 7, nextResize := 5, maxLoad := DefaultMaxLoad } : RobinHood Nat Nat) := by
  rfl

theorem rreserveW_eval :
    RobinHood.ReserveW 1 ({ buckets := robinNewBucketArray 8, hasher := fun _ : Nat => 0, length := 0, capMinus1 := 7, nextResize := 5, maxLoad := DefaultMaxLoad } : RobinHood Nat Nat) 100 = some (clusterState 0 0) := by
  have h1 : RobinHood.ReserveW 1 ({ buckets := robinNewBucketArray 8, hasher := fun _ : Nat => 0, length := 0, capMinus1 := 7, nextResize := 5, maxLoad := DefaultMaxLoad } : RobinHood Nat Nat) 100 =
      some ({ buckets := robinNewBucketArray 256, hasher := fun _ : Nat => 0, length := 0, capMinus1 := 255, nextResize := 179, maxLoad := DefaultMaxLoad } : RobinHood Nat Nat) := by
    rfl
  rw [h1, cluster_zero]
  rfl

theorem rcluster0_reachable : RobinHood.ReachableW (clusterState 0 0) := by
  have h1 := RobinHood.ReachableW.new 1 (fun _ : Nat => 0) _ rnewW_eval
  exact RobinHood.ReachableW.reserve 1 100 h1 rreserveW_eval

theorem rcluster_reachable : ∀ c, c ≤ 128 → RobinHood.ReachableW (clusterState c c) := by
  intro c
  induction c with
  | zero => intro h; exact rcluster0_reachable
  | succ n ih =>
    intro h
    exact RobinHood.ReachableW.put 300 (n + 1) (n + 1) (ih (by omega))
      (putW_cluster_step n (by omega))

set_option maxRecDepth 400000 in
theorem getW_cluster_phantom127 :
    RobinHood.GetW 300 (clusterState 128 127) 0 = some (some 0) := by
  rfl

theorem removeLoopW_cluster_base (l fuel : Nat) :
    RobinHood.removeLoopW (clusterState 128 l) 0 (fuel + 1) 128 (-128) =
      some (some 128) := by
  rw [RobinHood.removeLoopW]
  rw [cluster_nth_ge 128 l 128 (le_refl 128)]
  rw [if_pos (show (-128 : Int) ≤ (⟨0, -1, 0⟩ : RBucket Nat Nat).psl from by decide)]
  rw [if_pos (show ((⟨0, -1, 0⟩ : RBucket Nat Nat).key == (0 : Nat)) = true from by decide)]

theorem removeLoopW_cluster_walk (l : Nat) :
    ∀ d j fuel, j + d = 127 →
      RobinHood.removeLoopW (clusterState 128 l) 0 (d + fuel + 2) j
        ((j : Nat) : Int) = some (some 128) := by
  intro d
  induction d with
  | zero =>
    intro j fuel hj
    have hj127 : j = 127 := by omega
    subst hj127
    simp only [Nat.zero_add]
    rw [show fuel + 2 = fuel + 1 + 1 from rfl]
    rw [RobinHood.removeLoopW]
    rw [cluster_nth_lt 128 l 127 (by omega) (by omega)]
    rw [if_pos (show ((127 : Nat) : Int) ≤
        (⟨127 + 1, ((127 : Nat) : Int), 127 + 1⟩ : RBucket Nat Nat).psl from le_refl _)]
    rw [if_neg (show ¬ (((⟨127 + 1, ((127 : Nat) : Int), 127 + 1⟩ :
        RBucket Nat Nat).key == (0 : Nat)) = true) from by decide)]
    rw [show (127 + 1) &&& (clusterState 128 l).capMinus1 = 128 from by
      show (127 + 1) &&& 255 = 128
      rfl]
    rw [show wrap8 (((127 : Nat) : Int) + 1) = (-128 : Int) from by decide]
    exact removeLoopW_cluster_base l fuel
  | succ n ih =>
    intro j fuel hj
    have hjlt : j < 127 := by omega
    rw [show n + 1 + fuel + 2 = n + fuel + 2 + 1 from by omega]
    rw [RobinHood.removeLoopW]
    rw [cluster_nth_lt 128 l j (by omega) (by omega)]
    rw [if_pos (show ((j : Nat) : Int) ≤
        (⟨j + 1, (j : Int), j + 1⟩ : RBucket Nat Nat).psl from le_refl _)]
    rw [if_neg (show ¬ (((⟨j + 1, (j : Int), j + 1⟩ : RBucket Nat Nat).key ==
        (0 : Nat)) = true) from by
      show ¬ ((j + 1 == 0) = true)
      simp)]
    rw [show (j + 1) &&& (clusterState 128 l).capMinus1 = j + 1 from by
      show (j + 1) &&& 255 = j + 1
      rw [mask255]
      exact Nat.mod_eq_of_lt (by omega)]
    rw [show wrap8 (((j : Nat) : Int) + 1) = (((j + 1 : Nat)) : Int) from by
      rw [wrap8_eq_self _ (by omega) (by omega)]
      omega]
    exact ih (j + 1) fuel (by omega)

theorem backShift_cluster_stop (l fuel : Nat) :
    RobinHood.backShift (clusterState 128 l) 128 129 (fuel + 1) =
      some (clusterState 128 l) := by
  rw [RobinHood.backShift]
  rw [cluster_nth_ge 128 l 129 (by omega)]
  rw [if_neg (show ¬ ((0 : Int) < (⟨0, -1, 0⟩ : RBucket Nat Nat).psl) from by decide)]

set_option maxRecDepth 100000 in
theorem removeW_cluster_phantom (l : Nat) :
    RobinHood.RemoveW 300 (clusterState 128 l) 0 =
      some (clusterState 128 ((l + (2 ^ 64 - 1)) % 2 ^ 64), true) := by
  have hloop : (clusterState 128 l).removeLoopW 0 300
      ((clusterState 128 l).hasher 0 &&& (clusterState 128 l).capMinus1) 0 =
      some (some 128) := by
    show (clusterState 128 l).removeLoopW 0 300 (0 &&& 255) 0 = some (some 128)
    exact removeLoopW_cluster_walk l 127 0 171 (by omega)
  have hstep : RobinHood.RemoveW 300 (clusterState 128 l) 0 =
      (({ buckets := (clusterBuckets 128).set 128 ⟨0, -1, 0⟩, hasher := fun _ : Nat => 0, length := (l + (2 ^ 64 - 1)) % 2 ^ 64, capMinus1 := 255, nextResize := 179, maxLoad := DefaultMaxLoad } : RobinHood Nat Nat).backShift 128 ((128 + 1) &&& (clusterState 128 l).capMinus1) 300).map (fun m2 => (m2, true)) := by
    unfold RobinHood.RemoveW
    rw [hloop]
    rfl
  rw [hstep]
  rw [show (128 + 1) &&& (clusterState 128 l).capMinus1 = 129 from by
    show (128 + 1) &&& 255 = 129
    rfl]
  rw [cluster_set_id]
  show ((clusterState 128 ((l + (2 ^ 64 - 1)) % 2 ^ 64)).backShift 128 129 300).map
    (fun m2 => (m2, true)) = some (clusterState 128 ((l + (2 ^ 64 - 1)) % 2 ^ 64), true)
  rw [show (300 : Nat) = 299 + 1 from rfl]
  rw [backShift_cluster_stop ((l + (2 ^ 64 - 1)) % 2 ^ 64) 299]
  rfl

set_option maxRecDepth 400000 in
theorem putW_zero_phantom :
    RobinHood.PutW 300 (clusterState 128 128) 0 5 =
      some (({ buckets := (clusterBuckets 128).set 128 ⟨0, -1, 5⟩, hasher := fun _ : Nat => 0, length := 128, capMinus1 := 255, nextResize := 179, maxLoad := DefaultMaxLoad } : RobinHood Nat Nat), false) := by
  rfl

theorem putLoopW_129_cycle (l v : Nat) :
    ∀ fuel idx psl, idx < 256 →
      ((idx < 128 ∧ psl = ((idx : Nat) : Int)) ∨
        (128 ≤ idx ∧ psl = ((idx : Nat) : Int) - 256)) →
      RobinHood.putLoopW (clusterState 128 l) 129 v fuel idx psl = none := by
  intro fuel
  induction fuel with
  | zero =>
    intro idx psl h1 h2
    simp [RobinHood.putLoopW]
  | succ n ih =>
    intro idx psl h1 h2
    rw [RobinHood.putLoopW]
    have hmask3 : (idx + 1) &&& (clusterState 128 l).capMinus1 = (idx + 1) % 256 := by
      show (idx + 1) &&& 255 = (idx + 1) % 256
      exact mask255 (idx + 1)
    rcases h2 with ⟨hlt, hpsl⟩ | ⟨hge, hpsl⟩
    · subst hpsl
      rw [cluster_nth_lt 128 l idx hlt h1]
      rw [if_pos (show ((idx : Nat) : Int) ≤
          (⟨idx + 1, (idx : Int), idx + 1⟩ : RBucket Nat Nat).psl from le_refl _)]
      rw [if_neg (show ¬ (((⟨idx + 1, (idx : Int), idx + 1⟩ : RBucket Nat Nat).key ==
          (129 : Nat)) = true) from by
        show ¬ ((idx + 1 == 129) = true)
        simp only [beq_iff_eq]
        omega)]
      rw [hmask3]
      by_cases hi : idx < 127
      · rw [Nat.mod_eq_of_lt (show idx + 1 < 256 by omega)]
        have hwrap : wrap8 (((idx : Nat) : Int) + 1) = (((idx + 1 : Nat)) : Int) := by
          rw [wrap8_eq_self _ (by omega) (by omega)]
          omega
        rw [hwrap]
        exact ih (idx + 1) _ (by omega) (Or.inl ⟨by omega, rfl⟩)
      · have hidx : idx = 127 := by omega
        subst hidx
        rw [show (127 + 1) % 256 = 128 from by decide]
        rw [show wrap8 (((127 : Nat) : Int) + 1) = ((128 : Nat) : Int) - 256 from by decide]
        exact ih 128 _ (by omega) (Or.inr ⟨by omega, rfl⟩)
    · subst hpsl
      rw [cluster_nth_ge 128 l idx hge]
      rw [if_pos (show ((idx : Nat) : Int) - 256 ≤
          (⟨0, -1, 0⟩ : RBucket Nat Nat).psl from by
        show ((idx : Nat) : Int) - 256 ≤ -1
        omega)]
      rw [if_neg (show ¬ (((⟨0, -1, 0⟩ : RBucket Nat Nat).key ==
          (129 : Nat)) = true) from by decide)]
      rw [hmask3]
      by_cases hi : idx < 255
      · rw [Nat.mod_eq_of_lt (show idx + 1 < 256 by omega)]
        have hwrap : wrap8 (((idx : Nat) : Int) - 256 + 1) =
            (((idx + 1 : Nat)) : Int) - 256 := by
          rw [wrap8_eq_self _ (by omega) (by omega)]
          omega
        rw [hwrap]
        exact ih (idx + 1) _ (by omega) (Or.inr ⟨by omega, rfl⟩)
      · have hidx : idx = 255 := by omega
        subst hidx
        rw [show (255 + 1) % 256 = 0 from by decide]
        rw [show wrap8 (((255 : Nat) : Int) - 256 + 1) = ((0 : Nat) : Int) from by decide]
        exact ih 0 _ (by omega) (Or.inl ⟨by omega, rfl⟩)

theorem putW_129_none (l v : Nat) (hl : l < 179) :
    ∀ fuel, RobinHood.PutW fuel (clusterState 128 l) 129 v = none := by
  intro fuel
  unfold RobinHood.PutW
  rw [if_neg (show ¬ ((clusterState 128 l).nextResize ≤ (clusterState 128 l).length) from by
    show ¬ (179 ≤ l)
    omega)]
  simp only [Option.some_bind]
  show RobinHood.putLoopW (clusterState 128 l) 129 v fuel (0 &&& 255) 0 = none
  exact putLoopW_129_cycle l v fuel 0 0 (by omega) (Or.inl ⟨by omega, rfl⟩)

theorem rcluster_under_reachable :
    RobinHood.ReachableW (clusterState 128 (2 ^ 64 - 1)) := by
  have key : ∀ n : Nat,
      RobinHood.ReachableW (clusterState 128 ((128 + n * (2 ^ 64 - 1)) % 2 ^ 64)) := by
    intro n
    induction n with
    | zero =>
      rw [show (128 + 0 * (2 ^ 64 - 1)) % 2 ^ 64 = 128 from by decide]
      exact rcluster_reachable 128 (le_refl 128)
    | succ k ih =>
      have h := removeW_cluster_phantom ((128 + k * (2 ^ 64 - 1)) % 2 ^ 64)
      have h2 := RobinHood.ReachableW.remove 300 0 ih h
      have heq : (((128 + k * (2 ^ 64 - 1)) % 2 ^ 64) + (2 ^ 64 - 1)) % 2 ^ 64 =
          (128 + (k + 1) * (2 ^ 64 - 1)) % 2 ^ 64 := by
        conv_rhs => rw [Nat.succ_mul, ← Nat.add_assoc]
        rw [Nat.add_mod (128 + k * (2 ^ 64 - 1)) (2 ^ 64 - 1)]
        rw [Nat.mod_eq_of_lt (show 2 ^ 64 - 1 < 2 ^ 64 from
          Nat.sub_lt (Nat.two_pow_pos 64) Nat.one_pos)]
      rw [heq] at h2
      exact h2
  have h := key 129
  rw [show (128 + 129 * (2 ^ 64 - 1)) % 2 ^ 64 = 2 ^ 64 - 1 from by decide] at h
  exact h

/-- C1: Put followed by Get is claimed to behave as a map update with
the returned Bool reporting first insertion, for every variant and
reachable table; refuted for the program on the RobinHood table: at the
reachable 128-key probe-cluster state the int8 probe counter of Put
wraps 127 to -128, stays at or below the -1 psl of the empty slots, and
key-matches the zero-initialised key of empty slot 128, so Put(0, 5)
returns false - reporting key 0 as already present - although key 0 is
in no live entry, and the written value lands in a bucket still marked
empty; Put(129, v) never returns at all, under every fuel bound. -/
theorem claim_put_get_bug :
    RobinHood.ReachableW (clusterState 128 128) ∧
      (0 : Nat) ∉ (clusterState 128 128).liveEntries.map Prod.fst ∧
      RobinHood.PutW 300 (clusterState 128 128) 0 5 =
        some (({ buckets := (clusterBuckets 128).set 128 ⟨0, -1, 5⟩, hasher := fun _ : Nat => 0, length := 128, capMinus1 := 255, nextResize := 179, maxLoad := DefaultMaxLoad } : RobinHood Nat Nat), false) ∧
      (∀ fuel v, RobinHood.PutW fuel (clusterState 128 128) 129 v = none) := by
  refine ⟨rcluster_reachable 128 (le_refl 128),
    by set_option maxRecDepth 100000 in decide, putW_zero_phantom, ?_⟩
  intro fuel v
  exact putW_129_none 128 v (by omega) fuel

/-- C2: Remove is claimed to return true exactly for present keys and
to be a no-op on absent keys; refuted for the program on the RobinHood
table: at the reachable 128-key probe-cluster state, Remove(0) returns
true and decrements the length for the never-inserted key 0 (the
wrapped int8 probe counter key-matches the zero-initialised key of the
empty slot 128), and Get(0) afterwards still reports the phantom
value. -/
theorem claim_remove_bug :
    RobinHood.ReachableW (clusterState 128 128) ∧
      (0 : Nat) ∉ ((clusterState 128 128).liveEntries.map Prod.fst) ∧
      RobinHood.RemoveW 300 (clusterState 128 128) 0 = some (clusterState 128 127, true) ∧
      RobinHood.Size (clusterState 128 127) + 1 = RobinHood.Size (clusterState 128 128) ∧
      RobinHood.GetW 300 (clusterState 128 127) 0 = some (some 0) := by
  refine ⟨rcluster_reachable 128 (le_refl 128),
    by set_option maxRecDepth 100000 in decide, ?_, rfl, getW_cluster_phantom127⟩
  have h := removeW_cluster_phantom 128
  rw [show (128 + (2 ^ 64 - 1)) % 2 ^ 64 = 127 from by decide] at h
  exact h

/-- C4: Load is claimed to equal Size divided by the masked capacity
and to lie in [0, 1) for every variant and reachable table; refuted for
the program on the RobinHood table: the int8 probe counter wrap lets
Remove succeed on the never-inserted key 0 at the reachable 128-key
cluster state, each such remove decrements the uintptr length without
freeing anything, and 129 of them underflow the length to 2 ^ 64 - 1,
so the reachable table below reports Load = (2 ^ 64 - 1) / 256, far
above 1, while holding only 128 live entries. -/
theorem claim_load_bug :
    RobinHood.ReachableW (clusterState 128 (2 ^ 64 - 1)) ∧
      RobinHood.Size (clusterState 128 (2 ^ 64 - 1)) = 2 ^ 64 - 1 ∧
      (clusterState 128 (2 ^ 64 - 1)).liveEntries.length = 128 ∧
      1 < RobinHood.Load (clusterState 128 (2 ^ 64 - 1)) := by
  refine ⟨rcluster_under_reachable, rfl,
    by set_option maxRecDepth 100000 in decide, ?_⟩
  show 1 < ((2 ^ 64 - 1 : Nat) : ℚ) /
    (((clusterState 128 (2 ^ 64 - 1)).buckets.length : Nat) : ℚ)
  rw [show (clusterState 128 (2 ^ 64 - 1)).buckets.length = 256 from
    clusterBuckets_length 128]
  rw [lt_div_iff₀ (by norm_num)]
  norm_num

/-- C10: every probe loop of the open-addressing variants is claimed to
terminate on reachable tables because occupancy stays below capacity;
refuted for the program on the RobinHood table: the reachable 128-key
cluster state keeps 128 of its 256 buckets empty, yet Put(129, v)
cycles forever - the int8 probe counter wraps 127 to -128 at the first
empty slot, stays at or below every psl around the rest of the circle,
and re-enters the cluster with the counter back at 0, so no fuel bound
makes the search loop return. -/
theorem claim_probe_termination_bug :
    RobinHood.ReachableW (clusterState 128 128) ∧
      RobinHood.Size (clusterState 128 128) < (clusterState 128 128).buckets.length ∧
      ((clusterState 128 128).nthRBucket 128).psl = -1 ∧
      (∀ fuel v, RobinHood.PutW fuel (clusterState 128 128) 129 v = none) := by
  refine ⟨rcluster_reachable 128 (le_refl 128),
    by set_option maxRecDepth 100000 in decide,
    by set_option maxRecDepth 100000 in rfl, ?_⟩
  intro fuel v
  exact putW_129_none 128 v (by omega) fuel

end Hashmaps
